import Mathlib

/-!
# A* path finding on a dungeon grid: a shallow embedding

The development embeds the C sources of the repository
(`dataTypes/point.c`, `dataStructs/dungeon.c`, `dataStructs/skipPQ.c`, `aStar.c`)
as Lean functions and proves properties of them.

Conventions of the embedding.

* Machine integers are `Int`/`Nat`; every place where the C code stores a value into a
  narrower type carries an explicit reduction (`toInt16`, `% 65536`, `% 4294967296`).
* Heap objects of the skip list live in an explicit memory `Nat → skipNode_t`; a pointer is an
  address, `NULL` is `none`, `malloc` takes the next fresh address and `free` is a no-op.
* A failed `assert`, an out-of-bounds table access or a `NULL` dereference is the error
  `Err.fault`; a loop that exhausts its fuel is the error `Err.timeout`.
* The pseudo random generator is a parameter: `rnd k` is the level returned by the call of
  `randLevel()` that creates the node stored at address `k`.
-/

set_option autoImplicit false

namespace AStar

/-! ## Definitions -/

/-! ### dataTypes/point.c -/

/-- Conversion of a C `int` to `int16_t` (two's complement wrap-around). -/
def toInt16 (v : Int) : Int := (v + 32768) % 65536 - 32768

/-- The struct `point_s`: two `int16_t` coordinates. -/
structure point_t where
  x : Int
  y : Int
deriving DecidableEq, Repr

/-- The coordinates of a point are representable as `int16_t`. -/
def point_t.isInt16 (p : point_t) : Prop :=
  -32768 ≤ p.x ∧ p.x ≤ 32767 ∧ -32768 ≤ p.y ∧ p.y ≤ 32767

instance (p : point_t) : Decidable p.isInt16 := by
  unfold point_t.isInt16; infer_instance

/-- The function `initPoint`. -/
def initPoint (x y : Int) : point_t := { x := toInt16 x, y := toInt16 y }

/-- The function `isEqualPoints`. -/
def isEqualPoints (a b : point_t) : Bool := (a.x == b.x) && (a.y == b.y)

/-- The function `addPoints`: the sums are computed in `int` and stored into `int16_t`. -/
def addPoints (a b : point_t) : point_t :=
  { x := toInt16 (a.x + b.x), y := toInt16 (a.y + b.y) }

/-- The function `distancePoints`: `dx`, `dy`, `costDifference` and the result are `uint16_t`. -/
def distancePoints (a b : point_t) (costCardinal costDiagonal : Nat) : Nat :=
  let dx := (a.x - b.x).natAbs % 65536
  let dy := (a.y - b.y).natAbs % 65536
  let costDifference := ((costCardinal : Int) - (costDiagonal : Int)).natAbs % 65536
  if dx > dy then
    ((costCardinal * dx) + (costDifference * dy)) % 65536
  else
    ((costCardinal * dy) + (costDifference * dx)) % 65536

/-! ### dataStructs/dungeon.c -/

/-- The constant `TILE_WALL`. -/
def TILE_WALL : Char := '#'

/-- The constant `COST` of dungeon.c (Chebyshev distance between adjacent tiles). -/
def COST : Nat := 1

/-- The struct `dungeon_s` restricted to what the search reads: the tile map `map[x][y]`
and the dimensions (`uint16_t`). -/
structure dungeon_t where
  map : Nat → Nat → Char
  width : Nat
  height : Nat

/-- The function `getDungeonWidth`. -/
def getDungeonWidth (dungeon : dungeon_t) : Nat := dungeon.width

/-- The function `getDungeonHeight`. -/
def getDungeonHeight (dungeon : dungeon_t) : Nat := dungeon.height

/-- A point lies within the bounds of the dungeon (the condition of the assertions). -/
def inBounds (dungeon : dungeon_t) (p : point_t) : Bool :=
  (decide (p.x ≥ 0) && decide (p.x < dungeon.width))
    && (decide (p.y ≥ 0) && decide (p.y < dungeon.height))

/-- The function `isValidMove`; `none` is a failed assertion on `from`. -/
def isValidMove (dungeon : dungeon_t) (from_ to_ : point_t) : Option Bool :=
  if (decide (from_.x ≥ 0) && decide (from_.x < dungeon.width))
      && (decide (from_.y ≥ 0) && decide (from_.y < dungeon.height)) then
    some (distancePoints from_ to_ COST COST == 1
      && (decide (to_.x ≥ 0) && decide (to_.x < dungeon.width))
      && (decide (to_.y ≥ 0) && decide (to_.y < dungeon.height))
      && dungeon.map to_.x.toNat to_.y.toNat != TILE_WALL
      && dungeon.map from_.x.toNat to_.y.toNat != TILE_WALL
      && dungeon.map to_.x.toNat from_.y.toNat != TILE_WALL)
  else
    none

/-! ### dataStructs/skipPQ.c -/

/-- Errors of the embedding: a violated precondition, or exhausted loop fuel. -/
inductive Err where
  | fault
  | timeout
deriving DecidableEq, Repr

/-- The constant `NEXT`. -/
def NEXT : Nat := 0

/-- The struct `skipNode_s`; `forward i` is `forward[i]`, meaningful for `i < level`. -/
structure skipNode_t where
  forward : Nat → Option Nat
  level : Nat
  priority : Nat
  data : point_t

/-- The struct `skipPQ_s` together with the memory its nodes are allocated in. -/
structure skipPQ_t where
  mem : Nat → skipNode_t
  next : Nat
  head : Nat

/-- Store `v` into `forward[i]` of the node at address `n`. -/
def setForward (mem : Nat → skipNode_t) (n i : Nat) (v : Option Nat) : Nat → skipNode_t :=
  fun m => if m = n then
    { mem n with forward := fun j => if j = i then v else (mem n).forward j }
  else mem m

/-- The function `initNode`: allocates a node at the next fresh address; its forward links are
not yet set. Returns the new memory and the address. -/
def initNode (pq : skipPQ_t) (data : point_t) (priority level : Nat) : skipPQ_t × Nat :=
  ({ pq with
      mem := fun m => if m = pq.next then
          { forward := fun _ => none, level := level, priority := priority, data := data }
        else pq.mem m
      next := pq.next + 1 }, pq.next)

/-- The function `initSkipPQ`: the head node has level 1, priority 0 and no successor. -/
def initSkipPQ : skipPQ_t :=
  { mem := fun _ => { forward := fun _ => none, level := 1, priority := 0,
                      data := initPoint 0 0 }
    next := 1
    head := 0 }

/-- The function `updatePQLevel`: copies the head links below `newLevel`, `NULL` above the
old level. -/
def updatePQLevel (pq : skipPQ_t) (newLevel : Nat) : skipPQ_t :=
  let h := pq.mem pq.head
  { pq with
    mem := fun m => if m = pq.head then
        { h with
          forward := fun i => if i < newLevel then (if i < h.level then h.forward i else none)
                              else none
          level := newLevel }
      else pq.mem m }

/-- The inner `while` loop of `connectNode`: moves across level `i` while the successor
exists and has a priority strictly below `priority`. -/
def connectWalk (mem : Nat → skipNode_t) (i priority : Nat) : Nat → Nat → Except Err Nat
  | 0, _ => .error .timeout
  | fuel + 1, current =>
    match (mem current).forward i with
    | none => .ok current
    | some nx =>
      if (mem nx).priority < priority then connectWalk mem i priority fuel nx
      else .ok current

/-- The outer `for` loop of `connectNode`, from level `n - 1` down to level `0`. -/
def connectLoop (fuel node : Nat) : Nat → Nat → (Nat → skipNode_t) → Except Err (Nat → skipNode_t)
  | 0, _, mem => .ok mem
  | i + 1, current, mem =>
    match connectWalk mem i (mem node).priority fuel current with
    | .error e => .error e
    | .ok cur =>
      if i < (mem node).level then
        connectLoop fuel node i cur
          (setForward (setForward mem node i ((mem cur).forward i)) cur i (some node))
      else
        connectLoop fuel node i cur mem

/-- The function `connectNode`. -/
def connectNode (pq : skipPQ_t) (node : Nat) : Except Err skipPQ_t :=
  match connectLoop pq.next node (pq.mem pq.head).level pq.head pq.mem with
  | .error e => .error e
  | .ok mem => .ok { pq with mem := mem }

/-- The function `initSkipNode`; `level` is the value returned by `randLevel()`. -/
def initSkipNode (pq : skipPQ_t) (data : point_t) (priority level : Nat) : Except Err skipPQ_t :=
  let (pq1, node) := initNode pq data priority level
  let pq2 := if level > (pq1.mem pq1.head).level then updatePQLevel pq1 level else pq1
  connectNode pq2 node

/-- The function `getMinSkipNode`. -/
def getMinSkipNode (pq : skipPQ_t) : Option Nat := (pq.mem pq.head).forward NEXT

/-- The function `isSkipPQEmpty`. -/
def isSkipPQEmpty (pq : skipPQ_t) : Bool := ((pq.mem pq.head).forward NEXT).isNone

/-- The function `getSkipNodeData`; `NULL` cannot be dereferenced. -/
def getSkipNodeData (pq : skipPQ_t) (node : Option Nat) : Except Err point_t :=
  match node with
  | none => .error .fault
  | some n => .ok (pq.mem n).data

/-- The function `getSkipNodePriority`. -/
def getSkipNodePriority (pq : skipPQ_t) (node : Option Nat) : Except Err Nat :=
  match node with
  | none => .error .fault
  | some n => .ok (pq.mem n).priority

/-- The `for` loop of `freeMinSkipNode`: `n` iterations remain, `i` is the current level.
Returns the memory and the value of `newLevel`. -/
def freeMinLoop (head node : Nat) : Nat → Nat → (Nat → skipNode_t) → Nat → (Nat → skipNode_t) × Nat
  | 0, _, mem, newLevel => (mem, newLevel)
  | n + 1, i, mem, newLevel =>
    let mem1 := setForward mem head i ((mem node).forward i)
    if ((mem1 head).forward i).isNone then (mem1, i + 1)
    else freeMinLoop head node n (i + 1) mem1 newLevel

/-- The function `freeMinSkipNode`; on an empty queue `node` is `NULL` and is dereferenced. -/
def freeMinSkipNode (pq : skipPQ_t) : Except Err skipPQ_t :=
  match getMinSkipNode pq with
  | none => .error .fault
  | some node =>
    let (mem1, newLevel) :=
      freeMinLoop pq.head node (pq.mem node).level 0 pq.mem (pq.mem pq.head).level
    let pq1 := { pq with mem := mem1 }
    .ok (if newLevel < (pq1.mem pq1.head).level then updatePQLevel pq1 newLevel else pq1)

/-! ### aStar.c -/

/-- The constant `COST_CARDINAL`. -/
def COST_CARDINAL : Nat := 70

/-- The constant `COST_DIAGONAL`. -/
def COST_DIAGONAL : Nat := 99

/-- The table `MOVES` of the 8 unit moves, north first, clockwise. -/
def MOVES : List point_t :=
  [{ x := 0, y := -1 }, { x := 1, y := -1 }, { x := 1, y := 0 }, { x := 1, y := 1 },
   { x := 0, y := 1 }, { x := -1, y := 1 }, { x := -1, y := 0 }, { x := -1, y := -1 }]

/-- The constant `N_MOVES`. -/
def N_MOVES : Nat := MOVES.length

/-- The constant `UINT32_MAX`, the initial g-score. -/
def UINT32_MAX : Nat := 4294967295

/-- The struct `pointData_s`; `gScore` is a `uint32_t`. -/
structure pointData_t where
  prev : point_t
  gScore : Nat
  isClosed : Bool

/-- The 2D status array `pointData[x][y]` with the dimensions it was allocated with. -/
structure pointTable_t where
  width : Nat
  height : Nat
  cell : Nat → Nat → pointData_t

/-- Read `pointData[p.x][p.y]`; an index outside the allocation is a fault. -/
def getPointData (pointData : pointTable_t) (p : point_t) : Except Err pointData_t :=
  if (decide (p.x ≥ 0) && decide (p.x < pointData.width))
      && (decide (p.y ≥ 0) && decide (p.y < pointData.height)) then
    .ok (pointData.cell p.x.toNat p.y.toNat)
  else .error .fault

/-- Write `pointData[p.x][p.y]`; an index outside the allocation is a fault. -/
def setPointData (pointData : pointTable_t) (p : point_t) (v : pointData_t) :
    Except Err pointTable_t :=
  if (decide (p.x ≥ 0) && decide (p.x < pointData.width))
      && (decide (p.y ≥ 0) && decide (p.y < pointData.height)) then
    .ok { pointData with
          cell := fun x y => if x = p.x.toNat ∧ y = p.y.toNat then v else pointData.cell x y }
  else .error .fault

/-- The function `initPointData`: every g-score is `UINT32_MAX`, no cell is closed; `prev` is
left uninitialised by the C code and is the origin here. -/
def initPointData (width height : Nat) : pointTable_t :=
  { width := width
    height := height
    cell := fun _ _ => { prev := { x := 0, y := 0 }, gScore := UINT32_MAX, isClosed := false } }

/-- The function `cost` of a unit move. -/
def cost (move : point_t) : Nat :=
  if (move.x + move.y).natAbs = 1 then COST_CARDINAL else COST_DIAGONAL

/-- The local state of `findPath`: the queue `open` and the table `pointData`. -/
structure search_t where
  opn : skipPQ_t
  pointData : pointTable_t

/-- One iteration of the `for` loop of `exploreNeighbours`, for the move `move`. The scores
are `uint32_t`; the h-score is taken at `current`, as in the C code. -/
def exploreMove (rnd : Nat → Nat) (dungeon : dungeon_t) (current target : point_t)
    (st : search_t) (move : point_t) : Except Err search_t :=
  let neighbour := addPoints current move
  match isValidMove dungeon current neighbour with
  | none => .error .fault
  | some false => .ok st
  | some true =>
    match getPointData st.pointData current with
    | .error e => .error e
    | .ok cur =>
      let gScore := (cur.gScore + cost move) % 4294967296
      let hScore := distancePoints current target COST_CARDINAL COST_DIAGONAL
      let fScore := (gScore + hScore) % 4294967296
      match getPointData st.pointData neighbour with
      | .error e => .error e
      | .ok nb =>
        if gScore < nb.gScore then
          match setPointData st.pointData neighbour
              { nb with prev := current, gScore := gScore } with
          | .error e => .error e
          | .ok pointData1 =>
            if !nb.isClosed then
              match initSkipNode st.opn neighbour fScore (rnd st.opn.next) with
              | .error e => .error e
              | .ok opn1 => .ok { opn := opn1, pointData := pointData1 }
            else .ok { opn := st.opn, pointData := pointData1 }
        else .ok st

/-- The `for` loop of `exploreNeighbours` over the remaining moves. -/
def exploreLoop (rnd : Nat → Nat) (dungeon : dungeon_t) (current target : point_t) :
    List point_t → search_t → Except Err search_t
  | [], st => .ok st
  | move :: moves, st =>
    match exploreMove rnd dungeon current target st move with
    | .error e => .error e
    | .ok st1 => exploreLoop rnd dungeon current target moves st1

/-- The function `exploreNeighbours`. -/
def exploreNeighbours (rnd : Nat → Nat) (dungeon : dungeon_t) (opn : skipPQ_t)
    (pointData : pointTable_t) (current target : point_t) : Except Err search_t :=
  exploreLoop rnd dungeon current target MOVES { opn := opn, pointData := pointData }

/-- The first loop of `reconstructPath`: counts the steps from `current` back to `source`
in the `uint16_t` variable `length`. -/
def reconstructLength (pointData : pointTable_t) (source : point_t) :
    Nat → point_t → Nat → Except Err Nat
  | 0, _, _ => .error .timeout
  | fuel + 1, current, length =>
    if !isEqualPoints current source then
      match getPointData pointData current with
      | .error e => .error e
      | .ok c => reconstructLength pointData source fuel c.prev ((length + 1) % 65536)
    else .ok length

/-- The second loop of `reconstructPath`: `n` cells remain to be written, `path` holds the
cells already written (`path[n]` onwards). -/
def reconstructFill (pointData : pointTable_t) :
    Nat → point_t → List point_t → Except Err (List point_t)
  | 0, _, path => .ok path
  | n + 1, current, path =>
    match getPointData pointData current with
    | .error e => .error e
    | .ok c => reconstructFill pointData n c.prev (current :: path)

/-- The function `reconstructPath`; the result is the array `path[0 .. length - 1]`. -/
def reconstructPath (fuel : Nat) (pointData : pointTable_t) (source target : point_t) :
    Except Err (List point_t) :=
  match reconstructLength pointData source fuel target 0 with
  | .error e => .error e
  | .ok length => reconstructFill pointData length target []

/-- The `while` loop of `findPath`. The result `none` is the `NULL` path. -/
def findLoop (rnd : Nat → Nat) (dungeon : dungeon_t) (source target : point_t)
    (fuel0 : Nat) : Nat → search_t → Except Err (Option (List point_t))
  | 0, _ => .error .timeout
  | fuel + 1, st =>
    if isSkipPQEmpty st.opn then .ok none
    else
      match getSkipNodeData st.opn (getMinSkipNode st.opn) with
      | .error e => .error e
      | .ok current =>
        match freeMinSkipNode st.opn with
        | .error e => .error e
        | .ok opn1 =>
          match getPointData st.pointData current with
          | .error e => .error e
          | .ok c =>
            if c.isClosed then
              findLoop rnd dungeon source target fuel0 fuel { st with opn := opn1 }
            else
              match setPointData st.pointData current { c with isClosed := true } with
              | .error e => .error e
              | .ok pointData1 =>
                if isEqualPoints current target then
                  match reconstructPath fuel0 pointData1 source target with
                  | .error e => .error e
                  | .ok path => .ok (some path)
                else
                  match exploreNeighbours rnd dungeon opn1 pointData1 current target with
                  | .error e => .error e
                  | .ok st1 => findLoop rnd dungeon source target fuel0 fuel st1

/-- The function `findPath`. Every loop may run for `fuel` iterations; `rnd` supplies the
levels of the queue nodes. The result `.ok none` is the `NULL` path. -/
def findPath (fuel : Nat) (rnd : Nat → Nat) (dungeon : dungeon_t) (source target : point_t) :
    Except Err (Option (List point_t)) :=
  let opn := initSkipPQ
  let pointData := initPointData (getDungeonWidth dungeon) (getDungeonHeight dungeon)
  match getPointData pointData source with
  | .error e => .error e
  | .ok c =>
    match setPointData pointData source { c with gScore := 0 } with
    | .error e => .error e
    | .ok pointData1 =>
      match initSkipNode opn source 0 (rnd opn.next) with
      | .error e => .error e
      | .ok opn1 => findLoop rnd dungeon source target fuel fuel
          { opn := opn1, pointData := pointData1 }

/-! ### Routes through the dungeon -/

/-- The dimensions of the dungeon are representable as `uint16_t`. -/
def dungeon_t.isUInt16 (d : dungeon_t) : Prop := d.width ≤ 65535 ∧ d.height ≤ 65535

/-- The list `l` is a route from `a` to `b`: every cell of `l` is entered by a move that
`isValidMove` accepts, starting at `a`, and the last cell is `b` (`a = b` for the empty list). -/
def isRoute (dungeon : dungeon_t) : point_t → List point_t → point_t → Bool
  | a, [], b => decide (a = b)
  | a, c :: l, b => (isValidMove dungeon a c == some true) && isRoute dungeon c l b

/-- The summed move cost of the route `l` walked from `a`: `cost` of every step. -/
def routeCost : point_t → List point_t → Nat
  | _, [] => 0
  | a, c :: l => cost { x := c.x - a.x, y := c.y - a.y } + routeCost c l

/-! ### Concrete dungeons -/

/-- The open 3 x 3 dungeon. -/
def dungeonOpen3 : dungeon_t := { map := fun _ _ => ' ', width := 3, height := 3 }

/-! ### The shape of the skip list -/

/-- Following `forward[i]` from the pointer `p` visits exactly the nodes of `l`, in order,
and then arrives at the pointer `q`. -/
def chainTo (mem : Nat → skipNode_t) (i : Nat) : Option Nat → List Nat → Option Nat → Prop
  | p, [], q => p = q
  | p, n :: l, q => p = some n ∧ chainTo mem i ((mem n).forward i) l q

/-- The nodes of `l` that take part in level `i`: those with more than `i` forward links. -/
def atLevel (mem : Nat → skipNode_t) (i : Nat) (l : List Nat) : List Nat :=
  l.filter (fun n => decide (i < (mem n).level))

/-- The queue `pq` is a well-formed skip list whose real nodes are, in the order of the
level-0 chain, the addresses `L`: the nodes are distinct allocated addresses, sorted by
priority, no node is higher than the head, and at every level `i` of the head the chain from
the head runs through exactly the nodes of level above `i` and ends in `NULL`. -/
structure SkipInv (pq : skipPQ_t) (L : List Nat) : Prop where
  nodup : (pq.head :: L).Nodup
  lt_next : ∀ n ∈ pq.head :: L, n < pq.next
  sorted : L.Pairwise (fun m n => (pq.mem m).priority ≤ (pq.mem n).priority)
  level_pos : ∀ n ∈ pq.head :: L, 1 ≤ (pq.mem n).level
  level_le : ∀ n ∈ L, (pq.mem n).level ≤ (pq.mem pq.head).level
  links : ∀ i, i < (pq.mem pq.head).level →
    chainTo pq.mem i (some pq.head) (atLevel pq.mem i (pq.head :: L)) none

/-- The entries `(priority, data)` of the nodes `L`. -/
def entries (pq : skipPQ_t) (L : List Nat) : List (Nat × point_t) :=
  L.map (fun n => ((pq.mem n).priority, (pq.mem n).data))

/-- Insertion into a list sorted by priority: the entry goes immediately before the first
entry whose priority is greater than or equal to its own. -/
def insertEntry (e : Nat × point_t) (q : List (Nat × point_t)) : List (Nat × point_t) :=
  q.takeWhile (fun f => decide (f.1 < e.1)) ++ e :: q.dropWhile (fun f => decide (f.1 < e.1))

/-- The queue `pq` holds exactly the entries `q`, in this order. -/
def holds (pq : skipPQ_t) (q : List (Nat × point_t)) : Prop :=
  ∃ L, SkipInv pq L ∧ entries pq L = q

/-- The last element of `c :: l`. -/
def lastOf : Nat → List Nat → Nat
  | c, [] => c
  | _, n :: l => lastOf n l

/-- The loop invariant of `connectNode` when the levels `0 .. k - 1` are still to be done:
the node fields are unchanged, the levels already visited contain the new node `a`, the
others do not yet, and `cur` is the last node of a front part `P` of the smaller nodes `L₁`
after which no node reaches level `k`. -/
structure ConnInv (h a : Nat) (lev pri : Nat → Nat) (L₁ L₂ : List Nat) (H k cur : Nat)
    (mem : Nat → skipNode_t) : Prop where
  lev_eq : ∀ n, (mem n).level = lev n
  pri_eq : ∀ n, (mem n).priority = pri n
  done : ∀ i, k ≤ i → i < H → chainTo mem i (some h) (atLevel mem i (h :: L₁ ++ a :: L₂)) none
  todo : ∀ i, i < k → chainTo mem i (some h) (atLevel mem i (h :: L₁ ++ L₂)) none
  pos : ∃ P S, L₁ = P ++ S ∧ cur = lastOf h P ∧ ∀ n ∈ S, lev n ≤ k
  cur_lev : k ≤ lev cur

/-! ### The search over a plain sorted list

A second rendering of `findPath` in which the skip list is replaced by the sorted list of its
entries. It is the reference the skip list version is compared with. -/

/-- The local state of the list version: the sorted entries and the table `pointData`. -/
structure searchL_t where
  q : List (Nat × point_t)
  pointData : pointTable_t

/-- One move of `exploreNeighbours`, list version: as `exploreMove`, with `insertEntry`. -/
def exploreMoveL (dungeon : dungeon_t) (current target : point_t)
    (st : searchL_t) (move : point_t) : Except Err searchL_t :=
  let neighbour := addPoints current move
  match isValidMove dungeon current neighbour with
  | none => .error .fault
  | some false => .ok st
  | some true =>
    match getPointData st.pointData current with
    | .error e => .error e
    | .ok cur =>
      let gScore := (cur.gScore + cost move) % 4294967296
      let hScore := distancePoints current target COST_CARDINAL COST_DIAGONAL
      let fScore := (gScore + hScore) % 4294967296
      match getPointData st.pointData neighbour with
      | .error e => .error e
      | .ok nb =>
        if gScore < nb.gScore then
          match setPointData st.pointData neighbour
              { nb with prev := current, gScore := gScore } with
          | .error e => .error e
          | .ok pointData1 =>
            if !nb.isClosed then
              .ok { q := insertEntry (fScore, neighbour) st.q, pointData := pointData1 }
            else .ok { q := st.q, pointData := pointData1 }
        else .ok st

/-- The loop of `exploreNeighbours`, list version. -/
def exploreLoopL (dungeon : dungeon_t) (current target : point_t) :
    List point_t → searchL_t → Except Err searchL_t
  | [], st => .ok st
  | move :: moves, st =>
    match exploreMoveL dungeon current target st move with
    | .error e => .error e
    | .ok st1 => exploreLoopL dungeon current target moves st1

/-- The loop of `findPath`, list version. Besides the path it returns the table `pointData`
the path was reconstructed from. -/
def findLoopL (dungeon : dungeon_t) (source target : point_t)
    (fuel0 : Nat) : Nat → searchL_t → Except Err (Option (List point_t × pointTable_t))
  | 0, _ => .error .timeout
  | fuel + 1, st =>
    match st.q with
    | [] => .ok none
    | e :: q1 =>
      match getPointData st.pointData e.2 with
      | .error err => .error err
      | .ok c =>
        if c.isClosed then
          findLoopL dungeon source target fuel0 fuel { st with q := q1 }
        else
          match setPointData st.pointData e.2 { c with isClosed := true } with
          | .error err => .error err
          | .ok pointData1 =>
            if isEqualPoints e.2 target then
              match reconstructPath fuel0 pointData1 source target with
              | .error err => .error err
              | .ok path => .ok (some (path, pointData1))
            else
              match exploreLoopL dungeon e.2 target MOVES { q := q1, pointData := pointData1 } with
              | .error err => .error err
              | .ok st1 => findLoopL dungeon source target fuel0 fuel st1

/-- Forget the table in a result of the list version. -/
def pathOf : Except Err (Option (List point_t × pointTable_t)) →
    Except Err (Option (List point_t))
  | .error e => .error e
  | .ok none => .ok none
  | .ok (some r) => .ok (some r.1)

/-- The function `findPath`, list version, with the final table. -/
def findPathL (fuel : Nat) (dungeon : dungeon_t) (source target : point_t) :
    Except Err (Option (List point_t × pointTable_t)) :=
  let pointData := initPointData (getDungeonWidth dungeon) (getDungeonHeight dungeon)
  match getPointData pointData source with
  | .error e => .error e
  | .ok c =>
    match setPointData pointData source { c with gScore := 0 } with
    | .error e => .error e
    | .ok pointData1 =>
      findLoopL dungeon source target fuel fuel
        { q := insertEntry (0, source) [], pointData := pointData1 }

/-- The skip list state `st` and the list state `sl` agree. -/
def simState (st : search_t) (sl : searchL_t) : Prop :=
  holds st.opn sl.q ∧ st.pointData = sl.pointData

/-- Two results of the explore loops agree: the same error, or agreeing states. -/
def simResult : Except Err search_t → Except Err searchL_t → Prop
  | .error e1, .error e2 => e1 = e2
  | .ok st, .ok sl => simState st sl
  | _, _ => False

/-- The 6 x 3 dungeon with walls at `(1,1)` and `(3,1)`. -/
def dungeonC1 : dungeon_t :=
  { map := fun x y => if (x = 1 ∨ x = 3) ∧ y = 1 then '#' else ' ', width := 6, height := 3 }

/-- The open 5 x 5 dungeon. -/
def dungeonOpen5 : dungeon_t := { map := fun _ _ => ' ', width := 5, height := 5 }

/-! ### The table `pointData` as a function of points -/

/-- The entry `pointData[p.x][p.y]`. -/
def cellAt (pointData : pointTable_t) (p : point_t) : pointData_t :=
  pointData.cell p.x.toNat p.y.toNat

/-- The table with the entry of `p` replaced by `v`. -/
def setCell (pointData : pointTable_t) (p : point_t) (v : pointData_t) : pointTable_t :=
  { pointData with
    cell := fun x y => if x = p.x.toNat ∧ y = p.y.toNat then v else pointData.cell x y }

/-- The number of cells of the table that are not closed. -/
def unclosed (pointData : pointTable_t) : Nat :=
  ((Finset.range pointData.width ×ˢ Finset.range pointData.height).filter
    (fun c => (pointData.cell c.1 c.2).isClosed = false)).card

/-- The termination measure of the search loop: the queue length plus eight times the
number of cells not yet closed. -/
def measureL (sl : searchL_t) : Nat := sl.q.length + 8 * unclosed sl.pointData

/-- The g-score that `exploreNeighbours` computes for the neighbour reached by `move`. -/
def tentative (pointData : pointTable_t) (current move : point_t) : Nat :=
  ((cellAt pointData current).gScore + cost move) % 4294967296

/-- The effect of one move of `exploreNeighbours` on the list state: nothing changes (and
then a valid neighbour already has a g-score not above the tentative one), or the neighbour
is valid and improved: its entry is rewritten and, unless it is closed, it is queued. -/
def Relaxed (d : dungeon_t) (current target : point_t) (sl sl2 : searchL_t)
    (move : point_t) : Prop :=
  (sl2 = sl ∧ (isValidMove d current (addPoints current move) = some true →
      (cellAt sl.pointData (addPoints current move)).gScore
        ≤ tentative sl.pointData current move))
  ∨ (isValidMove d current (addPoints current move) = some true
      ∧ tentative sl.pointData current move
          < (cellAt sl.pointData (addPoints current move)).gScore
      ∧ sl2.pointData = setCell sl.pointData (addPoints current move)
          { prev := current, gScore := tentative sl.pointData current move,
            isClosed := (cellAt sl.pointData (addPoints current move)).isClosed }
      ∧ sl2.q = if (cellAt sl.pointData (addPoints current move)).isClosed then sl.q
          else insertEntry
            ((tentative sl.pointData current move
              + distancePoints current target COST_CARDINAL COST_DIAGONAL) % 4294967296,
              addPoints current move) sl.q)

/-- A route all of whose cells have `int16_t` coordinates. -/
def isRoute16 (d : dungeon_t) (a : point_t) (l : List point_t) (b : point_t) : Prop :=
  isRoute d a l b = true ∧ ∀ c ∈ l, c.isInt16

/-- The part of the loop invariant of the search that holds on every dungeon: the table has
the dimensions of the dungeon, and every queued cell lies in the dungeon and is reachable
from the source. -/
structure LightInv (d : dungeon_t) (source : point_t) (sl : searchL_t) : Prop where
  width_eq : sl.pointData.width = d.width
  height_eq : sl.pointData.height = d.height
  q_inb : ∀ e ∈ sl.q, inBounds d e.2 = true
  q_reach : ∀ e ∈ sl.q, ∃ l, isRoute16 d source l e.2

/-- The table after `current` has been marked closed. -/
def closeCell (pointData : pointTable_t) (current : point_t) : pointTable_t :=
  setCell pointData current { cellAt pointData current with isClosed := true }

/-- What `findPath` returns once the target has been taken from the queue in state `sl`. -/
def finish (fuel0 : Nat) (source target : point_t) (sl : searchL_t) :
    Except Err (Option (List point_t × pointTable_t)) :=
  match reconstructPath fuel0 (closeCell sl.pointData target) source target with
  | .error err => .error err
  | .ok path => .ok (some (path, closeCell sl.pointData target))

/-- The state in which `findPath` enters its loop: the source has g-score 0 and is the only
queue entry. -/
def initialL (d : dungeon_t) (source : point_t) : searchL_t :=
  { q := [(0, source)]
    pointData := setCell (initPointData (getDungeonWidth d) (getDungeonHeight d)) source
      { cellAt (initPointData (getDungeonWidth d) (getDungeonHeight d)) source with gScore := 0 } }

/-- The 3 x 3 dungeon whose middle column is a wall. -/
def dungeonSplit : dungeon_t :=
  { map := fun x _ => if x = 1 then '#' else ' ', width := 3, height := 3 }

/-- The invariant of the table `pointData` on a dungeon small enough for the scores not to
wrap: the source has g-score 0; every other discovered cell is entered by a valid move from
its predecessor, whose g-score plus the cost of that move does not exceed its own; and the
g-scores are bounded through the number of closed cells. -/
structure TableInv (d : dungeon_t) (source : point_t) (pd : pointTable_t) : Prop where
  src_g : (cellAt pd source).gScore = 0
  prev_ok : ∀ n, inBounds d n = true → (cellAt pd n).gScore < UINT32_MAX → n ≠ source →
    isValidMove d (cellAt pd n).prev n = some true
    ∧ (cellAt pd (cellAt pd n).prev).gScore
        + cost { x := n.x - (cellAt pd n).prev.x, y := n.y - (cellAt pd n).prev.y }
      ≤ (cellAt pd n).gScore
  bound : ∀ n, inBounds d n = true → (cellAt pd n).gScore < UINT32_MAX →
    (cellAt pd n).gScore + 99 * unclosed pd ≤ 99 * (d.width * d.height)

/-- The part of the loop invariant of the search that needs the scores not to wrap: the
table invariant; queued cells are discovered; discovered cells are closed or queued; every
valid neighbour of a closed cell is discovered; the target is not closed. -/
structure HeavyInv (d : dungeon_t) (source target : point_t) (sl : searchL_t) : Prop where
  table : TableInv d source sl.pointData
  q_disc : ∀ e ∈ sl.q, (cellAt sl.pointData e.2).gScore < UINT32_MAX
  disc_q : ∀ n, inBounds d n = true → (cellAt sl.pointData n).gScore < UINT32_MAX →
    (cellAt sl.pointData n).isClosed = true ∨ ∃ e ∈ sl.q, e.2 = n
  closed_nb : ∀ c n, inBounds d c = true → (cellAt sl.pointData c).isClosed = true →
    n.isInt16 → isValidMove d c n = some true → (cellAt sl.pointData n).gScore < UINT32_MAX
  tgt_open : inBounds d target = true → (cellAt sl.pointData target).isClosed = false

/-- The invariant of the loop of `exploreNeighbours` around the closed cell `current`, after
the moves `done`: as `HeavyInv`, except that of the neighbours of `current` only those
reached by the moves done are known to be discovered. -/
structure ExploreInv (d : dungeon_t) (source target current : point_t)
    (done : List point_t) (sl : searchL_t) : Prop where
  table : TableInv d source sl.pointData
  cur_bound : (cellAt sl.pointData current).gScore + 99 + 99 * unclosed sl.pointData
    ≤ 99 * (d.width * d.height)
  q_disc : ∀ e ∈ sl.q, (cellAt sl.pointData e.2).gScore < UINT32_MAX
  disc_q : ∀ n, inBounds d n = true → (cellAt sl.pointData n).gScore < UINT32_MAX →
    (cellAt sl.pointData n).isClosed = true ∨ ∃ e ∈ sl.q, e.2 = n
  closed_nb : ∀ c n, inBounds d c = true → (cellAt sl.pointData c).isClosed = true →
    c ≠ current → n.isInt16 → isValidMove d c n = some true →
    (cellAt sl.pointData n).gScore < UINT32_MAX
  done_nb : ∀ m ∈ done, isValidMove d current (addPoints current m) = some true →
    (cellAt sl.pointData (addPoints current m)).gScore < UINT32_MAX
  tgt_open : inBounds d target = true → (cellAt sl.pointData target).isClosed = false

/-- Every discovered cell other than the source is entered by a valid move from its
predecessor, and the g-score of the predecessor plus the cost of the move is at most its own. -/
def PrevOK (d : dungeon_t) (source : point_t) (pd : pointTable_t) : Prop :=
  ∀ n, inBounds d n = true → (cellAt pd n).gScore < UINT32_MAX → n ≠ source →
    isValidMove d (cellAt pd n).prev n = some true
    ∧ (cellAt pd (cellAt pd n).prev).gScore
        + cost { x := n.x - (cellAt pd n).prev.x, y := n.y - (cellAt pd n).prev.y }
      ≤ (cellAt pd n).gScore

/-- The list `l` is the sequence of cells obtained by following the predecessor links from
`n` back to the source, written from the cell after the source up to `n`. -/
inductive PrevChain (pd : pointTable_t) (source : point_t) : point_t → List point_t → Prop
  | nil : PrevChain pd source source []
  | snoc (n : point_t) (l : List point_t) : n ≠ source →
      PrevChain pd source (cellAt pd n).prev l → PrevChain pd source n (l ++ [n])

/-! ### Sequences of queue operations -/

/-- One call on the queue: `insert data priority level` is `initSkipNode (pq, data, priority)`
in which `randLevel ()` returned `level`; `removeMin` is `freeMinSkipNode (pq)`. -/
inductive pqOp where
  | insert (data : point_t) (priority level : Nat)
  | removeMin

/-- The level drawn for an insertion is positive, as `randLevel` documents. -/
def pqOp.levelOK : pqOp → Prop
  | .insert _ _ level => 1 ≤ level
  | .removeMin => True

instance (op : pqOp) : Decidable op.levelOK := by
  cases op <;> unfold pqOp.levelOK <;> infer_instance

/-- The effect of one call on the queue. -/
def applyOp (pq : skipPQ_t) : pqOp → Except Err skipPQ_t
  | .insert data priority level => initSkipNode pq data priority level
  | .removeMin => freeMinSkipNode pq

/-- The effect of a sequence of calls, first call first; the first failing call ends it. -/
def runOps : List pqOp → skipPQ_t → Except Err skipPQ_t
  | [], pq => .ok pq
  | op :: ops, pq =>
    match applyOp pq op with
    | .error e => .error e
    | .ok pq1 => runOps ops pq1

/-- The queue `pq` is obtained from `initSkipPQ ()` by a sequence of insertions (with positive
levels) and removals of the minimum, none of which failed. -/
def Reachable (pq : skipPQ_t) : Prop :=
  ∃ ops : List pqOp, (∀ op ∈ ops, op.levelOK) ∧ runOps ops initSkipPQ = .ok pq

/-- Follow `forward[i]` from the pointer `p` for at most `fuel` nodes and list the nodes met. -/
def walkLevel (mem : Nat → skipNode_t) (i : Nat) : Nat → Option Nat → List Nat
  | 0, _ => []
  | _ + 1, none => []
  | fuel + 1, some n => n :: walkLevel mem i fuel ((mem n).forward i)

/-- The chain of level `i`: the nodes reached from the head through `forward[i]`, the head
itself excluded. No chain is longer than the number of nodes allocated. -/
def levelChain (pq : skipPQ_t) (i : Nat) : List Nat :=
  walkLevel pq.mem i pq.next ((pq.mem pq.head).forward i)

/-- The entry `(priority, data)` held by the node at address `n`. -/
def entryOf (pq : skipPQ_t) (n : Nat) : Nat × point_t := ((pq.mem n).priority, (pq.mem n).data)

/-- The entries inserted and not yet removed after one more call, given those before it:
an insertion adds its entry (kept in queue order by `insertEntry`), a removal takes the first
entry away and is not possible when there is none. -/
def pendingOp (q : List (Nat × point_t)) : pqOp → Option (List (Nat × point_t))
  | .insert data priority _ => some (insertEntry (priority, data) q)
  | .removeMin =>
    match q with
    | [] => none
    | _ :: q1 => some q1

/-- The entries inserted and not yet removed after a sequence of calls. -/
def pending : List pqOp → List (Nat × point_t) → Option (List (Nat × point_t))
  | [], q => some q
  | op :: ops, q =>
    match pendingOp q op with
    | none => none
    | some q1 => pending ops q1

/-- The number of insertions in a sequence of calls. -/
def countInsert : List pqOp → Nat
  | [] => 0
  | .insert _ _ _ :: ops => countInsert ops + 1
  | .removeMin :: ops => countInsert ops

/-- The number of removals in a sequence of calls. -/
def countRemove : List pqOp → Nat
  | [] => 0
  | .insert _ _ _ :: ops => countRemove ops
  | .removeMin :: ops => countRemove ops + 1

/-- A sequence of calls used to try the queue out: three insertions, two of them with the same
priority, and one removal. -/
def sampleOps : List pqOp :=
  [.insert { x := 1, y := 1 } 5 2, .insert { x := 2, y := 2 } 3 1,
   .insert { x := 3, y := 3 } 5 3, .removeMin]

/-- The queue after the calls `sampleOps`. -/
def samplePQ : skipPQ_t :=
  match runOps sampleOps initSkipPQ with
  | .ok pq => pq
  | .error _ => initSkipPQ

/-- Two insertions with the same priority 5: first the payload `(1,1)`, then `(2,2)`. -/
def tieOps : List pqOp :=
  [.insert { x := 1, y := 1 } 5 1, .insert { x := 2, y := 2 } 5 1]

/-- The queue after the calls `tieOps`. -/
def tiePQ : skipPQ_t :=
  match runOps tieOps initSkipPQ with
  | .ok pq => pq
  | .error _ => initSkipPQ

/-- The payload that `getSkipNodeData (getMinSkipNode (pq))` reads after `freeMinSkipNode`. -/
def secondData (pq : skipPQ_t) : Except Err point_t :=
  match freeMinSkipNode pq with
  | .error e => .error e
  | .ok pq2 => getSkipNodeData pq2 (getMinSkipNode pq2)

/-! ### Corridors -/

/-- The cells `cellK 0, ..., cellK N` form a corridor of the dungeon `d`: they are distinct
cells of the dungeon, consecutive cells are joined by an axis-aligned valid move in both
directions, and a valid move from a cell of the corridor (the last one apart) leads only to
the next or to the previous cell. -/
structure Corridor (d : dungeon_t) (cellK : Nat → point_t) (N : Nat) : Prop where
  uint16 : d.isUInt16
  inb : ∀ k, k ≤ N → inBounds d (cellK k) = true
  int16 : ∀ k, k ≤ N → (cellK k).isInt16
  inj : ∀ i j, i ≤ N → j ≤ N → cellK i = cellK j → i = j
  fwd : ∀ k, k < N → isValidMove d (cellK k) (cellK (k + 1)) = some true
  bwd : ∀ k, k < N → isValidMove d (cellK (k + 1)) (cellK k) = some true
  axis : ∀ k, k < N → (cellK (k + 1)).x = (cellK k).x ∨ (cellK (k + 1)).y = (cellK k).y
  only : ∀ k c, k < N → isValidMove d (cellK k) c = some true →
    c = cellK (k + 1) ∨ (1 ≤ k ∧ c = cellK (k - 1))

/-- The state of the search from `cellK 0` along a corridor when the cell `k` is about to be
taken from the queue: it is the only queue entry; the cells up to `k` have the g-score
`70 * j` and point back to their predecessor in the corridor, those before `k` are closed;
the cells after `k` are untouched. -/
structure CorrInv (cellK : Nat → point_t) (N k : Nat) (sl : searchL_t) : Prop where
  queue : ∃ f, sl.q = [(f, cellK k)]
  gdone : ∀ j, j ≤ k → (cellAt sl.pointData (cellK j)).gScore = 70 * j
  closed : ∀ j, j ≤ N → ((cellAt sl.pointData (cellK j)).isClosed = true ↔ j < k)
  prev : ∀ j, j < k → (cellAt sl.pointData (cellK (j + 1))).prev = cellK j
  fresh : ∀ j, k < j → j ≤ N → (cellAt sl.pointData (cellK j)).gScore = UINT32_MAX

/-- The cells `cellK 1, ..., cellK n`. -/
def cellsUpTo (cellK : Nat → point_t) (n : Nat) : List point_t :=
  (List.range n).map (fun i => cellK (i + 1))

/-- The invariant of the loop of `exploreNeighbours` around the corridor cell `k`, after the
moves `done`, starting from the table `pd0`: the next cell is queued with priority `F` and has
the g-score `T` once the move towards it is done; the previous cell, whose g-score was `Gb`,
is rewritten once the move towards it is done if `T < Gb`; no other cell changes. -/
structure StepInv (d : dungeon_t) (cellK : Nat → point_t) (k : Nat) (pd0 : pointTable_t)
    (T Gb F : Nat) (done : List point_t) (sl : searchL_t) : Prop where
  hit : (∃ m ∈ done, addPoints (cellK k) m = cellK (k + 1)) →
    sl.q = [(F, cellK (k + 1))]
    ∧ cellAt sl.pointData (cellK (k + 1)) = { prev := cellK k, gScore := T, isClosed := false }
  miss : ¬ (∃ m ∈ done, addPoints (cellK k) m = cellK (k + 1)) →
    sl.q = [] ∧ cellAt sl.pointData (cellK (k + 1)) = cellAt pd0 (cellK (k + 1))
  back : 1 ≤ k → T < Gb → (∃ m ∈ done, addPoints (cellK k) m = cellK (k - 1)) →
    cellAt sl.pointData (cellK (k - 1)) = { prev := cellK k, gScore := T, isClosed := true }
  keep : 1 ≤ k → ¬ (T < Gb ∧ ∃ m ∈ done, addPoints (cellK k) m = cellK (k - 1)) →
    cellAt sl.pointData (cellK (k - 1)) = cellAt pd0 (cellK (k - 1))
  rest : ∀ n, inBounds d n = true → n ≠ cellK (k + 1) → ¬ (1 ≤ k ∧ n = cellK (k - 1)) →
    cellAt sl.pointData n = cellAt pd0 n

/-- The state of the search along a corridor after the cell `k1` has been expanded with a
g-score that wrapped around `2^32`: the cell `k1 + 1` is the only queue entry and is not
closed, and the predecessor links of the cells `k1` and `k1 - 1` point at each other. -/
structure WrapInv (cellK : Nat → point_t) (k1 : Nat) (sl : searchL_t) : Prop where
  queue : ∃ f, sl.q = [(f, cellK (k1 + 1))]
  opn : (cellAt sl.pointData (cellK (k1 + 1))).isClosed = false
  prev1 : (cellAt sl.pointData (cellK (k1 + 1))).prev = cellK k1
  prev2 : (cellAt sl.pointData (cellK k1)).prev = cellK (k1 - 1)
  prev3 : (cellAt sl.pointData (cellK (k1 - 1))).prev = cellK k1

/-! ### A serpentine corridor -/

/-- The column of the cell number `k` of the serpentine corridor: a row pair has 4097 cells,
the 4096 cells of an even row, walked to the right in every other pair and to the left in the
pairs between, and the one floor cell of the odd row below. -/
def snakeX (k : Nat) : Nat :=
  if (k / 4097) % 2 = 0 then min (k % 4097) 4095 else 4095 - min (k % 4097) 4095

/-- The row of the cell number `k` of the serpentine corridor. -/
def snakeY (k : Nat) : Nat := 2 * (k / 4097) + (if k % 4097 = 4096 then 1 else 0)

/-- The cell number `k` of the serpentine corridor. -/
def snakeCell (k : Nat) : point_t := { x := (snakeX k : Int), y := (snakeY k : Int) }

/-- The 4096 x 30000 dungeon whose floor is one serpentine corridor: the even rows are floor,
an odd row is wall except for one cell, at the right end of the rows `4 s + 1` and at the left
end of the rows `4 s + 3`. -/
def dungeonSnake : dungeon_t :=
  { map := fun x y =>
      if y % 2 = 1 ∧ ¬ ((y % 4 = 1 ∧ x = 4095) ∨ (y % 4 = 3 ∧ x = 0)) then '#' else ' '
    width := 4096
    height := 30000 }

/-- The tile `(x, y)` of the serpentine dungeon is floor. -/
def snakeFloor (x y : Nat) : Prop :=
  y % 2 = 1 → (y % 4 = 1 ∧ x = 4095) ∨ (y % 4 = 3 ∧ x = 0)

/-- The number of the corridor cell at the floor tile `(x, y)`. -/
def snakeIdx (x y : Nat) : Nat :=
  4097 * (y / 2) + (if y % 2 = 1 then 4096 else if (y / 2) % 2 = 0 then x else 4095 - x)

/-! ### Further sample inputs -/

/-- The 3 x 3 dungeon with walls at `(1,0)` and `(0,1)`, the two cells beside the diagonal
step from `(0,0)` to `(1,1)`. -/
def dungeonCorner : dungeon_t :=
  { map := fun x y => if (x = 1 ∧ y = 0) ∨ (x = 0 ∧ y = 1) then '#' else ' '
    width := 3
    height := 3 }

/-- The priority of the first queue entry of a state returned by `exploreMove`. -/
def queuedPriority (r : Except Err search_t) : Except Err Nat :=
  match r with
  | .error e => .error e
  | .ok st => getSkipNodePriority st.opn (getMinSkipNode st.opn)

/-- The state in which `findPath` on the open 5 x 5 dungeon, from `(0,0)`, starts to explore
the neighbours of the source: the source is closed with g-score 0 and the queue is empty. -/
def stateOpen5 : search_t :=
  { opn := initSkipPQ
    pointData := closeCell (initialL dungeonOpen5 { x := 0, y := 0 }).pointData { x := 0, y := 0 } }

/-- A node of level 2 and priority 1, a node of level 1 and priority 2, then one removal. -/
def levelOps : List pqOp :=
  [.insert { x := 1, y := 1 } 1 2, .insert { x := 2, y := 2 } 2 1, .removeMin]

/-- The queue after the calls `levelOps`. -/
def levelPQ : skipPQ_t :=
  match runOps levelOps initSkipPQ with
  | .ok pq => pq
  | .error _ => initSkipPQ

/-- The call made by a queue operation, without the level that `randLevel` drew for it. -/
def pqOp.call : pqOp → Option (point_t × Nat)
  | .insert data priority _ => some (data, priority)
  | .removeMin => none

/-! ### The run of `findPath`, iteration by iteration -/

/-- What one iteration of the `while` loop of `findPath` does: the queue is empty and the loop
ends; the cell taken from the queue was closed already and is discarded; the cell is the
target, it is closed and `reconstructPath` is called on the table; the cell is closed and its
neighbours are explored; or an assertion fails. -/
inductive step_t where
  | empty
  | stale (current : point_t) (st : search_t)
  | found (current : point_t) (pointData : pointTable_t)
  | expanded (current : point_t) (st : search_t)
  | fault (e : Err)

/-- One iteration of the `while` loop of `findPath`, the body of `findLoop`. -/
def findStep (rnd : Nat → Nat) (dungeon : dungeon_t) (target : point_t) (st : search_t) :
    step_t :=
  if isSkipPQEmpty st.opn then .empty
  else
    match getSkipNodeData st.opn (getMinSkipNode st.opn) with
    | .error e => .fault e
    | .ok current =>
      match freeMinSkipNode st.opn with
      | .error e => .fault e
      | .ok opn1 =>
        match getPointData st.pointData current with
        | .error e => .fault e
        | .ok c =>
          if c.isClosed then .stale current { st with opn := opn1 }
          else
            match setPointData st.pointData current { c with isClosed := true } with
            | .error e => .fault e
            | .ok pointData1 =>
              if isEqualPoints current target then .found current pointData1
              else
                match exploreNeighbours rnd dungeon opn1 pointData1 current target with
                | .error e => .fault e
                | .ok st1 => .expanded current st1

/-- The state in which `findPath` enters its `while` loop. -/
def initSearch (rnd : Nat → Nat) (dungeon : dungeon_t) (source : point_t) :
    Except Err search_t :=
  let opn := initSkipPQ
  let pointData := initPointData (getDungeonWidth dungeon) (getDungeonHeight dungeon)
  match getPointData pointData source with
  | .error e => .error e
  | .ok c =>
    match setPointData pointData source { c with gScore := 0 } with
    | .error e => .error e
    | .ok pointData1 =>
      match initSkipNode opn source 0 (rnd opn.next) with
      | .error e => .error e
      | .ok opn1 => .ok { opn := opn1, pointData := pointData1 }

/-- The states in which the condition of the `while` loop is evaluated during the first `n`
iterations that start in the state `st`. -/
def loopStates (rnd : Nat → Nat) (dungeon : dungeon_t) (target : point_t) :
    Nat → search_t → List search_t
  | 0, _ => []
  | n + 1, st =>
    st :: (match findStep rnd dungeon target st with
      | .stale _ st1 => loopStates rnd dungeon target n st1
      | .expanded _ st1 => loopStates rnd dungeon target n st1
      | _ => [])

/-- The cells marked closed during the first `n` iterations that start in the state `st`, in
the order in which they are closed. -/
def closures (rnd : Nat → Nat) (dungeon : dungeon_t) (target : point_t) :
    Nat → search_t → List point_t
  | 0, _ => []
  | n + 1, st =>
    match findStep rnd dungeon target st with
    | .stale _ st1 => closures rnd dungeon target n st1
    | .expanded current st1 => current :: closures rnd dungeon target n st1
    | .found current _ => [current]
    | _ => []

/-- No entry of the table `pd2` has a greater g-score than in `pd`, and every cell closed in
`pd` is closed in `pd2`. -/
def tableLE (pd2 pd : pointTable_t) : Prop :=
  ∀ x y, (pd2.cell x y).gScore ≤ (pd.cell x y).gScore
    ∧ ((pd.cell x y).isClosed = true → (pd2.cell x y).isClosed = true)

/-- The 4 x 3 dungeon with one wall, at `(0,1)`. -/
def dungeonOneWall : dungeon_t :=
  { map := fun x y => if x = 0 ∧ y = 1 then '#' else ' ', width := 4, height := 3 }

/-- The entry of the cell `p` (predecessor, g-score, closed flag) when `findPath` has made `n`
iterations of its loop; `none` if the loop has ended before. -/
def entryAfter (rnd : Nat → Nat) (dungeon : dungeon_t) (source target : point_t) (n : Nat)
    (p : point_t) : Option (point_t × Nat × Bool) :=
  match initSearch rnd dungeon source with
  | .error _ => none
  | .ok st0 =>
    match (loopStates rnd dungeon target (n + 1) st0)[n]? with
    | none => none
    | some st => some ((cellAt st.pointData p).prev, (cellAt st.pointData p).gScore,
        (cellAt st.pointData p).isClosed)

/-- A state whose queue holds the source `(0,0)` of the open 5 x 5 dungeon once more although
the source is closed. -/
def stateStale : search_t :=
  match initSkipNode initSkipPQ { x := 0, y := 0 } 0 1 with
  | .ok opn => { opn := opn, pointData := stateOpen5.pointData }
  | .error _ => stateOpen5

/-- The state in which `findPath` on the open 5 x 5 dungeon, from `(0,0)`, enters its loop. -/
def stateStart : search_t :=
  match initSearch (fun _ => 1) dungeonOpen5 { x := 0, y := 0 } with
  | .ok st => st
  | .error _ => stateOpen5

/-- The state of `findPath` on the open 5 x 5 dungeon, from `(0,0)` to `(4,4)`, after the
first iteration of its loop, which expands the source. -/
def stateSecond : search_t :=
  match findStep (fun _ => 1) dungeonOpen5 { x := 4, y := 4 } stateStart with
  | .expanded _ st1 => st1
  | _ => stateStart

/-- The tables `pointData` after each move of the loop of `exploreNeighbours`, as long as no
assertion fails. -/
def exploreTables (rnd : Nat → Nat) (dungeon : dungeon_t) (current target : point_t) :
    List point_t → search_t → List pointTable_t
  | [], _ => []
  | move :: moves, st =>
    match exploreMove rnd dungeon current target st move with
    | .error _ => []
    | .ok st1 => st1.pointData :: exploreTables rnd dungeon current target moves st1

/-- The tables `pointData` written during the iteration of the loop of `findPath` that starts
in the state `st`: the table after the cell taken from the queue has been marked closed, and,
unless that cell is the target, the table after each move of `exploreNeighbours`. -/
def stepTables (rnd : Nat → Nat) (dungeon : dungeon_t) (target : point_t) (st : search_t) :
    List pointTable_t :=
  if isSkipPQEmpty st.opn then []
  else
    match getSkipNodeData st.opn (getMinSkipNode st.opn) with
    | .error _ => []
    | .ok current =>
      match freeMinSkipNode st.opn with
      | .error _ => []
      | .ok opn1 =>
        match getPointData st.pointData current with
        | .error _ => []
        | .ok c =>
          if c.isClosed then []
          else
            match setPointData st.pointData current { c with isClosed := true } with
            | .error _ => []
            | .ok pointData1 =>
              pointData1 :: (if isEqualPoints current target then []
                else exploreTables rnd dungeon current target MOVES
                  { opn := opn1, pointData := pointData1 })

/-- The predecessor links of the table `pd` are well-founded: the source has g-score 0, and
every other cell of the dungeon with a g-score below `UINT32_MAX` is entered by a valid move
from its predecessor, whose g-score plus the cost of that move is at most its own g-score and
so is strictly smaller. -/
def ChainOK (d : dungeon_t) (source : point_t) (pd : pointTable_t) : Prop :=
  (cellAt pd source).gScore = 0
  ∧ ∀ n, inBounds d n = true → (cellAt pd n).gScore < UINT32_MAX → n ≠ source →
      isValidMove d (cellAt pd n).prev n = some true
      ∧ (cellAt pd (cellAt pd n).prev).gScore
          + cost { x := n.x - (cellAt pd n).prev.x, y := n.y - (cellAt pd n).prev.y }
        ≤ (cellAt pd n).gScore
      ∧ (cellAt pd (cellAt pd n).prev).gScore < (cellAt pd n).gScore

/-! ### Preconditions of the collaborators -/

/-- A read of `dungeon->map[x][y]`: `none` if the indices lie outside the map. -/
def readMap (dungeon : dungeon_t) (x y : Int) : Option Char :=
  if (decide (x ≥ 0) && decide (x < dungeon.width))
      && (decide (y ≥ 0) && decide (y < dungeon.height)) then
    some (dungeon.map x.toNat y.toNat)
  else none

/-- The function `isValidMove` with the reads of the map made explicit, in the order in
which the operands of `&&` are evaluated: an operand is evaluated only if all operands before
it are true. The result is `none` if the assertion on `from` fails or a read lies outside the
map. -/
def isValidMoveChecked (dungeon : dungeon_t) (from_ to_ : point_t) : Option Bool :=
  if (decide (from_.x ≥ 0) && decide (from_.x < dungeon.width))
      && (decide (from_.y ≥ 0) && decide (from_.y < dungeon.height)) then
    if distancePoints from_ to_ COST COST == 1
        && (decide (to_.x ≥ 0) && decide (to_.x < dungeon.width))
        && (decide (to_.y ≥ 0) && decide (to_.y < dungeon.height)) then
      match readMap dungeon to_.x to_.y with
      | none => none
      | some t1 =>
        if t1 != TILE_WALL then
          match readMap dungeon from_.x to_.y with
          | none => none
          | some t2 =>
            if t2 != TILE_WALL then
              match readMap dungeon to_.x from_.y with
              | none => none
              | some t3 => some (t3 != TILE_WALL)
            else some false
        else some false
    else some false
  else
    none

/-- The part of the loop invariant of the search that keeps the accesses to the table within
its bounds, on every dungeon: no g-score exceeds `UINT32_MAX`; the source and the queued cells
are discovered; and the predecessor of every discovered cell other than the source is a
discovered cell of the dungeon. -/
structure SafeInv (d : dungeon_t) (source : point_t) (sl : searchL_t) : Prop where
  g_le : ∀ n, inBounds d n = true → (cellAt sl.pointData n).gScore ≤ UINT32_MAX
  src : (cellAt sl.pointData source).gScore < UINT32_MAX
  q_disc : ∀ e ∈ sl.q, (cellAt sl.pointData e.2).gScore < UINT32_MAX
  prev_inb : ∀ n, inBounds d n = true → n ≠ source →
    (cellAt sl.pointData n).gScore < UINT32_MAX →
    inBounds d (cellAt sl.pointData n).prev = true
    ∧ (cellAt sl.pointData (cellAt sl.pointData n).prev).gScore < UINT32_MAX

/-! ## Theorems -/

/-! ### The metric -/

theorem natAbs_sub_mod_of_lt (u v : Int) (w : Nat) (hw : w ≤ 65535)
    (hu : 0 ≤ u ∧ u < w) (hv : 0 ≤ v ∧ v < w) :
    (u - v).natAbs % 65536 = (u - v).natAbs := by
  omega

theorem distancePoints_unit (a b : point_t) :
    distancePoints a b 1 1
      = max ((a.x - b.x).natAbs % 65536) ((a.y - b.y).natAbs % 65536) := by
  unfold distancePoints
  simp only [Nat.cast_one, sub_self, Int.natAbs_zero, Nat.zero_mod, zero_mul, add_zero, one_mul]
  generalize hp : (a.x - b.x).natAbs % 65536 = p
  generalize hq : (a.y - b.y).natAbs % 65536 = q
  have hp2 : p < 65536 := by omega
  have hq2 : q < 65536 := by omega
  clear hp hq
  split <;> omega

theorem inBounds_iff (d : dungeon_t) (p : point_t) :
    inBounds d p = true ↔ (0 ≤ p.x ∧ p.x < d.width) ∧ (0 ≤ p.y ∧ p.y < d.height) := by
  simp [inBounds]

/-- Characterisation of a valid move between cells of a dungeon with `uint16_t` dimensions. -/
theorem isValidMove_eq_true_iff (d : dungeon_t) (hd : d.isUInt16) (a c : point_t) :
    isValidMove d a c = some true ↔
      inBounds d a = true ∧ inBounds d c = true
      ∧ max (a.x - c.x).natAbs (a.y - c.y).natAbs = 1
      ∧ d.map c.x.toNat c.y.toNat ≠ TILE_WALL
      ∧ d.map a.x.toNat c.y.toNat ≠ TILE_WALL
      ∧ d.map c.x.toNat a.y.toNat ≠ TILE_WALL := by
  obtain ⟨hw, hh⟩ := hd
  unfold isValidMove
  rw [inBounds_iff, inBounds_iff, COST, distancePoints_unit]
  constructor
  · intro h
    split at h
    · rename_i hb
      simp only [ge_iff_le, Bool.and_eq_true, decide_eq_true_eq] at hb
      simp only [Option.some.injEq, Bool.and_eq_true, beq_iff_eq, ge_iff_le, decide_eq_true_eq,
        bne_iff_ne, ne_eq] at h
      obtain ⟨⟨⟨⟨⟨h1, h2⟩, h3⟩, h4⟩, h5⟩, h6⟩ := h
      refine ⟨hb, ⟨h2, h3⟩, ?_, h4, h5, h6⟩
      rw [natAbs_sub_mod_of_lt _ _ _ hw hb.1 h2, natAbs_sub_mod_of_lt _ _ _ hh hb.2 h3] at h1
      exact h1
    · exact absurd h (by simp)
  · rintro ⟨hb, hc, h1, h4, h5, h6⟩
    rw [if_pos (by simpa using hb)]
    simp only [Option.some.injEq, Bool.and_eq_true, beq_iff_eq, ge_iff_le, decide_eq_true_eq,
        bne_iff_ne, ne_eq]
    refine ⟨⟨⟨⟨⟨?_, hc.1⟩, hc.2⟩, h4⟩, h5⟩, h6⟩
    rw [natAbs_sub_mod_of_lt _ _ _ hw hb.1 hc.1, natAbs_sub_mod_of_lt _ _ _ hh hb.2 hc.2]
    exact h1

theorem distancePoints_eq_mod (a b : point_t) (cc cd : Nat) (ha : a.isInt16) (hb : b.isInt16) :
    distancePoints a b cc cd
      = (cc * max (a.x - b.x).natAbs (a.y - b.y).natAbs
          + ((cc : Int) - (cd : Int)).natAbs * min (a.x - b.x).natAbs (a.y - b.y).natAbs)
        % 65536 := by
  obtain ⟨h1, h2, h3, h4⟩ := ha
  obtain ⟨h5, h6, h7, h8⟩ := hb
  have hx : (a.x - b.x).natAbs % 65536 = (a.x - b.x).natAbs := by omega
  have hy : (a.y - b.y).natAbs % 65536 = (a.y - b.y).natAbs := by omega
  unfold distancePoints
  simp only [hx, hy]
  have key : ∀ m n k : Nat, (cc * m + (k % 65536) * n) % 65536 = (cc * m + k * n) % 65536 := by
    intro m n k
    rw [Nat.add_mod, Nat.mul_mod (k % 65536), Nat.mod_mod, ← Nat.mul_mod, ← Nat.add_mod]
  split
  · rename_i h
    rw [key, max_eq_left (le_of_lt h), min_eq_right (le_of_lt h)]
  · rename_i h
    have h2 : (a.x - b.x).natAbs ≤ (a.y - b.y).natAbs := not_lt.mp h
    rw [key, max_eq_right h2, min_eq_left h2]

/-- The exact octile value is monotone in both differences. -/
theorem octile_nat_mono (p q p2 q2 : Nat) (hp : p ≤ p2) (hq : q ≤ q2) :
    70 * max p q + 29 * min p q ≤ 70 * max p2 q2 + 29 * min p2 q2 := by
  omega

/-- The octile heuristic never exceeds the exact octile value of the true differences. -/
theorem distancePoints_le_octile (a b : point_t) :
    distancePoints a b COST_CARDINAL COST_DIAGONAL
      ≤ 70 * max (a.x - b.x).natAbs (a.y - b.y).natAbs
        + 29 * min (a.x - b.x).natAbs (a.y - b.y).natAbs := by
  unfold distancePoints COST_CARDINAL COST_DIAGONAL
  have h29 : (((70 : Nat) : Int) - ((99 : Nat) : Int)).natAbs % 65536 = 29 := by decide
  simp only [h29]
  refine le_trans ?_ (octile_nat_mono _ _ _ _ (Nat.mod_le (a.x - b.x).natAbs 65536)
    (Nat.mod_le (a.y - b.y).natAbs 65536))
  generalize (a.x - b.x).natAbs % 65536 = p
  generalize (a.y - b.y).natAbs % 65536 = q
  split <;> omega

/-- A valid move changes each coordinate by at most one and is not the null move. -/
theorem isValidMove_unit (d : dungeon_t) (hd : d.isUInt16) (a c : point_t)
    (h : isValidMove d a c = some true) :
    max (a.x - c.x).natAbs (a.y - c.y).natAbs = 1 ∧ inBounds d a = true ∧ inBounds d c = true := by
  rw [isValidMove_eq_true_iff d hd] at h
  exact ⟨h.2.2.1, h.1, h.2.1⟩

theorem cost_of_unit (m : point_t) (h : max m.x.natAbs m.y.natAbs = 1) :
    cost m = if m.x = 0 ∨ m.y = 0 then 70 else 99 := by
  unfold cost COST_CARDINAL COST_DIAGONAL
  split <;> split <;> omega

theorem octile_nat_step (p q p2 q2 ex ey : Nat) (hp : p ≤ p2 + ex) (hq : q ≤ q2 + ey)
    (hex : ex ≤ 1) (hey : ey ≤ 1) :
    70 * max p q + 29 * min p q
      ≤ (if ex = 0 ∨ ey = 0 then 70 else 99) + (70 * max p2 q2 + 29 * min p2 q2) := by
  split <;> omega

theorem natAbs_triangle (u v w : Int) : (u - w).natAbs ≤ (v - w).natAbs + (v - u).natAbs := by
  omega

/-- Triangle inequality of the exact octile value along one valid move. -/
theorem octile_step (a c b : point_t) (h : max (a.x - c.x).natAbs (a.y - c.y).natAbs = 1) :
    70 * max (a.x - b.x).natAbs (a.y - b.y).natAbs
        + 29 * min (a.x - b.x).natAbs (a.y - b.y).natAbs
      ≤ cost { x := c.x - a.x, y := c.y - a.y }
        + (70 * max (c.x - b.x).natAbs (c.y - b.y).natAbs
          + 29 * min (c.x - b.x).natAbs (c.y - b.y).natAbs) := by
  have h1 : (c.x - a.x).natAbs ≤ 1 ∧ (c.y - a.y).natAbs ≤ 1 := by omega
  rw [cost_of_unit _ (by simp only; omega)]
  have h2 := octile_nat_step _ _ _ _ _ _ (natAbs_triangle a.x c.x b.x)
    (natAbs_triangle a.y c.y b.y) h1.1 h1.2
  simp only [Int.natAbs_eq_zero] at h2
  exact h2

theorem octile_le_routeCost (d : dungeon_t) (hd : d.isUInt16) (l : List point_t) :
    ∀ a b : point_t, isRoute d a l b = true →
      70 * max (a.x - b.x).natAbs (a.y - b.y).natAbs
        + 29 * min (a.x - b.x).natAbs (a.y - b.y).natAbs ≤ routeCost a l := by
  induction l with
  | nil =>
    intro a b h
    simp only [isRoute, decide_eq_true_eq] at h
    subst h
    simp
  | cons c l ih =>
    intro a b h
    simp only [isRoute, Bool.and_eq_true, beq_iff_eq] at h
    have h1 := (isValidMove_unit d hd a c h.1).1
    have h2 := ih c b h.2
    have h3 := octile_step a c b h1
    simp only [routeCost]
    exact le_trans h3 (Nat.add_le_add_left h2 _)

theorem chebyshev_step (a c b : point_t) (h : max (a.x - c.x).natAbs (a.y - c.y).natAbs = 1) :
    max (a.x - b.x).natAbs (a.y - b.y).natAbs
      ≤ max (c.x - b.x).natAbs (c.y - b.y).natAbs + 1 := by
  have h1 : (c.x - a.x).natAbs ≤ 1 ∧ (c.y - a.y).natAbs ≤ 1 := by omega
  have h2 := natAbs_triangle a.x c.x b.x
  have h3 := natAbs_triangle a.y c.y b.y
  clear h
  generalize (a.x - b.x).natAbs = p at *
  generalize (a.y - b.y).natAbs = q at *
  generalize (c.x - b.x).natAbs = p2 at *
  generalize (c.y - b.y).natAbs = q2 at *
  omega

theorem chebyshev_le_route (d : dungeon_t) (hd : d.isUInt16) (l : List point_t) :
    ∀ a b : point_t, isRoute d a l b = true →
      max (a.x - b.x).natAbs (a.y - b.y).natAbs ≤ l.length := by
  induction l with
  | nil =>
    intro a b h
    simp only [isRoute, decide_eq_true_eq] at h
    subst h
    simp
  | cons c l ih =>
    intro a b h
    simp only [isRoute, Bool.and_eq_true, beq_iff_eq] at h
    have h1 := (isValidMove_unit d hd a c h.1).1
    have h2 := ih c b h.2
    have h3 := chebyshev_step a c b h1
    simp only [List.length_cons]
    exact le_trans h3 (Nat.succ_le_succ h2)

/-- One step towards `v` along a coordinate. -/
theorem exists_towards (u v : Int) :
    ∃ w : Int, (u < v ∧ w = u + 1) ∨ (u = v ∧ w = u) ∨ (v < u ∧ w = u - 1) := by
  rcases lt_trichotomy u v with h | h | h
  · exact ⟨u + 1, Or.inl ⟨h, rfl⟩⟩
  · exact ⟨u, Or.inr (Or.inl ⟨h, rfl⟩)⟩
  · exact ⟨u - 1, Or.inr (Or.inr ⟨h, rfl⟩)⟩

theorem route_exists_of_open (d : dungeon_t) (hd : d.isUInt16)
    (hopen : ∀ x y : Nat, x < d.width → y < d.height → d.map x y ≠ TILE_WALL) (n : Nat) :
    ∀ a b : point_t, inBounds d a = true → inBounds d b = true →
      max (a.x - b.x).natAbs (a.y - b.y).natAbs = n →
      ∃ l, isRoute d a l b = true ∧ l.length = n := by
  induction n with
  | zero =>
    intro a b _ _ h
    refine ⟨[], ?_, rfl⟩
    simp only [isRoute, decide_eq_true_eq]
    obtain ⟨ax, ay⟩ := a
    obtain ⟨bx, b_y⟩ := b
    simp only at h
    simp only [point_t.mk.injEq]
    omega
  | succ n ih =>
    intro a b ha hb h
    have ha2 := (inBounds_iff d a).mp ha
    have hb2 := (inBounds_iff d b).mp hb
    obtain ⟨cx, hx⟩ := exists_towards a.x b.x
    obtain ⟨cy, hy⟩ := exists_towards a.y b.y
    have hcb : (0 ≤ cx ∧ cx < d.width) ∧ (0 ≤ cy ∧ cy < d.height) := by omega
    have hc : inBounds d { x := cx, y := cy } = true := by
      rw [inBounds_iff]; exact hcb
    have hsd : max (a.x - cx).natAbs (a.y - cy).natAbs = 1
        ∧ max (cx - b.x).natAbs (cy - b.y).natAbs = n := by
      clear ih hopen ha2 hb2 hcb hc
      rcases hx with ⟨h1, rfl⟩ | ⟨h1, rfl⟩ | ⟨h1, rfl⟩ <;>
        rcases hy with ⟨h2, rfl⟩ | ⟨h2, rfl⟩ | ⟨h2, rfl⟩ <;> omega
    obtain ⟨hstep, hdist⟩ := hsd
    clear hx hy
    have hv : isValidMove d a { x := cx, y := cy } = some true := by
      rw [isValidMove_eq_true_iff d hd]
      refine ⟨ha, hc, hstep, ?_, ?_, ?_⟩
      · exact hopen cx.toNat cy.toNat (by omega) (by omega)
      · exact hopen a.x.toNat cy.toNat (by omega) (by omega)
      · exact hopen cx.toNat a.y.toNat (by omega) (by omega)
    obtain ⟨l, hl1, hl2⟩ := ih { x := cx, y := cy } b hc hb hdist
    refine ⟨{ x := cx, y := cy } :: l, ?_, by simp [hl2]⟩
    simp only [isRoute, Bool.and_eq_true, beq_iff_eq]
    exact ⟨hv, hl1⟩

theorem mem_MOVES_iff (m : point_t) :
    m ∈ MOVES ↔ max m.x.natAbs m.y.natAbs = 1 := by
  obtain ⟨mx, my⟩ := m
  simp only [MOVES, List.mem_cons, point_t.mk.injEq, List.mem_singleton, List.not_mem_nil,
    or_false]
  omega

theorem natAbs_sub_swap (u v : Int) : (u - v).natAbs = (v - u).natAbs := by
  omega

/-! ### Claims about the metric -/

/-- C8 (as stated) fails: the result is a `uint16_t`, so for `a = (0,0)`, `b = (1000,0)` and
costs 70, 99 the function returns 4464 and not `70 * 1000 = 70000`. -/
theorem C8_counterexample :
    distancePoints { x := 0, y := 0 } { x := 1000, y := 0 } 70 99 = 4464
    ∧ 70 * max ((0 : Int) - 1000).natAbs ((0 : Int) - 0).natAbs
        + (((70 : Nat) : Int) - ((99 : Nat) : Int)).natAbs
          * min ((0 : Int) - 1000).natAbs ((0 : Int) - 0).natAbs = 70000 := by
  decide

/-- C8 (amended): for all points with `int16_t` coordinates and all costs, `distancePoints`
returns `costCardinal * max(dx,dy) + |costCardinal - costDiagonal| * min(dx,dy)` reduced
modulo `2^16`, hence that value itself whenever it is below 65536. -/
theorem C8_distance_formula (a b : point_t) (costCardinal costDiagonal : Nat)
    (ha : a.isInt16) (hb : b.isInt16) :
    distancePoints a b costCardinal costDiagonal
      = (costCardinal * max (a.x - b.x).natAbs (a.y - b.y).natAbs
          + ((costCardinal : Int) - (costDiagonal : Int)).natAbs
            * min (a.x - b.x).natAbs (a.y - b.y).natAbs) % 65536
    ∧ (costCardinal * max (a.x - b.x).natAbs (a.y - b.y).natAbs
          + ((costCardinal : Int) - (costDiagonal : Int)).natAbs
            * min (a.x - b.x).natAbs (a.y - b.y).natAbs < 65536 →
        distancePoints a b costCardinal costDiagonal
          = costCardinal * max (a.x - b.x).natAbs (a.y - b.y).natAbs
            + ((costCardinal : Int) - (costDiagonal : Int)).natAbs
              * min (a.x - b.x).natAbs (a.y - b.y).natAbs) := by
  refine ⟨distancePoints_eq_mod a b costCardinal costDiagonal ha hb, fun h => ?_⟩
  rw [distancePoints_eq_mod a b costCardinal costDiagonal ha hb, Nat.mod_eq_of_lt h]

/-- Witness of C8 (amended) at `a = (3,-4)`, `b = (-2,8)`, costs 70 and 99. -/
theorem C8_distance_formula_witness :
    distancePoints { x := 3, y := -4 } { x := -2, y := 8 } 70 99 = 985 := by
  have h := (C8_distance_formula { x := 3, y := -4 } { x := -2, y := 8 } 70 99
    (by decide) (by decide)).2 (by decide)
  rw [h]
  decide


/-- C9: for points with `int16_t` coordinates `distancePoints a b 1 1` is the Chebyshev
distance `max(|a.x - b.x|, |a.y - b.y|)`; on every dungeon without walls that contains both
points it is the exact number of valid moves needed from `a` to `b` (some route has that many
moves and no route has fewer); and it equals 1 exactly when `b` is `a` plus one of the 8 moves. -/
theorem C9_chebyshev (a b : point_t) (ha : a.isInt16) (hb : b.isInt16) :
    distancePoints a b 1 1 = max (a.x - b.x).natAbs (a.y - b.y).natAbs
    ∧ (∀ d : dungeon_t, d.isUInt16 →
        (∀ x y : Nat, x < d.width → y < d.height → d.map x y ≠ TILE_WALL) →
        inBounds d a = true → inBounds d b = true →
        (∃ l, isRoute d a l b = true ∧ l.length = distancePoints a b 1 1)
        ∧ ∀ l, isRoute d a l b = true → distancePoints a b 1 1 ≤ l.length)
    ∧ (distancePoints a b 1 1 = 1 ↔ ∃ m ∈ MOVES, b = { x := a.x + m.x, y := a.y + m.y }) := by
  have hdist : distancePoints a b 1 1 = max (a.x - b.x).natAbs (a.y - b.y).natAbs := by
    obtain ⟨h1, h2, h3, h4⟩ := ha
    obtain ⟨h5, h6, h7, h8⟩ := hb
    have hx : (a.x - b.x).natAbs % 65536 = (a.x - b.x).natAbs := by omega
    have hy : (a.y - b.y).natAbs % 65536 = (a.y - b.y).natAbs := by omega
    rw [distancePoints_unit, hx, hy]
  refine ⟨hdist, ?_, ?_⟩
  · intro d hd hopen hia hib
    rw [hdist]
    exact ⟨route_exists_of_open d hd hopen _ a b hia hib rfl,
      fun l hl => chebyshev_le_route d hd l a b hl⟩
  · rw [hdist]
    constructor
    · intro h
      refine ⟨{ x := b.x - a.x, y := b.y - a.y }, ?_, ?_⟩
      · rw [mem_MOVES_iff]
        simp only
        rw [natAbs_sub_swap b.x a.x, natAbs_sub_swap b.y a.y]
        exact h
      · obtain ⟨bx, b_y⟩ := b
        simp
    · rintro ⟨m, hm, rfl⟩
      rw [mem_MOVES_iff] at hm
      simp only
      rw [natAbs_sub_swap a.x, natAbs_sub_swap a.y, add_sub_cancel_left, add_sub_cancel_left]
      exact hm

/-- Witness of C9 at `a = (0,0)`, `b = (2,1)`. -/
theorem C9_chebyshev_witness :
    distancePoints { x := 0, y := 0 } { x := 2, y := 1 } 1 1 = 2 :=
  (C9_chebyshev { x := 0, y := 0 } { x := 2, y := 1 } (by decide) (by decide)).1.trans
    (by decide)

/-- C10: in every dungeon (with `uint16_t` dimensions) and for every route of valid moves from
`a` to `b`, the heuristic `distancePoints a b 70 99` is at most the summed move cost of the
route; hence it is at most the optimal cost from `a` to `b`. -/
theorem C10_heuristic_admissible (d : dungeon_t) (hd : d.isUInt16) (a b : point_t)
    (l : List point_t) (h : isRoute d a l b = true) :
    distancePoints a b 70 99 ≤ routeCost a l :=
  le_trans (distancePoints_le_octile a b) (octile_le_routeCost d hd l a b h)

/-- Witness of C10 on the open 3 x 3 dungeon for the route `(0,0) → (1,1) → (2,1)`. -/
theorem C10_heuristic_admissible_witness :
    distancePoints { x := 0, y := 0 } { x := 2, y := 1 } 70 99
      ≤ routeCost { x := 0, y := 0 } [{ x := 1, y := 1 }, { x := 2, y := 1 }] :=
  C10_heuristic_admissible dungeonOpen3 ⟨by decide, by decide⟩ { x := 0, y := 0 }
    { x := 2, y := 1 } [{ x := 1, y := 1 }, { x := 2, y := 1 }] (by decide)

/-! ### The skip list -/

@[simp] theorem setForward_level (mem : Nat → skipNode_t) (n i : Nat) (v : Option Nat) (m : Nat) :
    (setForward mem n i v m).level = (mem m).level := by
  unfold setForward; split
  · rename_i h; subst h; rfl
  · rfl

@[simp] theorem setForward_priority (mem : Nat → skipNode_t) (n i : Nat) (v : Option Nat)
    (m : Nat) : (setForward mem n i v m).priority = (mem m).priority := by
  unfold setForward; split
  · rename_i h; subst h; rfl
  · rfl

@[simp] theorem setForward_data (mem : Nat → skipNode_t) (n i : Nat) (v : Option Nat) (m : Nat) :
    (setForward mem n i v m).data = (mem m).data := by
  unfold setForward; split
  · rename_i h; subst h; rfl
  · rfl

theorem setForward_forward (mem : Nat → skipNode_t) (n i : Nat) (v : Option Nat) (m j : Nat) :
    (setForward mem n i v m).forward j = if m = n ∧ j = i then v else (mem m).forward j := by
  unfold setForward
  by_cases h : m = n
  · subst h
    by_cases hj : j = i <;> simp [hj]
  · simp [h]

theorem chainTo_append (mem : Nat → skipNode_t) (i : Nat) (A B : List Nat) :
    ∀ p q : Option Nat, chainTo mem i p (A ++ B) q ↔
      ∃ r, chainTo mem i p A r ∧ chainTo mem i r B q := by
  induction A with
  | nil =>
    intro p q
    simp only [List.nil_append, chainTo]
    constructor
    · intro h; exact ⟨p, rfl, h⟩
    · rintro ⟨r, rfl, h⟩; exact h
  | cons n A ih =>
    intro p q
    rw [List.cons_append]
    simp only [chainTo]
    rw [ih]
    constructor
    · rintro ⟨hp, r, h1, h2⟩; exact ⟨r, ⟨hp, h1⟩, h2⟩
    · rintro ⟨r, ⟨hp, h1⟩, h2⟩; exact ⟨hp, r, h1, h2⟩

/-- A chain only depends on the level-`i` links of the nodes on it. -/
theorem chainTo_congr (mem mem2 : Nat → skipNode_t) (i : Nat) (l : List Nat) :
    ∀ p q : Option Nat, (∀ n ∈ l, (mem2 n).forward i = (mem n).forward i) →
      chainTo mem i p l q → chainTo mem2 i p l q := by
  induction l with
  | nil => intro p q _ h; exact h
  | cons n l ih =>
    intro p q hm h
    simp only [chainTo] at h ⊢
    refine ⟨h.1, ?_⟩
    rw [hm n (List.mem_cons_self _ _)]
    exact ih _ _ (fun m hmem => hm m (List.mem_cons_of_mem _ hmem)) h.2

theorem chainTo_none_nil (mem : Nat → skipNode_t) (i : Nat) (l : List Nat) (q : Option Nat)
    (h : chainTo mem i none l q) : l = [] := by
  cases l with
  | nil => rfl
  | cons n l => simp [chainTo] at h

theorem atLevel_append (mem : Nat → skipNode_t) (i : Nat) (A B : List Nat) :
    atLevel mem i (A ++ B) = atLevel mem i A ++ atLevel mem i B := by
  simp [atLevel]

theorem atLevel_congr (mem mem2 : Nat → skipNode_t) (i : Nat) (l : List Nat)
    (h : ∀ n ∈ l, (mem2 n).level = (mem n).level) : atLevel mem2 i l = atLevel mem i l := by
  unfold atLevel
  apply List.filter_congr
  intro n hn
  rw [h n hn]

theorem mem_atLevel (mem : Nat → skipNode_t) (i : Nat) (l : List Nat) (n : Nat) :
    n ∈ atLevel mem i l ↔ n ∈ l ∧ i < (mem n).level := by
  simp [atLevel]

theorem atLevel_eq_nil_iff (mem : Nat → skipNode_t) (i : Nat) (l : List Nat) :
    atLevel mem i l = [] ↔ ∀ n ∈ l, (mem n).level ≤ i := by
  simp [atLevel, List.filter_eq_nil_iff]

theorem atLevel_cons_pos (mem : Nat → skipNode_t) (i n : Nat) (l : List Nat)
    (h : i < (mem n).level) : atLevel mem i (n :: l) = n :: atLevel mem i l := by
  simp [atLevel, h]

theorem atLevel_cons_neg (mem : Nat → skipNode_t) (i n : Nat) (l : List Nat)
    (h : (mem n).level ≤ i) : atLevel mem i (n :: l) = atLevel mem i l := by
  simp [atLevel, Nat.not_lt.mpr h]

/-- A nodup list of addresses below `N` has at most `N` elements. -/
theorem length_le_of_nodup_lt (l : List Nat) (N : Nat) (hn : l.Nodup) (hlt : ∀ n ∈ l, n < N) :
    l.length ≤ N := by
  have h := (List.subperm_of_subset hn (fun n hmem => List.mem_range.mpr (hlt n hmem))).length_le
  simpa using h

theorem lastOf_append (c : Nat) (A B : List Nat) :
    lastOf c (A ++ B) = lastOf (lastOf c A) B := by
  induction A generalizing c with
  | nil => rfl
  | cons n A ih =>
    rw [List.cons_append]
    simp only [lastOf]
    exact ih n

theorem lastOf_mem (c : Nat) (l : List Nat) : lastOf c l ∈ c :: l := by
  induction l generalizing c with
  | nil => simp [lastOf]
  | cons n l ih =>
    simp only [lastOf]
    exact List.mem_cons_of_mem _ (ih n)

theorem lastOf_of_ne_nil (c c2 : Nat) (l : List Nat) (h : l ≠ []) : lastOf c l = lastOf c2 l := by
  cases l with
  | nil => exact absurd rfl h
  | cons n l => rfl

/-- The inner loop of `connectNode` stops on the last node of the run `A` of nodes with a
smaller priority, given enough fuel. -/
theorem connectWalk_spec (mem : Nat → skipNode_t) (i prio : Nat) (A : List Nat) :
    ∀ (fuel cur : Nat) (q : Option Nat),
      chainTo mem i ((mem cur).forward i) A q →
      (∀ n ∈ A, (mem n).priority < prio) →
      (∀ n, q = some n → prio ≤ (mem n).priority) →
      A.length < fuel →
      connectWalk mem i prio fuel cur = .ok (lastOf cur A) := by
  induction A with
  | nil =>
    intro fuel cur q hc _ hq hf
    obtain ⟨f, rfl⟩ : ∃ f, fuel = f + 1 := ⟨fuel - 1, by simp at hf; omega⟩
    simp only [chainTo] at hc
    unfold connectWalk
    rw [hc]
    cases q with
    | none => rfl
    | some nx =>
      simp only [lastOf]
      rw [if_neg (Nat.not_lt.mpr (hq nx rfl))]
  | cons n A ih =>
    intro fuel cur q hc hA hq hf
    obtain ⟨f, rfl⟩ : ∃ f, fuel = f + 1 := ⟨fuel - 1, by simp at hf; omega⟩
    simp only [chainTo] at hc
    unfold connectWalk
    rw [hc.1]
    simp only [lastOf]
    rw [if_pos (hA n (List.mem_cons_self _ _))]
    exact ih f n q hc.2 (fun m hm => hA m (List.mem_cons_of_mem _ hm)) hq
      (by simp at hf; omega)

/-- Split a list after its last element that satisfies `pr`. -/
theorem exists_split_last (pr : Nat → Bool) (S : List Nat) :
    ∃ Sa Sb, S = Sa ++ Sb ∧ Sb.filter pr = [] ∧
      ∀ c, pr c = true →
        lastOf c (S.filter pr) = lastOf c Sa ∧ pr (lastOf c Sa) = true := by
  induction S with
  | nil => exact ⟨[], [], rfl, rfl, fun c hc => ⟨rfl, hc⟩⟩
  | cons x S ih =>
    obtain ⟨Sa, Sb, hS, hSb, hlast⟩ := ih
    by_cases hx : pr x = true
    · refine ⟨x :: Sa, Sb, by rw [hS]; rfl, hSb, fun c _ => ?_⟩
      rw [List.filter_cons_of_pos hx]
      simp only [lastOf]
      exact hlast x hx
    · cases Sa with
      | nil =>
        refine ⟨[], x :: S, rfl, ?_, fun c hc => ⟨?_, hc⟩⟩
        · rw [List.filter_cons_of_neg hx, hS, List.nil_append]; exact hSb
        · rw [List.filter_cons_of_neg hx, hS, List.nil_append, hSb]
      | cons y Sa =>
        refine ⟨x :: y :: Sa, Sb, by rw [hS]; rfl, hSb, fun c hc => ?_⟩
        rw [List.filter_cons_of_neg hx]
        simp only [lastOf]
        have h := hlast c hc
        simp only [lastOf] at h
        exact h

/-- If the last element of `c :: P` takes part in level `i`, it ends the level-`i` part. -/
theorem atLevel_lastOf (mem : Nat → skipNode_t) (i : Nat) (P : List Nat) :
    ∀ c, i < (mem (lastOf c P)).level →
      ∃ X, atLevel mem i (c :: P) = X ++ [lastOf c P] := by
  induction P with
  | nil =>
    intro c h
    exact ⟨[], by simp only [lastOf] at h ⊢; rw [atLevel_cons_pos mem i c [] h]; rfl⟩
  | cons n P ih =>
    intro c h
    simp only [lastOf] at h ⊢
    obtain ⟨X, hX⟩ := ih n h
    by_cases hc : i < (mem c).level
    · exact ⟨c :: X, by rw [atLevel_cons_pos mem i c _ hc, hX]; rfl⟩
    · exact ⟨X, by rw [atLevel_cons_neg mem i c _ (Nat.not_lt.mp hc), hX]⟩

theorem chainTo_cons (mem : Nat → skipNode_t) (i : Nat) (p q : Option Nat) (n : Nat)
    (l : List Nat) :
    chainTo mem i p (n :: l) q ↔ p = some n ∧ chainTo mem i ((mem n).forward i) l q :=
  Iff.rfl

theorem chainTo_nil (mem : Nat → skipNode_t) (i : Nat) (p q : Option Nat) :
    chainTo mem i p [] q ↔ p = q :=
  Iff.rfl

theorem setForward_forward_ne (mem : Nat → skipNode_t) (n i : Nat) (v : Option Nat) (m j : Nat)
    (h : m ≠ n) : (setForward mem n i v m).forward j = (mem m).forward j := by
  rw [setForward_forward, if_neg (fun hh => h hh.1)]

theorem setForward_forward_same (mem : Nat → skipNode_t) (n i : Nat) (v : Option Nat) :
    (setForward mem n i v n).forward i = v := by
  rw [setForward_forward, if_pos ⟨rfl, rfl⟩]

theorem chainTo_setForward_ne (mem : Nat → skipNode_t) (n i : Nat) (v : Option Nat) (j : Nat)
    (hij : j ≠ i) (p q : Option Nat) (l : List Nat) (hc : chainTo mem j p l q) :
    chainTo (setForward mem n i v) j p l q := by
  refine chainTo_congr mem _ j l p q (fun m _ => ?_) hc
  rw [setForward_forward, if_neg (fun hh => hij hh.2)]

theorem atLevel_setForward (mem : Nat → skipNode_t) (n i : Nat) (v : Option Nat) (j : Nat)
    (l : List Nat) : atLevel (setForward mem n i v) j l = atLevel mem j l :=
  atLevel_congr mem _ j l (fun m _ => setForward_level mem n i v m)

theorem connectLoop_spec (h a : Nat) (lev pri : Nat → Nat) (L₁ L₂ : List Nat) (H fuel : Nat)
    (hnd : (h :: L₁).Nodup) (ha1 : a ∉ h :: L₁) (ha2 : a ∉ L₂)
    (hdisj : ∀ n ∈ h :: L₁, n ∉ L₂)
    (h1 : ∀ n ∈ L₁, pri n < pri a) (h2 : ∀ n ∈ L₂, pri a ≤ pri n)
    (hfuel : L₁.length < fuel) :
    ∀ (k cur : Nat) (mem : Nat → skipNode_t), ConnInv h a lev pri L₁ L₂ H k cur mem →
      ∃ mem2, connectLoop fuel a k cur mem = .ok mem2
        ∧ (∀ n, (mem2 n).level = lev n) ∧ (∀ n, (mem2 n).priority = pri n)
        ∧ (∀ n, (mem2 n).data = (mem n).data)
        ∧ ∀ i, i < H → chainTo mem2 i (some h) (atLevel mem2 i (h :: L₁ ++ a :: L₂)) none := by
  intro k
  induction k with
  | zero =>
    intro cur mem inv
    exact ⟨mem, rfl, inv.lev_eq, inv.pri_eq, fun _ => rfl, fun i hi => inv.done i (Nat.zero_le _) hi⟩
  | succ i ih =>
    intro cur mem inv
    obtain ⟨P, S, hL1, hcur, hS⟩ := inv.pos
    have hcl : i < (mem (lastOf h P)).level := by
      rw [inv.lev_eq, ← hcur]; exact inv.cur_lev
    obtain ⟨X, hX⟩ := atLevel_lastOf mem i P h hcl
    rw [← hcur] at hX
    -- the chain of level `i` before the splice
    have hchain := inv.todo i (Nat.lt_succ_self i)
    have hlist : h :: L₁ ++ L₂ = (h :: P) ++ (S ++ L₂) := by
      rw [hL1]; simp [List.append_assoc]
    rw [hlist, atLevel_append, atLevel_append, hX, chainTo_append] at hchain
    obtain ⟨r, hc1, hc2⟩ := hchain
    rw [chainTo_append] at hc1
    obtain ⟨r0, hcX, hc1b⟩ := hc1
    simp only [chainTo] at hc1b
    obtain ⟨hr0, hr⟩ := hc1b
    rw [chainTo_append] at hc2
    obtain ⟨q, hcS, hcL2⟩ := hc2
    rw [← hr] at hcS
    -- the walk
    have hqcond : ∀ n, q = some n → pri a ≤ (mem n).priority := by
      intro n hn
      rw [hn] at hcL2
      cases hl : atLevel mem i L₂ with
      | nil => rw [hl] at hcL2; simp [chainTo] at hcL2
      | cons m l =>
        rw [hl] at hcL2
        simp only [chainTo, Option.some.injEq] at hcL2
        have hm : m ∈ atLevel mem i L₂ := by rw [hl]; exact List.mem_cons_self _ _
        rw [mem_atLevel] at hm
        rw [hcL2.1, inv.pri_eq]
        exact h2 m hm.1
    have hSsub : ∀ n ∈ atLevel mem i S, n ∈ L₁ := by
      intro n hn
      rw [mem_atLevel] at hn
      rw [hL1]; exact List.mem_append_right _ hn.1
    have hwalk := connectWalk_spec mem i (mem a).priority (atLevel mem i S) fuel cur q hcS
      (fun n hn => by rw [inv.pri_eq, inv.pri_eq]; exact h1 n (hSsub n hn))
      (fun n hn => by rw [inv.pri_eq]; exact hqcond n hn)
      (lt_of_le_of_lt (le_trans (List.length_filter_le _ _)
        (by rw [hL1]; simp)) hfuel)
    -- the new position
    obtain ⟨Sa, Sb, hSab, hSb0, hlast⟩ :=
      exists_split_last (fun n => decide (i < (mem n).level)) S
    have hSb : atLevel mem i Sb = [] := hSb0
    have hcurpr : (fun n => decide (i < (mem n).level)) cur = true := by
      simp only [decide_eq_true_eq]; rw [hcur]; exact hcl
    obtain ⟨hlast1, hlast2⟩ := hlast cur hcurpr
    have hcur2 : lastOf cur (atLevel mem i S) = lastOf h (P ++ Sa) := by
      rw [lastOf_append, ← hcur]; exact hlast1
    simp only [decide_eq_true_eq] at hlast2
    rw [hcur, ← lastOf_append] at hlast2
    have hSb2 : ∀ n ∈ Sb, lev n ≤ i := by
      intro n hn
      have := (atLevel_eq_nil_iff mem i Sb).mp hSb n hn
      rw [inv.lev_eq] at this; exact this
    have hpos2 : ∃ P2 S2, L₁ = P2 ++ S2 ∧ lastOf h (P ++ Sa) = lastOf h P2 ∧ ∀ n ∈ S2, lev n ≤ i :=
      ⟨P ++ Sa, Sb, by rw [hL1, hSab, List.append_assoc], rfl, hSb2⟩
    have hcurlev2 : i ≤ lev (lastOf h (P ++ Sa)) := by
      rw [← inv.lev_eq]; exact Nat.le_of_lt hlast2
    unfold connectLoop
    rw [hwalk]
    simp only
    rw [hcur2]
    have hc2mem : lastOf h (P ++ Sa) ∈ h :: L₁ := by
      have := lastOf_mem h (P ++ Sa)
      rw [hL1, hSab, ← List.append_assoc]
      rcases List.mem_cons.mp this with hh | hh
      · exact List.mem_cons.mpr (Or.inl hh)
      · exact List.mem_cons_of_mem _ (List.mem_append_left _ hh)
    by_cases hlvl : i < (mem a).level
    · rw [if_pos hlvl]
      -- the level-`i` chain, split at the new position
      obtain ⟨X2, hX2⟩ := atLevel_lastOf mem i (P ++ Sa) h hlast2
      have hold := inv.todo i (Nat.lt_succ_self i)
      have hlist2 : h :: L₁ ++ L₂ = (h :: (P ++ Sa)) ++ (Sb ++ L₂) := by
        rw [hL1, hSab]; simp [List.append_assoc]
      rw [hlist2, atLevel_append, atLevel_append, hX2, hSb, List.nil_append, chainTo_append] at hold
      obtain ⟨r2, hd1, hd2⟩ := hold
      rw [chainTo_append] at hd1
      obtain ⟨r3, hdX, hd1b⟩ := hd1
      simp only [chainTo] at hd1b
      obtain ⟨hr3, hr2⟩ := hd1b
      rw [← hr2] at hd2
      rw [hr3] at hdX
      have hX2sub : ∀ n ∈ X2, n ∈ h :: L₁ ∧ n ≠ lastOf h (P ++ Sa) := by
        intro n hn
        have hmem : n ∈ atLevel mem i (h :: (P ++ Sa)) := by
          rw [hX2]; exact List.mem_append_left _ hn
        have hsub : List.Sublist (h :: (P ++ Sa)) (h :: L₁) := by
          rw [hL1, hSab, ← List.append_assoc]
          exact List.Sublist.cons₂ h (List.sublist_append_left _ _)
        have hnd2 : (atLevel mem i (h :: (P ++ Sa))).Nodup :=
          List.Nodup.filter _ (hnd.sublist hsub)
        rw [hX2] at hnd2
        constructor
        · rw [mem_atLevel] at hmem
          rw [hL1, hSab, ← List.append_assoc]
          rcases List.mem_cons.mp hmem.1 with hh | hh
          · exact List.mem_cons.mpr (Or.inl hh)
          · exact List.mem_cons_of_mem _ (List.mem_append_left _ hh)
        · intro heq
          rw [heq] at hn
          exact (List.disjoint_of_nodup_append hnd2) hn (List.mem_singleton_self _)
      have hne : a ≠ lastOf h (P ++ Sa) := fun hh => ha1 (hh ▸ hc2mem)
      obtain ⟨mem3, hres, hlev3, hpri3, hdata3, hch3⟩ := ih (lastOf h (P ++ Sa))
        (setForward (setForward mem a i ((mem (lastOf h (P ++ Sa))).forward i))
          (lastOf h (P ++ Sa)) i (some a))
        { lev_eq := fun n => by rw [setForward_level, setForward_level]; exact inv.lev_eq n
          pri_eq := fun n => by rw [setForward_priority, setForward_priority]; exact inv.pri_eq n
          done := by
            intro j hj hjH
            rw [atLevel_setForward, atLevel_setForward]
            by_cases hji : j = i
            · subst hji
              have hlist3 : h :: L₁ ++ a :: L₂ = (h :: (P ++ Sa)) ++ (Sb ++ a :: L₂) := by
                rw [hL1, hSab]; simp [List.append_assoc]
              rw [hlist3, atLevel_append, atLevel_append, hX2, hSb, List.nil_append,
                atLevel_cons_pos mem j a L₂ hlvl, chainTo_append]
              refine ⟨some a, ?_, ?_⟩
              · rw [chainTo_append]
                refine ⟨some (lastOf h (P ++ Sa)), ?_, ?_⟩
                · refine chainTo_congr mem _ j X2 _ _ (fun n hn => ?_) hdX
                  rw [setForward_forward_ne _ _ _ _ _ _ (hX2sub n hn).2,
                    setForward_forward_ne _ _ _ _ _ _
                      (fun hh : n = a => ha1 (hh ▸ (hX2sub n hn).1))]
                · rw [chainTo_cons, chainTo_nil]
                  exact ⟨rfl, setForward_forward_same _ _ _ _⟩
              · rw [chainTo_cons]
                refine ⟨rfl, ?_⟩
                rw [setForward_forward_ne _ _ _ _ _ _ hne, setForward_forward_same]
                refine chainTo_congr mem _ j _ _ _ (fun n hn => ?_) hd2
                rw [mem_atLevel] at hn
                rw [setForward_forward_ne _ _ _ _ _ _
                    (fun hh : n = lastOf h (P ++ Sa) => hdisj _ hc2mem (hh ▸ hn.1)),
                  setForward_forward_ne _ _ _ _ _ _ (fun hh : n = a => ha2 (hh ▸ hn.1))]
            · exact chainTo_setForward_ne _ _ _ _ _ hji _ _ _
                (chainTo_setForward_ne _ _ _ _ _ hji _ _ _
                  (inv.done j (by omega) hjH))
          todo := by
            intro j hj
            rw [atLevel_setForward, atLevel_setForward]
            exact chainTo_setForward_ne _ _ _ _ _ (by omega) _ _ _
              (chainTo_setForward_ne _ _ _ _ _ (by omega) _ _ _
                (inv.todo j (by omega)))
          pos := hpos2
          cur_lev := hcurlev2 }
      refine ⟨mem3, hres, hlev3, hpri3, fun n => ?_, hch3⟩
      rw [hdata3, setForward_data, setForward_data]
    · rw [if_neg hlvl]
      obtain ⟨mem3, hres, hlev3, hpri3, hdata3, hch3⟩ := ih (lastOf h (P ++ Sa)) mem
        { lev_eq := inv.lev_eq
          pri_eq := inv.pri_eq
          done := by
            intro j hj hjH
            by_cases hji : j = i
            · subst hji
              have hold := inv.todo j (Nat.lt_succ_self j)
              have e1 : h :: L₁ ++ a :: L₂ = (h :: L₁) ++ (a :: L₂) := rfl
              have e2 : h :: L₁ ++ L₂ = (h :: L₁) ++ L₂ := rfl
              rw [e1, atLevel_append, atLevel_cons_neg mem j a L₂ (Nat.not_lt.mp hlvl),
                ← atLevel_append, ← e2]
              exact hold
            · exact inv.done j (by omega) hjH
          todo := fun j hj => inv.todo j (by omega)
          pos := hpos2
          cur_lev := hcurlev2 }
      exact ⟨mem3, hres, hlev3, hpri3, hdata3, hch3⟩

theorem le_of_mem_dropWhile (pri : Nat → Nat) (p : Nat) (L : List Nat)
    (hs : L.Pairwise (fun m n => pri m ≤ pri n)) :
    ∀ n ∈ L.dropWhile (fun n => decide (pri n < p)), p ≤ pri n := by
  induction L with
  | nil => intro n hn; simp at hn
  | cons x L ih =>
    intro n hn
    rw [List.pairwise_cons] at hs
    by_cases hx : pri x < p
    · rw [List.dropWhile_cons_of_pos (by simpa using hx)] at hn
      exact ih hs.2 n hn
    · rw [List.dropWhile_cons_of_neg (by simpa using hx)] at hn
      rcases List.mem_cons.mp hn with h | h
      · rw [h]; exact Nat.not_lt.mp hx
      · exact le_trans (Nat.not_lt.mp hx) (hs.1 n h)

theorem lt_of_mem_takeWhile (pri : Nat → Nat) (p : Nat) (L : List Nat) :
    ∀ n ∈ L.takeWhile (fun n => decide (pri n < p)), pri n < p := by
  intro n hn
  have := List.mem_takeWhile_imp hn
  simpa using this

theorem sorted_insert (pri : Nat → Nat) (a : Nat) (L : List Nat)
    (hs : L.Pairwise (fun m n => pri m ≤ pri n)) :
    (L.takeWhile (fun n => decide (pri n < pri a)) ++ a ::
      L.dropWhile (fun n => decide (pri n < pri a))).Pairwise (fun m n => pri m ≤ pri n) := by
  rw [List.pairwise_append]
  refine ⟨hs.sublist (List.takeWhile_sublist _), ?_, ?_⟩
  · rw [List.pairwise_cons]
    exact ⟨le_of_mem_dropWhile pri (pri a) L hs, hs.sublist (List.dropWhile_sublist _)⟩
  · intro m hm n hn
    have h1 := lt_of_mem_takeWhile pri (pri a) L m hm
    rcases List.mem_cons.mp hn with h | h
    · rw [h]; exact Nat.le_of_lt h1
    · exact le_trans (Nat.le_of_lt h1) (le_of_mem_dropWhile pri (pri a) L hs n h)

/-- The function `connectNode` links a fresh node `a` between the nodes `L₁` of smaller
priority and the nodes `L₂` of greater or equal priority, at every level below its own. -/
theorem connectNode_spec (pq : skipPQ_t) (a : Nat) (L₁ L₂ : List Nat)
    (hnd : (pq.head :: L₁).Nodup) (ha1 : a ∉ pq.head :: L₁) (ha2 : a ∉ L₂)
    (hdisj : ∀ n ∈ pq.head :: L₁, n ∉ L₂)
    (h1 : ∀ n ∈ L₁, (pq.mem n).priority < (pq.mem a).priority)
    (h2 : ∀ n ∈ L₂, (pq.mem a).priority ≤ (pq.mem n).priority)
    (hlev : ∀ n ∈ L₁, (pq.mem n).level ≤ (pq.mem pq.head).level)
    (hfuel : L₁.length < pq.next)
    (hch : ∀ i, i < (pq.mem pq.head).level →
      chainTo pq.mem i (some pq.head) (atLevel pq.mem i (pq.head :: L₁ ++ L₂)) none) :
    ∃ pq2, connectNode pq a = .ok pq2 ∧ pq2.next = pq.next ∧ pq2.head = pq.head
      ∧ (∀ n, (pq2.mem n).level = (pq.mem n).level)
      ∧ (∀ n, (pq2.mem n).priority = (pq.mem n).priority)
      ∧ (∀ n, (pq2.mem n).data = (pq.mem n).data)
      ∧ ∀ i, i < (pq.mem pq.head).level →
          chainTo pq2.mem i (some pq.head) (atLevel pq2.mem i (pq.head :: L₁ ++ a :: L₂)) none := by
  obtain ⟨mem2, hres, hl2, hp2, hd2, hc2⟩ :=
    connectLoop_spec pq.head a (fun n => (pq.mem n).level) (fun n => (pq.mem n).priority)
      L₁ L₂ (pq.mem pq.head).level pq.next hnd ha1 ha2 hdisj h1 h2 hfuel
      (pq.mem pq.head).level pq.head pq.mem
      { lev_eq := fun _ => rfl
        pri_eq := fun _ => rfl
        done := fun i hi hiH => absurd hiH (Nat.not_lt.mpr hi)
        todo := hch
        pos := ⟨[], L₁, rfl, rfl, hlev⟩
        cur_lev := Nat.le_refl _ }
  refine ⟨{ pq with mem := mem2 }, ?_, rfl, rfl, hl2, hp2, hd2, hc2⟩
  unfold connectNode
  rw [hres]

theorem nodup_insert (h a : Nat) (A B : List Nat) (hnd : (h :: (A ++ B)).Nodup)
    (ha : a ∉ h :: (A ++ B)) : (h :: (A ++ a :: B)).Nodup := by
  have hperm : List.Perm (h :: (A ++ a :: B)) (a :: h :: (A ++ B)) := by
    refine List.Perm.trans (List.Perm.cons h List.perm_middle) (List.Perm.swap _ _ _)
  rw [hperm.nodup_iff]
  exact List.nodup_cons.mpr ⟨ha, hnd⟩

theorem atLevel_congr_iff (mem mem2 : Nat → skipNode_t) (i : Nat) (l : List Nat)
    (h : ∀ n ∈ l, (i < (mem2 n).level ↔ i < (mem n).level)) :
    atLevel mem2 i l = atLevel mem i l := by
  unfold atLevel
  apply List.filter_congr
  intro n hn
  simp only [decide_eq_decide]
  exact h n hn

/-- The state in which `initSkipNode` calls `connectNode`: the node is allocated at the next
address and the head has grown to the level of the node if that is higher. -/
theorem initSkipNode_pre (pq : skipPQ_t) (L : List Nat) (data : point_t) (priority level : Nat)
    (inv : SkipInv pq L) :
    ∃ pqB, initSkipNode pq data priority level = connectNode pqB pq.next
      ∧ pqB.head = pq.head ∧ pqB.next = pq.next + 1
      ∧ (pqB.mem pq.next).priority = priority ∧ (pqB.mem pq.next).data = data
      ∧ (pqB.mem pq.next).level = level
      ∧ (∀ n, n ≠ pq.next → (pqB.mem n).priority = (pq.mem n).priority
          ∧ (pqB.mem n).data = (pq.mem n).data
          ∧ (n ≠ pq.head → (pqB.mem n).level = (pq.mem n).level))
      ∧ (pqB.mem pq.head).level = max (pq.mem pq.head).level level
      ∧ ∀ i, i < max (pq.mem pq.head).level level →
          chainTo pqB.mem i (some pq.head) (atLevel pqB.mem i (pq.head :: L)) none := by
  have hha : pq.head ≠ pq.next := ne_of_lt (inv.lt_next pq.head (List.mem_cons_self _ _))
  have haL : ∀ n ∈ pq.head :: L, n ≠ pq.next := fun n hn => ne_of_lt (inv.lt_next n hn)
  have hLle : ∀ n ∈ L, (pq.mem n).level ≤ (pq.mem pq.head).level := inv.level_le
  have hhL : ∀ n ∈ L, n ≠ pq.head := by
    intro n hn hh
    exact (List.nodup_cons.mp inv.nodup).1 (hh ▸ hn)
  by_cases hlv : level > (pq.mem pq.head).level
  · refine ⟨updatePQLevel (initNode pq data priority level).1 level, ?_, rfl, rfl, ?_, ?_, ?_,
      ?_, ?_, ?_⟩
    · unfold initSkipNode
      simp only [initNode, if_neg hha, if_pos hlv]
    · simp [updatePQLevel, initNode, hha.symm]
    · simp [updatePQLevel, initNode, hha.symm]
    · simp [updatePQLevel, initNode, hha.symm]
    · intro n hn
      by_cases hnh : n = pq.head
      · subst hnh
        simp [updatePQLevel, initNode, hha]
      · simp [updatePQLevel, initNode, hn, hnh]
    · simp [updatePQLevel, initNode, hha]
      exact Nat.le_of_lt hlv
    · intro i hi
      rw [max_eq_right (Nat.le_of_lt hlv)] at hi
      by_cases hiH : i < (pq.mem pq.head).level
      · have hat : atLevel (updatePQLevel (initNode pq data priority level).1 level).mem i
            (pq.head :: L) = atLevel pq.mem i (pq.head :: L) := by
          apply atLevel_congr_iff
          intro n hn
          rcases List.mem_cons.mp hn with h | h
          · subst h
            simp [updatePQLevel, initNode, hha, hi, hiH]
          · simp [updatePQLevel, initNode, hhL n h, haL n hn]
        rw [hat]
        refine chainTo_congr pq.mem _ i _ _ _ (fun n hn => ?_) (inv.links i hiH)
        rw [mem_atLevel] at hn
        rcases List.mem_cons.mp hn.1 with h | h
        · subst h
          simp [updatePQLevel, initNode, hha, hi, hiH]
        · simp [updatePQLevel, initNode, hhL n h, haL n hn.1]
      · have hat : atLevel (updatePQLevel (initNode pq data priority level).1 level).mem i
            (pq.head :: L) = [pq.head] := by
          rw [atLevel_cons_pos _ _ _ _ (by simp [updatePQLevel, initNode, hha, hi])]
          congr 1
          rw [atLevel_eq_nil_iff]
          intro n hn
          have := hLle n hn
          simp [updatePQLevel, initNode, hhL n hn, haL n (List.mem_cons_of_mem _ hn)]
          omega
        rw [hat, chainTo_cons, chainTo_nil]
        refine ⟨rfl, ?_⟩
        simp [updatePQLevel, initNode, hha, hi, hiH]
  · refine ⟨(initNode pq data priority level).1, ?_, rfl, rfl, ?_, ?_, ?_, ?_, ?_, ?_⟩
    · unfold initSkipNode
      simp only [initNode, if_neg hha, if_neg hlv]
    · simp [initNode]
    · simp [initNode]
    · simp [initNode]
    · intro n hn
      simp [initNode, hn]
    · simp [initNode, hha]
      exact Nat.not_lt.mp hlv
    · intro i hi
      rw [max_eq_left (Nat.not_lt.mp hlv)] at hi
      have hat : atLevel (initNode pq data priority level).1.mem i (pq.head :: L)
          = atLevel pq.mem i (pq.head :: L) := by
        apply atLevel_congr
        intro n hn
        simp [initNode, haL n hn]
      rw [hat]
      refine chainTo_congr pq.mem _ i _ _ _ (fun n hn => ?_) (inv.links i hi)
      rw [mem_atLevel] at hn
      simp [initNode, haL n hn.1]

/-- The function `initSkipNode` keeps the skip list well formed: the new node, stored at the
next free address, is linked immediately before the first node whose priority is not
smaller than its own. -/
theorem initSkipNode_spec (pq : skipPQ_t) (L : List Nat) (data : point_t) (priority level : Nat)
    (inv : SkipInv pq L) (hl : 1 ≤ level) :
    ∃ pq2, initSkipNode pq data priority level = .ok pq2
      ∧ SkipInv pq2 (L.takeWhile (fun n => decide ((pq.mem n).priority < priority)) ++ pq.next ::
          L.dropWhile (fun n => decide ((pq.mem n).priority < priority)))
      ∧ pq2.next = pq.next + 1 ∧ pq2.head = pq.head
      ∧ (pq2.mem pq.next).priority = priority ∧ (pq2.mem pq.next).data = data
      ∧ (pq2.mem pq.next).level = level
      ∧ (∀ n, n ≠ pq.next → (pq2.mem n).priority = (pq.mem n).priority
          ∧ (pq2.mem n).data = (pq.mem n).data
          ∧ (n ≠ pq.head → (pq2.mem n).level = (pq.mem n).level))
      ∧ (pq2.mem pq.head).level = max (pq.mem pq.head).level level := by
  obtain ⟨pqB, hB, hBh, hBn, hBp, hBd, hBl, hBo, hBH, hBc⟩ :=
    initSkipNode_pre pq L data priority level inv
  generalize hL1 : L.takeWhile (fun n => decide ((pq.mem n).priority < priority)) = L₁
  generalize hL2 : L.dropWhile (fun n => decide ((pq.mem n).priority < priority)) = L₂
  have hL : L₁ ++ L₂ = L := by rw [← hL1, ← hL2]; exact List.takeWhile_append_dropWhile _ _
  have hlt1 : ∀ n ∈ L₁, (pq.mem n).priority < priority := by
    rw [← hL1]; exact lt_of_mem_takeWhile (fun n => (pq.mem n).priority) priority L
  have hle2 : ∀ n ∈ L₂, priority ≤ (pq.mem n).priority := by
    rw [← hL2]; exact le_of_mem_dropWhile (fun n => (pq.mem n).priority) priority L inv.sorted
  have hmem1 : ∀ n ∈ L₁, n ∈ L := fun n hn => hL ▸ List.mem_append_left _ hn
  have hmem2 : ∀ n ∈ L₂, n ∈ L := fun n hn => hL ▸ List.mem_append_right _ hn
  have haL : ∀ n ∈ pq.head :: L, n ≠ pq.next := fun n hn => ne_of_lt (inv.lt_next n hn)
  have hhL : ∀ n ∈ L, n ≠ pq.head := by
    intro n hn hh
    exact (List.nodup_cons.mp inv.nodup).1 (hh ▸ hn)
  have hnd : (pq.head :: (L₁ ++ L₂)).Nodup := by rw [hL]; exact inv.nodup
  have hnd1 : (pq.head :: L₁).Nodup :=
    hnd.sublist (List.Sublist.cons₂ _ (List.sublist_append_left _ _))
  have hdisj : ∀ n ∈ pq.head :: L₁, n ∉ L₂ := by
    have h3 : ((pq.head :: L₁) ++ L₂).Nodup := hnd
    exact fun n hn hn2 => (List.disjoint_of_nodup_append h3) hn hn2
  have hlen : L.length + 1 ≤ pq.next := by
    have := length_le_of_nodup_lt (pq.head :: L) pq.next inv.nodup inv.lt_next
    simpa using this
  have hlen1 : L₁.length ≤ L.length := by rw [← hL]; simp
  obtain ⟨pq2, hres, hn2, hh2, hlev2, hpri2, hdat2, hch2⟩ :=
    connectNode_spec pqB pq.next L₁ L₂ (hBh ▸ hnd1)
      (fun hm => by
        rw [hBh] at hm
        rcases List.mem_cons.mp hm with h | h
        · exact haL pq.head (List.mem_cons_self _ _) h.symm
        · exact haL _ (List.mem_cons_of_mem _ (hmem1 _ h)) rfl)
      (fun hm => haL _ (List.mem_cons_of_mem _ (hmem2 _ hm)) rfl)
      (hBh ▸ hdisj)
      (fun n hn => by
        rw [hBp, (hBo n (haL n (List.mem_cons_of_mem _ (hmem1 n hn)))).1]
        exact hlt1 n hn)
      (fun n hn => by
        rw [hBp, (hBo n (haL n (List.mem_cons_of_mem _ (hmem2 n hn)))).1]
        exact hle2 n hn)
      (fun n hn => by
        rw [hBh, hBH, (hBo n (haL n (List.mem_cons_of_mem _ (hmem1 n hn)))).2.2
          (hhL n (hmem1 n hn))]
        exact le_trans (inv.level_le n (hmem1 n hn)) (le_max_left _ _))
      (by rw [hBn]; omega)
      (by
        intro i hi
        rw [hBh] at hi ⊢
        rw [hBH] at hi
        have e : pq.head :: L₁ ++ L₂ = pq.head :: L := by rw [← hL]; rfl
        rw [e]
        exact hBc i hi)
  rw [hBh] at hh2 hch2
  refine ⟨pq2, by rw [hB]; exact hres, ?_, by rw [hn2, hBn], hh2, by rw [hpri2, hBp],
    by rw [hdat2, hBd], by rw [hlev2, hBl], ?_, by rw [hlev2, hBH]⟩
  · have hlevel : ∀ n ∈ L, (pq2.mem n).level = (pq.mem n).level := fun n hn => by
      rw [hlev2, (hBo n (haL n (List.mem_cons_of_mem _ hn))).2.2 (hhL n hn)]
    have hprio : ∀ n ∈ L, (pq2.mem n).priority = (pq.mem n).priority := fun n hn => by
      rw [hpri2, (hBo n (haL n (List.mem_cons_of_mem _ hn))).1]
    have hmemI : ∀ n ∈ L₁ ++ pq.next :: L₂, n = pq.next ∨ n ∈ L := by
      intro n hn
      rcases List.mem_append.mp hn with h | h
      · exact Or.inr (hmem1 n h)
      · rcases List.mem_cons.mp h with h | h
        · exact Or.inl h
        · exact Or.inr (hmem2 n h)
    refine
      { nodup := ?_
        lt_next := ?_
        sorted := ?_
        level_pos := ?_
        level_le := ?_
        links := ?_ }
    · rw [hh2]
      exact nodup_insert pq.head pq.next L₁ L₂ hnd (by rw [hL]; exact fun hm => haL _ hm rfl)
    · intro n hn
      rw [hh2] at hn
      rw [hn2, hBn]
      rcases List.mem_cons.mp hn with h | h
      · rw [h]; exact Nat.lt_succ_of_lt (inv.lt_next _ (List.mem_cons_self _ _))
      · rcases hmemI n h with h | h
        · rw [h]; exact Nat.lt_succ_self _
        · exact Nat.lt_succ_of_lt (inv.lt_next _ (List.mem_cons_of_mem _ h))
    · rw [List.pairwise_append]
      have hsL : (L₁ ++ L₂).Pairwise
          (fun m n => (pq2.mem m).priority ≤ (pq2.mem n).priority) := by
        rw [hL]
        refine List.Pairwise.imp_of_mem ?_ inv.sorted
        intro m n hm hn hmn
        rw [hprio m hm, hprio n hn]; exact hmn
      rw [List.pairwise_append] at hsL
      refine ⟨hsL.1, ?_, ?_⟩
      · rw [List.pairwise_cons]
        refine ⟨fun n hn => ?_, hsL.2.1⟩
        rw [hpri2 pq.next, hBp, hprio n (hmem2 n hn)]
        exact hle2 n hn
      · intro m hm n hn
        rcases List.mem_cons.mp hn with h | h
        · rw [h, hpri2 pq.next, hBp, hprio m (hmem1 m hm)]
          exact Nat.le_of_lt (hlt1 m hm)
        · exact hsL.2.2 m hm n h
    · intro n hn
      rw [hh2] at hn
      rcases List.mem_cons.mp hn with h | h
      · rw [h, hlev2, hBH]
        exact le_trans hl (le_max_right _ _)
      · rcases hmemI n h with h | h
        · rw [h, hlev2, hBl]; exact hl
        · rw [hlevel n h]; exact inv.level_pos n (List.mem_cons_of_mem _ h)
    · intro n hn
      rw [hh2, hlev2 pq.head, hBH]
      rcases hmemI n hn with h | h
      · rw [h, hlev2, hBl]; exact le_max_right _ _
      · rw [hlevel n h]; exact le_trans (inv.level_le n h) (le_max_left _ _)
    · intro i hi
      rw [hh2] at hi ⊢
      rw [hlev2] at hi
      exact hch2 i hi
  · intro n hn
    rw [hpri2, hdat2, hlev2]
    exact hBo n hn

/-- The loop of `freeMinSkipNode` copies the links of `node` into the head for the levels
`i .. c - 1` and stops either after the last level of the node or at the first level `c - 1`
at which the node has no successor. -/
theorem freeMinLoop_spec (h node : Nat) (hne : node ≠ h) (mem0 : Nat → skipNode_t) :
    ∀ (n i : Nat) (mem : Nat → skipNode_t) (nl : Nat),
      (∀ m, m ≠ h → mem m = mem0 m) →
      (mem h).level = (mem0 h).level →
      (∀ j, j < i → (mem h).forward j = (mem0 node).forward j) →
      (∀ j, i ≤ j → (mem h).forward j = (mem0 h).forward j) →
      ∃ c, i ≤ c ∧ c ≤ i + n
        ∧ (∀ m, m ≠ h → (freeMinLoop h node n i mem nl).1 m = mem0 m)
        ∧ ((freeMinLoop h node n i mem nl).1 h).level = (mem0 h).level
        ∧ (∀ j, j < c → ((freeMinLoop h node n i mem nl).1 h).forward j = (mem0 node).forward j)
        ∧ (∀ j, c ≤ j → ((freeMinLoop h node n i mem nl).1 h).forward j = (mem0 h).forward j)
        ∧ ((c = i + n ∧ (freeMinLoop h node n i mem nl).2 = nl)
          ∨ (i < c ∧ (freeMinLoop h node n i mem nl).2 = c
              ∧ (mem0 node).forward (c - 1) = none)) := by
  intro n
  induction n with
  | zero =>
    intro i mem nl hm hl hlo hhi
    exact ⟨i, Nat.le_refl _, Nat.le_refl _, hm, hl, hlo, hhi, Or.inl ⟨rfl, rfl⟩⟩
  | succ n ih =>
    intro i mem nl hm hl hlo hhi
    have hnode : (mem node).forward i = (mem0 node).forward i := by rw [hm node hne]
    have hm1 : ∀ m, m ≠ h → setForward mem h i ((mem node).forward i) m = mem0 m := by
      intro m hmh
      unfold setForward
      rw [if_neg hmh]; exact hm m hmh
    have hl1 : (setForward mem h i ((mem node).forward i) h).level = (mem0 h).level := by
      rw [setForward_level]; exact hl
    have hlo1 : ∀ j, j < i + 1 →
        (setForward mem h i ((mem node).forward i) h).forward j = (mem0 node).forward j := by
      intro j hj
      rw [setForward_forward]
      by_cases hji : j = i
      · rw [if_pos ⟨rfl, hji⟩, hji]; exact hnode
      · rw [if_neg (fun hh => hji hh.2)]; exact hlo j (by omega)
    have hhi1 : ∀ j, i + 1 ≤ j →
        (setForward mem h i ((mem node).forward i) h).forward j = (mem0 h).forward j := by
      intro j hj
      rw [setForward_forward, if_neg (fun hh => by omega)]
      exact hhi j (by omega)
    unfold freeMinLoop
    simp only
    by_cases hnone : ((setForward mem h i ((mem node).forward i) h).forward i).isNone = true
    · rw [if_pos hnone]
      refine ⟨i + 1, by omega, by omega, hm1, hl1, hlo1, hhi1, Or.inr ⟨by omega, rfl, ?_⟩⟩
      rw [setForward_forward_same, hnode] at hnone
      simpa using hnone
    · rw [if_neg hnone]
      obtain ⟨c, hc1, hc2, r1, r2, r3, r4, r5⟩ := ih (i + 1) _ nl hm1 hl1 hlo1 hhi1
      refine ⟨c, by omega, by omega, r1, r2, r3, r4, ?_⟩
      rcases r5 with ⟨h5, h6⟩ | ⟨h5, h6, h7⟩
      · exact Or.inl ⟨by omega, h6⟩
      · exact Or.inr ⟨by omega, h6, h7⟩

/-- Rebuild the invariant for the tail `L` after the head links have been redirected. -/
theorem SkipInv_of_tail (pq pq2 : skipPQ_t) (n : Nat) (L : List Nat) (inv : SkipInv pq (n :: L))
    (hh : pq2.head = pq.head) (hn : pq2.next = pq.next)
    (hm : ∀ m, m ≠ pq.head → pq2.mem m = pq.mem m)
    (hH : 1 ≤ (pq2.mem pq.head).level)
    (hle : ∀ m ∈ L, (pq.mem m).level ≤ (pq2.mem pq.head).level)
    (hch : ∀ i, i < (pq2.mem pq.head).level →
      chainTo pq.mem i ((pq2.mem pq.head).forward i) (atLevel pq.mem i L) none) :
    SkipInv pq2 L := by
  have hnd := inv.nodup
  have hhL : ∀ m ∈ L, m ≠ pq.head := by
    intro m hmL hmh
    exact (List.nodup_cons.mp hnd).1 (hmh ▸ List.mem_cons_of_mem _ hmL)
  refine
    { nodup := ?_
      lt_next := ?_
      sorted := ?_
      level_pos := ?_
      level_le := ?_
      links := ?_ }
  · rw [hh]
    exact hnd.sublist (List.Sublist.cons₂ _ (List.sublist_cons_self _ _))
  · intro m hmem
    rw [hh] at hmem
    rw [hn]
    rcases List.mem_cons.mp hmem with h | h
    · exact inv.lt_next m (h ▸ List.mem_cons_self _ _)
    · exact inv.lt_next m (List.mem_cons_of_mem _ (List.mem_cons_of_mem _ h))
  · have hs := (List.pairwise_cons.mp inv.sorted).2
    refine List.Pairwise.imp_of_mem ?_ hs
    intro a b ha hb hab
    rw [hm a (hhL a ha), hm b (hhL b hb)]; exact hab
  · intro m hmem
    rw [hh] at hmem
    rcases List.mem_cons.mp hmem with h | h
    · rw [h]; exact hH
    · rw [hm m (hhL m h)]
      exact inv.level_pos m (List.mem_cons_of_mem _ (List.mem_cons_of_mem _ h))
  · intro m hmem
    rw [hh, hm m (hhL m hmem)]
    exact hle m hmem
  · intro i hi
    rw [hh] at hi ⊢
    rw [atLevel_cons_pos pq2.mem i pq.head L hi, chainTo_cons]
    refine ⟨rfl, ?_⟩
    have hat : atLevel pq2.mem i L = atLevel pq.mem i L :=
      atLevel_congr pq.mem pq2.mem i L (fun m hmem => by rw [hm m (hhL m hmem)])
    rw [hat]
    refine chainTo_congr pq.mem pq2.mem i _ _ _ (fun m hmem => ?_) (hch i hi)
    rw [mem_atLevel] at hmem
    rw [hm m (hhL m hmem.1)]

theorem getMinSkipNode_cons (pq : skipPQ_t) (n : Nat) (L : List Nat)
    (inv : SkipInv pq (n :: L)) : getMinSkipNode pq = some n := by
  have h0 : 0 < (pq.mem pq.head).level := inv.level_pos _ (List.mem_cons_self _ _)
  have hn0 : 0 < (pq.mem n).level :=
    inv.level_pos _ (List.mem_cons_of_mem _ (List.mem_cons_self _ _))
  have hc := inv.links 0 h0
  rw [atLevel_cons_pos _ _ _ _ h0, atLevel_cons_pos _ _ _ _ hn0, chainTo_cons, chainTo_cons] at hc
  exact hc.2.1

theorem getMinSkipNode_nil (pq : skipPQ_t) (inv : SkipInv pq []) : getMinSkipNode pq = none := by
  have h0 : 0 < (pq.mem pq.head).level := inv.level_pos _ (List.mem_cons_self _ _)
  have hc := inv.links 0 h0
  rw [atLevel_cons_pos _ _ _ _ h0, chainTo_cons] at hc
  exact hc.2

/-- The function `freeMinSkipNode` on a non-empty well-formed queue unlinks exactly the first
node; all other nodes are left untouched. -/
theorem freeMinSkipNode_spec (pq : skipPQ_t) (n : Nat) (L : List Nat)
    (inv : SkipInv pq (n :: L)) :
    ∃ pq2, freeMinSkipNode pq = .ok pq2 ∧ SkipInv pq2 L ∧ pq2.next = pq.next
      ∧ pq2.head = pq.head ∧ ∀ m, m ≠ pq.head → pq2.mem m = pq.mem m := by
  have hH0 : 0 < (pq.mem pq.head).level := inv.level_pos _ (List.mem_cons_self _ _)
  have hk0 : 0 < (pq.mem n).level :=
    inv.level_pos _ (List.mem_cons_of_mem _ (List.mem_cons_self _ _))
  have hkH : (pq.mem n).level ≤ (pq.mem pq.head).level :=
    inv.level_le n (List.mem_cons_self _ _)
  have hnh : n ≠ pq.head := by
    intro hh
    exact (List.nodup_cons.mp inv.nodup).1 (hh ▸ List.mem_cons_self _ _)
  have hA : ∀ i, i < (pq.mem n).level →
      chainTo pq.mem i ((pq.mem n).forward i) (atLevel pq.mem i L) none := by
    intro i hi
    have hc := inv.links i (lt_of_lt_of_le hi hkH)
    rw [atLevel_cons_pos _ _ _ _ (lt_of_lt_of_le hi hkH), atLevel_cons_pos _ _ _ _ hi,
      chainTo_cons, chainTo_cons] at hc
    exact hc.2.2
  have hB : ∀ i, (pq.mem n).level ≤ i → i < (pq.mem pq.head).level →
      chainTo pq.mem i ((pq.mem pq.head).forward i) (atLevel pq.mem i L) none := by
    intro i hi hiH
    have hc := inv.links i hiH
    rw [atLevel_cons_pos _ _ _ _ hiH, atLevel_cons_neg _ _ _ _ hi, chainTo_cons] at hc
    exact hc.2
  have hLle : ∀ m ∈ L, (pq.mem m).level ≤ (pq.mem pq.head).level :=
    fun m hm => inv.level_le m (List.mem_cons_of_mem _ hm)
  obtain ⟨c, _, hc2, r1, r2, r3, r4, r5⟩ :=
    freeMinLoop_spec pq.head n hnh pq.mem (pq.mem n).level 0 pq.mem (pq.mem pq.head).level
      (fun _ _ => rfl) rfl (fun j hj => absurd hj (Nat.not_lt_zero j)) (fun _ _ => rfl)
  unfold freeMinSkipNode
  rw [getMinSkipNode_cons pq n L inv]
  simp only
  generalize freeMinLoop pq.head n (pq.mem n).level 0 pq.mem (pq.mem pq.head).level = r
    at r1 r2 r3 r4 r5
  obtain ⟨mem1, nl⟩ := r
  simp only at r1 r2 r3 r4 r5 ⊢
  rw [Nat.zero_add] at hc2
  have hchain : ∀ i, i < c → chainTo pq.mem i ((mem1 pq.head).forward i) (atLevel pq.mem i L) none :=
    fun i hi => by rw [r3 i hi]; exact hA i (lt_of_lt_of_le hi hc2)
  rcases r5 with ⟨h5, h6⟩ | ⟨h5, h6, h7⟩
  · -- the node has a successor at each of its levels
    rw [Nat.zero_add] at h5
    rw [h6, r2, if_neg (Nat.lt_irrefl _)]
    refine ⟨_, rfl, ?_, rfl, rfl, r1⟩
    refine SkipInv_of_tail pq _ n L inv rfl rfl r1 (by simp only; rw [r2]; exact hH0)
      (by simp only; rw [r2]; exact hLle) ?_
    intro i hi
    simp only at hi ⊢
    rw [r2] at hi
    by_cases hic : i < c
    · exact hchain i hic
    · rw [r4 i (Nat.not_lt.mp hic)]
      exact hB i (h5 ▸ Nat.not_lt.mp hic) hi
  · -- the loop stopped at level `c - 1`
    have hnil : atLevel pq.mem (c - 1) L = [] := by
      have := hA (c - 1) (by omega)
      rw [h7] at this
      exact chainTo_none_nil _ _ _ _ this
    have hLc : ∀ m ∈ L, (pq.mem m).level ≤ c := by
      intro m hm
      have := (atLevel_eq_nil_iff pq.mem (c - 1) L).mp hnil m hm
      omega
    rw [h6, r2]
    by_cases hcH : c < (pq.mem pq.head).level
    · rw [if_pos hcH]
      refine ⟨_, rfl, ?_, rfl, rfl, ?_⟩
      · refine SkipInv_of_tail pq _ n L inv rfl rfl ?_ ?_ ?_ ?_
        · intro m hm
          simp [updatePQLevel, hm, r1 m hm]
        · simp [updatePQLevel]; omega
        · simp [updatePQLevel]; exact hLc
        · intro i hi
          simp only [updatePQLevel, if_true] at hi ⊢
          rw [if_pos hi, r2, if_pos (lt_trans hi hcH)]
          exact hchain i hi
      · intro m hm
        simp [updatePQLevel, hm, r1 m hm]
    · rw [if_neg hcH]
      have hcH2 : c = (pq.mem pq.head).level := by omega
      refine ⟨_, rfl, ?_, rfl, rfl, r1⟩
      refine SkipInv_of_tail pq _ n L inv rfl rfl r1 (by simp only; rw [r2]; exact hH0)
        (by simp only; rw [r2]; exact hLle) ?_
      intro i hi
      simp only at hi ⊢
      rw [r2, ← hcH2] at hi
      exact hchain i hi

theorem SkipInv_initSkipPQ : SkipInv initSkipPQ [] := by
  refine
    { nodup := by simp
      lt_next := by simp [initSkipPQ]
      sorted := List.Pairwise.nil
      level_pos := by simp [initSkipPQ]
      level_le := by simp
      links := ?_ }
  intro i hi
  have hi0 : i = 0 := by simp [initSkipPQ] at hi; omega
  subst hi0
  rw [atLevel_cons_pos _ _ _ _ (by simp [initSkipPQ]), chainTo_cons]
  exact ⟨rfl, rfl⟩

/-- A fresh queue holds no entry. -/
theorem holds_initSkipPQ : holds initSkipPQ [] :=
  ⟨[], SkipInv_initSkipPQ, rfl⟩

/-- Inserting into a queue that holds `q` gives a queue that holds `insertEntry _ q`. -/
theorem holds_initSkipNode (pq : skipPQ_t) (q : List (Nat × point_t)) (data : point_t)
    (priority level : Nat) (hq : holds pq q) (hl : 1 ≤ level) :
    ∃ pq2, initSkipNode pq data priority level = .ok pq2
      ∧ holds pq2 (insertEntry (priority, data) q) ∧ pq2.next = pq.next + 1 := by
  obtain ⟨L, inv, hL⟩ := hq
  obtain ⟨pq2, hres, inv2, hn, _, hp, hd, _, ho, _⟩ :=
    initSkipNode_spec pq L data priority level inv hl
  refine ⟨pq2, hres, ⟨_, inv2, ?_⟩, hn⟩
  have haL : ∀ n ∈ L, n ≠ pq.next :=
    fun n hn => ne_of_lt (inv.lt_next n (List.mem_cons_of_mem _ hn))
  have hcongr : ∀ l : List Nat, (∀ n ∈ l, n ∈ L) → entries pq2 l = entries pq l := by
    intro l hl
    unfold entries
    apply List.map_congr_left
    intro n hn
    rw [(ho n (haL n (hl n hn))).1, (ho n (haL n (hl n hn))).2.1]
  unfold insertEntry
  rw [← hL]
  simp only [entries, List.map_append, List.map_cons, hp, hd]
  rw [List.takeWhile_map, List.dropWhile_map]
  have e1 := hcongr (L.takeWhile (fun n => decide ((pq.mem n).priority < priority)))
    (fun n hn => (List.takeWhile_sublist _).subset hn)
  have e2 := hcongr (L.dropWhile (fun n => decide ((pq.mem n).priority < priority)))
    (fun n hn => (List.dropWhile_sublist _).subset hn)
  unfold entries at e1 e2
  rw [e1, e2]
  rfl

theorem holds_nil_isEmpty (pq : skipPQ_t) (hq : holds pq []) : isSkipPQEmpty pq = true := by
  obtain ⟨L, inv, hL⟩ := hq
  have : L = [] := by simpa [entries] using hL
  subst this
  have h := getMinSkipNode_nil pq inv
  unfold getMinSkipNode at h
  unfold isSkipPQEmpty
  rw [h]; rfl

/-- Taking the minimum out of a queue that holds `e :: q`: the queue is not empty, the data
read is that of `e`, and `freeMinSkipNode` leaves a queue that holds `q`. -/
theorem holds_cons_pop (pq : skipPQ_t) (e : Nat × point_t) (q : List (Nat × point_t))
    (hq : holds pq (e :: q)) :
    isSkipPQEmpty pq = false
      ∧ getSkipNodeData pq (getMinSkipNode pq) = .ok e.2
      ∧ getSkipNodePriority pq (getMinSkipNode pq) = .ok e.1
      ∧ ∃ pq2, freeMinSkipNode pq = .ok pq2 ∧ holds pq2 q ∧ pq2.next = pq.next := by
  obtain ⟨L, inv, hL⟩ := hq
  cases L with
  | nil => simp [entries] at hL
  | cons n L =>
    simp only [entries, List.map_cons, List.cons.injEq] at hL
    obtain ⟨he, hLq⟩ := hL
    have hmin := getMinSkipNode_cons pq n L inv
    obtain ⟨pq2, hres, inv2, hn2, _, hm2⟩ := freeMinSkipNode_spec pq n L inv
    have hhL : ∀ m ∈ L, m ≠ pq.head := by
      intro m hmL hmh
      exact (List.nodup_cons.mp inv.nodup).1 (hmh ▸ List.mem_cons_of_mem _ hmL)
    refine ⟨?_, ?_, ?_, pq2, hres, ⟨L, inv2, ?_⟩, hn2⟩
    · unfold isSkipPQEmpty
      unfold getMinSkipNode at hmin
      rw [hmin]; rfl
    · rw [hmin, ← he]; rfl
    · rw [hmin, ← he]; rfl
    · rw [← hLq]
      unfold entries
      apply List.map_congr_left
      intro m hm
      rw [hm2 m (hhL m hm)]

/-! ### The skip list search agrees with the list search -/

theorem exploreMove_sim (rnd : Nat → Nat) (hrnd : ∀ k, 1 ≤ rnd k) (d : dungeon_t)
    (current target : point_t) (st : search_t) (sl : searchL_t) (move : point_t)
    (h : simState st sl) :
    simResult (exploreMove rnd d current target st move)
      (exploreMoveL d current target sl move) := by
  obtain ⟨hq, hpd⟩ := h
  unfold exploreMove exploreMoveL
  rw [hpd]
  simp only
  cases isValidMove d current (addPoints current move) with
  | none => exact rfl
  | some b =>
    cases b with
    | false => exact ⟨hq, hpd⟩
    | true =>
      simp only
      cases getPointData sl.pointData current with
      | error e => exact rfl
      | ok cur =>
        simp only
        cases getPointData sl.pointData (addPoints current move) with
        | error e => exact rfl
        | ok nb =>
          simp only
          split
          · cases setPointData sl.pointData (addPoints current move)
              { nb with prev := current, gScore := (cur.gScore + cost move) % 4294967296 } with
            | error e => exact rfl
            | ok pd1 =>
              simp only
              split
              · obtain ⟨pq2, hres, hq2, _⟩ := holds_initSkipNode st.opn sl.q
                  (addPoints current move)
                  (((cur.gScore + cost move) % 4294967296
                    + distancePoints current target COST_CARDINAL COST_DIAGONAL) % 4294967296)
                  (rnd st.opn.next) hq (hrnd _)
                rw [hres]
                exact ⟨hq2, rfl⟩
              · exact ⟨hq, rfl⟩
          · exact ⟨hq, hpd⟩

theorem exploreLoop_sim (rnd : Nat → Nat) (hrnd : ∀ k, 1 ≤ rnd k) (d : dungeon_t)
    (current target : point_t) (moves : List point_t) :
    ∀ (st : search_t) (sl : searchL_t), simState st sl →
      simResult (exploreLoop rnd d current target moves st)
        (exploreLoopL d current target moves sl) := by
  induction moves with
  | nil => intro st sl h; exact h
  | cons m moves ih =>
    intro st sl h
    have h1 := exploreMove_sim rnd hrnd d current target st sl m h
    unfold exploreLoop exploreLoopL
    cases hr : exploreMove rnd d current target st m with
    | error e =>
      cases hl : exploreMoveL d current target sl m with
      | error e2 => rw [hr, hl] at h1; exact h1
      | ok sl1 => rw [hr, hl] at h1; exact h1.elim
    | ok st1 =>
      cases hl : exploreMoveL d current target sl m with
      | error e2 => rw [hr, hl] at h1; exact h1.elim
      | ok sl1 =>
        rw [hr, hl] at h1
        exact ih st1 sl1 h1

theorem findLoop_sim (rnd : Nat → Nat) (hrnd : ∀ k, 1 ≤ rnd k) (d : dungeon_t)
    (source target : point_t) (fuel0 : Nat) :
    ∀ (fuel : Nat) (st : search_t) (sl : searchL_t), simState st sl →
      findLoop rnd d source target fuel0 fuel st
        = pathOf (findLoopL d source target fuel0 fuel sl) := by
  intro fuel
  induction fuel with
  | zero => intro st sl _; rfl
  | succ fuel ih =>
    intro st sl h
    obtain ⟨hq, hpd⟩ := h
    unfold findLoop findLoopL
    cases hsq : sl.q with
    | nil =>
      rw [hsq] at hq
      rw [holds_nil_isEmpty st.opn hq]
      rfl
    | cons e q1 =>
      rw [hsq] at hq
      obtain ⟨hemp, hdata, _, pq2, hfree, hq2, _⟩ := holds_cons_pop st.opn e q1 hq
      rw [hemp, hdata, hfree, hpd]
      simp only [Bool.false_eq_true, if_false]
      cases getPointData sl.pointData e.2 with
      | error err => rfl
      | ok c =>
        simp only
        split
        · exact ih _ _ ⟨hq2, rfl⟩
        · cases setPointData sl.pointData e.2 { c with isClosed := true } with
          | error err => rfl
          | ok pd1 =>
            simp only
            split
            · cases reconstructPath fuel0 pd1 source target <;> rfl
            · have hs := exploreLoop_sim rnd hrnd d e.2 target MOVES
                { opn := pq2, pointData := pd1 } { q := q1, pointData := pd1 } ⟨hq2, rfl⟩
              unfold exploreNeighbours
              cases hr : exploreLoop rnd d e.2 target MOVES { opn := pq2, pointData := pd1 } with
              | error e1 =>
                cases hl : exploreLoopL d e.2 target MOVES { q := q1, pointData := pd1 } with
                | error e2 =>
                  rw [hr, hl] at hs
                  have : e1 = e2 := hs
                  rw [this]
                  rfl
                | ok sl1 => rw [hr, hl] at hs; exact hs.elim
              | ok st1 =>
                cases hl : exploreLoopL d e.2 target MOVES { q := q1, pointData := pd1 } with
                | error e2 => rw [hr, hl] at hs; exact hs.elim
                | ok sl1 =>
                  rw [hr, hl] at hs
                  exact ih st1 sl1 hs

/-- With positive node levels the result of `findPath` does not depend on the levels: it is
the result of the search over a plain sorted list. -/
theorem findPath_eq_findPathL (fuel : Nat) (rnd : Nat → Nat) (hrnd : ∀ k, 1 ≤ rnd k)
    (d : dungeon_t) (source target : point_t) :
    findPath fuel rnd d source target = pathOf (findPathL fuel d source target) := by
  unfold findPath findPathL
  simp only
  cases getPointData (initPointData (getDungeonWidth d) (getDungeonHeight d)) source with
  | error e => rfl
  | ok c =>
    simp only
    cases setPointData (initPointData (getDungeonWidth d) (getDungeonHeight d)) source
        { c with gScore := 0 } with
    | error e => rfl
    | ok pd1 =>
      simp only
      obtain ⟨pq2, hres, hq2, _⟩ := holds_initSkipNode initSkipPQ [] source 0
        (rnd initSkipPQ.next) holds_initSkipPQ (hrnd _)
      rw [hres]
      exact findLoop_sim rnd hrnd d source target fuel fuel _ _ ⟨hq2, rfl⟩

/-! ### Fuel and evaluation -/

theorem reconstructLength_mono (pd : pointTable_t) (source : point_t) :
    ∀ (fuel fuel2 : Nat) (current : point_t) (length r : Nat), fuel ≤ fuel2 →
      reconstructLength pd source fuel current length = .ok r →
      reconstructLength pd source fuel2 current length = .ok r := by
  intro fuel
  induction fuel with
  | zero => intro fuel2 current length r _ h; simp [reconstructLength] at h
  | succ fuel ih =>
    intro fuel2 current length r hle h
    obtain ⟨f2, rfl⟩ : ∃ f2, fuel2 = f2 + 1 := ⟨fuel2 - 1, by omega⟩
    unfold reconstructLength at h ⊢
    split
    · rename_i hne
      rw [if_pos hne] at h
      cases hg : getPointData pd current with
      | error e => rw [hg] at h; exact h
      | ok c =>
        rw [hg] at h
        exact ih f2 _ _ _ (by omega) h
    · rename_i hne
      rw [if_neg hne] at h
      exact h

theorem reconstructPath_mono (pd : pointTable_t) (source target : point_t) (fuel fuel2 : Nat)
    (p : List point_t) (hle : fuel ≤ fuel2) (h : reconstructPath fuel pd source target = .ok p) :
    reconstructPath fuel2 pd source target = .ok p := by
  unfold reconstructPath at h ⊢
  cases hl : reconstructLength pd source fuel target 0 with
  | error e => rw [hl] at h; simp at h
  | ok len =>
    rw [hl] at h
    rw [reconstructLength_mono pd source fuel fuel2 target 0 len hle hl]
    exact h

theorem findLoopL_mono (d : dungeon_t) (source target : point_t) (fuel0 fuel02 : Nat)
    (h0 : fuel0 ≤ fuel02) :
    ∀ (fuel fuel2 : Nat) (st : searchL_t) (r : Option (List point_t × pointTable_t)),
      fuel ≤ fuel2 → findLoopL d source target fuel0 fuel st = .ok r →
      findLoopL d source target fuel02 fuel2 st = .ok r := by
  intro fuel
  induction fuel with
  | zero => intro fuel2 st r _ h; simp [findLoopL] at h
  | succ fuel ih =>
    intro fuel2 st r hle h
    obtain ⟨f2, rfl⟩ : ∃ f2, fuel2 = f2 + 1 := ⟨fuel2 - 1, by omega⟩
    unfold findLoopL at h ⊢
    cases hq : st.q with
    | nil => rw [hq] at h; exact h
    | cons e q1 =>
      rw [hq] at h
      simp only at h ⊢
      cases hg : getPointData st.pointData e.2 with
      | error err => rw [hg] at h; exact h
      | ok c =>
        rw [hg] at h
        simp only at h ⊢
        split
        · rename_i hc
          rw [if_pos hc] at h
          exact ih f2 _ _ (by omega) h
        · rename_i hc
          rw [if_neg hc] at h
          cases hs : setPointData st.pointData e.2 { c with isClosed := true } with
          | error err => rw [hs] at h; exact h
          | ok pd1 =>
            rw [hs] at h
            simp only at h ⊢
            split
            · rename_i ht
              rw [if_pos ht] at h
              cases hr : reconstructPath fuel0 pd1 source target with
              | error err => rw [hr] at h; simp at h
              | ok p =>
                rw [hr] at h
                rw [reconstructPath_mono pd1 source target fuel0 fuel02 p h0 hr]
                exact h
            · rename_i ht
              rw [if_neg ht] at h
              cases he : exploreLoopL d e.2 target MOVES { q := q1, pointData := pd1 } with
              | error err => rw [he] at h; exact h
              | ok st1 =>
                rw [he] at h
                exact ih f2 _ _ (by omega) h

/-- More fuel does not change a result of the list search. -/
theorem findPathL_mono (d : dungeon_t) (source target : point_t) (fuel fuel2 : Nat)
    (r : Option (List point_t × pointTable_t)) (hle : fuel ≤ fuel2)
    (h : findPathL fuel d source target = .ok r) :
    findPathL fuel2 d source target = .ok r := by
  unfold findPathL at h ⊢
  simp only at h ⊢
  cases hg : getPointData (initPointData (getDungeonWidth d) (getDungeonHeight d)) source with
  | error e => rw [hg] at h; exact h
  | ok c =>
    rw [hg] at h
    simp only at h ⊢
    cases hs : setPointData (initPointData (getDungeonWidth d) (getDungeonHeight d)) source
        { c with gScore := 0 } with
    | error e => rw [hs] at h; exact h
    | ok pd1 =>
      rw [hs] at h
      exact findLoopL_mono d source target fuel fuel2 hle fuel fuel2 _ r hle h

theorem pathOf_eq_ok_some (x : Except Err (Option (List point_t × pointTable_t)))
    (p : List point_t) (h : pathOf x = .ok (some p)) : ∃ pd, x = .ok (some (p, pd)) := by
  cases x with
  | error e => simp [pathOf] at h
  | ok o =>
    cases o with
    | none => simp [pathOf] at h
    | some r =>
      simp only [pathOf, Except.ok.injEq, Option.some.injEq] at h
      exact ⟨r.2, by rw [← h]⟩

set_option maxRecDepth 100000 in
theorem findPathL_dungeonOpen5 :
    pathOf (findPathL 40 dungeonOpen5 { x := 0, y := 0 } { x := 4, y := 4 })
      = .ok (some [{ x := 1, y := 1 }, { x := 2, y := 2 }, { x := 3, y := 3 },
          { x := 4, y := 4 }]) := by
  rfl

/-! ### Claims settled by evaluation -/

set_option maxRecDepth 100000 in
/-- C1 (failing input): on the 6 x 3 dungeon with walls at `(1,1)` and `(3,1)`, from `(5,2)` to
`(0,0)`, `findPath` returns the 7-step path along the bottom row and the left column, of cost
`7 * 70 = 490`, although the route `(4,1),(4,0),(3,0),(2,0),(1,0),(0,0)` of valid moves costs
`99 + 5 * 70 = 449`. -/
theorem C1_suboptimal_path :
    findPath 146 (fun _ => 1) dungeonC1 { x := 5, y := 2 } { x := 0, y := 0 }
      = .ok (some [{ x := 4, y := 2 }, { x := 3, y := 2 }, { x := 2, y := 2 }, { x := 1, y := 2 },
          { x := 0, y := 2 }, { x := 0, y := 1 }, { x := 0, y := 0 }])
    ∧ routeCost { x := 5, y := 2 }
        [{ x := 4, y := 2 }, { x := 3, y := 2 }, { x := 2, y := 2 }, { x := 1, y := 2 },
          { x := 0, y := 2 }, { x := 0, y := 1 }, { x := 0, y := 0 }] = 490
    ∧ isRoute dungeonC1 { x := 5, y := 2 }
        [{ x := 4, y := 1 }, { x := 4, y := 0 }, { x := 3, y := 0 }, { x := 2, y := 0 },
          { x := 1, y := 0 }, { x := 0, y := 0 }] { x := 0, y := 0 } = true
    ∧ routeCost { x := 5, y := 2 }
        [{ x := 4, y := 1 }, { x := 4, y := 0 }, { x := 3, y := 0 }, { x := 2, y := 0 },
          { x := 1, y := 0 }, { x := 0, y := 0 }] = 449 := by
  refine ⟨?_, ?_, ?_, ?_⟩
  · rfl
  · decide
  · decide
  · decide

/-- C6: on the open 5 x 5 dungeon, from `(0,0)` to `(4,4)`, `findPath` returns exactly the path
`(1,1),(2,2),(3,3),(4,4)` (for every choice of positive node levels and enough fuel), and the
summed move cost of that path is 396. -/
theorem C6_worked_example (fuel : Nat) (rnd : Nat → Nat) (hfuel : 40 ≤ fuel)
    (hrnd : ∀ k, 1 ≤ rnd k) :
    findPath fuel rnd dungeonOpen5 { x := 0, y := 0 } { x := 4, y := 4 }
      = .ok (some [{ x := 1, y := 1 }, { x := 2, y := 2 }, { x := 3, y := 3 },
          { x := 4, y := 4 }])
    ∧ routeCost { x := 0, y := 0 }
        [{ x := 1, y := 1 }, { x := 2, y := 2 }, { x := 3, y := 3 }, { x := 4, y := 4 }]
      = 396 := by
  refine ⟨?_, by decide⟩
  obtain ⟨pd, hpd⟩ := pathOf_eq_ok_some _ _ findPathL_dungeonOpen5
  rw [findPath_eq_findPathL fuel rnd hrnd, findPathL_mono _ _ _ 40 fuel _ hfuel hpd]
  rfl

/-- Witness of C6 with fuel 40 and every node at level 1. -/
theorem C6_worked_example_witness :
    findPath 40 (fun _ => 1) dungeonOpen5 { x := 0, y := 0 } { x := 4, y := 4 }
      = .ok (some [{ x := 1, y := 1 }, { x := 2, y := 2 }, { x := 3, y := 3 },
          { x := 4, y := 4 }]) :=
  (C6_worked_example 40 (fun _ => 1) (Nat.le_refl _) (fun _ => Nat.le_refl _)).1

/-! ### The table of the search -/

theorem getPointData_of_inBounds (d : dungeon_t) (pd : pointTable_t) (p : point_t)
    (hw : pd.width = d.width) (hh : pd.height = d.height) (hp : inBounds d p = true) :
    getPointData pd p = .ok (cellAt pd p) := by
  unfold getPointData
  unfold inBounds at hp
  rw [← hw, ← hh] at hp
  rw [if_pos hp]
  rfl

theorem setPointData_of_inBounds (d : dungeon_t) (pd : pointTable_t) (p : point_t)
    (v : pointData_t)
    (hw : pd.width = d.width) (hh : pd.height = d.height) (hp : inBounds d p = true) :
    setPointData pd p v = .ok (setCell pd p v) := by
  unfold setPointData
  unfold inBounds at hp
  rw [← hw, ← hh] at hp
  rw [if_pos hp]
  rfl

@[simp] theorem setCell_width (pd : pointTable_t) (p : point_t) (v : pointData_t) :
    (setCell pd p v).width = pd.width := rfl

@[simp] theorem setCell_height (pd : pointTable_t) (p : point_t) (v : pointData_t) :
    (setCell pd p v).height = pd.height := rfl

theorem cellAt_setCell_same (pd : pointTable_t) (p : point_t) (v : pointData_t) :
    cellAt (setCell pd p v) p = v := by
  simp [cellAt, setCell]

theorem cellAt_setCell_ne (d : dungeon_t) (pd : pointTable_t) (p n : point_t) (v : pointData_t)
    (hp : inBounds d p = true) (hn : inBounds d n = true) (hne : n ≠ p) :
    cellAt (setCell pd p v) n = cellAt pd n := by
  rw [inBounds_iff] at hp hn
  have : ¬ (n.x.toNat = p.x.toNat ∧ n.y.toNat = p.y.toNat) := by
    intro h
    apply hne
    obtain ⟨nx, ny⟩ := n
    obtain ⟨px, py⟩ := p
    simp only at hp hn h
    simp only [point_t.mk.injEq]
    omega
  simp [cellAt, setCell, this]

theorem cellAt_setCell (d : dungeon_t) (pd : pointTable_t) (p n : point_t) (v : pointData_t)
    (hp : inBounds d p = true) (hn : inBounds d n = true) :
    cellAt (setCell pd p v) n = if n = p then v else cellAt pd n := by
  by_cases h : n = p
  · rw [if_pos h, h, cellAt_setCell_same]
  · rw [if_neg h, cellAt_setCell_ne d pd p n v hp hn h]

theorem unclosed_le (pd : pointTable_t) : unclosed pd ≤ pd.width * pd.height := by
  unfold unclosed
  refine le_trans (Finset.card_filter_le _ _) ?_
  simp

/-- Writing an entry with the same `isClosed` flag keeps the number of unclosed cells. -/
theorem unclosed_setCell_same (pd : pointTable_t) (p : point_t)
    (v : pointData_t) (hv : v.isClosed = (cellAt pd p).isClosed) :
    unclosed (setCell pd p v) = unclosed pd := by
  unfold unclosed
  simp only [setCell_width, setCell_height]
  congr 1
  apply Finset.filter_congr
  intro c _
  simp only [setCell]
  by_cases h : c.1 = p.x.toNat ∧ c.2 = p.y.toNat
  · rw [if_pos h, hv, cellAt, h.1, h.2]
  · rw [if_neg h]

/-- Closing an unclosed cell of the table lowers the number of unclosed cells by one. -/
theorem unclosed_setCell_close (d : dungeon_t) (pd : pointTable_t) (p : point_t)
    (v : pointData_t) (hw : pd.width = d.width) (hh : pd.height = d.height)
    (hp : inBounds d p = true) (hold : (cellAt pd p).isClosed = false)
    (hv : v.isClosed = true) :
    unclosed (setCell pd p v) + 1 = unclosed pd := by
  unfold unclosed
  simp only [setCell_width, setCell_height]
  rw [inBounds_iff] at hp
  have hmem : (p.x.toNat, p.y.toNat) ∈ (Finset.range pd.width ×ˢ Finset.range pd.height).filter
      (fun c => (pd.cell c.1 c.2).isClosed = false) := by
    rw [Finset.mem_filter, Finset.mem_product, Finset.mem_range, Finset.mem_range]
    refine ⟨⟨by rw [hw]; omega, by rw [hh]; omega⟩, hold⟩
  have heq : (Finset.range pd.width ×ˢ Finset.range pd.height).filter
      (fun c => ((setCell pd p v).cell c.1 c.2).isClosed = false)
      = ((Finset.range pd.width ×ˢ Finset.range pd.height).filter
          (fun c => (pd.cell c.1 c.2).isClosed = false)).erase (p.x.toNat, p.y.toNat) := by
    ext c
    rw [Finset.mem_erase, Finset.mem_filter, Finset.mem_filter]
    simp only [setCell]
    by_cases h : c.1 = p.x.toNat ∧ c.2 = p.y.toNat
    · rw [if_pos h, hv]
      have : c = (p.x.toNat, p.y.toNat) := Prod.ext h.1 h.2
      simp [this]
    · rw [if_neg h]
      have : c ≠ (p.x.toNat, p.y.toNat) := fun hc => h ⟨by rw [hc], by rw [hc]⟩
      simp [this]
  rw [heq, Finset.card_erase_of_mem hmem]
  have := Finset.card_pos.mpr ⟨_, hmem⟩
  omega

/-! ### One move of `exploreNeighbours` -/

theorem isValidMove_inBounds (d : dungeon_t) (a c : point_t)
    (h : isValidMove d a c = some true) : inBounds d a = true ∧ inBounds d c = true := by
  unfold isValidMove at h
  split at h
  · rename_i hb
    simp only [Option.some.injEq, Bool.and_eq_true] at h
    refine ⟨hb, ?_⟩
    unfold inBounds
    simp only [Bool.and_eq_true]
    exact ⟨h.1.1.1.1.2, h.1.1.1.2⟩
  · simp at h

theorem isValidMove_ne_none (d : dungeon_t) (a c : point_t) (ha : inBounds d a = true) :
    isValidMove d a c ≠ none := by
  unfold isValidMove
  unfold inBounds at ha
  rw [if_pos ha]
  simp

theorem exploreMoveL_relaxed (d : dungeon_t) (current target : point_t) (sl : searchL_t)
    (move : point_t) (hw : sl.pointData.width = d.width) (hh : sl.pointData.height = d.height)
    (hc : inBounds d current = true) :
    ∃ sl2, exploreMoveL d current target sl move = .ok sl2
      ∧ Relaxed d current target sl sl2 move := by
  unfold exploreMoveL
  simp only
  cases hv : isValidMove d current (addPoints current move) with
  | none => exact absurd hv (isValidMove_ne_none d current _ hc)
  | some b =>
    cases b with
    | false => exact ⟨sl, rfl, Or.inl ⟨rfl, fun h => by rw [hv] at h; simp at h⟩⟩
    | true =>
      have hn := (isValidMove_inBounds d current _ hv).2
      simp only
      rw [getPointData_of_inBounds d _ _ hw hh hc, getPointData_of_inBounds d _ _ hw hh hn]
      simp only
      split
      · rename_i hlt
        rw [setPointData_of_inBounds d _ _ _ hw hh hn]
        simp only
        split
        · rename_i hcl
          refine ⟨_, rfl, Or.inr ⟨hv, hlt, rfl, ?_⟩⟩
          simp only [Bool.not_eq_true', ] at hcl
          simp only [hcl, Bool.false_eq_true, if_false]
          rfl
        · rename_i hcl
          refine ⟨_, rfl, Or.inr ⟨hv, hlt, rfl, ?_⟩⟩
          simp only [Bool.not_eq_true', Bool.not_eq_false] at hcl
          simp only [hcl, if_true]
      · rename_i hlt
        exact ⟨sl, rfl, Or.inl ⟨rfl, fun _ => Nat.not_lt.mp hlt⟩⟩

theorem toInt16_isInt16 (v : Int) : -32768 ≤ toInt16 v ∧ toInt16 v ≤ 32767 := by
  unfold toInt16; omega

theorem addPoints_isInt16 (a b : point_t) : (addPoints a b).isInt16 := by
  have h1 := toInt16_isInt16 (a.x + b.x)
  have h2 := toInt16_isInt16 (a.y + b.y)
  exact ⟨h1.1, h1.2, h2.1, h2.2⟩

theorem isRoute_snoc (d : dungeon_t) (l : List point_t) :
    ∀ (s a b : point_t), isRoute d s l a = true → isValidMove d a b = some true →
      isRoute d s (l ++ [b]) b = true := by
  induction l with
  | nil =>
    intro s a b h hv
    simp only [isRoute, decide_eq_true_eq] at h
    subst h
    simp [isRoute, hv]
  | cons c l ih =>
    intro s a b h hv
    simp only [isRoute, Bool.and_eq_true] at h
    simp only [List.cons_append, isRoute, Bool.and_eq_true]
    exact ⟨h.1, ih c a b h.2 hv⟩

theorem isRoute16_snoc (d : dungeon_t) (l : List point_t) (s a b : point_t)
    (h : isRoute16 d s l a) (hv : isValidMove d a b = some true) (hb : b.isInt16) :
    isRoute16 d s (l ++ [b]) b := by
  refine ⟨isRoute_snoc d l s a b h.1 hv, ?_⟩
  intro c hc
  rcases List.mem_append.mp hc with h1 | h1
  · exact h.2 c h1
  · rw [List.mem_singleton.mp h1]; exact hb

theorem mem_insertEntry (e f : Nat × point_t) (q : List (Nat × point_t)) :
    f ∈ insertEntry e q ↔ f = e ∨ f ∈ q := by
  unfold insertEntry
  rw [List.mem_append, List.mem_cons]
  constructor
  · rintro (h | h | h)
    · exact Or.inr ((List.takeWhile_sublist _).subset h)
    · exact Or.inl h
    · exact Or.inr ((List.dropWhile_sublist _).subset h)
  · rintro (h | h)
    · exact Or.inr (Or.inl h)
    · have := List.takeWhile_append_dropWhile (fun f => decide (f.1 < e.1)) q
      rw [← this, List.mem_append] at h
      rcases h with h | h
      · exact Or.inl h
      · exact Or.inr (Or.inr h)

theorem length_insertEntry (e : Nat × point_t) (q : List (Nat × point_t)) :
    (insertEntry e q).length = q.length + 1 := by
  unfold insertEntry
  rw [List.length_append, List.length_cons]
  have := congrArg List.length (List.takeWhile_append_dropWhile (fun f => decide (f.1 < e.1)) q)
  rw [List.length_append] at this
  omega

theorem LightInv_relaxed (d : dungeon_t) (source current target : point_t)
    (sl sl2 : searchL_t) (m : point_t) (inv : LightInv d source sl)
    (hr : ∃ l, isRoute16 d source l current)
    (h : Relaxed d current target sl sl2 m) :
    LightInv d source sl2 ∧ sl2.q.length ≤ sl.q.length + 1
      ∧ unclosed sl2.pointData = unclosed sl.pointData := by
  rcases h with ⟨rfl, _⟩ | ⟨hv, _, hpd, hq⟩
  · exact ⟨inv, Nat.le_succ _, rfl⟩
  · have hn := (isValidMove_inBounds d current _ hv).2
    refine ⟨?_, ?_, ?_⟩
    · refine
        { width_eq := by rw [hpd]; exact inv.width_eq
          height_eq := by rw [hpd]; exact inv.height_eq
          q_inb := ?_
          q_reach := ?_ }
      · intro e he
        rw [hq] at he
        split at he
        · exact inv.q_inb e he
        · rcases (mem_insertEntry _ _ _).mp he with h1 | h1
          · rw [h1]; exact hn
          · exact inv.q_inb e h1
      · intro e he
        rw [hq] at he
        split at he
        · exact inv.q_reach e he
        · rcases (mem_insertEntry _ _ _).mp he with h1 | h1
          · rw [h1]
            obtain ⟨l, hl⟩ := hr
            exact ⟨l ++ [addPoints current m],
              isRoute16_snoc d l source current _ hl hv (addPoints_isInt16 _ _)⟩
          · exact inv.q_reach e h1
    · rw [hq]
      split
      · exact Nat.le_succ _
      · rw [length_insertEntry]
    · rw [hpd]
      exact unclosed_setCell_same _ _ _ rfl

/-- Induction over the loop of `exploreNeighbours`: a property `P` of the moves done so far
and the state that every relaxation step extends holds at the end. -/
theorem exploreLoopL_induct (d : dungeon_t) (source current target : point_t)
    (hc : inBounds d current = true) (hr : ∃ l, isRoute16 d source l current)
    (P : List point_t → searchL_t → Prop)
    (hP : ∀ done m sl sl2, m ∈ MOVES → LightInv d source sl → P done sl →
      Relaxed d current target sl sl2 m → P (done ++ [m]) sl2)
    (moves : List point_t) (hmoves : ∀ m ∈ moves, m ∈ MOVES) :
    ∀ (done : List point_t) (sl : searchL_t), LightInv d source sl → P done sl →
      ∃ sl2, exploreLoopL d current target moves sl = .ok sl2
        ∧ LightInv d source sl2 ∧ P (done ++ moves) sl2
        ∧ sl2.q.length ≤ sl.q.length + moves.length
        ∧ unclosed sl2.pointData = unclosed sl.pointData := by
  induction moves with
  | nil =>
    intro done sl inv hp
    exact ⟨sl, rfl, inv, by rw [List.append_nil]; exact hp, Nat.le_refl _, rfl⟩
  | cons m moves ih =>
    intro done sl inv hp
    obtain ⟨sl1, hres, hrel⟩ :=
      exploreMoveL_relaxed d current target sl m inv.width_eq inv.height_eq hc
    obtain ⟨inv1, hlen1, hu1⟩ := LightInv_relaxed d source current target sl sl1 m inv hr hrel
    obtain ⟨sl2, hres2, inv2, hp2, hlen2, hu2⟩ :=
      ih (fun m2 hm2 => hmoves m2 (List.mem_cons_of_mem _ hm2)) (done ++ [m]) sl1 inv1
        (hP done m sl sl1 (hmoves m (List.mem_cons_self _ _)) inv hp hrel)
    refine ⟨sl2, ?_, inv2, ?_, ?_, by rw [hu2, hu1]⟩
    · unfold exploreLoopL
      rw [hres]
      exact hres2
    · rw [List.append_assoc] at hp2
      exact hp2
    · rw [List.length_cons]
      omega

/-! ### The search loop -/

theorem isEqualPoints_iff (a b : point_t) : isEqualPoints a b = true ↔ a = b := by
  obtain ⟨ax, ay⟩ := a
  obtain ⟨bx, b_y⟩ := b
  simp [isEqualPoints]

/-- The search loop with enough fuel runs to a final state `slf`, keeping the invariant
`LightInv` and any further invariant `Hv` that is kept by discarding a closed entry and by
expanding an unclosed one: either the queue of `slf` is empty and the result is `NULL`, or the
first entry of `slf` is the unclosed target and the result is that of `reconstructPath`. -/
theorem findLoopL_total (d : dungeon_t) (source target : point_t) (fuel0 : Nat)
    (Hv : searchL_t → Prop)
    (hpop : ∀ sl e q1, LightInv d source sl → Hv sl → sl.q = e :: q1 →
      (cellAt sl.pointData e.2).isClosed = true → Hv { sl with q := q1 })
    (hexp : ∀ sl e q1 sl2, LightInv d source sl → Hv sl → sl.q = e :: q1 →
      (cellAt sl.pointData e.2).isClosed = false → e.2 ≠ target →
      exploreLoopL d e.2 target MOVES { q := q1, pointData := closeCell sl.pointData e.2 }
        = .ok sl2 → Hv sl2) :
    ∀ (fuel : Nat) (sl : searchL_t), LightInv d source sl → Hv sl → measureL sl < fuel →
      ∃ slf, LightInv d source slf ∧ Hv slf
        ∧ ((slf.q = [] ∧ findLoopL d source target fuel0 fuel sl = .ok none)
          ∨ (∃ e q1, slf.q = e :: q1 ∧ e.2 = target
              ∧ (cellAt slf.pointData target).isClosed = false
              ∧ findLoopL d source target fuel0 fuel sl = finish fuel0 source target slf)) := by
  intro fuel
  induction fuel with
  | zero => intro sl _ _ h; exact absurd h (Nat.not_lt_zero _)
  | succ fuel ih =>
    intro sl inv hv hm
    unfold findLoopL
    cases hq : sl.q with
    | nil => exact ⟨sl, inv, hv, Or.inl ⟨hq, rfl⟩⟩
    | cons e q1 =>
      have he : e ∈ sl.q := by rw [hq]; exact List.mem_cons_self _ _
      have hinb := inv.q_inb e he
      simp only
      rw [getPointData_of_inBounds d _ _ inv.width_eq inv.height_eq hinb]
      simp only
      have hlen : sl.q.length = q1.length + 1 := by rw [hq]; rfl
      by_cases hcl : (cellAt sl.pointData e.2).isClosed = true
      · rw [if_pos hcl]
        have inv1 : LightInv d source { sl with q := q1 } :=
          { width_eq := inv.width_eq
            height_eq := inv.height_eq
            q_inb := fun f hf => inv.q_inb f (by rw [hq]; exact List.mem_cons_of_mem _ hf)
            q_reach := fun f hf => inv.q_reach f (by rw [hq]; exact List.mem_cons_of_mem _ hf) }
        exact ih _ inv1 (hpop sl e q1 inv hv hq hcl)
          (by unfold measureL at hm ⊢; simp only; omega)
      · rw [if_neg hcl]
        have hcl2 : (cellAt sl.pointData e.2).isClosed = false := by simpa using hcl
        rw [setPointData_of_inBounds d _ _ _ inv.width_eq inv.height_eq hinb]
        simp only
        by_cases ht : isEqualPoints e.2 target = true
        · rw [if_pos ht]
          have ht2 := (isEqualPoints_iff _ _).mp ht
          refine ⟨sl, inv, hv, Or.inr ⟨e, q1, hq, ht2, by rw [← ht2]; exact hcl2, ?_⟩⟩
          rw [ht2]
          rfl
        · rw [if_neg ht]
          have ht2 : e.2 ≠ target := fun h => ht ((isEqualPoints_iff _ _).mpr h)
          have inv1 : LightInv d source { q := q1, pointData := closeCell sl.pointData e.2 } :=
            { width_eq := inv.width_eq
              height_eq := inv.height_eq
              q_inb := fun f hf => inv.q_inb f (by rw [hq]; exact List.mem_cons_of_mem _ hf)
              q_reach := fun f hf =>
                inv.q_reach f (by rw [hq]; exact List.mem_cons_of_mem _ hf) }
          obtain ⟨sl2, hres, inv2, _, hlen2, hu2⟩ :=
            exploreLoopL_induct d source e.2 target hinb (inv.q_reach e he)
              (fun _ _ => True) (fun _ _ _ _ _ _ _ _ => trivial) MOVES (fun _ h => h) [] _
              inv1 trivial
          have hexp2 := hexp sl e q1 sl2 inv hv hq hcl2 ht2 hres
          have hres2 : exploreLoopL d e.2 target MOVES
              { q := q1, pointData := setCell sl.pointData e.2
                  { cellAt sl.pointData e.2 with isClosed := true } } = .ok sl2 := hres
          rw [hres2]
          simp only
          have hu : unclosed (closeCell sl.pointData e.2) + 1 = unclosed sl.pointData :=
            unclosed_setCell_close d _ _ _ inv.width_eq inv.height_eq hinb hcl2 rfl
          refine ih sl2 inv2 hexp2 ?_
          unfold measureL at hm ⊢
          simp only at hlen2 hu2
          have h8 : MOVES.length = 8 := rfl
          rw [hu2]
          omega

theorem findPathL_eq_loop (fuel : Nat) (d : dungeon_t) (source target : point_t)
    (hs : inBounds d source = true) :
    findPathL fuel d source target
      = findLoopL d source target fuel fuel (initialL d source) := by
  unfold findPathL
  simp only
  rw [getPointData_of_inBounds d _ _ rfl rfl hs]
  simp only
  rw [setPointData_of_inBounds d _ _ _ rfl rfl hs]
  rfl

theorem LightInv_initialL (d : dungeon_t) (source : point_t) (hs : inBounds d source = true) :
    LightInv d source (initialL d source) :=
  { width_eq := rfl
    height_eq := rfl
    q_inb := by
      intro e he
      simp only [initialL, List.mem_singleton] at he
      rw [he]; exact hs
    q_reach := by
      intro e he
      simp only [initialL, List.mem_singleton] at he
      rw [he]
      exact ⟨[], by simp [isRoute], fun c hc => by simp at hc⟩ }

theorem measureL_initialL (d : dungeon_t) (source : point_t) :
    measureL (initialL d source) ≤ 8 * (d.width * d.height) + 1 := by
  unfold measureL
  have := unclosed_le (initialL d source).pointData
  have hw : (initialL d source).pointData.width = d.width := rfl
  have hh : (initialL d source).pointData.height = d.height := rfl
  rw [hw, hh] at this
  have hl : (initialL d source).q.length = 1 := rfl
  omega

/-- C4: if no sequence of valid moves (through cells with `int16_t` coordinates) leads from
the in-bounds source to the target, `findPath` returns `NULL`, for every dungeon, every choice
of positive node levels and enough fuel. -/
theorem C4_unreachable_target (fuel : Nat) (rnd : Nat → Nat) (d : dungeon_t)
    (source target : point_t) (hrnd : ∀ k, 1 ≤ rnd k) (hs : inBounds d source = true)
    (hfuel : 8 * (d.width * d.height) + 2 ≤ fuel)
    (hun : ∀ l, (∀ c ∈ l, c.isInt16) → isRoute d source l target = false) :
    findPath fuel rnd d source target = .ok none := by
  rw [findPath_eq_findPathL fuel rnd hrnd, findPathL_eq_loop fuel d source target hs]
  obtain ⟨slf, invf, _, hcase⟩ := findLoopL_total d source target fuel (fun _ => True)
    (fun _ _ _ _ _ _ _ => trivial) (fun _ _ _ _ _ _ _ _ _ _ => trivial) fuel
    (initialL d source) (LightInv_initialL d source hs) trivial
    (by have := measureL_initialL d source; omega)
  rcases hcase with ⟨_, hres⟩ | ⟨e, q1, hq, he, _, _⟩
  · rw [hres]; rfl
  · obtain ⟨l, hl1, hl2⟩ := invf.q_reach e (by rw [hq]; exact List.mem_cons_self _ _)
    rw [he, hun l hl2] at hl1
    exact absurd hl1 (by simp)

theorem dungeonSplit_left (l : List point_t) :
    ∀ a b : point_t, a.x = 0 → isRoute dungeonSplit a l b = true → b.x = 0 := by
  induction l with
  | nil =>
    intro a b ha h
    simp only [isRoute, decide_eq_true_eq] at h
    rw [← h]; exact ha
  | cons c l ih =>
    intro a b ha h
    simp only [isRoute, Bool.and_eq_true, beq_iff_eq] at h
    refine ih c b ?_ h.2
    have hv := (isValidMove_eq_true_iff dungeonSplit ⟨by decide, by decide⟩ a c).mp h.1
    obtain ⟨_, hc, hstep, hwall, _, _⟩ := hv
    rw [inBounds_iff] at hc
    have hcx : c.x = 0 ∨ c.x = 1 := by
      have : (a.x - c.x).natAbs ≤ 1 := le_trans (le_max_left _ _) (le_of_eq hstep)
      omega
    rcases hcx with h0 | h1
    · exact h0
    · exfalso
      apply hwall
      rw [h1]
      rfl

/-- Witness of C4 on the 3 x 3 dungeon split by a wall column, from `(0,0)` to `(2,2)`. -/
theorem C4_unreachable_target_witness :
    findPath 74 (fun _ => 1) dungeonSplit { x := 0, y := 0 } { x := 2, y := 2 } = .ok none :=
  C4_unreachable_target 74 (fun _ => 1) dungeonSplit { x := 0, y := 0 } { x := 2, y := 2 }
    (fun _ => Nat.le_refl _) (by decide) (by decide)
    (fun l _ => by
      cases h : isRoute dungeonSplit { x := 0, y := 0 } l { x := 2, y := 2 } with
      | false => rfl
      | true =>
        have := dungeonSplit_left l { x := 0, y := 0 } { x := 2, y := 2 } rfl h
        simp at this)

/-! ### The invariant that needs the scores not to wrap -/

theorem cost_le (m : point_t) : cost m ≤ 99 := by
  unfold cost COST_CARDINAL COST_DIAGONAL; split <;> omega

theorem cost_ge (m : point_t) : 70 ≤ cost m := by
  unfold cost COST_CARDINAL COST_DIAGONAL; split <;> omega

/-- A valid move made with one of the 8 moves does not wrap: the difference between the
neighbour and the cell is the move itself. -/
theorem valid_addPoints (d : dungeon_t) (hd : d.isUInt16) (c m : point_t) (hm : m ∈ MOVES)
    (hv : isValidMove d c (addPoints c m) = some true) :
    (addPoints c m).x - c.x = m.x ∧ (addPoints c m).y - c.y = m.y ∧ addPoints c m ≠ c := by
  have hstep := (isValidMove_unit d hd c _ hv).1
  rw [mem_MOVES_iff] at hm
  have hx : (c.x - (addPoints c m).x).natAbs ≤ 1 := le_trans (le_max_left _ _) (le_of_eq hstep)
  have hy : (c.y - (addPoints c m).y).natAbs ≤ 1 := le_trans (le_max_right _ _) (le_of_eq hstep)
  have hmx : m.x.natAbs ≤ 1 := le_trans (le_max_left _ _) (le_of_eq hm)
  have hmy : m.y.natAbs ≤ 1 := le_trans (le_max_right _ _) (le_of_eq hm)
  have ex : (addPoints c m).x = toInt16 (c.x + m.x) := rfl
  have ey : (addPoints c m).y = toInt16 (c.y + m.y) := rfl
  have h1 : (addPoints c m).x - c.x = m.x := by
    rw [ex] at hx ⊢; unfold toInt16 at hx ⊢; omega
  have h2 : (addPoints c m).y - c.y = m.y := by
    rw [ey] at hy ⊢; unfold toInt16 at hy ⊢; omega
  refine ⟨h1, h2, ?_⟩
  intro heq
  rw [heq] at h1 h2
  have : m.x = 0 ∧ m.y = 0 := by omega
  rw [this.1, this.2] at hm
  simp at hm

/-- Every valid move to a cell with `int16_t` coordinates is made by one of the 8 moves. -/
theorem exists_move_of_valid (d : dungeon_t) (hd : d.isUInt16) (c n : point_t)
    (hn : n.isInt16) (hv : isValidMove d c n = some true) :
    ∃ m ∈ MOVES, addPoints c m = n := by
  have hstep := (isValidMove_unit d hd c n hv).1
  refine ⟨{ x := n.x - c.x, y := n.y - c.y }, ?_, ?_⟩
  · rw [mem_MOVES_iff]
    simp only
    rw [natAbs_sub_swap n.x, natAbs_sub_swap n.y]
    exact hstep
  · obtain ⟨h1, h2, h3, h4⟩ := hn
    obtain ⟨nx, ny⟩ := n
    simp only at h1 h2 h3 h4
    simp only [addPoints, point_t.mk.injEq, toInt16]
    constructor <;> omega

theorem cellAt_closeCell (d : dungeon_t) (pd : pointTable_t) (c n : point_t)
    (hc : inBounds d c = true) (hn : inBounds d n = true) :
    (cellAt (closeCell pd c) n).gScore = (cellAt pd n).gScore
    ∧ (cellAt (closeCell pd c) n).prev = (cellAt pd n).prev
    ∧ (cellAt (closeCell pd c) n).isClosed = (decide (n = c) || (cellAt pd n).isClosed) := by
  unfold closeCell
  rw [cellAt_setCell d pd c n _ hc hn]
  by_cases h : n = c
  · rw [if_pos h, h]; simp
  · rw [if_neg h]; simp [h]

theorem ExploreInv_relaxed (d : dungeon_t) (hd : d.isUInt16)
    (hsize : d.width * d.height ≤ 43383508) (source target current : point_t)
    (hs : inBounds d source = true) (hc : inBounds d current = true)
    (done : List point_t) (m : point_t) (sl sl2 : searchL_t) (hm : m ∈ MOVES)
    (linv : LightInv d source sl) (inv : ExploreInv d source target current done sl)
    (h : Relaxed d current target sl sl2 m) :
    ExploreInv d source target current (done ++ [m]) sl2 := by
  have hcb := inv.cur_bound
  have hcm := cost_le m
  generalize hWH : d.width * d.height = WH at hsize hcb
  have hG : tentative sl.pointData current m = (cellAt sl.pointData current).gScore + cost m := by
    unfold tentative
    exact Nat.mod_eq_of_lt (by omega)
  have hGlt : tentative sl.pointData current m < UINT32_MAX := by
    rw [hG]; unfold UINT32_MAX; omega
  have hGb : tentative sl.pointData current m + 99 * unclosed sl.pointData ≤ 99 * WH := by
    rw [hG]; omega
  rcases h with ⟨rfl, hle⟩ | ⟨hv, hlt, hpd, hq⟩
  · exact
      { table := inv.table
        cur_bound := by rw [hWH]; exact hcb
        q_disc := inv.q_disc
        disc_q := inv.disc_q
        closed_nb := inv.closed_nb
        done_nb := by
          intro m2 hm2 hv2
          rcases List.mem_append.mp hm2 with h1 | h1
          · exact inv.done_nb m2 h1 hv2
          · rw [List.mem_singleton.mp h1] at hv2 ⊢
            exact lt_of_le_of_lt (hle hv2) hGlt
        tgt_open := inv.tgt_open }
  · have hn := (isValidMove_inBounds d current _ hv).2
    obtain ⟨hdx, hdy, hne⟩ := valid_addPoints d hd current m hm hv
    have hsrc : addPoints current m ≠ source := by
      intro heq
      rw [heq, inv.table.src_g] at hlt
      exact absurd hlt (Nat.not_lt_zero _)
    have hcell : ∀ n, inBounds d n = true → cellAt sl2.pointData n
        = if n = addPoints current m then
            { prev := current, gScore := tentative sl.pointData current m,
              isClosed := (cellAt sl.pointData (addPoints current m)).isClosed }
          else cellAt sl.pointData n := by
      intro n hnb
      rw [hpd]
      exact cellAt_setCell d _ _ n _ hn hnb
    have hgle : ∀ n, inBounds d n = true →
        (cellAt sl2.pointData n).gScore ≤ (cellAt sl.pointData n).gScore := by
      intro n hnb
      rw [hcell n hnb]
      split
      · rename_i heq; rw [heq]; exact Nat.le_of_lt hlt
      · exact Nat.le_refl _
    have hclosed : ∀ n, inBounds d n = true →
        (cellAt sl2.pointData n).isClosed = (cellAt sl.pointData n).isClosed := by
      intro n hnb
      rw [hcell n hnb]
      split
      · rename_i heq; rw [heq]
      · rfl
    have hU : unclosed sl2.pointData = unclosed sl.pointData := by
      rw [hpd]; exact unclosed_setCell_same _ _ _ rfl
    have hqsub : ∀ e ∈ sl.q, e ∈ sl2.q := by
      intro e he
      rw [hq]
      split
      · exact he
      · exact (mem_insertEntry _ _ _).mpr (Or.inr he)
    have hcur : cellAt sl2.pointData current = cellAt sl.pointData current := by
      rw [hcell current hc, if_neg (fun heq => hne heq.symm)]
    refine
      { table :=
          { src_g := by
              rw [hcell source hs, if_neg (fun heq => hsrc heq.symm)]
              exact inv.table.src_g
            prev_ok := ?_
            bound := ?_ }
        cur_bound := by rw [hcur, hU, hWH]; exact hcb
        q_disc := ?_
        disc_q := ?_
        closed_nb := ?_
        done_nb := ?_
        tgt_open := fun ht => by rw [hclosed target ht]; exact inv.tgt_open ht }
    · intro n hnb hdisc hns
      by_cases heq : n = addPoints current m
      · rw [hcell n hnb, if_pos heq]
        simp only
        rw [hcur, heq, hdx, hdy, hG]
        exact ⟨hv, Nat.le_refl _⟩
      · have hsame : cellAt sl2.pointData n = cellAt sl.pointData n := by
          rw [hcell n hnb, if_neg heq]
        rw [hsame] at hdisc ⊢
        obtain ⟨hv2, hle2⟩ := inv.table.prev_ok n hnb hdisc hns
        refine ⟨hv2, le_trans (Nat.add_le_add_right ?_ _) hle2⟩
        exact hgle _ (isValidMove_inBounds d _ _ hv2).1
    · intro n hnb hdisc
      rw [hU, hWH]
      by_cases heq : n = addPoints current m
      · rw [hcell n hnb, if_pos heq]
        exact hGb
      · have hsame : cellAt sl2.pointData n = cellAt sl.pointData n := by
          rw [hcell n hnb, if_neg heq]
        rw [hsame] at hdisc ⊢
        have := inv.table.bound n hnb hdisc
        rw [hWH] at this
        exact this
    · intro e he
      rw [hq] at he
      have hold : ∀ f ∈ sl.q, (cellAt sl2.pointData f.2).gScore < UINT32_MAX := fun f hf =>
        lt_of_le_of_lt (hgle f.2 (linv.q_inb f hf)) (inv.q_disc f hf)
      split at he
      · exact hold e he
      · rcases (mem_insertEntry _ _ _).mp he with h1 | h1
        · rw [h1, hcell _ hn, if_pos rfl]
          exact hGlt
        · exact hold e h1
    · intro n hnb hdisc
      rw [hclosed n hnb]
      by_cases heq : n = addPoints current m
      · rw [heq]
        cases hcl : (cellAt sl.pointData (addPoints current m)).isClosed with
        | true => exact Or.inl rfl
        | false =>
          refine Or.inr ⟨((tentative sl.pointData current m
            + distancePoints current target COST_CARDINAL COST_DIAGONAL) % 4294967296,
            addPoints current m), ?_, rfl⟩
          rw [hq, hcl]
          simp only [Bool.false_eq_true, if_false]
          exact (mem_insertEntry _ _ _).mpr (Or.inl rfl)
      · have hsame : cellAt sl2.pointData n = cellAt sl.pointData n := by
          rw [hcell n hnb, if_neg heq]
        rw [hsame] at hdisc
        rcases inv.disc_q n hnb hdisc with h1 | ⟨e, he, hen⟩
        · exact Or.inl h1
        · exact Or.inr ⟨e, hqsub e he, hen⟩
    · intro c n hcb2 hccl hcne hn16 hv2
      rw [hclosed c hcb2] at hccl
      exact lt_of_le_of_lt (hgle n (isValidMove_inBounds d _ _ hv2).2)
        (inv.closed_nb c n hcb2 hccl hcne hn16 hv2)
    · intro m2 hm2 hv2
      rcases List.mem_append.mp hm2 with h1 | h1
      · exact lt_of_le_of_lt (hgle _ (isValidMove_inBounds d _ _ hv2).2)
          (inv.done_nb m2 h1 hv2)
      · rw [List.mem_singleton.mp h1, hcell _ hn, if_pos rfl]
        exact hGlt

theorem HeavyInv_pop (d : dungeon_t) (source target : point_t) (sl : searchL_t)
    (e : Nat × point_t) (q1 : List (Nat × point_t)) (inv : HeavyInv d source target sl)
    (hq : sl.q = e :: q1) (hcl : (cellAt sl.pointData e.2).isClosed = true) :
    HeavyInv d source target { sl with q := q1 } :=
  { table := inv.table
    q_disc := fun f hf => inv.q_disc f (by rw [hq]; exact List.mem_cons_of_mem _ hf)
    disc_q := by
      intro n hn hdisc
      rcases inv.disc_q n hn hdisc with h1 | ⟨f, hf, hfn⟩
      · exact Or.inl h1
      · rw [hq] at hf
        rcases List.mem_cons.mp hf with h2 | h2
        · rw [h2] at hfn
          rw [← hfn]
          exact Or.inl hcl
        · exact Or.inr ⟨f, h2, hfn⟩
    closed_nb := inv.closed_nb
    tgt_open := inv.tgt_open }

theorem ExploreInv_close (d : dungeon_t) (source target : point_t) (sl : searchL_t)
    (e : Nat × point_t) (q1 : List (Nat × point_t)) (hs : inBounds d source = true)
    (linv : LightInv d source sl) (inv : HeavyInv d source target sl)
    (hq : sl.q = e :: q1) (hcl : (cellAt sl.pointData e.2).isClosed = false)
    (ht : e.2 ≠ target) :
    ExploreInv d source target e.2 []
      { q := q1, pointData := closeCell sl.pointData e.2 } := by
  have he : e ∈ sl.q := by rw [hq]; exact List.mem_cons_self _ _
  have hc := linv.q_inb e he
  have hU : unclosed (closeCell sl.pointData e.2) + 1 = unclosed sl.pointData :=
    unclosed_setCell_close d _ _ _ linv.width_eq linv.height_eq hc hcl rfl
  have hcell := fun n hn => cellAt_closeCell d sl.pointData e.2 n hc hn
  refine
    { table :=
        { src_g := by rw [(hcell source hs).1]; exact inv.table.src_g
          prev_ok := ?_
          bound := ?_ }
      cur_bound := ?_
      q_disc := ?_
      disc_q := ?_
      closed_nb := ?_
      done_nb := fun m hm => by simp at hm
      tgt_open := ?_ }
  · intro n hn hdisc hns
    simp only at hdisc ⊢
    rw [(hcell n hn).1] at hdisc
    obtain ⟨hv, hle⟩ := inv.table.prev_ok n hn hdisc hns
    rw [(hcell n hn).2.1, (hcell n hn).1, (hcell _ (isValidMove_inBounds d _ _ hv).1).1]
    exact ⟨hv, hle⟩
  · intro n hn hdisc
    simp only at hdisc ⊢
    rw [(hcell n hn).1] at hdisc ⊢
    have := inv.table.bound n hn hdisc
    omega
  · simp only
    rw [(hcell e.2 hc).1]
    have := inv.table.bound e.2 hc (inv.q_disc e he)
    omega
  · intro f hf
    simp only at hf ⊢
    have hf2 : f ∈ sl.q := by rw [hq]; exact List.mem_cons_of_mem _ hf
    rw [(hcell f.2 (linv.q_inb f hf2)).1]
    exact inv.q_disc f hf2
  · intro n hn hdisc
    simp only at hdisc ⊢
    rw [(hcell n hn).1] at hdisc
    rw [(hcell n hn).2.2]
    rcases inv.disc_q n hn hdisc with h1 | ⟨f, hf, hfn⟩
    · exact Or.inl (by rw [h1]; simp)
    · rw [hq] at hf
      rcases List.mem_cons.mp hf with h2 | h2
      · rw [h2] at hfn
        exact Or.inl (by rw [← hfn]; simp)
      · exact Or.inr ⟨f, h2, hfn⟩
  · intro c n hcb hccl hcne hn16 hv
    simp only at hccl ⊢
    rw [(hcell c hcb).2.2] at hccl
    rw [(hcell n (isValidMove_inBounds d _ _ hv).2).1]
    have hccl2 : (cellAt sl.pointData c).isClosed = true := by
      simpa [hcne] using hccl
    exact inv.closed_nb c n hcb hccl2 hn16 hv
  · intro htb
    simp only
    rw [(hcell target htb).2.2, inv.tgt_open htb]
    simp [Ne.symm ht]

theorem HeavyInv_of_ExploreInv (d : dungeon_t) (hd : d.isUInt16) (source target current : point_t)
    (sl : searchL_t) (inv : ExploreInv d source target current MOVES sl) :
    HeavyInv d source target sl :=
  { table := inv.table
    q_disc := inv.q_disc
    disc_q := inv.disc_q
    closed_nb := by
      intro c n hcb hccl hn16 hv
      by_cases hc : c = current
      · obtain ⟨m, hm, hmn⟩ := exists_move_of_valid d hd c n hn16 hv
        rw [hc] at hmn hv
        rw [← hmn] at hv ⊢
        exact inv.done_nb m hm hv
      · exact inv.closed_nb c n hcb hccl hc hn16 hv
    tgt_open := inv.tgt_open }

theorem HeavyInv_explore (d : dungeon_t) (hd : d.isUInt16)
    (hsize : d.width * d.height ≤ 43383508) (source target : point_t) (hs : inBounds d source = true) (sl : searchL_t)
    (e : Nat × point_t) (q1 : List (Nat × point_t)) (sl2 : searchL_t)
    (linv : LightInv d source sl) (inv : HeavyInv d source target sl)
    (hq : sl.q = e :: q1) (hcl : (cellAt sl.pointData e.2).isClosed = false)
    (ht : e.2 ≠ target)
    (hres : exploreLoopL d e.2 target MOVES
      { q := q1, pointData := closeCell sl.pointData e.2 } = .ok sl2) :
    HeavyInv d source target sl2 := by
  have he : e ∈ sl.q := by rw [hq]; exact List.mem_cons_self _ _
  have hc := linv.q_inb e he
  have linv1 : LightInv d source { q := q1, pointData := closeCell sl.pointData e.2 } :=
    { width_eq := linv.width_eq
      height_eq := linv.height_eq
      q_inb := fun f hf => linv.q_inb f (by rw [hq]; exact List.mem_cons_of_mem _ hf)
      q_reach := fun f hf => linv.q_reach f (by rw [hq]; exact List.mem_cons_of_mem _ hf) }
  obtain ⟨sl3, hres3, _, hp3, _, _⟩ :=
    exploreLoopL_induct d source e.2 target hc (linv.q_reach e he)
      (ExploreInv d source target e.2)
      (fun done m s s2 hm hl hp hr =>
        ExploreInv_relaxed d hd hsize source target e.2 hs hc done m s s2 hm hl hp hr)
      MOVES (fun _ h => h) [] _ linv1
      (ExploreInv_close d source target sl e q1 hs linv inv hq hcl ht)
  rw [hres] at hres3
  have : sl2 = sl3 := by
    injection hres3
  rw [this]
  rw [List.nil_append] at hp3
  exact HeavyInv_of_ExploreInv d hd source target e.2 sl3 hp3

theorem cellAt_initialL (d : dungeon_t) (source n : point_t) (hs : inBounds d source = true)
    (hn : inBounds d n = true) :
    (cellAt (initialL d source).pointData n).gScore = (if n = source then 0 else UINT32_MAX)
    ∧ (cellAt (initialL d source).pointData n).isClosed = false := by
  unfold initialL
  simp only
  rw [cellAt_setCell d _ source n _ hs hn]
  by_cases h : n = source
  · rw [if_pos h, if_pos h]
    exact ⟨rfl, rfl⟩
  · rw [if_neg h, if_neg h]
    exact ⟨rfl, rfl⟩

theorem HeavyInv_initialL (d : dungeon_t) (source target : point_t)
    (hs : inBounds d source = true) : HeavyInv d source target (initialL d source) := by
  have hg := fun n hn => (cellAt_initialL d source n hs hn).1
  have hcl := fun n hn => (cellAt_initialL d source n hs hn).2
  have hsrc : ∀ n, inBounds d n = true →
      (cellAt (initialL d source).pointData n).gScore < UINT32_MAX → n = source := by
    intro n hn hdisc
    rw [hg n hn] at hdisc
    by_contra hne
    rw [if_neg hne] at hdisc
    exact absurd hdisc (Nat.lt_irrefl _)
  refine
    { table :=
        { src_g := by rw [hg source hs, if_pos rfl]
          prev_ok := fun n hn hdisc hns => absurd (hsrc n hn hdisc) hns
          bound := ?_ }
      q_disc := ?_
      disc_q := ?_
      closed_nb := ?_
      tgt_open := fun ht => hcl target ht }
  · intro n hn hdisc
    rw [hsrc n hn hdisc, hg source hs, if_pos rfl]
    have := unclosed_le (initialL d source).pointData
    have hw : (initialL d source).pointData.width = d.width := rfl
    have hh : (initialL d source).pointData.height = d.height := rfl
    rw [hw, hh] at this
    omega
  · intro e he
    have : e = (0, source) := by simpa [initialL] using he
    rw [this, hg source hs, if_pos rfl]
    unfold UINT32_MAX; omega
  · intro n hn hdisc
    exact Or.inr ⟨(0, source), by simp [initialL], (hsrc n hn hdisc).symm⟩
  · intro c n hcb hccl _ _
    rw [hcl c hcb] at hccl
    exact absurd hccl (by simp)

/-! ### Reconstruction of the path -/

theorem exists_prevChain (d : dungeon_t) (source : point_t) (pd : pointTable_t)
    (hprev : PrevOK d source pd) :
    ∀ (g : Nat) (n : point_t), (cellAt pd n).gScore = g → inBounds d n = true →
      g < UINT32_MAX →
      ∃ l, PrevChain pd source n l
        ∧ (∀ c ∈ l, inBounds d c = true ∧ c ≠ source ∧ (cellAt pd c).gScore ≤ g)
        ∧ l.Pairwise (fun a b => (cellAt pd a).gScore < (cellAt pd b).gScore)
        ∧ isRoute d source l n = true := by
  intro g
  induction g using Nat.strong_induction_on with
  | _ g ih =>
    intro n hg hn hdisc
    by_cases hns : n = source
    · rw [hns]
      exact ⟨[], PrevChain.nil, fun c hc => by simp at hc, List.Pairwise.nil, by simp [isRoute]⟩
    · rw [← hg] at hdisc
      obtain ⟨hv, hle⟩ := hprev n hn hdisc hns
      have hc70 := cost_ge { x := n.x - (cellAt pd n).prev.x, y := n.y - (cellAt pd n).prev.y }
      have hpb := (isValidMove_inBounds d _ _ hv).1
      have hlt : (cellAt pd (cellAt pd n).prev).gScore < g := by omega
      obtain ⟨l, hch, hall, hpw, hroute⟩ :=
        ih _ hlt (cellAt pd n).prev rfl hpb (lt_trans hlt (hg ▸ hdisc))
      refine ⟨l ++ [n], PrevChain.snoc n l hns hch, ?_, ?_, isRoute_snoc d l source _ n hroute hv⟩
      · intro c hc
        rcases List.mem_append.mp hc with h1 | h1
        · exact ⟨(hall c h1).1, (hall c h1).2.1, le_trans (hall c h1).2.2 (Nat.le_of_lt hlt)⟩
        · rw [List.mem_singleton.mp h1]
          exact ⟨hn, hns, le_of_eq hg⟩
      · rw [List.pairwise_append]
        refine ⟨hpw, List.pairwise_singleton _ _, ?_⟩
        intro a ha b hb
        rw [List.mem_singleton.mp hb, hg]
        exact lt_of_le_of_lt (hall a ha).2.2 hlt

/-- A nodup list of cells of the dungeon has at most `width * height` elements. -/
theorem length_le_of_nodup_inBounds (d : dungeon_t) (l : List point_t) (hnd : l.Nodup)
    (hin : ∀ c ∈ l, inBounds d c = true) : l.length ≤ d.width * d.height := by
  have hinj : ∀ a ∈ l, ∀ b ∈ l, (a.x.toNat, a.y.toNat) = (b.x.toNat, b.y.toNat) → a = b := by
    intro a ha b hb hab
    have h1 := (inBounds_iff d a).mp (hin a ha)
    have h2 := (inBounds_iff d b).mp (hin b hb)
    obtain ⟨ax, ay⟩ := a
    obtain ⟨bx, b_y⟩ := b
    simp only [Prod.mk.injEq] at hab
    simp only at h1 h2
    simp only [point_t.mk.injEq]
    omega
  have hnd2 : (l.map (fun a => (a.x.toNat, a.y.toNat))).Nodup :=
    List.Nodup.map_on hinj hnd
  have hsub : (l.map (fun a => (a.x.toNat, a.y.toNat))).toFinset
      ⊆ Finset.range d.width ×ˢ Finset.range d.height := by
    intro c hc
    rw [List.mem_toFinset, List.mem_map] at hc
    obtain ⟨a, ha, rfl⟩ := hc
    have h1 := (inBounds_iff d a).mp (hin a ha)
    rw [Finset.mem_product, Finset.mem_range, Finset.mem_range]
    simp only
    omega
  have hcard := Finset.card_le_card hsub
  rw [List.toFinset_card_of_nodup hnd2, List.length_map, Finset.card_product,
    Finset.card_range, Finset.card_range] at hcard
  exact hcard

theorem reconstructLength_chain (d : dungeon_t) (source : point_t) (pd : pointTable_t)
    (hw : pd.width = d.width) (hh : pd.height = d.height) (n : point_t) (l : List point_t)
    (hch : PrevChain pd source n l) :
    (∀ c ∈ l, inBounds d c = true) →
    ∀ (fuel len : Nat), l.length < fuel → len < 65536 →
      reconstructLength pd source fuel n len = .ok ((len + l.length) % 65536) := by
  induction hch with
  | nil =>
    intro _ fuel len hf hlen
    obtain ⟨f, rfl⟩ : ∃ f, fuel = f + 1 := ⟨fuel - 1, by simp at hf; omega⟩
    unfold reconstructLength
    rw [(isEqualPoints_iff source source).mpr rfl]
    simp only [Bool.not_true, Bool.false_eq_true, if_false, List.length_nil, Nat.add_zero]
    rw [Nat.mod_eq_of_lt hlen]
  | snoc n l hns _ ih =>
    intro hin fuel len hf hlen
    obtain ⟨f, rfl⟩ : ∃ f, fuel = f + 1 := ⟨fuel - 1, by omega⟩
    have hne : isEqualPoints n source = false := by
      cases h : isEqualPoints n source with
      | false => rfl
      | true => exact absurd ((isEqualPoints_iff _ _).mp h) hns
    unfold reconstructLength
    rw [hne]
    simp only [Bool.not_false, if_true]
    rw [getPointData_of_inBounds d pd n hw hh (hin n (by simp))]
    simp only
    rw [ih (fun c hc => hin c (List.mem_append_left _ hc)) f ((len + 1) % 65536)
      (by simp at hf; omega) (Nat.mod_lt _ (by omega))]
    congr 1
    simp only [List.length_append, List.length_singleton]
    omega

theorem reconstructFill_chain (d : dungeon_t) (source : point_t) (pd : pointTable_t)
    (hw : pd.width = d.width) (hh : pd.height = d.height) (n : point_t) (l : List point_t)
    (hch : PrevChain pd source n l) :
    (∀ c ∈ l, inBounds d c = true) →
    ∀ (k : Nat) (acc : List point_t), k ≤ l.length →
      reconstructFill pd k n acc = .ok (l.drop (l.length - k) ++ acc) := by
  induction hch with
  | nil =>
    intro _ k acc hk
    have : k = 0 := by simpa using hk
    subst this
    rfl
  | snoc n l _ _ ih =>
    intro hin k acc hk
    cases k with
    | zero =>
      unfold reconstructFill
      simp
    | succ k =>
      simp only [List.length_append, List.length_singleton] at hk
      unfold reconstructFill
      rw [getPointData_of_inBounds d pd n hw hh (hin n (by simp))]
      simp only
      rw [ih (fun c hc => hin c (List.mem_append_left _ hc)) k (n :: acc) (by omega)]
      congr 1
      simp only [List.length_append, List.length_singleton]
      have e : l.length + 1 - (k + 1) = l.length - k := by omega
      rw [e, List.drop_append_of_le_length (by omega)]
      simp

/-- On a table that satisfies the predecessor invariant, `reconstructPath` from a discovered
cell `n` of a dungeon with at most 65536 cells returns the whole predecessor chain of `n`. -/
theorem reconstructPath_chain (d : dungeon_t) (hsize : d.width * d.height ≤ 65536)
    (source : point_t) (hs : inBounds d source = true) (pd : pointTable_t)
    (hw : pd.width = d.width) (hh : pd.height = d.height) (hprev : PrevOK d source pd)
    (n : point_t) (hn : inBounds d n = true) (hdisc : (cellAt pd n).gScore < UINT32_MAX)
    (fuel0 : Nat) (hfuel : d.width * d.height ≤ fuel0) :
    ∃ l, reconstructPath fuel0 pd source n = .ok l
      ∧ PrevChain pd source n l
      ∧ (∀ c ∈ l, inBounds d c = true ∧ c ≠ source)
      ∧ l.Nodup
      ∧ isRoute d source l n = true := by
  obtain ⟨l, hch, hall, hpw, hroute⟩ := exists_prevChain d source pd hprev _ n rfl hn hdisc
  have hnd : (source :: l).Nodup := by
    rw [List.nodup_cons]
    refine ⟨fun hmem => (hall source hmem).2.1 rfl, ?_⟩
    exact hpw.imp (fun h heq => by rw [heq] at h; exact Nat.lt_irrefl _ h)
  have hlen := length_le_of_nodup_inBounds d (source :: l) hnd (by
    intro c hc
    rcases List.mem_cons.mp hc with h | h
    · rw [h]; exact hs
    · exact (hall c h).1)
  rw [List.length_cons] at hlen
  refine ⟨l, ?_, hch, fun c hc => ⟨(hall c hc).1, (hall c hc).2.1⟩,
    (List.nodup_cons.mp hnd).2, hroute⟩
  unfold reconstructPath
  rw [reconstructLength_chain d source pd hw hh n l hch (fun c hc => (hall c hc).1) fuel0 0
    (by omega) (by omega)]
  simp only [Nat.zero_add]
  rw [Nat.mod_eq_of_lt (by omega),
    reconstructFill_chain d source pd hw hh n l hch (fun c hc => (hall c hc).1) l.length []
      (Nat.le_refl _)]
  simp

/-! ### The result of the search on a dungeon on which no score wraps -/

/-- In a final state with an empty queue every cell on a route from a closed cell is closed. -/
theorem closed_of_route (d : dungeon_t) (source target : point_t) (sl : searchL_t)
    (inv : HeavyInv d source target sl) (hq : sl.q = []) (l : List point_t) :
    ∀ a b : point_t, inBounds d a = true → (cellAt sl.pointData a).isClosed = true →
      (∀ c ∈ l, c.isInt16) → isRoute d a l b = true →
      inBounds d b = true ∧ (cellAt sl.pointData b).isClosed = true := by
  induction l with
  | nil =>
    intro a b ha hcl _ h
    simp only [isRoute, decide_eq_true_eq] at h
    rw [← h]; exact ⟨ha, hcl⟩
  | cons c l ih =>
    intro a b ha hcl h16 h
    simp only [isRoute, Bool.and_eq_true, beq_iff_eq] at h
    have hcb := (isValidMove_inBounds d a c h.1).2
    have hdisc := inv.closed_nb a c ha hcl (h16 c (List.mem_cons_self _ _)) h.1
    have hccl : (cellAt sl.pointData c).isClosed = true := by
      rcases inv.disc_q c hcb hdisc with h1 | ⟨e, he, _⟩
      · exact h1
      · rw [hq] at he; simp at he
    exact ih c b hcb hccl (fun x hx => h16 x (List.mem_cons_of_mem _ hx)) h.2

/-- The list search on a dungeon with at most 65536 cells, with enough fuel: either the
result is `NULL` and no route leads from the source to the target, or the result is the
predecessor chain of the target in the final table, which is a route from the source. -/
theorem findPathL_run (d : dungeon_t) (hd : d.isUInt16) (hsize : d.width * d.height ≤ 65536)
    (source target : point_t) (hs : inBounds d source = true) (fuel : Nat)
    (hfuel : 8 * (d.width * d.height) + 2 ≤ fuel) :
    (findPathL fuel d source target = .ok none
      ∧ ∀ l, (∀ c ∈ l, c.isInt16) → isRoute d source l target = false)
    ∨ (∃ p pd, findPathL fuel d source target = .ok (some (p, pd))
        ∧ PrevChain pd source target p
        ∧ (∀ c ∈ p, inBounds d c = true ∧ c ≠ source)
        ∧ p.Nodup
        ∧ isRoute d source p target = true) := by
  rw [findPathL_eq_loop fuel d source target hs]
  obtain ⟨slf, linv, hinv, hcase⟩ := findLoopL_total d source target fuel
    (HeavyInv d source target)
    (fun sl e q1 _ hv hq hcl => HeavyInv_pop d source target sl e q1 hv hq hcl)
    (fun sl e q1 sl2 hl hv hq hcl ht hres =>
      HeavyInv_explore d hd (le_trans hsize (by decide)) source target hs sl e q1 sl2 hl hv hq hcl
        ht hres)
    fuel (initialL d source) (LightInv_initialL d source hs)
    (HeavyInv_initialL d source target hs)
    (by have := measureL_initialL d source; omega)
  rcases hcase with ⟨hq, hres⟩ | ⟨e, q1, hq, he, hopen, hres⟩
  · refine Or.inl ⟨hres, ?_⟩
    intro l h16
    cases hr : isRoute d source l target with
    | false => rfl
    | true =>
      exfalso
      have hsdisc : (cellAt slf.pointData source).gScore < UINT32_MAX := by
        rw [hinv.table.src_g]; unfold UINT32_MAX; omega
      have hscl : (cellAt slf.pointData source).isClosed = true := by
        rcases hinv.disc_q source hs hsdisc with h1 | ⟨f, hf, _⟩
        · exact h1
        · rw [hq] at hf; simp at hf
      obtain ⟨htb, htcl⟩ := closed_of_route d source target slf hinv hq l source target hs hscl h16 hr
      rw [hinv.tgt_open htb] at htcl
      exact absurd htcl (by simp)
  · have hemem : e ∈ slf.q := by rw [hq]; exact List.mem_cons_self _ _
    have htb : inBounds d target = true := he ▸ linv.q_inb e hemem
    have htdisc : (cellAt slf.pointData target).gScore < UINT32_MAX := he ▸ hinv.q_disc e hemem
    have hcell := fun n hn => cellAt_closeCell d slf.pointData target n htb hn
    have hprev : PrevOK d source (closeCell slf.pointData target) := by
      intro n hn hdisc hns
      rw [(hcell n hn).1] at hdisc
      obtain ⟨hv, hle⟩ := hinv.table.prev_ok n hn hdisc hns
      rw [(hcell n hn).2.1, (hcell n hn).1, (hcell _ (isValidMove_inBounds d _ _ hv).1).1]
      exact ⟨hv, hle⟩
    obtain ⟨p, hrec, hch, hall, hnd, hroute⟩ :=
      reconstructPath_chain d hsize source hs (closeCell slf.pointData target)
        linv.width_eq linv.height_eq hprev target htb
        (by rw [(hcell target htb).1]; exact htdisc) fuel (by omega)
    refine Or.inr ⟨p, closeCell slf.pointData target, ?_, hch, hall, hnd, hroute⟩
    rw [hres]
    unfold finish
    rw [hrec]

/-- On a table that satisfies the predecessor invariant, on a dungeon of any size,
`reconstructPath` from a discovered cell `n` returns: the predecessor chain `l` of `n` leads
back to the source, and the result is made of the last `l.length mod 2^16` cells of `l`, the
length being counted in a `uint16_t`. -/
theorem reconstructPath_wrap (d : dungeon_t) (source : point_t)
    (hs : inBounds d source = true) (pd : pointTable_t)
    (hw : pd.width = d.width) (hh : pd.height = d.height) (hprev : PrevOK d source pd)
    (n : point_t) (hn : inBounds d n = true) (hdisc : (cellAt pd n).gScore < UINT32_MAX)
    (fuel0 : Nat) (hfuel : d.width * d.height ≤ fuel0) :
    ∃ l, PrevChain pd source n l
      ∧ reconstructPath fuel0 pd source n = .ok (l.drop (l.length - l.length % 65536))
      ∧ (∀ c ∈ l, inBounds d c = true ∧ c ≠ source)
      ∧ l.Nodup
      ∧ l.Pairwise (fun a b => (cellAt pd a).gScore < (cellAt pd b).gScore)
      ∧ isRoute d source l n = true := by
  obtain ⟨l, hch, hall, hpw, hroute⟩ := exists_prevChain d source pd hprev _ n rfl hn hdisc
  have hnd : (source :: l).Nodup := by
    rw [List.nodup_cons]
    refine ⟨fun hmem => (hall source hmem).2.1 rfl, ?_⟩
    exact hpw.imp (fun h heq => by rw [heq] at h; exact Nat.lt_irrefl _ h)
  have hlen := length_le_of_nodup_inBounds d (source :: l) hnd (by
    intro c hc
    rcases List.mem_cons.mp hc with h | h
    · rw [h]; exact hs
    · exact (hall c h).1)
  rw [List.length_cons] at hlen
  refine ⟨l, hch, ?_, fun c hc => ⟨(hall c hc).1, (hall c hc).2.1⟩,
    (List.nodup_cons.mp hnd).2, hpw, hroute⟩
  unfold reconstructPath
  rw [reconstructLength_chain d source pd hw hh n l hch (fun c hc => (hall c hc).1) fuel0 0
    (by omega) (by omega)]
  simp only [Nat.zero_add]
  rw [reconstructFill_chain d source pd hw hh n l hch (fun c hc => (hall c hc).1)
      (l.length % 65536) [] (Nat.mod_le _ _)]
  simp

/-- The list search on a dungeon with at most 43383508 cells (so that `99 * width * height`
is below `2^32` and no g-score wraps), with enough fuel: either the result is `NULL` and no
route leads from the source to the target, or the result is a path, made of the last
`l.length mod 2^16` cells of the predecessor chain `l` of the target in the final table,
which is a route from the source. -/
theorem findPathL_run_wide (d : dungeon_t) (hd : d.isUInt16)
    (hsize : d.width * d.height ≤ 43383508)
    (source target : point_t) (hs : inBounds d source = true) (fuel : Nat)
    (hfuel : 8 * (d.width * d.height) + 2 ≤ fuel) :
    (findPathL fuel d source target = .ok none
      ∧ ∀ l, (∀ c ∈ l, c.isInt16) → isRoute d source l target = false)
    ∨ (∃ p pd l, findPathL fuel d source target = .ok (some (p, pd))
        ∧ PrevChain pd source target l
        ∧ p = l.drop (l.length - l.length % 65536)
        ∧ isRoute d source l target = true) := by
  rw [findPathL_eq_loop fuel d source target hs]
  obtain ⟨slf, linv, hinv, hcase⟩ := findLoopL_total d source target fuel
    (HeavyInv d source target)
    (fun sl e q1 _ hv hq hcl => HeavyInv_pop d source target sl e q1 hv hq hcl)
    (fun sl e q1 sl2 hl hv hq hcl ht hres =>
      HeavyInv_explore d hd hsize source target hs sl e q1 sl2 hl hv hq hcl ht hres)
    fuel (initialL d source) (LightInv_initialL d source hs)
    (HeavyInv_initialL d source target hs)
    (by have := measureL_initialL d source; omega)
  rcases hcase with ⟨hq, hres⟩ | ⟨e, q1, hq, he, hopen, hres⟩
  · refine Or.inl ⟨hres, ?_⟩
    intro l h16
    cases hr : isRoute d source l target with
    | false => rfl
    | true =>
      exfalso
      have hsdisc : (cellAt slf.pointData source).gScore < UINT32_MAX := by
        rw [hinv.table.src_g]; unfold UINT32_MAX; omega
      have hscl : (cellAt slf.pointData source).isClosed = true := by
        rcases hinv.disc_q source hs hsdisc with h1 | ⟨f, hf, _⟩
        · exact h1
        · rw [hq] at hf; simp at hf
      obtain ⟨htb, htcl⟩ := closed_of_route d source target slf hinv hq l source target hs hscl h16 hr
      rw [hinv.tgt_open htb] at htcl
      exact absurd htcl (by simp)
  · have hemem : e ∈ slf.q := by rw [hq]; exact List.mem_cons_self _ _
    have htb : inBounds d target = true := he ▸ linv.q_inb e hemem
    have htdisc : (cellAt slf.pointData target).gScore < UINT32_MAX := he ▸ hinv.q_disc e hemem
    have hcell := fun n hn => cellAt_closeCell d slf.pointData target n htb hn
    have hprev : PrevOK d source (closeCell slf.pointData target) := by
      intro n hn hdisc hns
      rw [(hcell n hn).1] at hdisc
      obtain ⟨hv, hle⟩ := hinv.table.prev_ok n hn hdisc hns
      rw [(hcell n hn).2.1, (hcell n hn).1, (hcell _ (isValidMove_inBounds d _ _ hv).1).1]
      exact ⟨hv, hle⟩
    obtain ⟨l, hch, hrec, _, _, _, hroute⟩ :=
      reconstructPath_wrap d source hs (closeCell slf.pointData target)
        linv.width_eq linv.height_eq hprev target htb
        (by rw [(hcell target htb).1]; exact htdisc) fuel (by omega)
    refine Or.inr ⟨_, closeCell slf.pointData target, l, ?_, hch, rfl, hroute⟩
    rw [hres]
    unfold finish
    rw [hrec]

/-! ### Claims about the result of `findPath` -/

theorem prevChain_last (pd : pointTable_t) (s n : point_t) (l : List point_t)
    (h : PrevChain pd s n l) : (l = [] ∧ n = s) ∨ l.getLast? = some n := by
  cases h with
  | nil => exact Or.inl ⟨rfl, rfl⟩
  | snoc n l _ _ => exact Or.inr (by simp)

theorem prevChain_order (pd : pointTable_t) (s n : point_t) (l : List point_t)
    (h : PrevChain pd s n l) :
    (∀ a, l[0]? = some a → (cellAt pd a).prev = s)
    ∧ (∀ i a b, l[i]? = some a → l[i + 1]? = some b → (cellAt pd b).prev = a) := by
  induction h with
  | nil => exact ⟨fun a ha => by simp at ha, fun i a b ha => by simp at ha⟩
  | snoc n l _ hch ih =>
    have hlast := prevChain_last pd s _ l hch
    constructor
    · intro a ha
      rcases hlast with ⟨hl, hn⟩ | hl
      · subst hl
        simp only [List.nil_append, List.getElem?_cons_zero, Option.some.injEq] at ha
        rw [← ha]; exact hn
      · have hpos : 0 < l.length := by
          cases l with
          | nil => simp at hl
          | cons x xs => simp
        rw [List.getElem?_append_left hpos] at ha
        exact ih.1 a ha
    · intro i a b ha hb
      by_cases hi : i + 1 < l.length
      · rw [List.getElem?_append_left (by omega)] at ha
        rw [List.getElem?_append_left hi] at hb
        exact ih.2 i a b ha hb
      · by_cases hi2 : i + 1 = l.length
        · rw [List.getElem?_append_left (by omega)] at ha
          rw [List.getElem?_append_right (by omega)] at hb
          have : i + 1 - l.length = 0 := by omega
          rw [this] at hb
          simp only [List.getElem?_cons_zero, Option.some.injEq] at hb
          rcases hlast with ⟨hl, _⟩ | hl
          · rw [hl] at hi2; simp at hi2
          · rw [List.getLast?_eq_getElem?] at hl
            have e : l.length - 1 = i := by omega
            rw [e, ha] at hl
            rw [← hb]
            injection hl with hl
            rw [hl]
        · rw [List.getElem?_append_right (by omega)] at hb
          have : ∃ j, i + 1 - l.length = j + 1 := ⟨i - l.length, by omega⟩
          obtain ⟨j, hj⟩ := this
          rw [hj] at hb
          simp at hb

theorem isRoute_steps (d : dungeon_t) (l : List point_t) :
    ∀ (a b : point_t), isRoute d a l b = true →
      ∀ i x y, (a :: l)[i]? = some x → (a :: l)[i + 1]? = some y →
        isValidMove d x y = some true := by
  induction l with
  | nil => intro a b _ i x y _ hy; simp at hy
  | cons c l ih =>
    intro a b h i x y hx hy
    simp only [isRoute, Bool.and_eq_true, beq_iff_eq] at h
    cases i with
    | zero =>
      simp only [List.getElem?_cons_zero, Option.some.injEq, zero_add,
        List.getElem?_cons_succ] at hx hy
      rw [← hx, ← hy]; exact h.1
    | succ i =>
      simp only [List.getElem?_cons_succ] at hx hy
      exact ih c b h.2 i x y hx (by simpa using hy)

/-- The result of `findPath` on a dungeon with at most 65536 cells, for any fuel: a returned
path is the predecessor chain of the target in the final table of the list search. -/
theorem findPath_some (fuel : Nat) (rnd : Nat → Nat) (d : dungeon_t) (source target : point_t)
    (p : List point_t) (hrnd : ∀ k, 1 ≤ rnd k) (hd : d.isUInt16)
    (hsize : d.width * d.height ≤ 65536) (hs : inBounds d source = true)
    (hres : findPath fuel rnd d source target = .ok (some p)) :
    ∃ pd, findPathL fuel d source target = .ok (some (p, pd))
      ∧ PrevChain pd source target p
      ∧ (∀ c ∈ p, inBounds d c = true ∧ c ≠ source)
      ∧ p.Nodup
      ∧ isRoute d source p target = true := by
  rw [findPath_eq_findPathL fuel rnd hrnd] at hres
  obtain ⟨pd, hpd⟩ := pathOf_eq_ok_some _ _ hres
  have hmono := findPathL_mono d source target fuel (max fuel (8 * (d.width * d.height) + 2))
    _ (le_max_left _ _) hpd
  rcases findPathL_run d hd hsize source target hs (max fuel (8 * (d.width * d.height) + 2))
    (le_max_right _ _) with ⟨hnone, _⟩ | ⟨p2, pd2, hsome, hch, hall, hnd, hroute⟩
  · rw [hmono] at hnone
    simp at hnone
  · rw [hmono] at hsome
    simp only [Except.ok.injEq, Option.some.injEq, Prod.mk.injEq] at hsome
    obtain ⟨rfl, rfl⟩ := hsome
    exact ⟨pd, hpd, hch, hall, hnd, hroute⟩

/-- C2 (amended): on a dungeon with at most 65536 cells, for an in-bounds source different
from the target, a path returned by `findPath` is non-empty, ends with the target, does not
contain the source, and is in traversal order: in the table `pd` it was reconstructed from,
the source is the predecessor of element 0 and element `i` is the predecessor of element
`i + 1`. -/
theorem C2_path_shape (fuel : Nat) (rnd : Nat → Nat) (d : dungeon_t) (source target : point_t)
    (p : List point_t) (hrnd : ∀ k, 1 ≤ rnd k) (hd : d.isUInt16)
    (hsize : d.width * d.height ≤ 65536) (hs : inBounds d source = true)
    (hne : source ≠ target)
    (hres : findPath fuel rnd d source target = .ok (some p)) :
    p ≠ [] ∧ p.getLast? = some target ∧ source ∉ p
    ∧ ∃ pd, findPathL fuel d source target = .ok (some (p, pd))
        ∧ (∀ a, p[0]? = some a → (cellAt pd a).prev = source)
        ∧ (∀ i a b, p[i]? = some a → p[i + 1]? = some b → (cellAt pd b).prev = a) := by
  obtain ⟨pd, hpd, hch, hall, _, _⟩ :=
    findPath_some fuel rnd d source target p hrnd hd hsize hs hres
  have hlast := prevChain_last pd source target p hch
  have hlast2 : p.getLast? = some target := by
    rcases hlast with ⟨_, h⟩ | h
    · exact absurd h.symm hne
    · exact h
  refine ⟨?_, hlast2, fun hmem => (hall source hmem).2 rfl, pd, hpd,
    prevChain_order pd source target p hch⟩
  intro hnil
  rw [hnil] at hlast2
  simp at hlast2

set_option maxRecDepth 100000 in
/-- Witness of C2 on the open 3 x 3 dungeon, from `(0,0)` to `(2,1)`. -/
theorem C2_path_shape_witness :
    [({ x := 1, y := 0 } : point_t), { x := 2, y := 1 }] ≠ []
    ∧ [({ x := 1, y := 0 } : point_t), { x := 2, y := 1 }].getLast? = some { x := 2, y := 1 }
    ∧ ({ x := 0, y := 0 } : point_t) ∉ [({ x := 1, y := 0 } : point_t), { x := 2, y := 1 }] :=
  have h := C2_path_shape 74 (fun _ => 1) dungeonOpen3 { x := 0, y := 0 } { x := 2, y := 1 }
    [{ x := 1, y := 0 }, { x := 2, y := 1 }] (fun _ => Nat.le_refl _) ⟨by decide, by decide⟩
    (by decide) (by decide) (by decide) (by rfl)
  ⟨h.1, h.2.1, h.2.2.1⟩

/-- C3 (amended): on a dungeon with at most 65536 cells and for an in-bounds source, every
step of a path returned by `findPath` is a move that `isValidMove` accepts, the first step
starting at the source: the path is a route from the source to the target, and each step is
one of the 8 unit moves, stays in bounds, does not enter a wall and does not cut a corner. -/
theorem C3_legal_steps (fuel : Nat) (rnd : Nat → Nat) (d : dungeon_t) (source target : point_t)
    (p : List point_t) (hrnd : ∀ k, 1 ≤ rnd k) (hd : d.isUInt16)
    (hsize : d.width * d.height ≤ 65536) (hs : inBounds d source = true)
    (hres : findPath fuel rnd d source target = .ok (some p)) :
    isRoute d source p target = true
    ∧ ∀ i a b, (source :: p)[i]? = some a → (source :: p)[i + 1]? = some b →
        isValidMove d a b = some true
        ∧ (∃ m ∈ MOVES, b = { x := a.x + m.x, y := a.y + m.y })
        ∧ inBounds d b = true
        ∧ d.map b.x.toNat b.y.toNat ≠ TILE_WALL
        ∧ d.map a.x.toNat b.y.toNat ≠ TILE_WALL
        ∧ d.map b.x.toNat a.y.toNat ≠ TILE_WALL := by
  obtain ⟨pd, _, _, _, _, hroute⟩ :=
    findPath_some fuel rnd d source target p hrnd hd hsize hs hres
  refine ⟨hroute, ?_⟩
  intro i a b ha hb
  have hv := isRoute_steps d p source target hroute i a b ha hb
  obtain ⟨_, hbb, hstep, hw1, hw2, hw3⟩ := (isValidMove_eq_true_iff d hd a b).mp hv
  refine ⟨hv, ⟨{ x := b.x - a.x, y := b.y - a.y }, ?_, ?_⟩, hbb, hw1, hw2, hw3⟩
  · rw [mem_MOVES_iff]
    simp only
    rw [natAbs_sub_swap b.x, natAbs_sub_swap b.y]
    exact hstep
  · obtain ⟨bx, b_y⟩ := b
    simp

set_option maxRecDepth 100000 in
/-- Witness of C3 on the open 3 x 3 dungeon, from `(0,0)` to `(2,1)`. -/
theorem C3_legal_steps_witness :
    isRoute dungeonOpen3 { x := 0, y := 0 } [{ x := 1, y := 0 }, { x := 2, y := 1 }]
      { x := 2, y := 1 } = true :=
  (C3_legal_steps 74 (fun _ => 1) dungeonOpen3 { x := 0, y := 0 } { x := 2, y := 1 }
    [{ x := 1, y := 0 }, { x := 2, y := 1 }] (fun _ => Nat.le_refl _) ⟨by decide, by decide⟩
    (by decide) (by decide) (by rfl)).1

/-- C5 (amended): on a dungeon with at most 43383508 cells (`99 * width * height < 2^32`, so
that no g-score wraps), for an in-bounds source and enough fuel: if some sequence of valid
moves (through cells with `int16_t` coordinates) leads from the source to the target,
`findPath` returns a path; and if `findPath` returns `NULL`, no such sequence exists. -/
theorem C5_completeness (fuel : Nat) (rnd : Nat → Nat) (d : dungeon_t)
    (source target : point_t) (hrnd : ∀ k, 1 ≤ rnd k) (hd : d.isUInt16)
    (hsize : d.width * d.height ≤ 43383508) (hs : inBounds d source = true)
    (hfuel : 8 * (d.width * d.height) + 2 ≤ fuel) :
    ((∃ l, (∀ c ∈ l, c.isInt16) ∧ isRoute d source l target = true) →
      ∃ p, findPath fuel rnd d source target = .ok (some p))
    ∧ (findPath fuel rnd d source target = .ok none →
        ∀ l, (∀ c ∈ l, c.isInt16) → isRoute d source l target = false) := by
  rw [findPath_eq_findPathL fuel rnd hrnd]
  rcases findPathL_run_wide d hd hsize source target hs fuel hfuel with
    ⟨hnone, hun⟩ | ⟨p, pd, _, hsome, _⟩
  · refine ⟨?_, fun _ => hun⟩
    rintro ⟨l, h16, hl⟩
    rw [hun l h16] at hl
    exact absurd hl (by simp)
  · rw [hsome]
    exact ⟨fun _ => ⟨p, rfl⟩, fun h => by simp [pathOf] at h⟩

/-- Witness of C5 on the open 3 x 3 dungeon, from `(0,0)` to `(2,1)`. -/
theorem C5_completeness_witness :
    ∃ p, findPath 74 (fun _ => 1) dungeonOpen3 { x := 0, y := 0 } { x := 2, y := 1 }
      = .ok (some p) :=
  (C5_completeness 74 (fun _ => 1) dungeonOpen3 { x := 0, y := 0 } { x := 2, y := 1 }
    (fun _ => Nat.le_refl _) ⟨by decide, by decide⟩ (by decide) (by decide) (by decide)).1
    ⟨[{ x := 1, y := 1 }, { x := 2, y := 1 }], by decide, by decide⟩

/-- C7 (amended): on a dungeon with at most 43383508 cells (`99 * width * height < 2^32`, so
that no g-score wraps), for an in-bounds source, every choice of positive node levels and
fuel at least `8 * width * height + 2`, `findPath` returns: with a path or with `NULL`, never
with exhausted fuel or a fault. -/
theorem C7_termination (fuel : Nat) (rnd : Nat → Nat) (d : dungeon_t)
    (source target : point_t) (hrnd : ∀ k, 1 ≤ rnd k) (hd : d.isUInt16)
    (hsize : d.width * d.height ≤ 43383508) (hs : inBounds d source = true)
    (hfuel : 8 * (d.width * d.height) + 2 ≤ fuel) :
    ∃ r, findPath fuel rnd d source target = .ok r := by
  rw [findPath_eq_findPathL fuel rnd hrnd]
  rcases findPathL_run_wide d hd hsize source target hs fuel hfuel with
    ⟨hnone, _⟩ | ⟨p, pd, _, hsome, _⟩
  · rw [hnone]; exact ⟨none, rfl⟩
  · rw [hsome]; exact ⟨some p, rfl⟩

/-- Witness of C7 on the 3 x 3 dungeon split by a wall, from `(0,0)` to `(2,2)`. -/
theorem C7_termination_witness :
    ∃ r, findPath 74 (fun _ => 1) dungeonSplit { x := 0, y := 0 } { x := 2, y := 2 } = .ok r :=
  C7_termination 74 (fun _ => 1) dungeonSplit { x := 0, y := 0 } { x := 2, y := 2 }
    (fun _ => Nat.le_refl _) ⟨by decide, by decide⟩ (by decide) (by decide) (by decide)

/-! ### Heuristic consistency -/

theorem toInt16_of_range (v : Int) (h1 : -32768 ≤ v) (h2 : v ≤ 32767) : toInt16 v = v := by
  unfold toInt16
  omega

theorem addPoints_of_range (a m : point_t)
    (h : (({ x := a.x + m.x, y := a.y + m.y } : point_t)).isInt16) :
    addPoints a m = { x := a.x + m.x, y := a.y + m.y } := by
  obtain ⟨h1, h2, h3, h4⟩ := h
  unfold addPoints
  rw [toInt16_of_range _ h1 h2, toInt16_of_range _ h3 h4]

/-- C11 (as stated) fails: for `a = (936,0)`, target `(0,0)` and the move `(1,0)` the h-score of
`a` is 65520, while the h-score of `a + m = (937,0)` has wrapped to `65590 - 65536 = 54`, so
that `65520 ≤ 70 + 54` is false. -/
theorem C11_counterexample :
    ({ x := 1, y := 0 } : point_t) ∈ MOVES
    ∧ ¬ (distancePoints { x := 936, y := 0 } { x := 0, y := 0 } 70 99
          ≤ cost { x := 1, y := 0 }
            + distancePoints (addPoints { x := 936, y := 0 } { x := 1, y := 0 })
                { x := 0, y := 0 } 70 99) := by
  decide

/-- C11 (amended): for every point `a`, every target `t` with `int16_t` coordinates and each of
the 8 unit moves `m` such that `a + m` is representable in `int16_t` and the octile value
`70 * max(dx,dy) + 29 * min(dx,dy)` between `a + m` and `t` is below 65536 (the `uint16_t`
result does not wrap), `distancePoints a t 70 99 ≤ cost m + distancePoints (a + m) t 70 99`. -/
theorem C11_heuristic_consistent (a t m : point_t) (ht : t.isInt16) (hm : m ∈ MOVES)
    (hadd : (({ x := a.x + m.x, y := a.y + m.y } : point_t)).isInt16)
    (hrange : 70 * max (a.x + m.x - t.x).natAbs (a.y + m.y - t.y).natAbs
        + 29 * min (a.x + m.x - t.x).natAbs (a.y + m.y - t.y).natAbs < 65536) :
    distancePoints a t 70 99 ≤ cost m + distancePoints (addPoints a m) t 70 99 := by
  rw [addPoints_of_range a m hadd, distancePoints_eq_mod _ t 70 99 hadd ht]
  have h29 : (((70 : Nat) : Int) - ((99 : Nat) : Int)).natAbs = 29 := by decide
  rw [h29]
  simp only
  rw [Nat.mod_eq_of_lt hrange]
  rw [mem_MOVES_iff] at hm
  have hstep := octile_step a { x := a.x + m.x, y := a.y + m.y } t (by
    simp only
    rw [natAbs_sub_swap a.x, natAbs_sub_swap a.y, add_sub_cancel_left, add_sub_cancel_left]
    exact hm)
  simp only [add_sub_cancel_left] at hstep
  exact le_trans (distancePoints_le_octile a t) hstep

/-- Witness of C11 (amended) at `a = (3,4)`, `t = (10,-2)` and the diagonal move `(1,-1)`. -/
theorem C11_heuristic_consistent_witness :
    distancePoints { x := 3, y := 4 } { x := 10, y := -2 } 70 99
      ≤ cost { x := 1, y := -1 }
        + distancePoints (addPoints { x := 3, y := 4 } { x := 1, y := -1 })
            { x := 10, y := -2 } 70 99 :=
  C11_heuristic_consistent { x := 3, y := 4 } { x := 10, y := -2 } { x := 1, y := -1 }
    (by decide) (by decide) (by decide) (by decide)


/-! ### Queues reached by insertions and removals -/

theorem walkLevel_chain (mem : Nat → skipNode_t) (i : Nat) (l : List Nat) :
    ∀ (fuel : Nat) (p : Option Nat), chainTo mem i p l none → l.length ≤ fuel →
      walkLevel mem i fuel p = l := by
  induction l with
  | nil =>
    intro fuel p h _
    rw [chainTo_nil] at h
    subst h
    cases fuel <;> rfl
  | cons n l ih =>
    intro fuel p h hlen
    rw [chainTo_cons] at h
    obtain ⟨rfl, h2⟩ := h
    cases fuel with
    | zero => simp at hlen
    | succ fuel =>
      simp only [walkLevel]
      rw [ih fuel _ h2 (by simpa using hlen)]

theorem atLevel_sublist (mem : Nat → skipNode_t) (i : Nat) (l : List Nat) :
    (atLevel mem i l).Sublist l :=
  List.filter_sublist l

/-- In a well-formed skip list the chain of level `i` is the list of the nodes of level above
`i`, in queue order. -/
theorem levelChain_eq (pq : skipPQ_t) (L : List Nat) (inv : SkipInv pq L) (i : Nat)
    (hi : i < (pq.mem pq.head).level) : levelChain pq i = atLevel pq.mem i L := by
  have hc := inv.links i hi
  rw [atLevel_cons_pos _ _ _ _ hi, chainTo_cons] at hc
  refine walkLevel_chain pq.mem i _ pq.next _ hc.2 ?_
  have h1 : (atLevel pq.mem i L).length ≤ L.length := (atLevel_sublist pq.mem i L).length_le
  have h2 := length_le_of_nodup_lt (pq.head :: L) pq.next inv.nodup inv.lt_next
  simp only [List.length_cons] at h2
  omega

theorem freeMinLoop_fields (h node : Nat) :
    ∀ (n i : Nat) (mem : Nat → skipNode_t) (nl m : Nat),
      ((freeMinLoop h node n i mem nl).1 m).priority = (mem m).priority
      ∧ ((freeMinLoop h node n i mem nl).1 m).data = (mem m).data
      ∧ ((freeMinLoop h node n i mem nl).1 m).level = (mem m).level := by
  intro n
  induction n with
  | zero => intro i mem nl m; exact ⟨rfl, rfl, rfl⟩
  | succ n ih =>
    intro i mem nl m
    simp only [freeMinLoop]
    split
    · simp
    · obtain ⟨h1, h2, h3⟩ := ih (i + 1) (setForward mem h i ((mem node).forward i)) nl m
      rw [h1, h2, h3]
      simp

/-- The function `freeMinSkipNode` changes no priority and no payload, and does not raise the
level of the head. -/
theorem freeMinSkipNode_fields (pq pq2 : skipPQ_t) (h : freeMinSkipNode pq = .ok pq2) :
    (∀ m, (pq2.mem m).priority = (pq.mem m).priority ∧ (pq2.mem m).data = (pq.mem m).data)
    ∧ (pq2.mem pq.head).level ≤ (pq.mem pq.head).level := by
  unfold freeMinSkipNode at h
  cases hmin : getMinSkipNode pq with
  | none => rw [hmin] at h; cases h
  | some node =>
    rw [hmin] at h
    simp only at h
    have hf := freeMinLoop_fields pq.head node (pq.mem node).level 0 pq.mem
      (pq.mem pq.head).level
    generalize freeMinLoop pq.head node (pq.mem node).level 0 pq.mem (pq.mem pq.head).level = r
      at h hf
    obtain ⟨mem1, nl⟩ := r
    simp only at h hf
    split at h
    · rename_i hlt
      cases h
      refine ⟨fun m => ?_, ?_⟩
      · simp only [updatePQLevel]
        split
        · rename_i hm
          subst hm
          exact ⟨(hf pq.head).1, (hf pq.head).2.1⟩
        · exact ⟨(hf m).1, (hf m).2.1⟩
      · simp only [updatePQLevel, if_true]
        rw [(hf pq.head).2.2] at hlt
        exact Nat.le_of_lt hlt
    · cases h
      exact ⟨fun m => ⟨(hf m).1, (hf m).2.1⟩, le_of_eq (hf pq.head).2.2⟩

/-- The invariant of the queues reached by insertions and removals: a well-formed skip list
whose head keeps the priority 0. -/
theorem runOps_inv (ops : List pqOp) :
    ∀ (pq0 : skipPQ_t) (L0 : List Nat) (pq : skipPQ_t), (∀ op ∈ ops, op.levelOK) →
      SkipInv pq0 L0 → (pq0.mem pq0.head).priority = 0 → runOps ops pq0 = .ok pq →
      ∃ L, SkipInv pq L ∧ (pq.mem pq.head).priority = 0 := by
  induction ops with
  | nil =>
    intro pq0 L0 pq _ inv h0 hrun
    simp only [runOps, Except.ok.injEq] at hrun
    subst hrun
    exact ⟨L0, inv, h0⟩
  | cons op ops ih =>
    intro pq0 L0 pq hl inv h0 hrun
    have hl2 : ∀ o ∈ ops, o.levelOK := fun o ho => hl o (List.mem_cons_of_mem _ ho)
    have hop := hl op (List.mem_cons_self _ _)
    simp only [runOps] at hrun
    cases op with
    | insert data priority level =>
      obtain ⟨pq2, hres, inv2, _, hh, _, _, _, ho, _⟩ :=
        initSkipNode_spec pq0 L0 data priority level inv hop
      simp only [applyOp, hres] at hrun
      refine ih pq2 _ pq hl2 inv2 ?_ hrun
      have hne : pq0.head ≠ pq0.next := ne_of_lt (inv.lt_next _ (List.mem_cons_self _ _))
      rw [hh, (ho pq0.head hne).1]
      exact h0
    | removeMin =>
      cases L0 with
      | nil =>
        have hmin := getMinSkipNode_nil pq0 inv
        simp only [applyOp, freeMinSkipNode, hmin] at hrun
        cases hrun
      | cons n L =>
        obtain ⟨pq2, hres, inv2, _, hh, _⟩ := freeMinSkipNode_spec pq0 n L inv
        have hf := freeMinSkipNode_fields pq0 pq2 hres
        simp only [applyOp, hres] at hrun
        refine ih pq2 _ pq hl2 inv2 ?_ hrun
        rw [hh, (hf.1 pq0.head).1]
        exact h0

theorem Reachable_inv (pq : skipPQ_t) (h : Reachable pq) :
    ∃ L, SkipInv pq L ∧ (pq.mem pq.head).priority = 0 := by
  obtain ⟨ops, hl, hrun⟩ := h
  exact runOps_inv ops initSkipPQ [] pq hl SkipInv_initSkipPQ rfl hrun


theorem atLevel_zero (pq : skipPQ_t) (L : List Nat) (inv : SkipInv pq L) :
    atLevel pq.mem 0 L = L := by
  unfold atLevel
  rw [List.filter_eq_self]
  intro n hn
  exact decide_eq_true (inv.level_pos n (List.mem_cons_of_mem _ hn))

/-- The list of nodes of a well-formed skip list is its level-0 chain. -/
theorem SkipInv_levelChain (pq : skipPQ_t) (L : List Nat) (inv : SkipInv pq L) :
    levelChain pq 0 = L := by
  rw [levelChain_eq pq L inv 0 (inv.level_pos _ (List.mem_cons_self _ _)), atLevel_zero pq L inv]

theorem holds_levelChain (pq : skipPQ_t) (q : List (Nat × point_t)) (h : holds pq q) :
    (levelChain pq 0).map (entryOf pq) = q := by
  obtain ⟨L, inv, hL⟩ := h
  rw [SkipInv_levelChain pq L inv, ← hL]
  rfl

/-- The queue follows the list of pending entries: a sequence of calls succeeds on the queue
exactly when it does on the list, and then the queue holds the resulting list. -/
theorem runOps_pending (ops : List pqOp) :
    ∀ (pq : skipPQ_t) (q : List (Nat × point_t)), (∀ op ∈ ops, op.levelOK) → holds pq q →
      (∀ q2, pending ops q = some q2 → ∃ pq2, runOps ops pq = .ok pq2 ∧ holds pq2 q2)
      ∧ (pending ops q = none → runOps ops pq = .error .fault) := by
  induction ops with
  | nil =>
    intro pq q _ hq
    refine ⟨fun q2 h => ?_, fun h => ?_⟩
    · simp only [pending, Option.some.injEq] at h
      subst h
      exact ⟨pq, rfl, hq⟩
    · simp [pending] at h
  | cons op ops ih =>
    intro pq q hl hq
    have hl2 : ∀ o ∈ ops, o.levelOK := fun o ho => hl o (List.mem_cons_of_mem _ ho)
    have hop := hl op (List.mem_cons_self _ _)
    cases op with
    | insert data priority level =>
      obtain ⟨pq1, hres, hq1, _⟩ := holds_initSkipNode pq q data priority level hq hop
      simp only [pending, pendingOp, runOps, applyOp, hres]
      exact ih pq1 _ hl2 hq1
    | removeMin =>
      cases q with
      | nil =>
        obtain ⟨L, inv, hL⟩ := hq
        have hLn : L = [] := by simpa [entries] using hL
        subst hLn
        have hmin := getMinSkipNode_nil pq inv
        simp only [pending, pendingOp, runOps, applyOp, freeMinSkipNode, hmin]
        simp
      | cons e q1 =>
        obtain ⟨_, _, _, pq1, hres, hq1, _⟩ := holds_cons_pop pq e q1 hq
        simp only [pending, pendingOp, runOps, applyOp, hres]
        exact ih pq1 _ hl2 hq1

/-- A queue reached by the calls `ops` holds the entries `pending ops []`. -/
theorem runOps_holds (ops : List pqOp) (pq : skipPQ_t) (hl : ∀ op ∈ ops, op.levelOK)
    (hrun : runOps ops initSkipPQ = .ok pq) :
    ∃ q, pending ops [] = some q ∧ holds pq q := by
  obtain ⟨h1, h2⟩ := runOps_pending ops initSkipPQ [] hl holds_initSkipPQ
  cases hp : pending ops [] with
  | none => rw [h2 hp] at hrun; cases hrun
  | some q =>
    obtain ⟨pq2, hr, hq⟩ := h1 q hp
    rw [hr] at hrun
    cases hrun
    exact ⟨q, rfl, hq⟩

theorem pending_length (ops : List pqOp) :
    ∀ (q q2 : List (Nat × point_t)), pending ops q = some q2 →
      q2.length + countRemove ops = q.length + countInsert ops := by
  induction ops with
  | nil =>
    intro q q2 h
    simp only [pending, Option.some.injEq] at h
    subst h
    rfl
  | cons op ops ih =>
    intro q q2 h
    cases op with
    | insert data priority level =>
      simp only [pending, pendingOp] at h
      have := ih _ _ h
      rw [length_insertEntry] at this
      simp only [countInsert, countRemove]
      omega
    | removeMin =>
      cases q with
      | nil => simp [pending, pendingOp] at h
      | cons e q1 =>
        simp only [pending, pendingOp] at h
        have := ih _ _ h
        simp only [countInsert, countRemove, List.length_cons]
        omega

theorem holds_isEmpty_iff (pq : skipPQ_t) (q : List (Nat × point_t)) (h : holds pq q) :
    isSkipPQEmpty pq = true ↔ q = [] := by
  cases q with
  | nil => exact ⟨fun _ => rfl, fun _ => holds_nil_isEmpty pq h⟩

  | cons e q1 =>
    have := (holds_cons_pop pq e q1 h).1
    rw [this]
    simp

theorem Reachable_samplePQ : Reachable samplePQ := ⟨sampleOps, by decide, rfl⟩

/-! ### Claims about the priority queue -/

/-- C12: in every queue reached from `initSkipPQ ()` by insertions (with positive levels) and
removals of the minimum, at every level `i` below the level of the head the chain that starts
at the head and follows `forward[i]` ends in `NULL` and is sorted by non-decreasing priority;
the level-0 chain in particular. -/
theorem C12_queue_sorted (pq : skipPQ_t) (h : Reachable pq) (i : Nat)
    (hi : i < (pq.mem pq.head).level) :
    chainTo pq.mem i (some pq.head) (pq.head :: levelChain pq i) none
    ∧ ((pq.head :: levelChain pq i).map (fun n => (pq.mem n).priority)).Pairwise
        (fun a b => a ≤ b) := by
  obtain ⟨L, inv, h0⟩ := Reachable_inv pq h
  rw [levelChain_eq pq L inv i hi]
  constructor
  · have := inv.links i hi
    rw [atLevel_cons_pos _ _ _ _ hi] at this
    exact this
  · rw [List.pairwise_map, List.pairwise_cons]
    refine ⟨fun n _ => by rw [h0]; exact Nat.zero_le _, ?_⟩
    exact inv.sorted.sublist (atLevel_sublist pq.mem i L)

/-- Witness of C12: the level-0 chain of the queue `samplePQ`. -/
theorem C12_queue_sorted_witness :
    ((samplePQ.head :: levelChain samplePQ 0).map (fun n => (samplePQ.mem n).priority)).Pairwise
      (fun a b => a ≤ b) :=
  (C12_queue_sorted samplePQ ⟨sampleOps, by decide, rfl⟩ 0 (by decide)).2

/-- C13: after any sequence `ops` of insertions (with positive levels) and removals that did
not fail, `getMinSkipNode` returns the level-0 successor of the head; it is `NULL` exactly when
no inserted entry is pending (`isSkipPQEmpty`); otherwise it is the first node of the level-0
chain, it holds a pending entry, and its priority is less than or equal to the priority of
every pending entry. `getMinSkipNode` only reads the queue. -/
theorem C13_peek_min (ops : List pqOp) (pq : skipPQ_t) (hl : ∀ op ∈ ops, op.levelOK)
    (hrun : runOps ops initSkipPQ = .ok pq) :
    getMinSkipNode pq = (pq.mem pq.head).forward NEXT
    ∧ getMinSkipNode pq = (levelChain pq 0).head?
    ∧ ∃ q, pending ops [] = some q
        ∧ (levelChain pq 0).map (entryOf pq) = q
        ∧ (getMinSkipNode pq = none ↔ q = [])
        ∧ (getMinSkipNode pq = none ↔ isSkipPQEmpty pq = true)
        ∧ ∀ n, getMinSkipNode pq = some n →
            entryOf pq n ∈ q ∧ ∀ e ∈ q, (pq.mem n).priority ≤ e.1 := by
  obtain ⟨q, hq, hh⟩ := runOps_holds ops pq hl hrun
  have hchain := holds_levelChain pq q hh
  obtain ⟨L, inv, hL⟩ := hh
  have hLc := SkipInv_levelChain pq L inv
  have hempty : getMinSkipNode pq = none ↔ isSkipPQEmpty pq = true := by
    unfold isSkipPQEmpty getMinSkipNode
    cases (pq.mem pq.head).forward NEXT <;> simp
  refine ⟨rfl, ?_, q, hq, hchain, ?_, hempty, ?_⟩
  · rw [hLc]
    cases L with
    | nil => exact getMinSkipNode_nil pq inv
    | cons n L => exact getMinSkipNode_cons pq n L inv
  · rw [← hL]
    cases L with
    | nil => simp [getMinSkipNode_nil pq inv, entries]
    | cons n L => simp [getMinSkipNode_cons pq n L inv, entries]
  · intro n hn
    cases L with
    | nil => rw [getMinSkipNode_nil pq inv] at hn; cases hn
    | cons m L =>
      rw [getMinSkipNode_cons pq m L inv] at hn
      cases hn
      rw [← hL]
      refine ⟨by simp [entries, entryOf], ?_⟩
      intro e he
      simp only [entries, List.map_cons, List.mem_cons, List.mem_map] at he
      rcases he with rfl | ⟨k, hk, rfl⟩
      · exact Nat.le_refl _
      · exact (List.pairwise_cons.mp inv.sorted).1 k hk

/-- Witness of C13: after `sampleOps` the minimum is the node at address 3, the later of the
two entries of priority 5. -/
theorem C13_peek_min_witness :
    getMinSkipNode samplePQ = (levelChain samplePQ 0).head?
    ∧ getMinSkipNode samplePQ = some 3 :=
  ⟨(C13_peek_min sampleOps samplePQ (by decide) rfl).2.1, by decide⟩

/-- C14: on a non-empty queue reached by insertions and removals, `freeMinSkipNode` succeeds
and unlinks exactly the first node `n` of the level-0 chain: the level-0 chain loses its first
node, the chain of every level that the head keeps is the previous chain of that level without
`n`, the levels that the head gives up held no node but `n`, and no other node is changed (no
entry is lost, duplicated or reordered). -/
theorem C14_remove_min (pq : skipPQ_t) (h : Reachable pq) (hne : isSkipPQEmpty pq = false) :
    ∃ n pq2, getMinSkipNode pq = some n ∧ freeMinSkipNode pq = .ok pq2
      ∧ levelChain pq 0 = n :: levelChain pq2 0
      ∧ pq2.head = pq.head
      ∧ (pq2.mem pq2.head).level ≤ (pq.mem pq.head).level
      ∧ (∀ i, i < (pq2.mem pq2.head).level → levelChain pq2 i = (levelChain pq i).erase n)
      ∧ (∀ i, (pq2.mem pq2.head).level ≤ i → i < (pq.mem pq.head).level →
          (levelChain pq i).erase n = [])
      ∧ (∀ m, m ≠ pq.head → pq2.mem m = pq.mem m)
      ∧ (levelChain pq2 0).map (entryOf pq2) = ((levelChain pq 0).map (entryOf pq)).tail := by
  obtain ⟨L0, inv, _⟩ := Reachable_inv pq h
  cases L0 with
  | nil =>
    have := holds_nil_isEmpty pq ⟨[], inv, rfl⟩
    rw [this] at hne
    cases hne
  | cons n L =>
    obtain ⟨pq2, hres, inv2, _, hh, hm⟩ := freeMinSkipNode_spec pq n L inv
    have hlev := (freeMinSkipNode_fields pq pq2 hres).2
    have hhL : ∀ m ∈ L, m ≠ pq.head := by
      intro m hmL hmh
      exact (List.nodup_cons.mp inv.nodup).1 (hmh ▸ List.mem_cons_of_mem _ hmL)
    have hnL : n ∉ L := (List.nodup_cons.mp (List.nodup_cons.mp inv.nodup).2).1
    have hat : ∀ i, atLevel pq2.mem i L = atLevel pq.mem i L := fun i =>
      atLevel_congr pq.mem pq2.mem i L (fun m hmem => by rw [hm m (hhL m hmem)])
    have herase : ∀ i, (atLevel pq.mem i (n :: L)).erase n = atLevel pq.mem i L := by
      intro i
      by_cases hi : i < (pq.mem n).level
      · rw [atLevel_cons_pos _ _ _ _ hi, List.erase_cons_head]
      · rw [atLevel_cons_neg _ _ _ _ (Nat.not_lt.mp hi)]
        exact List.erase_of_not_mem (fun hmem => hnL ((mem_atLevel _ _ _ _).mp hmem).1)
    refine ⟨n, pq2, getMinSkipNode_cons pq n L inv, hres, ?_, hh, by rw [hh]; exact hlev,
      ?_, ?_, hm, ?_⟩
    · rw [SkipInv_levelChain pq _ inv, SkipInv_levelChain pq2 _ inv2]
    · intro i hi
      rw [levelChain_eq pq2 L inv2 i hi]
      rw [hh] at hi
      rw [levelChain_eq pq _ inv i (lt_of_lt_of_le hi hlev), herase, hat]
    · intro i hi1 hi2
      rw [levelChain_eq pq _ inv i hi2, herase, atLevel_eq_nil_iff]
      intro m hmL
      have := inv2.level_le m hmL
      rw [hm m (hhL m hmL)] at this
      exact le_trans this hi1
    · rw [SkipInv_levelChain pq _ inv, SkipInv_levelChain pq2 _ inv2, List.map_cons,
        List.tail_cons]
      apply List.map_congr_left
      intro m hmL
      unfold entryOf
      rw [hm m (hhL m hmL)]

/-- Witness of C14: removing the minimum of `samplePQ`, whose level-0 chain is `[3, 1]`. -/
theorem C14_remove_min_witness :
    ∃ n pq2, getMinSkipNode samplePQ = some n ∧ freeMinSkipNode samplePQ = .ok pq2
      ∧ levelChain samplePQ 0 = n :: levelChain pq2 0 := by
  obtain ⟨n, pq2, h1, h2, h3, _⟩ :=
    C14_remove_min samplePQ ⟨sampleOps, by decide, rfl⟩ (by decide)
  exact ⟨n, pq2, h1, h2, h3⟩

/-- In a chain that runs through `A`, then `a`, then `B`, the node `a` is the successor of the
last node of `A` (of the first node `h` when `A` is empty) and the first node of `B` is the
successor of `a`. -/
theorem chainTo_link (mem : Nat → skipNode_t) (i a : Nat) (B : List Nat) :
    ∀ (A : List Nat) (h : Nat), chainTo mem i (some h) (h :: A ++ a :: B) none →
      (mem (lastOf h A)).forward i = some a ∧ (mem a).forward i = B.head? := by
  intro A
  induction A with
  | nil =>
    intro h hc
    simp only [List.nil_append, List.cons_append, chainTo_cons] at hc
    obtain ⟨_, h1, h2⟩ := hc
    refine ⟨h1, ?_⟩
    cases B with
    | nil => rw [chainTo_nil] at h2; exact h2
    | cons b B => rw [chainTo_cons] at h2; exact h2.1
  | cons x A ih =>
    intro h hc
    rw [List.cons_append, chainTo_cons, List.cons_append, chainTo_cons] at hc
    obtain ⟨_, h1, h2⟩ := hc
    have := ih x (by rw [List.cons_append, chainTo_cons]; exact ⟨rfl, h2⟩)
    exact this

/-- The chains of the queue after `initSkipNode`, level by level: the nodes of the level that
have a smaller priority, then the new node if it reaches the level, then the other nodes. -/
theorem initSkipNode_chains (pq : skipPQ_t) (L : List Nat) (data : point_t)
    (priority level : Nat) (inv : SkipInv pq L) (hl : 1 ≤ level) :
    ∃ pq2, initSkipNode pq data priority level = .ok pq2
      ∧ pq2.head = pq.head
      ∧ (pq2.mem pq2.head).level = max (pq.mem pq.head).level level
      ∧ (pq2.mem pq.next).level = level
      ∧ entryOf pq2 pq.next = (priority, data)
      ∧ (∀ m ∈ L, entryOf pq2 m = entryOf pq m)
      ∧ pq.next ∉ L
      ∧ (∀ i, i < (pq2.mem pq2.head).level →
          levelChain pq2 i
            = atLevel pq.mem i (L.takeWhile (fun n => decide ((pq.mem n).priority < priority)))
              ++ (if i < level then [pq.next] else [])
              ++ atLevel pq.mem i (L.dropWhile (fun n => decide ((pq.mem n).priority < priority))))
      ∧ (∀ i, i < (pq2.mem pq2.head).level →
          chainTo pq2.mem i (some pq2.head) (pq2.head :: levelChain pq2 i) none) := by
  obtain ⟨pq2, hres, inv2, _, hh, hp, hd, hlv, ho, hmax⟩ :=
    initSkipNode_spec pq L data priority level inv hl
  have hnL : ∀ m ∈ L, m ≠ pq.next :=
    fun m hm => ne_of_lt (inv.lt_next m (List.mem_cons_of_mem _ hm))
  have hhL : ∀ m ∈ L, m ≠ pq.head := by
    intro m hmL hmh
    exact (List.nodup_cons.mp inv.nodup).1 (hmh ▸ hmL)
  have hat : ∀ (i : Nat) (l : List Nat), (∀ m ∈ l, m ∈ L) →
      atLevel pq2.mem i l = atLevel pq.mem i l := fun i l hsub =>
    atLevel_congr pq.mem pq2.mem i l
      (fun m hmem => (ho m (hnL m (hsub m hmem))).2.2 (hhL m (hsub m hmem)))
  have hchain : ∀ i, i < (pq2.mem pq2.head).level →
      levelChain pq2 i
        = atLevel pq.mem i (L.takeWhile (fun n => decide ((pq.mem n).priority < priority)))
          ++ (if i < level then [pq.next] else [])
          ++ atLevel pq.mem i
              (L.dropWhile (fun n => decide ((pq.mem n).priority < priority))) := by
    intro i hi
    rw [levelChain_eq pq2 _ inv2 i hi, atLevel_append,
      hat i _ (fun m hm => (List.takeWhile_sublist _).subset hm), List.append_assoc]
    congr 1
    by_cases hil : i < level
    · rw [if_pos hil, atLevel_cons_pos _ _ _ _ (by rw [hlv]; exact hil),
        hat i _ (fun m hm => (List.dropWhile_sublist _).subset hm)]
      rfl
    · rw [if_neg hil, atLevel_cons_neg _ _ _ _ (by rw [hlv]; exact Nat.not_lt.mp hil),
        hat i _ (fun m hm => (List.dropWhile_sublist _).subset hm)]
      rfl
  refine ⟨pq2, hres, hh, by rw [hh]; exact hmax, hlv, ?_, ?_, ?_, hchain, ?_⟩
  · unfold entryOf; rw [hp, hd]
  · intro m hm
    unfold entryOf
    rw [(ho m (hnL m hm)).1, (ho m (hnL m hm)).2.1]
  · exact fun hmem => hnL _ hmem rfl
  · intro i hi
    have := inv2.links i hi
    rw [atLevel_cons_pos _ _ _ _ hi, ← levelChain_eq pq2 _ inv2 i hi] at this
    exact this

/-- C15: on a queue reached by insertions and removals, `initSkipNode` with any payload,
priority and positive level succeeds; the new level-0 chain is the previous one, in its
previous order, with exactly one new node in it, which carries the given payload and priority;
the entries of the previous nodes are unchanged; and the new node is in the chain of level `i`
exactly when `i < level`. -/
theorem C15_insert_one (pq : skipPQ_t) (h : Reachable pq) (data : point_t)
    (priority level : Nat) (hl : 1 ≤ level) :
    ∃ pq2 A B, initSkipNode pq data priority level = .ok pq2
      ∧ levelChain pq 0 = A ++ B
      ∧ levelChain pq2 0 = A ++ pq.next :: B
      ∧ pq.next ∉ A ++ B
      ∧ entryOf pq2 pq.next = (priority, data)
      ∧ (∀ m ∈ A ++ B, entryOf pq2 m = entryOf pq m)
      ∧ (pq2.mem pq.next).level = level
      ∧ level ≤ (pq2.mem pq2.head).level
      ∧ ∀ i, i < (pq2.mem pq2.head).level →
          ((pq.next ∈ levelChain pq2 i ↔ i < level) ∧ (levelChain pq2 i).count pq.next ≤ 1) := by
  obtain ⟨L, inv, _⟩ := Reachable_inv pq h
  obtain ⟨pq2, hres, _, hmax, hlv, he, ho, hnL, hchain, _⟩ :=
    initSkipNode_chains pq L data priority level inv hl
  have hH0 : 0 < (pq2.mem pq2.head).level := by rw [hmax]; exact lt_of_lt_of_le hl (le_max_right _ _)
  have hsplit := List.takeWhile_append_dropWhile
    (fun n => decide ((pq.mem n).priority < priority)) L
  have hnT : ∀ i, pq.next ∉ atLevel pq.mem i
      (L.takeWhile (fun n => decide ((pq.mem n).priority < priority))) := fun i hmem =>
    hnL ((List.takeWhile_sublist _).subset ((mem_atLevel _ _ _ _).mp hmem).1)
  have hnD : ∀ i, pq.next ∉ atLevel pq.mem i
      (L.dropWhile (fun n => decide ((pq.mem n).priority < priority))) := fun i hmem =>
    hnL ((List.dropWhile_sublist _).subset ((mem_atLevel _ _ _ _).mp hmem).1)
  refine ⟨pq2, L.takeWhile (fun n => decide ((pq.mem n).priority < priority)),
    L.dropWhile (fun n => decide ((pq.mem n).priority < priority)), hres, ?_, ?_, ?_, he, ?_,
    hlv, by rw [hmax]; exact le_max_right _ _, ?_⟩
  · rw [SkipInv_levelChain pq L inv, hsplit]
  · have h0 := hchain 0 hH0
    have hT : ∀ l : List Nat, (∀ m ∈ l, m ∈ L) → atLevel pq.mem 0 l = l := by
      intro l hsub
      unfold atLevel
      rw [List.filter_eq_self]
      intro n hn
      exact decide_eq_true (inv.level_pos n (List.mem_cons_of_mem _ (hsub n hn)))
    rw [h0, if_pos (show 0 < level from hl), hT _ (fun m hm => (List.takeWhile_sublist _).subset hm),
      hT _ (fun m hm => (List.dropWhile_sublist _).subset hm), List.append_assoc]
    rfl
  · rw [hsplit]; exact hnL
  · rw [hsplit]; exact ho
  · intro i hi
    rw [hchain i hi]
    by_cases hil : i < level
    · rw [if_pos hil]
      refine ⟨⟨fun _ => hil, fun _ => by simp⟩, ?_⟩
      rw [List.count_append, List.count_append, List.count_eq_zero_of_not_mem (hnT i),
        List.count_eq_zero_of_not_mem (hnD i)]
      simp
    · rw [if_neg hil]
      refine ⟨⟨fun hmem => ?_, fun hlt => absurd hlt hil⟩, ?_⟩
      · simp only [List.append_nil, List.mem_append] at hmem
        rcases hmem with hmem | hmem
        · exact absurd hmem (hnT i)
        · exact absurd hmem (hnD i)
      · rw [List.count_append, List.count_append, List.count_eq_zero_of_not_mem (hnT i),
          List.count_eq_zero_of_not_mem (hnD i)]
        simp

/-- Witness of C15: inserting the payload `(4,4)` with priority 5 and level 2 into `samplePQ`
creates the node at address 4. -/
theorem C15_insert_one_witness :
    ∃ pq2 A B, initSkipNode samplePQ { x := 4, y := 4 } 5 2 = .ok pq2
      ∧ levelChain samplePQ 0 = A ++ B ∧ levelChain pq2 0 = A ++ samplePQ.next :: B := by
  obtain ⟨pq2, A, B, h1, h2, h3, _⟩ :=
    C15_insert_one samplePQ ⟨sampleOps, by decide, rfl⟩ { x := 4, y := 4 } 5 2 (by decide)
  exact ⟨pq2, A, B, h1, h2, h3⟩

/-- C17: on a queue reached by insertions and removals, `initSkipNode` links a new node of
level `level` into the chain of every level `i < level` immediately after the last node of that
level whose priority is strictly less than the new priority, immediately after the head when
there is none: the chain becomes `A ++ new :: B`, where `A ++ B` is the previous chain of the
level (empty if the head did not have that level), every node of `A` has a smaller priority
and no node of `B` has; the successor of the last node of `A` (of the head) is the new node
and the successor of the new node is the first node of `B`. -/
theorem C17_insert_position (pq : skipPQ_t) (h : Reachable pq) (data : point_t)
    (priority level : Nat) (hl : 1 ≤ level) (i : Nat) (hi : i < level) :
    ∃ pq2 A B, initSkipNode pq data priority level = .ok pq2
      ∧ (if i < (pq.mem pq.head).level then levelChain pq i else []) = A ++ B
      ∧ levelChain pq2 i = A ++ pq.next :: B
      ∧ (∀ m ∈ A, (pq.mem m).priority < priority)
      ∧ (∀ m ∈ B, priority ≤ (pq.mem m).priority)
      ∧ (pq2.mem (lastOf pq2.head A)).forward i = some pq.next
      ∧ (pq2.mem pq.next).forward i = B.head? := by
  obtain ⟨L, inv, _⟩ := Reachable_inv pq h
  obtain ⟨pq2, hres, _, hmax, _, _, _, _, hchain, hlinks⟩ :=
    initSkipNode_chains pq L data priority level inv hl
  have hi2 : i < (pq2.mem pq2.head).level := by
    rw [hmax]; exact lt_of_lt_of_le hi (le_max_right _ _)
  have hsplit := List.takeWhile_append_dropWhile
    (fun n => decide ((pq.mem n).priority < priority)) L
  have hnew : levelChain pq2 i
      = atLevel pq.mem i (L.takeWhile (fun n => decide ((pq.mem n).priority < priority)))
        ++ pq.next :: atLevel pq.mem i
            (L.dropWhile (fun n => decide ((pq.mem n).priority < priority))) := by
    rw [hchain i hi2, if_pos hi, List.append_assoc]
    rfl
  refine ⟨pq2, atLevel pq.mem i (L.takeWhile (fun n => decide ((pq.mem n).priority < priority))),
    atLevel pq.mem i (L.dropWhile (fun n => decide ((pq.mem n).priority < priority))),
    hres, ?_, hnew, ?_, ?_, ?_⟩
  · rw [← atLevel_append, hsplit]
    by_cases hiH : i < (pq.mem pq.head).level
    · rw [if_pos hiH, levelChain_eq pq L inv i hiH]
    · rw [if_neg hiH]
      symm
      rw [atLevel_eq_nil_iff]
      intro m hm
      exact le_trans (inv.level_le m hm) (Nat.not_lt.mp hiH)
  · intro m hm
    exact lt_of_mem_takeWhile (fun n => (pq.mem n).priority) priority L m
      ((mem_atLevel _ _ _ _).mp hm).1
  · intro m hm
    exact le_of_mem_dropWhile (fun n => (pq.mem n).priority) priority L inv.sorted m
      ((mem_atLevel _ _ _ _).mp hm).1
  · have hc := hlinks i hi2
    rw [hnew] at hc
    exact chainTo_link pq2.mem i pq.next _ _ _ hc

/-- Witness of C17: inserting priority 5 with level 2 into `samplePQ`, at level 1. -/
theorem C17_insert_position_witness :
    ∃ pq2 A B, initSkipNode samplePQ { x := 4, y := 4 } 5 2 = .ok pq2
      ∧ levelChain pq2 1 = A ++ samplePQ.next :: B
      ∧ (∀ m ∈ A, (samplePQ.mem m).priority < 5) := by
  obtain ⟨pq2, A, B, h1, _, h3, h4, _⟩ :=
    C17_insert_position samplePQ ⟨sampleOps, by decide, rfl⟩ { x := 4, y := 4 } 5 2
      (by decide) 1 (by decide)
  exact ⟨pq2, A, B, h1, h3, h4⟩

/-- C16 fails on the code: after inserting `(1,1)` and then `(2,2)`, both with priority 5,
the minimum node holds `(2,2)`, the entry inserted last, and `(1,1)` comes out only after it;
the claim and the header of skipPQ.h promise the order of insertion. -/
theorem C16_ties_newest_first :
    runOps tieOps initSkipPQ = .ok tiePQ
    ∧ getSkipNodeData tiePQ (getMinSkipNode tiePQ) = .ok { x := 2, y := 2 }
    ∧ secondData tiePQ = .ok { x := 1, y := 1 } :=
  ⟨rfl, rfl, rfl⟩

theorem runOps_append (ops1 ops2 : List pqOp) :
    ∀ (pq pq1 : skipPQ_t), runOps ops1 pq = .ok pq1 →
      runOps (ops1 ++ ops2) pq = runOps ops2 pq1 := by
  induction ops1 with
  | nil =>
    intro pq pq1 h
    simp only [runOps, Except.ok.injEq] at h
    subst h
    rfl
  | cons op ops ih =>
    intro pq pq1 h
    simp only [runOps, List.cons_append] at h ⊢
    cases hop : applyOp pq op with
    | error e => rw [hop] at h; cases h
    | ok pq0 =>
      rw [hop] at h
      exact ih pq0 pq1 h

/-- C18: after any sequence `ops` of insertions (with positive levels) and removals that did
not fail on the fresh queue, `isSkipPQEmpty` is true exactly when the number of removals equals
the number of insertions (it never exceeds it); the fresh queue is empty; and any further
insertion succeeds and leaves a queue that is not empty. -/
theorem C18_emptiness (ops : List pqOp) (pq : skipPQ_t) (hl : ∀ op ∈ ops, op.levelOK)
    (hrun : runOps ops initSkipPQ = .ok pq) :
    (isSkipPQEmpty pq = true ↔ countRemove ops = countInsert ops)
    ∧ countRemove ops ≤ countInsert ops
    ∧ isSkipPQEmpty initSkipPQ = true
    ∧ ∀ (data : point_t) (priority level : Nat), 1 ≤ level →
        ∃ pq2, initSkipNode pq data priority level = .ok pq2 ∧ isSkipPQEmpty pq2 = false := by
  obtain ⟨q, hq, hh⟩ := runOps_holds ops pq hl hrun
  have hlen := pending_length ops [] q hq
  simp only [List.length_nil, Nat.zero_add] at hlen
  refine ⟨?_, by omega, rfl, ?_⟩
  · rw [holds_isEmpty_iff pq q hh, ← List.length_eq_zero]
    omega
  · intro data priority level hlev
    obtain ⟨pq2, hres, hh2, _⟩ := holds_initSkipNode pq q data priority level hh hlev
    refine ⟨pq2, hres, ?_⟩
    cases hemp : isSkipPQEmpty pq2 with
    | false => rfl
    | true =>
      have := (holds_isEmpty_iff pq2 _ hh2).mp hemp
      have hlen2 := length_insertEntry (priority, data) q
      rw [this] at hlen2
      simp at hlen2

/-- Witness of C18: after `sampleOps` (three insertions, one removal) the queue is not empty. -/
theorem C18_emptiness_witness : isSkipPQEmpty samplePQ = false := by
  have h := (C18_emptiness sampleOps samplePQ (by decide) rfl).1
  cases hemp : isSkipPQEmpty samplePQ with
  | false => rfl
  | true => exact absurd (h.mp hemp) (by decide)

/-- C19: `freeMinSkipNode` fails exactly on a queue for which `isSkipPQEmpty` is true: there
it dereferences the `NULL` minimum, which is the error `fault`, and no queue is returned; on
every other queue it returns a queue, and from a queue reached by insertions and removals it
returns such a queue again. -/
theorem C19_remove_min_empty (pq : skipPQ_t) :
    (isSkipPQEmpty pq = true ↔ freeMinSkipNode pq = .error .fault)
    ∧ (isSkipPQEmpty pq = false ↔ ∃ pq2, freeMinSkipNode pq = .ok pq2)
    ∧ (Reachable pq → ∀ pq2, freeMinSkipNode pq = .ok pq2 → Reachable pq2) := by
  refine ⟨?_, ?_, ?_⟩
  · unfold isSkipPQEmpty freeMinSkipNode getMinSkipNode
    cases (pq.mem pq.head).forward NEXT <;> simp
  · unfold isSkipPQEmpty freeMinSkipNode getMinSkipNode
    cases (pq.mem pq.head).forward NEXT <;> simp
  · rintro ⟨ops, hl, hrun⟩ pq2 hres
    refine ⟨ops ++ [.removeMin], ?_, ?_⟩
    · intro op hop
      rcases List.mem_append.mp hop with h | h
      · exact hl op h
      · simp only [List.mem_singleton] at h
        subst h
        trivial
    · rw [runOps_append ops _ initSkipPQ pq hrun]
      simp only [runOps, applyOp, hres]

/-- Witness of C19: the fresh queue is empty and `freeMinSkipNode` fails on it. -/
theorem C19_remove_min_empty_witness :
    freeMinSkipNode initSkipPQ = .error .fault ∧ ∃ pq2, freeMinSkipNode samplePQ = .ok pq2 :=
  ⟨(C19_remove_min_empty initSkipPQ).1.mp rfl, (C19_remove_min_empty samplePQ).2.1.mp rfl⟩

/-! ### Move validity -/

/-- C20 (as stated) fails when `from` is a wall: in the 3 x 3 dungeon whose middle column is
a wall, the move from `(1,0)` to its neighbour `(0,0)` changes one axis only and `(0,0)` is an
in-bounds floor tile, yet `isValidMove` rejects it, because the cell `(from.x, to.y)`, which is
`from` itself here, is a wall. -/
theorem C20_counterexample :
    inBounds dungeonSplit { x := 1, y := 0 } = true
    ∧ ({ x := -1, y := 0 } : point_t) ∈ MOVES
    ∧ inBounds dungeonSplit { x := 0, y := 0 } = true
    ∧ dungeonSplit.map 0 0 ≠ TILE_WALL
    ∧ isValidMove dungeonSplit { x := 1, y := 0 } { x := 0, y := 0 } = some false := by
  decide

/-- C20 (amended): for every dungeon, every in-bounds `from` and every move `m` of the 8 unit
moves, `isValidMove` does not fail on `from` and `to = from + m`, and it is true if and only if
`to` is in bounds, `to` is not a wall and neither `(from.x, to.y)` nor `(to.x, from.y)` is a
wall. These two cells are checked for every move; when `from` is not a wall this is the same as
checking them only when `from` and `to` differ in both axes. -/
theorem C20_move_validity (d : dungeon_t) (from_ m : point_t)
    (hf : inBounds d from_ = true) (hm : m ∈ MOVES) :
    isValidMove d from_ { x := from_.x + m.x, y := from_.y + m.y } ≠ none
    ∧ (isValidMove d from_ { x := from_.x + m.x, y := from_.y + m.y } = some true ↔
        inBounds d { x := from_.x + m.x, y := from_.y + m.y } = true
        ∧ d.map (from_.x + m.x).toNat (from_.y + m.y).toNat ≠ TILE_WALL
        ∧ d.map from_.x.toNat (from_.y + m.y).toNat ≠ TILE_WALL
        ∧ d.map (from_.x + m.x).toNat from_.y.toNat ≠ TILE_WALL)
    ∧ (d.map from_.x.toNat from_.y.toNat ≠ TILE_WALL →
        (isValidMove d from_ { x := from_.x + m.x, y := from_.y + m.y } = some true ↔
          inBounds d { x := from_.x + m.x, y := from_.y + m.y } = true
          ∧ d.map (from_.x + m.x).toNat (from_.y + m.y).toNat ≠ TILE_WALL
          ∧ (m.x ≠ 0 ∧ m.y ≠ 0 →
              d.map from_.x.toNat (from_.y + m.y).toNat ≠ TILE_WALL
              ∧ d.map (from_.x + m.x).toNat from_.y.toNat ≠ TILE_WALL))) := by
  have hdist : distancePoints from_ { x := from_.x + m.x, y := from_.y + m.y } COST COST = 1 := by
    unfold COST
    rw [distancePoints_unit]
    rw [mem_MOVES_iff] at hm
    simp only [sub_add_cancel_left, Int.natAbs_neg]
    have h1 : m.x.natAbs % 65536 = m.x.natAbs := by omega
    have h2 : m.y.natAbs % 65536 = m.y.natAbs := by omega
    rw [h1, h2]
    exact hm
  have hmain : isValidMove d from_ { x := from_.x + m.x, y := from_.y + m.y } = some true ↔
      inBounds d { x := from_.x + m.x, y := from_.y + m.y } = true
      ∧ d.map (from_.x + m.x).toNat (from_.y + m.y).toNat ≠ TILE_WALL
      ∧ d.map from_.x.toNat (from_.y + m.y).toNat ≠ TILE_WALL
      ∧ d.map (from_.x + m.x).toNat from_.y.toNat ≠ TILE_WALL := by
    unfold isValidMove
    unfold inBounds at hf ⊢
    rw [if_pos hf, hdist]
    simp only [Option.some.injEq, Bool.and_eq_true, beq_self_eq_true, true_and, bne_iff_ne,
      ne_eq, and_assoc]
  refine ⟨isValidMove_ne_none d from_ _ hf, hmain, ?_⟩
  intro hfw
  rw [hmain]
  refine and_congr_right (fun _ => and_congr_right (fun hto => ?_))
  constructor
  · exact fun h _ => h
  · intro h
    by_cases hx : m.x = 0
    · by_cases hy : m.y = 0
      · rw [hx, hy, add_zero, add_zero]; exact ⟨hfw, hfw⟩
      · rw [hx, add_zero] at hto ⊢; exact ⟨hto, hfw⟩
    · by_cases hy : m.y = 0
      · rw [hy, add_zero] at hto ⊢; exact ⟨hfw, hto⟩
      · exact h ⟨hx, hy⟩

/-- Witness of C20 (amended): the diagonal move from `(0,0)` to `(1,1)` in the open 3 x 3
dungeon is valid. -/
theorem C20_move_validity_witness :
    isValidMove dungeonOpen3 { x := 0, y := 0 } { x := 0 + 1, y := 0 + 1 } = some true :=
  (C20_move_validity dungeonOpen3 { x := 0, y := 0 } { x := 1, y := 1 } (by decide)
    (by decide)).2.1.mpr (by decide)

/-! ### The search along a corridor -/

/-- Every valid move from a cell of a corridor is axis-aligned and costs 70. -/
theorem corridor_cost (d : dungeon_t) (cellK : Nat → point_t) (N : Nat)
    (hC : Corridor d cellK N) (k : Nat) (hk : k < N) (m : point_t) (hm : m ∈ MOVES)
    (hv : isValidMove d (cellK k) (addPoints (cellK k) m) = some true) : cost m = 70 := by
  obtain ⟨hx, hy, _⟩ := valid_addPoints d hC.uint16 (cellK k) m hm hv
  have hunit := (mem_MOVES_iff m).mp hm
  rw [cost_of_unit m hunit]
  have hax : m.x = 0 ∨ m.y = 0 := by
    rcases hC.only k _ hk hv with h | ⟨h1, h⟩
    · rw [h] at hx hy
      rcases hC.axis k hk with h2 | h2
      · left; rw [← hx, h2]; exact sub_self _
      · right; rw [← hy, h2]; exact sub_self _
    · rw [h] at hx hy
      have h3 := hC.axis (k - 1) (by omega)
      rw [show k - 1 + 1 = k by omega] at h3
      rcases h3 with h2 | h2
      · left; rw [← hx, h2]; exact sub_self _
      · right; rw [← hy, h2]; exact sub_self _
  rw [if_pos hax]


theorem exists_snoc_iff (done : List point_t) (m : point_t) (p : point_t → Prop) :
    (∃ x ∈ done ++ [m], p x) ↔ (∃ x ∈ done, p x) ∨ p m := by
  constructor
  · rintro ⟨x, hx, hp⟩
    rcases List.mem_append.mp hx with h | h
    · exact Or.inl ⟨x, h, hp⟩
    · rw [List.mem_singleton.mp h] at hp
      exact Or.inr hp
  · rintro (⟨x, hx, hp⟩ | hp)
    · exact ⟨x, List.mem_append_left _ hx, hp⟩
    · exact ⟨m, List.mem_append_right _ (List.mem_singleton_self m), hp⟩

/-- One move of `exploreNeighbours` around a corridor cell keeps `StepInv`. -/
theorem StepInv_relaxed (d : dungeon_t) (cellK : Nat → point_t) (N : Nat)
    (hC : Corridor d cellK N) (target : point_t) (k : Nat) (hk : k < N)
    (pd0 : pointTable_t) (G Gb : Nat)
    (hG : (cellAt pd0 (cellK k)).gScore = G)
    (hT : (G + 70) % 4294967296 < UINT32_MAX)
    (hF : (cellAt pd0 (cellK (k + 1))).gScore = UINT32_MAX)
    (hFc : (cellAt pd0 (cellK (k + 1))).isClosed = false)
    (hB : 1 ≤ k → (cellAt pd0 (cellK (k - 1))).gScore = Gb
      ∧ (cellAt pd0 (cellK (k - 1))).isClosed = true)
    (done : List point_t) (m : point_t) (sl sl2 : searchL_t) (hm : m ∈ MOVES)
    (hP : StepInv d cellK k pd0 ((G + 70) % 4294967296) Gb
      (((G + 70) % 4294967296 + distancePoints (cellK k) target COST_CARDINAL COST_DIAGONAL)
        % 4294967296) done sl)
    (hrel : Relaxed d (cellK k) target sl sl2 m) :
    StepInv d cellK k pd0 ((G + 70) % 4294967296) Gb
      (((G + 70) % 4294967296 + distancePoints (cellK k) target COST_CARDINAL COST_DIAGONAL)
        % 4294967296) (done ++ [m]) sl2 := by
  have hne1 : cellK k ≠ cellK (k + 1) := fun h => by
    have := hC.inj _ _ (by omega) (by omega) h; omega
  have hne2 : 1 ≤ k → cellK k ≠ cellK (k - 1) := fun h1 h => by
    have := hC.inj _ _ (by omega) (by omega) h; omega
  have hne3 : cellK (k - 1) ≠ cellK (k + 1) := fun h => by
    have := hC.inj _ _ (by omega) (by omega) h; omega
  have hik := hC.inb k (by omega)
  have hiF := hC.inb (k + 1) (by omega)
  have hiB := hC.inb (k - 1) (by omega)
  have hcur : (cellAt sl.pointData (cellK k)).gScore = G := by
    rw [hP.rest (cellK k) hik hne1 (fun h => hne2 h.1 h.2)]
    exact hG
  have hten : isValidMove d (cellK k) (addPoints (cellK k) m) = some true →
      tentative sl.pointData (cellK k) m = (G + 70) % 4294967296 := by
    intro hv
    unfold tentative
    rw [hcur, corridor_cost d cellK N hC k hk m hm hv]
  generalize hTd : (G + 70) % 4294967296 = T at hT hP hten ⊢
  generalize hFd : (T + distancePoints (cellK k) target COST_CARDINAL COST_DIAGONAL)
    % 4294967296 = F at hP ⊢
  rcases hrel with ⟨heq, hle⟩ | ⟨hv, hlt, hpd, hq⟩
  · -- nothing changed
    subst heq
    have hA1 : addPoints (cellK k) m = cellK (k + 1) →
        ∃ x ∈ done, addPoints (cellK k) x = cellK (k + 1) := by
      intro hn
      by_contra hmiss
      have hv : isValidMove d (cellK k) (addPoints (cellK k) m) = some true := by
        rw [hn]; exact hC.fwd k hk
      have h1 := hle hv
      rw [hten hv, hn, (hP.miss hmiss).2, hF] at h1
      exact absurd hT (Nat.not_lt.mpr h1)
    have hA2 : 1 ≤ k → T < Gb → addPoints (cellK k) m = cellK (k - 1) →
        ∃ x ∈ done, addPoints (cellK k) x = cellK (k - 1) := by
      intro hk1 hTG hn
      by_contra hmiss
      have hv : isValidMove d (cellK k) (addPoints (cellK k) m) = some true := by
        rw [hn]
        have := hC.bwd (k - 1) (by omega)
        rw [show k - 1 + 1 = k by omega] at this
        exact this
      have h1 := hle hv
      rw [hten hv, hn, hP.keep hk1 (fun h => hmiss h.2), (hB hk1).1] at h1
      exact absurd hTG (Nat.not_lt.mpr h1)
    refine
      { hit := ?_
        miss := ?_
        back := ?_
        keep := ?_
        rest := hP.rest }
    · intro h
      rw [exists_snoc_iff] at h
      exact hP.hit (h.elim id hA1)
    · intro h
      rw [exists_snoc_iff] at h
      exact hP.miss (fun h2 => h (Or.inl h2))
    · intro hk1 hTG h
      rw [exists_snoc_iff] at h
      exact hP.back hk1 hTG (h.elim id (hA2 hk1 hTG))
    · intro hk1 h
      rw [exists_snoc_iff] at h
      exact hP.keep hk1 (fun h2 => h ⟨h2.1, Or.inl h2.2⟩)
  · -- the neighbour is rewritten
    rw [hten hv] at hlt hpd hq
    rw [hFd] at hq
    have hin := (isValidMove_inBounds d _ _ hv).2
    rcases hC.only k _ hk hv with hn | ⟨hk1, hn⟩
    · -- the next cell
      rw [hn] at hlt hpd hq
      have hmiss : ¬ ∃ x ∈ done, addPoints (cellK k) x = cellK (k + 1) := by
        intro h
        rw [(hP.hit h).2] at hlt
        exact Nat.lt_irrefl _ hlt
      obtain ⟨hq0, hc0⟩ := hP.miss hmiss
      rw [hc0, hFc] at hpd hq
      rw [hq0] at hq
      simp only [Bool.false_eq_true, if_false] at hq
      have hnB : ¬ addPoints (cellK k) m = cellK (k - 1) := by
        rw [hn]; exact fun h => hne3 h.symm
      refine
        { hit := ?_
          miss := ?_
          back := ?_
          keep := ?_
          rest := ?_ }
      · intro _
        refine ⟨by rw [hq]; rfl, ?_⟩
        rw [hpd, cellAt_setCell_same]
      · intro h
        rw [exists_snoc_iff] at h
        exact absurd (Or.inr hn) h
      · intro hk1 hTG h
        rw [exists_snoc_iff] at h
        rw [hpd, cellAt_setCell_ne d _ _ _ _ hiF hiB hne3]
        exact hP.back hk1 hTG (h.elim id (fun h2 => absurd h2 hnB))
      · intro hk1 h
        rw [exists_snoc_iff] at h
        rw [hpd, cellAt_setCell_ne d _ _ _ _ hiF hiB hne3]
        exact hP.keep hk1 (fun h2 => h ⟨h2.1, Or.inl h2.2⟩)
      · intro n hn1 hn2 hn3
        rw [hpd, cellAt_setCell_ne d _ _ _ _ hiF hn1 hn2]
        exact hP.rest n hn1 hn2 hn3
    · -- the previous cell
      rw [hn] at hlt hpd hq
      have hnot : ¬ (T < Gb ∧ ∃ x ∈ done, addPoints (cellK k) x = cellK (k - 1)) := by
        intro h
        rw [hP.back hk1 h.1 h.2] at hlt
        exact Nat.lt_irrefl _ hlt
      have hc0 := hP.keep hk1 hnot
      rw [hc0, (hB hk1).1] at hlt
      rw [hc0, (hB hk1).2] at hpd hq
      simp only [if_true] at hq
      have hnF : ¬ addPoints (cellK k) m = cellK (k + 1) := by
        rw [hn]; exact hne3
      refine
        { hit := ?_
          miss := ?_
          back := ?_
          keep := ?_
          rest := ?_ }
      · intro h
        rw [exists_snoc_iff] at h
        rw [hq, hpd, cellAt_setCell_ne d _ _ _ _ hiB hiF (fun h2 => hne3 h2.symm)]
        exact hP.hit (h.elim id (fun h2 => absurd h2 hnF))
      · intro h
        rw [exists_snoc_iff] at h
        rw [hq, hpd, cellAt_setCell_ne d _ _ _ _ hiB hiF (fun h2 => hne3 h2.symm)]
        exact hP.miss (fun h2 => h (Or.inl h2))
      · intro _ _ _
        rw [hpd, cellAt_setCell_same]
      · intro _ h
        rw [exists_snoc_iff] at h
        exact absurd ⟨hlt, Or.inr hn⟩ h
      · intro n hn1 hn2 hn3
        rw [hpd, cellAt_setCell_ne d _ _ _ _ hiB hn1 (fun h2 => hn3 ⟨hk1, h2⟩)]
        exact hP.rest n hn1 hn2 hn3


/-- The loop of `exploreNeighbours` around the corridor cell `k`, run on the empty queue and
the table `pd0` in which the cell has the g-score `G`, the next cell is untouched and the
previous cell is closed with g-score `Gb`: the next cell is queued with the g-score
`T = (G + 70) mod 2^32`, the previous cell is rewritten when `T < Gb`, nothing else changes. -/
theorem corridor_explore (d : dungeon_t) (cellK : Nat → point_t) (N : Nat)
    (hC : Corridor d cellK N) (source target : point_t) (k : Nat) (hk : k < N)
    (pd0 : pointTable_t) (hw : pd0.width = d.width) (hh : pd0.height = d.height)
    (hr : ∃ l, isRoute16 d source l (cellK k)) (G Gb : Nat)
    (hG : (cellAt pd0 (cellK k)).gScore = G)
    (hT : (G + 70) % 4294967296 < UINT32_MAX)
    (hF : (cellAt pd0 (cellK (k + 1))).gScore = UINT32_MAX)
    (hFc : (cellAt pd0 (cellK (k + 1))).isClosed = false)
    (hB : 1 ≤ k → (cellAt pd0 (cellK (k - 1))).gScore = Gb
      ∧ (cellAt pd0 (cellK (k - 1))).isClosed = true)
    (sl2 : searchL_t)
    (hrun : exploreLoopL d (cellK k) target MOVES { q := [], pointData := pd0 } = .ok sl2) :
    (∃ f, sl2.q = [(f, cellK (k + 1))])
    ∧ cellAt sl2.pointData (cellK (k + 1))
        = { prev := cellK k, gScore := (G + 70) % 4294967296, isClosed := false }
    ∧ (1 ≤ k → (G + 70) % 4294967296 < Gb → cellAt sl2.pointData (cellK (k - 1))
        = { prev := cellK k, gScore := (G + 70) % 4294967296, isClosed := true })
    ∧ (1 ≤ k → ¬ (G + 70) % 4294967296 < Gb →
        cellAt sl2.pointData (cellK (k - 1)) = cellAt pd0 (cellK (k - 1)))
    ∧ (∀ n, inBounds d n = true → n ≠ cellK (k + 1) → ¬ (1 ≤ k ∧ n = cellK (k - 1)) →
        cellAt sl2.pointData n = cellAt pd0 n) := by
  have inv0 : LightInv d source { q := [], pointData := pd0 } :=
    { width_eq := hw
      height_eq := hh
      q_inb := fun e he => by simp at he
      q_reach := fun e he => by simp at he }
  have hP0 : StepInv d cellK k pd0 ((G + 70) % 4294967296) Gb
      (((G + 70) % 4294967296 + distancePoints (cellK k) target COST_CARDINAL COST_DIAGONAL)
        % 4294967296) [] { q := [], pointData := pd0 } :=
    { hit := fun h => by obtain ⟨m, hm, _⟩ := h; simp at hm
      miss := fun _ => ⟨rfl, rfl⟩
      back := fun _ _ h => by obtain ⟨m, hm, _⟩ := h; simp at hm
      keep := fun _ _ => rfl
      rest := fun _ _ _ _ => rfl }
  obtain ⟨sl3, hres, _, hP, _, _⟩ :=
    exploreLoopL_induct d source (cellK k) target (hC.inb k (by omega)) hr
      (StepInv d cellK k pd0 ((G + 70) % 4294967296) Gb
        (((G + 70) % 4294967296 + distancePoints (cellK k) target COST_CARDINAL COST_DIAGONAL)
          % 4294967296))
      (fun done m sl sl2 hm _ hp hrel =>
        StepInv_relaxed d cellK N hC target k hk pd0 G Gb hG hT hF hFc hB done m sl sl2 hm
          hp hrel)
      MOVES (fun _ h => h) [] _ inv0 hP0
  rw [hrun] at hres
  cases hres
  rw [List.nil_append] at hP
  have hitF : ∃ m ∈ MOVES, addPoints (cellK k) m = cellK (k + 1) :=
    exists_move_of_valid d hC.uint16 _ _ (hC.int16 (k + 1) (by omega)) (hC.fwd k hk)
  have hitB : 1 ≤ k → ∃ m ∈ MOVES, addPoints (cellK k) m = cellK (k - 1) := by
    intro hk1
    have := hC.bwd (k - 1) (by omega)
    rw [show k - 1 + 1 = k by omega] at this
    exact exists_move_of_valid d hC.uint16 _ _ (hC.int16 (k - 1) (by omega)) this
  refine ⟨⟨_, (hP.hit hitF).1⟩, (hP.hit hitF).2, fun hk1 hTG => hP.back hk1 hTG (hitB hk1),
    fun hk1 hTG => hP.keep hk1 (fun h => hTG h.1), hP.rest⟩


theorem CorrInv_head (cellK : Nat → point_t) (N k : Nat) (sl : searchL_t)
    (hI : CorrInv cellK N k sl) (e : Nat × point_t) (q1 : List (Nat × point_t))
    (hq : sl.q = e :: q1) : e.2 = cellK k ∧ q1 = [] := by
  obtain ⟨f, hf⟩ := hI.queue
  rw [hf] at hq
  simp only [List.cons.injEq] at hq
  exact ⟨by rw [← hq.1], hq.2.symm⟩

theorem bool_eq_false_of_iff (b : Bool) (p : Prop) (h : b = true ↔ p) (hp : ¬ p) : b = false := by
  cases b
  · rfl
  · exact absurd (h.mp rfl) hp

/-- Expanding the cell `k` of a corridor, while the g-scores do not wrap, leads from the state
`CorrInv k` to the state `CorrInv (k + 1)`. -/
theorem CorrInv_step (d : dungeon_t) (cellK : Nat → point_t) (N : Nat)
    (hC : Corridor d cellK N) (source target : point_t) (k : Nat) (hk : k < N)
    (hg : 70 * (k + 1) < UINT32_MAX) (sl : searchL_t) (inv : LightInv d source sl)
    (hI : CorrInv cellK N k sl) (sl2 : searchL_t)
    (hrun : exploreLoopL d (cellK k) target MOVES
      { q := [], pointData := closeCell sl.pointData (cellK k) } = .ok sl2) :
    CorrInv cellK N (k + 1) sl2 := by
  have hik := hC.inb k (by omega)
  have hcc : ∀ j, j ≤ N →
      (cellAt (closeCell sl.pointData (cellK k)) (cellK j)).gScore
        = (cellAt sl.pointData (cellK j)).gScore
      ∧ (cellAt (closeCell sl.pointData (cellK k)) (cellK j)).prev
        = (cellAt sl.pointData (cellK j)).prev
      ∧ ((cellAt (closeCell sl.pointData (cellK k)) (cellK j)).isClosed = true ↔ j < k + 1) := by
    intro j hj
    obtain ⟨h1, h2, h3⟩ := cellAt_closeCell d sl.pointData (cellK k) (cellK j) hik (hC.inb j hj)
    refine ⟨h1, h2, ?_⟩
    rw [h3, Bool.or_eq_true, decide_eq_true_eq, hI.closed j hj]
    constructor
    · rintro (h | h)
      · have := hC.inj j k hj (by omega) h; omega
      · omega
    · intro h
      rcases Nat.lt_or_ge j k with h4 | h4
      · exact Or.inr h4
      · left
        rw [show j = k by omega]
  have hr : ∃ l, isRoute16 d source l (cellK k) := by
    obtain ⟨f, hf⟩ := hI.queue
    exact inv.q_reach (f, cellK k) (by rw [hf]; exact List.mem_singleton_self _)
  have hmod : (70 * k + 70) % 4294967296 = 70 * (k + 1) := by
    unfold UINT32_MAX at hg
    omega
  obtain ⟨hq, hcF, _, hkeep, hrest⟩ :=
    corridor_explore d cellK N hC source target k hk (closeCell sl.pointData (cellK k))
      inv.width_eq inv.height_eq hr (70 * k) (70 * (k - 1))
      (by rw [(hcc k (by omega)).1]; exact hI.gdone k (Nat.le_refl _))
      (by rw [hmod]; exact hg)
      (by rw [(hcc (k + 1) (by omega)).1]; exact hI.fresh (k + 1) (by omega) (by omega))
      (bool_eq_false_of_iff _ _ (hcc (k + 1) (by omega)).2.2 (by omega))
      (fun hk1 => ⟨by rw [(hcc (k - 1) (by omega)).1]; exact hI.gdone (k - 1) (by omega),
        (hcc (k - 1) (by omega)).2.2.mpr (by omega)⟩)
      sl2 hrun
  rw [hmod] at hcF hkeep
  have hsame : ∀ j, j ≤ N → j ≠ k + 1 →
      cellAt sl2.pointData (cellK j) = cellAt (closeCell sl.pointData (cellK k)) (cellK j) := by
    intro j hj hne
    by_cases hb : 1 ≤ k ∧ j = k - 1
    · rw [hb.2]
      exact hkeep hb.1 (by omega)
    · refine hrest (cellK j) (hC.inb j hj) (fun h => hne (hC.inj _ _ hj (by omega) h)) ?_
      rintro ⟨h1, h2⟩
      exact hb ⟨h1, hC.inj _ _ hj (by omega) h2⟩
  refine
    { queue := hq
      gdone := ?_
      closed := ?_
      prev := ?_
      fresh := ?_ }
  · intro j hj
    rcases Nat.lt_or_ge j (k + 1) with h | h
    · rw [hsame j (by omega) (by omega), (hcc j (by omega)).1]
      exact hI.gdone j (by omega)
    · rw [show j = k + 1 by omega, hcF]
  · intro j hj
    by_cases h : j = k + 1
    · rw [h, hcF]
      simp
    · rw [hsame j hj h, (hcc j hj).2.2]
  · intro j hj
    rcases Nat.lt_or_ge j k with h | h
    · rw [hsame (j + 1) (by omega) (by omega), (hcc (j + 1) (by omega)).2.1]
      exact hI.prev j h
    · rw [show j = k by omega, hcF]
  · intro j hj1 hj2
    rw [hsame j hj2 (by omega), (hcc j hj2).1]
    exact hI.fresh j (by omega) hj2

theorem CorrInv_initialL (d : dungeon_t) (cellK : Nat → point_t) (N : Nat)
    (hC : Corridor d cellK N) : CorrInv cellK N 0 (initialL d (cellK 0)) := by
  have h0 := hC.inb 0 (Nat.zero_le _)
  refine
    { queue := ⟨0, rfl⟩
      gdone := ?_
      closed := ?_
      prev := fun j hj => absurd hj (Nat.not_lt_zero j)
      fresh := ?_ }
  · intro j hj
    rw [show j = 0 by omega, (cellAt_initialL d _ _ h0 h0).1, if_pos rfl]
  · intro j hj
    rw [(cellAt_initialL d _ _ h0 (hC.inb j hj)).2]
    simp
  · intro j hj1 hj2
    rw [(cellAt_initialL d _ _ h0 (hC.inb j hj2)).1, if_neg]
    intro h
    have := hC.inj _ _ hj2 (Nat.zero_le _) h
    omega

theorem cellsUpTo_succ (cellK : Nat → point_t) (n : Nat) :
    cellsUpTo cellK (n + 1) = cellsUpTo cellK n ++ [cellK (n + 1)] := by
  unfold cellsUpTo
  rw [List.range_succ, List.map_append]
  rfl

theorem cellsUpTo_length (cellK : Nat → point_t) (n : Nat) : (cellsUpTo cellK n).length = n := by
  unfold cellsUpTo
  rw [List.length_map, List.length_range]

theorem mem_cellsUpTo (cellK : Nat → point_t) (n : Nat) (c : point_t)
    (h : c ∈ cellsUpTo cellK n) : ∃ j, j ≤ n ∧ 1 ≤ j ∧ c = cellK j := by
  unfold cellsUpTo at h
  rw [List.mem_map] at h
  obtain ⟨i, hi, rfl⟩ := h
  rw [List.mem_range] at hi
  exact ⟨i + 1, by omega, by omega, rfl⟩

/-- In a table whose predecessor links follow a corridor back to its first cell, the chain
of predecessors of the cell `n` is the list of the cells 1 to `n`. -/
theorem corridor_prevChain (d : dungeon_t) (cellK : Nat → point_t) (N : Nat)
    (hC : Corridor d cellK N) (pd : pointTable_t) (T : Nat) (hT : T ≤ N)
    (hprev : ∀ j, j < T → (cellAt pd (cellK (j + 1))).prev = cellK j) :
    ∀ n, n ≤ T → PrevChain pd (cellK 0) (cellK n) (cellsUpTo cellK n) := by
  intro n
  induction n with
  | zero => intro _; exact PrevChain.nil
  | succ n ih =>
    intro hn
    rw [cellsUpTo_succ]
    refine PrevChain.snoc _ _ ?_ ?_
    · intro h
      have := hC.inj _ _ (by omega) (by omega) h
      omega
    · rw [hprev n (by omega)]
      exact ih (by omega)

/-- The route along a corridor from its first cell to the cell `n`. -/
theorem corridor_route (d : dungeon_t) (cellK : Nat → point_t) (N : Nat)
    (hC : Corridor d cellK N) :
    ∀ n, n ≤ N → isRoute d (cellK 0) (cellsUpTo cellK n) (cellK n) = true := by
  intro n
  induction n with
  | zero => intro _; simp [cellsUpTo, isRoute]
  | succ n ih =>
    intro hn
    rw [cellsUpTo_succ]
    exact isRoute_snoc d _ _ _ _ (ih (by omega)) (hC.fwd n (by omega))

/-- The search from the first cell of a corridor to its cell `T`, while the g-scores do not
wrap: the path returned is the list of the cells 1 to `T` without its first
`T - T mod 65536` cells, because the length is counted in a `uint16_t`. -/
theorem corridor_run (d : dungeon_t) (cellK : Nat → point_t) (N : Nat)
    (hC : Corridor d cellK N) (T : Nat) (hT : T ≤ N) (hg : 70 * T < UINT32_MAX) (fuel : Nat)
    (hfuel : 8 * (d.width * d.height) + 2 ≤ fuel) (hfuel2 : T < fuel) :
    ∃ pd, findPathL fuel d (cellK 0) (cellK T)
      = .ok (some ((cellsUpTo cellK T).drop (T - T % 65536), pd)) := by
  have hs := hC.inb 0 (Nat.zero_le _)
  rw [findPathL_eq_loop fuel d _ _ hs]
  obtain ⟨slf, invf, ⟨k, hkT, hI⟩, hcase⟩ :=
    findLoopL_total d (cellK 0) (cellK T) fuel (fun sl => ∃ k, k ≤ T ∧ CorrInv cellK N k sl)
      (by
        rintro sl e q1 _ ⟨k, hk, hI⟩ hq hcl
        rw [(CorrInv_head cellK N k sl hI e q1 hq).1] at hcl
        have := (hI.closed k (by omega)).mp hcl
        omega)
      (by
        rintro sl e q1 sl2 inv ⟨k, hk, hI⟩ hq _ hne hrun
        obtain ⟨he, hq1⟩ := CorrInv_head cellK N k sl hI e q1 hq
        rw [he] at hne hrun
        rw [hq1] at hrun
        have hkT : k < T := by
          rcases Nat.lt_or_ge k T with h | h
          · exact h
          · exact absurd (by rw [show k = T by omega]) hne
        exact ⟨k + 1, hkT, CorrInv_step d cellK N hC (cellK 0) (cellK T) k (by omega)
          (by omega) sl inv hI sl2 hrun⟩)
      fuel (initialL d (cellK 0)) (LightInv_initialL d _ hs)
      ⟨0, Nat.zero_le _, CorrInv_initialL d cellK N hC⟩
      (by have := measureL_initialL d (cellK 0); omega)
  rcases hcase with ⟨hq, _⟩ | ⟨e, q1, hq, he, _, hres⟩
  · obtain ⟨f, hf⟩ := hI.queue
    rw [hf] at hq
    cases hq
  · rw [(CorrInv_head cellK N k slf hI e q1 hq).1] at he
    have hkk : k = T := hC.inj _ _ (by omega) hT he
    subst hkk
    rw [hres]
    unfold finish
    have hch := corridor_prevChain d cellK N hC (closeCell slf.pointData (cellK k)) k hT
      (fun j hj => by
        rw [(cellAt_closeCell d _ _ _ (hC.inb k hT) (hC.inb (j + 1) (by omega))).2.1]
        exact hI.prev j hj) k (Nat.le_refl _)
    have hall : ∀ c ∈ cellsUpTo cellK k, inBounds d c = true := by
      intro c hc
      obtain ⟨j, hj, _, rfl⟩ := mem_cellsUpTo cellK k c hc
      exact hC.inb j (by omega)
    have hw : (closeCell slf.pointData (cellK k)).width = d.width := invf.width_eq
    have hh : (closeCell slf.pointData (cellK k)).height = d.height := invf.height_eq
    unfold reconstructPath
    rw [reconstructLength_chain d _ _ hw hh _ _ hch hall fuel 0
      (by rw [cellsUpTo_length]; exact hfuel2) (by omega)]
    simp only [Nat.zero_add, cellsUpTo_length]
    rw [reconstructFill_chain d _ _ hw hh _ _ hch hall (k % 65536) []
      (by rw [cellsUpTo_length]; exact Nat.mod_le _ _)]
    simp only [cellsUpTo_length, List.append_nil]
    exact ⟨_, rfl⟩


/-- Two cells other than the source whose predecessor links point at each other: the first
loop of `reconstructPath` never leaves them. -/
theorem reconstructLength_cycle (d : dungeon_t) (pd : pointTable_t) (source a b : point_t)
    (hw : pd.width = d.width) (hh : pd.height = d.height)
    (ha : inBounds d a = true) (hb : inBounds d b = true)
    (hna : a ≠ source) (hnb : b ≠ source)
    (hpa : (cellAt pd a).prev = b) (hpb : (cellAt pd b).prev = a) :
    ∀ (fuel len : Nat), reconstructLength pd source fuel a len = .error .timeout
      ∧ reconstructLength pd source fuel b len = .error .timeout := by
  have hea : isEqualPoints a source = false := by
    cases h : isEqualPoints a source
    · rfl
    · exact absurd ((isEqualPoints_iff _ _).mp h) hna
  have heb : isEqualPoints b source = false := by
    cases h : isEqualPoints b source
    · rfl
    · exact absurd ((isEqualPoints_iff _ _).mp h) hnb
  intro fuel
  induction fuel with
  | zero => intro len; exact ⟨rfl, rfl⟩
  | succ fuel ih =>
    intro len
    constructor
    · unfold reconstructLength
      rw [hea, getPointData_of_inBounds d pd a hw hh ha]
      simp only [Bool.not_false, if_true]
      rw [hpa]
      exact (ih _).2
    · unfold reconstructLength
      rw [heb, getPointData_of_inBounds d pd b hw hh hb]
      simp only [Bool.not_false, if_true]
      rw [hpb]
      exact (ih _).1

/-- Expanding the cell `k1` of a corridor when its g-score plus 70 wraps around `2^32` to a
value below the g-score of the cell `k1 - 1`: the closed cell `k1 - 1` gets `k1` as its
predecessor, which closes a cycle of predecessor links. -/
theorem CorrInv_wrap (d : dungeon_t) (cellK : Nat → point_t) (N : Nat)
    (hC : Corridor d cellK N) (source target : point_t) (k1 : Nat) (hk : k1 < N)
    (hk1 : 1 ≤ k1) (hT : (70 * k1 + 70) % 4294967296 < UINT32_MAX)
    (hwrap : (70 * k1 + 70) % 4294967296 < 70 * (k1 - 1))
    (sl : searchL_t) (inv : LightInv d source sl)
    (hI : CorrInv cellK N k1 sl) (sl2 : searchL_t)
    (hrun : exploreLoopL d (cellK k1) target MOVES
      { q := [], pointData := closeCell sl.pointData (cellK k1) } = .ok sl2) :
    WrapInv cellK k1 sl2 := by
  have hik := hC.inb k1 (by omega)
  have hcc : ∀ j, j ≤ N →
      (cellAt (closeCell sl.pointData (cellK k1)) (cellK j)).gScore
        = (cellAt sl.pointData (cellK j)).gScore
      ∧ (cellAt (closeCell sl.pointData (cellK k1)) (cellK j)).prev
        = (cellAt sl.pointData (cellK j)).prev
      ∧ (cellAt (closeCell sl.pointData (cellK k1)) (cellK j)).isClosed
        = (decide (cellK j = cellK k1) || (cellAt sl.pointData (cellK j)).isClosed) :=
    fun j hj => cellAt_closeCell d sl.pointData (cellK k1) (cellK j) hik (hC.inb j hj)
  have hr : ∃ l, isRoute16 d source l (cellK k1) := by
    obtain ⟨f, hf⟩ := hI.queue
    exact inv.q_reach (f, cellK k1) (by rw [hf]; exact List.mem_singleton_self _)
  have hne : cellK (k1 + 1) ≠ cellK k1 := fun h => by
    have := hC.inj _ _ (by omega) (by omega) h; omega
  obtain ⟨hq, hcF, hback, _, hrest⟩ :=
    corridor_explore d cellK N hC source target k1 hk (closeCell sl.pointData (cellK k1))
      inv.width_eq inv.height_eq hr (70 * k1) (70 * (k1 - 1))
      (by rw [(hcc k1 (by omega)).1]; exact hI.gdone k1 (Nat.le_refl _))
      hT
      (by rw [(hcc (k1 + 1) (by omega)).1]; exact hI.fresh (k1 + 1) (by omega) (by omega))
      (by
        rw [(hcc (k1 + 1) (by omega)).2.2, decide_eq_false hne, Bool.false_or]
        exact bool_eq_false_of_iff _ _ (hI.closed (k1 + 1) (by omega)) (by omega))
      (fun _ => ⟨by rw [(hcc (k1 - 1) (by omega)).1]; exact hI.gdone (k1 - 1) (by omega), by
        rw [(hcc (k1 - 1) (by omega)).2.2, (hI.closed (k1 - 1) (by omega)).mpr (by omega)]
        simp⟩)
      sl2 hrun
  refine
    { queue := hq
      opn := by rw [hcF]
      prev1 := by rw [hcF]
      prev2 := ?_
      prev3 := by rw [hback hk1 hwrap] }
  rw [hrest (cellK k1) hik (fun h => hne h.symm) (fun h => by
    have := hC.inj _ _ (by omega) (by omega) h.2; omega), (hcc k1 (by omega)).2.1]
  have := hI.prev (k1 - 1) (by omega)
  rw [show k1 - 1 + 1 = k1 by omega] at this
  exact this

/-- The search from the first cell of a corridor to its cell `k1 + 1`, when the g-score of
that cell wraps around `2^32` to a value below the g-score of the cell `k1 - 1`: the search
reaches the target, but `reconstructPath` then follows a cycle of predecessor links and never
returns, whatever the fuel. -/
theorem corridor_wrap (d : dungeon_t) (cellK : Nat → point_t) (N : Nat)
    (hC : Corridor d cellK N) (k1 : Nat) (hk : k1 < N) (hk2 : 2 ≤ k1)
    (hg : 70 * k1 < UINT32_MAX) (hT : (70 * k1 + 70) % 4294967296 < UINT32_MAX)
    (hwrap : (70 * k1 + 70) % 4294967296 < 70 * (k1 - 1)) (fuel : Nat)
    (hfuel : 8 * (d.width * d.height) + 2 ≤ fuel) :
    findPathL fuel d (cellK 0) (cellK (k1 + 1)) = .error .timeout := by
  have hs := hC.inb 0 (Nat.zero_le _)
  rw [findPathL_eq_loop fuel d _ _ hs]
  obtain ⟨slf, invf, hv, hcase⟩ :=
    findLoopL_total d (cellK 0) (cellK (k1 + 1)) fuel
      (fun sl => (∃ k, k ≤ k1 ∧ CorrInv cellK N k sl) ∨ WrapInv cellK k1 sl)
      (by
        rintro sl e q1 _ (⟨k, hk, hI⟩ | hW) hq hcl
        · rw [(CorrInv_head cellK N k sl hI e q1 hq).1] at hcl
          have := (hI.closed k (by omega)).mp hcl
          omega
        · obtain ⟨f, hf⟩ := hW.queue
          rw [hf] at hq
          cases hq
          rw [hW.opn] at hcl
          cases hcl)
      (by
        rintro sl e q1 sl2 inv (⟨k, hkk, hI⟩ | hW) hq _ hne hrun
        · obtain ⟨he, hq1⟩ := CorrInv_head cellK N k sl hI e q1 hq
          rw [he] at hne hrun
          rw [hq1] at hrun
          rcases Nat.lt_or_ge k k1 with h | h
          · exact Or.inl ⟨k + 1, h, CorrInv_step d cellK N hC (cellK 0) (cellK (k1 + 1)) k
              (by omega) (by omega) sl inv hI sl2 hrun⟩
          · have hkk1 : k = k1 := by omega
            subst hkk1
            exact Or.inr (CorrInv_wrap d cellK N hC (cellK 0) (cellK (k + 1)) k hk (by omega)
              hT hwrap sl inv hI sl2 hrun)
        · obtain ⟨f, hf⟩ := hW.queue
          rw [hf] at hq
          cases hq
          exact absurd rfl hne)
      fuel (initialL d (cellK 0)) (LightInv_initialL d _ hs)
      (Or.inl ⟨0, Nat.zero_le _, CorrInv_initialL d cellK N hC⟩)
      (by have := measureL_initialL d (cellK 0); omega)
  rcases hcase with ⟨hq, _⟩ | ⟨e, q1, hq, he, _, hres⟩
  · rcases hv with ⟨k, _, hI⟩ | hW
    · obtain ⟨f, hf⟩ := hI.queue
      rw [hf] at hq
      cases hq
    · obtain ⟨f, hf⟩ := hW.queue
      rw [hf] at hq
      cases hq
  · rcases hv with ⟨k, hkk, hI⟩ | hW
    · rw [(CorrInv_head cellK N k slf hI e q1 hq).1] at he
      have := hC.inj _ _ (by omega) (by omega) he
      omega
    · rw [hres]
      unfold finish
      have hit := hC.inb (k1 + 1) (by omega)
      have hw : (closeCell slf.pointData (cellK (k1 + 1))).width = d.width := invf.width_eq
      have hh : (closeCell slf.pointData (cellK (k1 + 1))).height = d.height := invf.height_eq
      have hp : ∀ j, j ≤ N → (cellAt (closeCell slf.pointData (cellK (k1 + 1))) (cellK j)).prev
          = (cellAt slf.pointData (cellK j)).prev :=
        fun j hj => (cellAt_closeCell d _ _ _ hit (hC.inb j hj)).2.1
      have hcyc := reconstructLength_cycle d (closeCell slf.pointData (cellK (k1 + 1)))
        (cellK 0) (cellK k1) (cellK (k1 - 1)) hw hh (hC.inb _ (by omega)) (hC.inb _ (by omega))
        (fun h => by have := hC.inj _ _ (by omega) (by omega) h; omega)
        (fun h => by have := hC.inj _ _ (by omega) (by omega) h; omega)
        (by rw [hp _ (by omega)]; exact hW.prev2)
        (by rw [hp _ (by omega)]; exact hW.prev3)
      have hlen : reconstructLength (closeCell slf.pointData (cellK (k1 + 1))) (cellK 0) fuel
          (cellK (k1 + 1)) 0 = .error .timeout := by
        cases fuel with
        | zero => rfl
        | succ fuel =>
          unfold reconstructLength
          have hne : isEqualPoints (cellK (k1 + 1)) (cellK 0) = false := by
            cases h : isEqualPoints (cellK (k1 + 1)) (cellK 0)
            · rfl
            · have := hC.inj _ _ (by omega) (by omega) ((isEqualPoints_iff _ _).mp h)
              omega
          rw [hne, getPointData_of_inBounds d _ _ hw hh hit]
          simp only [Bool.not_false, if_true]
          rw [hp _ (by omega), hW.prev1]
          exact (hcyc fuel _).1
      unfold reconstructPath
      rw [hlen]

/-- When the search from the first cell of a corridor runs into the wrapped g-score, no
amount of fuel makes `findPath` return. -/
theorem corridor_wrap_never (d : dungeon_t) (cellK : Nat → point_t) (N : Nat)
    (hC : Corridor d cellK N) (k1 : Nat) (hk : k1 < N) (hk2 : 2 ≤ k1)
    (hg : 70 * k1 < UINT32_MAX) (hT : (70 * k1 + 70) % 4294967296 < UINT32_MAX)
    (hwrap : (70 * k1 + 70) % 4294967296 < 70 * (k1 - 1)) (rnd : Nat → Nat)
    (hrnd : ∀ k, 1 ≤ rnd k) (fuel : Nat) (r : Option (List point_t)) :
    findPath fuel rnd d (cellK 0) (cellK (k1 + 1)) ≠ .ok r := by
  intro h
  rw [findPath_eq_findPathL fuel rnd hrnd] at h
  cases hx : findPathL fuel d (cellK 0) (cellK (k1 + 1)) with
  | error e => rw [hx] at h; cases h
  | ok x =>
    have hm := findPathL_mono d (cellK 0) (cellK (k1 + 1)) fuel
      (max fuel (8 * (d.width * d.height) + 2)) x (le_max_left _ _) hx
    rw [corridor_wrap d cellK N hC k1 hk hk2 hg hT hwrap _ (le_max_right _ _)] at hm
    cases hm

/-! ### The serpentine corridor -/

theorem snake_wall_iff (x y : Nat) : dungeonSnake.map x y ≠ TILE_WALL ↔ snakeFloor x y := by
  unfold dungeonSnake TILE_WALL snakeFloor
  simp only
  split
  · rename_i h
    simp only [ne_eq, not_true_eq_false, false_iff]
    intro h2
    exact h.2 (h2 h.1)
  · rename_i h
    have : (' ' : Char) ≠ '#' := by decide
    simp only [ne_eq, this, not_false_eq_true, true_iff]
    intro h1
    by_contra h2
    exact h ⟨h1, h2⟩

theorem snake_even (r j : Nat) (hr : r % 2 = 0) (hj : j ≤ 4095) :
    snakeX (4097 * r + j) = j ∧ snakeY (4097 * r + j) = 2 * r := by
  unfold snakeX snakeY
  have h1 : (4097 * r + j) / 4097 = r := by omega
  have h2 : (4097 * r + j) % 4097 = j := by omega
  rw [h1, h2, if_pos hr, if_neg (by omega)]
  omega

theorem snake_even_end (r : Nat) (hr : r % 2 = 0) :
    snakeX (4097 * r + 4096) = 4095 ∧ snakeY (4097 * r + 4096) = 2 * r + 1 := by
  unfold snakeX snakeY
  have h1 : (4097 * r + 4096) / 4097 = r := by omega
  have h2 : (4097 * r + 4096) % 4097 = 4096 := by omega
  rw [h1, h2, if_pos hr, if_pos rfl]
  exact ⟨rfl, rfl⟩

theorem snake_odd (r j : Nat) (hr : r % 2 = 1) (hj : j ≤ 4095) :
    snakeX (4097 * r + j) = 4095 - j ∧ snakeY (4097 * r + j) = 2 * r := by
  unfold snakeX snakeY
  have h1 : (4097 * r + j) / 4097 = r := by omega
  have h2 : (4097 * r + j) % 4097 = j := by omega
  rw [h1, h2, if_neg (by omega), if_neg (by omega)]
  omega

theorem snake_odd_end (r : Nat) (hr : r % 2 = 1) :
    snakeX (4097 * r + 4096) = 0 ∧ snakeY (4097 * r + 4096) = 2 * r + 1 := by
  unfold snakeX snakeY
  have h1 : (4097 * r + 4096) / 4097 = r := by omega
  have h2 : (4097 * r + 4096) % 4097 = 4096 := by omega
  rw [h1, h2, if_neg (by omega), if_pos rfl]
  exact ⟨rfl, rfl⟩

/-- The floor tiles next to a tile `(ax, 2 r)` of an even row, for `r % 2 = 0`. -/
theorem snake_row_even (r ax cx cy : Nat) (hr : r % 2 = 0)
    (hsx : cx ≤ ax + 1 ∧ ax ≤ cx + 1) (hsy : cy ≤ 2 * r + 1 ∧ 2 * r ≤ cy + 1)
    (hne : cx ≠ ax ∨ cy ≠ 2 * r) (hw1 : snakeFloor cx cy) (hw2 : snakeFloor ax cy) :
    (cy = 2 * r ∧ (cx = ax + 1 ∨ cx + 1 = ax))
    ∨ (cy = 2 * r + 1 ∧ cx = 4095 ∧ ax = 4095)
    ∨ (cy + 1 = 2 * r ∧ cx = 0 ∧ ax = 0) := by
  have hcy : cy = 2 * r ∨ cy = 2 * r + 1 ∨ cy + 1 = 2 * r := by omega
  rcases hcy with h | h | h
  · left
    clear hw1 hw2
    omega
  · right; left
    have h2 : cy % 2 = 1 := by omega
    have h4 : cy % 4 = 1 := by omega
    have e1 : cx = 4095 := (fun hw => hw.elim (fun h => h.2) (fun h => absurd h.1 (by omega))) (hw1 h2)
    have e2 : ax = 4095 := (fun hw => hw.elim (fun h => h.2) (fun h => absurd h.1 (by omega))) (hw2 h2)
    exact ⟨h, e1, e2⟩
  · right; right
    have h2 : cy % 2 = 1 := by omega
    have h4 : cy % 4 = 3 := by omega
    have e1 : cx = 0 := (fun hw => hw.elim (fun h => absurd h.1 (by omega)) (fun h => h.2)) (hw1 h2)
    have e2 : ax = 0 := (fun hw => hw.elim (fun h => absurd h.1 (by omega)) (fun h => h.2)) (hw2 h2)
    exact ⟨h, e1, e2⟩

/-- The floor tiles next to the floor tile `(4095, 2 r + 1)` of an odd row, for
`r % 2 = 0`. -/
theorem snake_gap_even (r cx cy : Nat) (hr : r % 2 = 0)
    (hsy : cy ≤ 2 * r + 2 ∧ 2 * r ≤ cy)
    (hne : cx ≠ 4095 ∨ cy ≠ 2 * r + 1) (hw3 : snakeFloor cx (2 * r + 1)) :
    cx = 4095 ∧ (cy = 2 * r + 2 ∨ cy = 2 * r) := by
  have h2 : (2 * r + 1) % 2 = 1 := by omega
  have h4 : (2 * r + 1) % 4 = 1 := by omega
  have e1 : cx = 4095 := (fun hw => hw.elim (fun h => h.2) (fun h => absurd h.1 (by omega))) (hw3 h2)
  refine ⟨e1, ?_⟩
  clear hw3
  omega

/-- The floor tiles next to a tile `(ax, 2 r)` of an even row, for `r % 2 = 1`. -/
theorem snake_row_odd (r ax cx cy : Nat) (hr : r % 2 = 1)
    (hsx : cx ≤ ax + 1 ∧ ax ≤ cx + 1) (hsy : cy ≤ 2 * r + 1 ∧ 2 * r ≤ cy + 1)
    (hne : cx ≠ ax ∨ cy ≠ 2 * r) (hw1 : snakeFloor cx cy) (hw2 : snakeFloor ax cy) :
    (cy = 2 * r ∧ (cx = ax + 1 ∨ cx + 1 = ax))
    ∨ (cy = 2 * r + 1 ∧ cx = 0 ∧ ax = 0)
    ∨ (cy + 1 = 2 * r ∧ cx = 4095 ∧ ax = 4095) := by
  have hcy : cy = 2 * r ∨ cy = 2 * r + 1 ∨ cy + 1 = 2 * r := by omega
  rcases hcy with h | h | h
  · left
    clear hw1 hw2
    omega
  · right; left
    have h2 : cy % 2 = 1 := by omega
    have h4 : cy % 4 = 3 := by omega
    have e1 : cx = 0 := (fun hw => hw.elim (fun h => absurd h.1 (by omega)) (fun h => h.2)) (hw1 h2)
    have e2 : ax = 0 := (fun hw => hw.elim (fun h => absurd h.1 (by omega)) (fun h => h.2)) (hw2 h2)
    exact ⟨h, e1, e2⟩
  · right; right
    have h2 : cy % 2 = 1 := by omega
    have h4 : cy % 4 = 1 := by omega
    have e1 : cx = 4095 := (fun hw => hw.elim (fun h => h.2) (fun h => absurd h.1 (by omega))) (hw1 h2)
    have e2 : ax = 4095 := (fun hw => hw.elim (fun h => h.2) (fun h => absurd h.1 (by omega))) (hw2 h2)
    exact ⟨h, e1, e2⟩

/-- The floor tiles next to the floor tile `(0, 2 r + 1)` of an odd row, for
`r % 2 = 1`. -/
theorem snake_gap_odd (r cx cy : Nat) (hr : r % 2 = 1)
    (hsy : cy ≤ 2 * r + 2 ∧ 2 * r ≤ cy)
    (hne : cx ≠ 0 ∨ cy ≠ 2 * r + 1) (hw3 : snakeFloor cx (2 * r + 1)) :
    cx = 0 ∧ (cy = 2 * r + 2 ∨ cy = 2 * r) := by
  have h2 : (2 * r + 1) % 2 = 1 := by omega
  have h4 : (2 * r + 1) % 4 = 3 := by omega
  have e1 : cx = 0 := (fun hw => hw.elim (fun h => absurd h.1 (by omega)) (fun h => h.2)) (hw3 h2)
  refine ⟨e1, ?_⟩
  clear hw3
  omega

/-- The floor tiles that a valid move can reach from the corridor cell `k` are the cells
`k + 1` and `k - 1` of the corridor. -/
theorem snake_only_nat (k cx cy : Nat) (hcx : cx < 4096)
    (hsx : cx ≤ snakeX k + 1 ∧ snakeX k ≤ cx + 1) (hsy : cy ≤ snakeY k + 1 ∧ snakeY k ≤ cy + 1)
    (hne : cx ≠ snakeX k ∨ cy ≠ snakeY k)
    (hw1 : snakeFloor cx cy) (hw2 : snakeFloor (snakeX k) cy) (hw3 : snakeFloor cx (snakeY k)) :
    ∃ k2, (k2 = k + 1 ∨ k2 + 1 = k) ∧ cx = snakeX k2 ∧ cy = snakeY k2 := by
  obtain ⟨r, j, hk, hj⟩ : ∃ r j, k = 4097 * r + j ∧ j ≤ 4096 :=
    ⟨k / 4097, k % 4097, by omega, by omega⟩
  rcases Nat.mod_two_eq_zero_or_one r with hr | hr
  · rcases Nat.lt_or_ge j 4096 with h6 | h6
    · obtain ⟨e0x, e0y⟩ := snake_even r j hr (by omega)
      rw [← hk] at e0x e0y
      rw [e0x] at hsx hw2
      rw [e0y] at hsy
      rw [e0x, e0y] at hne
      rcases snake_row_even r (j) cx cy hr hsx hsy hne hw1 hw2 with
        ⟨h1, h2 | h2⟩ | ⟨h1, h2, h3⟩ | ⟨h1, h2, h3⟩
      · -- one column further in the row
        have hj : j < 4095 := by omega
        obtain ⟨ex, ey⟩ := snake_even r (j + 1) hr (by omega)
        refine ⟨4097 * r + (j + 1), by omega, ?_, ?_⟩
        · rw [ex]; omega
        · rw [ey]; exact h1
      · have hj : 0 < j := by omega
        obtain ⟨ex, ey⟩ := snake_even r (j - 1) hr (by omega)
        refine ⟨4097 * r + (j - 1), by omega, ?_, ?_⟩
        · rw [ex]; omega
        · rw [ey]; exact h1
      · -- down through the gap at the end of the row
        obtain ⟨ex, ey⟩ := snake_even_end r hr
        refine ⟨4097 * r + 4096, by omega, ?_, ?_⟩
        · rw [ex]; exact h2
        · rw [ey]; exact h1
      · -- up through the gap at the start of the row
        have hj : j = 0 := by omega
        have hr1 : 0 < r := by omega
        obtain ⟨ex, ey⟩ := snake_odd_end (r - 1) (by omega)
        refine ⟨4097 * (r - 1) + 4096, by omega, ?_, ?_⟩
        · rw [ex]; exact h2
        · rw [ey]; omega
    · have hj : j = 4096 := by omega
      subst hj
      obtain ⟨e0x, e0y⟩ := snake_even_end r hr
      rw [← hk] at e0x e0y
      rw [e0y] at hsy hw3
      rw [e0x, e0y] at hne
      obtain ⟨h1, h2 | h2⟩ := snake_gap_even r cx cy hr (by omega) hne hw3
      · obtain ⟨ex, ey⟩ := snake_odd (r + 1) 0 (by omega) (by omega)
        refine ⟨4097 * (r + 1) + 0, by omega, ?_, ?_⟩
        · rw [ex]; omega
        · rw [ey]; omega
      · obtain ⟨ex, ey⟩ := snake_even r 4095 hr (by omega)
        refine ⟨4097 * r + 4095, by omega, ?_, ?_⟩
        · rw [ex]; omega
        · rw [ey]; exact h2
  · rcases Nat.lt_or_ge j 4096 with h6 | h6
    · obtain ⟨e0x, e0y⟩ := snake_odd r j hr (by omega)
      rw [← hk] at e0x e0y
      rw [e0x] at hsx hw2
      rw [e0y] at hsy
      rw [e0x, e0y] at hne
      rcases snake_row_odd r (4095 - j) cx cy hr hsx hsy hne hw1 hw2 with
        ⟨h1, h2 | h2⟩ | ⟨h1, h2, h3⟩ | ⟨h1, h2, h3⟩
      · -- one column further in the row
        have hj : 0 < j := by omega
        obtain ⟨ex, ey⟩ := snake_odd r (j - 1) hr (by omega)
        refine ⟨4097 * r + (j - 1), by omega, ?_, ?_⟩
        · rw [ex]; omega
        · rw [ey]; exact h1
      · have hj : j < 4095 := by omega
        obtain ⟨ex, ey⟩ := snake_odd r (j + 1) hr (by omega)
        refine ⟨4097 * r + (j + 1), by omega, ?_, ?_⟩
        · rw [ex]; omega
        · rw [ey]; exact h1
      · -- down through the gap at the end of the row
        obtain ⟨ex, ey⟩ := snake_odd_end r hr
        refine ⟨4097 * r + 4096, by omega, ?_, ?_⟩
        · rw [ex]; exact h2
        · rw [ey]; exact h1
      · -- up through the gap at the start of the row
        have hj : j = 0 := by omega
        have hr1 : 0 < r := by omega
        obtain ⟨ex, ey⟩ := snake_even_end (r - 1) (by omega)
        refine ⟨4097 * (r - 1) + 4096, by omega, ?_, ?_⟩
        · rw [ex]; exact h2
        · rw [ey]; omega
    · have hj : j = 4096 := by omega
      subst hj
      obtain ⟨e0x, e0y⟩ := snake_odd_end r hr
      rw [← hk] at e0x e0y
      rw [e0y] at hsy hw3
      rw [e0x, e0y] at hne
      obtain ⟨h1, h2 | h2⟩ := snake_gap_odd r cx cy hr (by omega) hne hw3
      · obtain ⟨ex, ey⟩ := snake_even (r + 1) 0 (by omega) (by omega)
        refine ⟨4097 * (r + 1) + 0, by omega, ?_, ?_⟩
        · rw [ex]; omega
        · rw [ey]; omega
      · obtain ⟨ex, ey⟩ := snake_odd r 4095 hr (by omega)
        refine ⟨4097 * r + 4095, by omega, ?_, ?_⟩
        · rw [ex]; omega
        · rw [ey]; exact h2


/-- The coordinates of the corridor cell `k`, by the parity of its row pair `r` and its
position `j` in the pair. -/
theorem snake_cases (k : Nat) :
    ∃ r j, k = 4097 * r + j
      ∧ ((r % 2 = 0 ∧ j ≤ 4095 ∧ snakeX k = j ∧ snakeY k = 2 * r)
        ∨ (r % 2 = 0 ∧ j = 4096 ∧ snakeX k = 4095 ∧ snakeY k = 2 * r + 1)
        ∨ (r % 2 = 1 ∧ j ≤ 4095 ∧ snakeX k = 4095 - j ∧ snakeY k = 2 * r)
        ∨ (r % 2 = 1 ∧ j = 4096 ∧ snakeX k = 0 ∧ snakeY k = 2 * r + 1)) := by
  obtain ⟨r, j, hk, hj⟩ : ∃ r j, k = 4097 * r + j ∧ j ≤ 4096 :=
    ⟨k / 4097, k % 4097, by omega, by omega⟩
  refine ⟨r, j, hk, ?_⟩
  rw [hk]
  rcases Nat.mod_two_eq_zero_or_one r with hr | hr
  · rcases Nat.lt_or_ge j 4096 with h6 | h6
    · exact Or.inl ⟨hr, by omega, snake_even r j hr (by omega)⟩
    · have hj6 : j = 4096 := by omega
      subst hj6
      exact Or.inr (Or.inl ⟨hr, rfl, snake_even_end r hr⟩)
  · rcases Nat.lt_or_ge j 4096 with h6 | h6
    · exact Or.inr (Or.inr (Or.inl ⟨hr, by omega, snake_odd r j hr (by omega)⟩))
    · have hj6 : j = 4096 := by omega
      subst hj6
      exact Or.inr (Or.inr (Or.inr ⟨hr, rfl, snake_odd_end r hr⟩))

theorem snakeX_le (k : Nat) : snakeX k ≤ 4095 := by
  obtain ⟨r, j, _, h | h | h | h⟩ := snake_cases k <;> omega

theorem snakeY_lt (k : Nat) (hk : k < 61455000) : snakeY k < 30000 := by
  obtain ⟨r, j, _, h | h | h | h⟩ := snake_cases k <;> omega

/-- Every cell of the corridor is a floor tile. -/
theorem snake_floor (k : Nat) : snakeFloor (snakeX k) (snakeY k) := by
  unfold snakeFloor
  obtain ⟨r, j, _, h | h | h | h⟩ := snake_cases k
  · obtain ⟨_, _, hx, hy⟩ := h
    rw [hx, hy]; omega
  · obtain ⟨_, _, hx, hy⟩ := h
    rw [hx, hy]; omega
  · obtain ⟨_, _, hx, hy⟩ := h
    rw [hx, hy]; omega
  · obtain ⟨_, _, hx, hy⟩ := h
    rw [hx, hy]; omega

/-- The corridor cell `k + 1` is next to the cell `k` along one axis. -/
theorem snake_succ (k : Nat) :
    (snakeY (k + 1) = snakeY k ∧ (snakeX (k + 1) = snakeX k + 1 ∨ snakeX (k + 1) + 1 = snakeX k))
    ∨ (snakeX (k + 1) = snakeX k ∧ snakeY (k + 1) = snakeY k + 1) := by
  obtain ⟨r, j, hk, h | h | h | h⟩ := snake_cases k
  · obtain ⟨hr, hj, hx, hy⟩ := h
    rcases Nat.lt_or_ge j 4095 with h5 | h5
    · obtain ⟨ex, ey⟩ := snake_even r (j + 1) hr (by omega)
      rw [show 4097 * r + (j + 1) = k + 1 by omega] at ex ey
      omega
    · obtain ⟨ex, ey⟩ := snake_even_end r hr
      rw [show 4097 * r + 4096 = k + 1 by omega] at ex ey
      omega
  · obtain ⟨hr, hj, hx, hy⟩ := h
    obtain ⟨ex, ey⟩ := snake_odd (r + 1) 0 (by omega) (by omega)
    rw [show 4097 * (r + 1) + 0 = k + 1 by omega] at ex ey
    omega
  · obtain ⟨hr, hj, hx, hy⟩ := h
    rcases Nat.lt_or_ge j 4095 with h5 | h5
    · obtain ⟨ex, ey⟩ := snake_odd r (j + 1) hr (by omega)
      rw [show 4097 * r + (j + 1) = k + 1 by omega] at ex ey
      omega
    · obtain ⟨ex, ey⟩ := snake_odd_end r hr
      rw [show 4097 * r + 4096 = k + 1 by omega] at ex ey
      omega
  · obtain ⟨hr, hj, hx, hy⟩ := h
    obtain ⟨ex, ey⟩ := snake_even (r + 1) 0 (by omega) (by omega)
    rw [show 4097 * (r + 1) + 0 = k + 1 by omega] at ex ey
    omega

/-- The number of a corridor cell is recovered from its coordinates. -/
theorem snakeIdx_cell (k : Nat) : snakeIdx (snakeX k) (snakeY k) = k := by
  unfold snakeIdx
  obtain ⟨r, j, hk, h | h | h | h⟩ := snake_cases k
  · obtain ⟨hr, hj, hx, hy⟩ := h
    rw [hx, hy, if_neg (by omega), if_pos (by omega)]
    omega
  · obtain ⟨hr, hj, hx, hy⟩ := h
    rw [hx, hy, if_pos (by omega)]
    omega
  · obtain ⟨hr, hj, hx, hy⟩ := h
    rw [hx, hy, if_neg (by omega), if_neg (by omega)]
    omega
  · obtain ⟨hr, hj, hx, hy⟩ := h
    rw [hx, hy, if_pos (by omega)]
    omega

theorem snakeCell_inj (i j : Nat) (h : snakeCell i = snakeCell j) : i = j := by
  unfold snakeCell at h
  simp only [point_t.mk.injEq, Nat.cast_inj] at h
  rw [← snakeIdx_cell i, ← snakeIdx_cell j, h.1, h.2]

theorem dungeonSnake_isUInt16 : dungeonSnake.isUInt16 := ⟨by decide, by decide⟩

/-- A move between two tiles with natural coordinates of the serpentine dungeon is valid
exactly when both lie in the dungeon, they are neighbours, and the tile entered and the two
tiles beside the step are floor. -/
theorem snake_valid_nat (ax ay cx cy : Nat) :
    isValidMove dungeonSnake { x := (ax : Int), y := (ay : Int) }
        { x := (cx : Int), y := (cy : Int) } = some true ↔
      (ax < 4096 ∧ ay < 30000) ∧ (cx < 4096 ∧ cy < 30000)
      ∧ (cx ≤ ax + 1 ∧ ax ≤ cx + 1) ∧ (cy ≤ ay + 1 ∧ ay ≤ cy + 1) ∧ (cx ≠ ax ∨ cy ≠ ay)
      ∧ snakeFloor cx cy ∧ snakeFloor ax cy ∧ snakeFloor cx ay := by
  rw [isValidMove_eq_true_iff dungeonSnake dungeonSnake_isUInt16, inBounds_iff, inBounds_iff,
    snake_wall_iff, snake_wall_iff, snake_wall_iff]
  simp only [Int.toNat_ofNat]
  have hw : dungeonSnake.width = 4096 := rfl
  have hh : dungeonSnake.height = 30000 := rfl
  rw [hw, hh]
  constructor
  · rintro ⟨h1, h2, h3, h4, h5, h6⟩
    exact ⟨by omega, by omega, by omega, by omega, by omega, h4, h5, h6⟩
  · rintro ⟨h1, h2, h3, h4, h5, h6, h7, h8⟩
    exact ⟨by omega, by omega, by omega, h6, h7, h8⟩

theorem snake_inBounds (k : Nat) (hk : k < 61455000) :
    inBounds dungeonSnake (snakeCell k) = true := by
  rw [inBounds_iff]
  have h1 := snakeX_le k
  have h2 := snakeY_lt k hk
  have hw : dungeonSnake.width = 4096 := rfl
  have hh : dungeonSnake.height = 30000 := rfl
  rw [hw, hh]
  unfold snakeCell
  simp only
  omega

theorem snake_isInt16 (k : Nat) (hk : k < 61455000) : (snakeCell k).isInt16 := by
  have h1 := snakeX_le k
  have h2 := snakeY_lt k hk
  unfold point_t.isInt16 snakeCell
  simp only
  omega

/-- The move from a corridor cell to the next one is valid. -/
theorem snake_fwd (k : Nat) (hk : k + 1 < 61455000) :
    isValidMove dungeonSnake (snakeCell k) (snakeCell (k + 1)) = some true := by
  unfold snakeCell
  rw [snake_valid_nat]
  have hx1 := snakeX_le k
  have hx2 := snakeX_le (k + 1)
  have hy1 := snakeY_lt k (by omega)
  have hy2 := snakeY_lt (k + 1) hk
  have hf1 := snake_floor k
  have hf2 := snake_floor (k + 1)
  refine ⟨⟨by omega, hy1⟩, ⟨by omega, hy2⟩, ?_⟩
  rcases snake_succ k with ⟨h1, h2⟩ | ⟨h1, h2⟩
  · rw [h1]
    exact ⟨by omega, by omega, by omega, by rw [← h1]; exact hf2, hf1, by rw [← h1]; exact hf2⟩
  · rw [h1]
    exact ⟨by omega, by omega, by omega, by rw [← h1]; exact hf2, by rw [← h1]; exact hf2, hf1⟩

/-- The move from a corridor cell back to the previous one is valid. -/
theorem snake_bwd (k : Nat) (hk : k + 1 < 61455000) :
    isValidMove dungeonSnake (snakeCell (k + 1)) (snakeCell k) = some true := by
  unfold snakeCell
  rw [snake_valid_nat]
  have hx1 := snakeX_le k
  have hx2 := snakeX_le (k + 1)
  have hy1 := snakeY_lt k (by omega)
  have hy2 := snakeY_lt (k + 1) hk
  have hf1 := snake_floor k
  have hf2 := snake_floor (k + 1)
  refine ⟨⟨by omega, hy2⟩, ⟨by omega, hy1⟩, ?_⟩
  rcases snake_succ k with ⟨h1, h2⟩ | ⟨h1, h2⟩
  · rw [h1]
    exact ⟨by omega, by omega, by omega, hf1, by rw [← h1]; exact hf2, hf1⟩
  · rw [h1]
    exact ⟨by omega, by omega, by omega, hf1, hf1, by rw [← h1]; exact hf2⟩

theorem snake_axis (k : Nat) :
    (snakeCell (k + 1)).x = (snakeCell k).x ∨ (snakeCell (k + 1)).y = (snakeCell k).y := by
  unfold snakeCell
  simp only [Nat.cast_inj]
  rcases snake_succ k with ⟨h1, _⟩ | ⟨h1, _⟩
  · exact Or.inr h1
  · exact Or.inl h1

/-- A valid move from the corridor cell `k` leads to the cell `k + 1` or to the cell `k - 1`. -/
theorem snake_only (k : Nat) (c : point_t)
    (hv : isValidMove dungeonSnake (snakeCell k) c = some true) :
    c = snakeCell (k + 1) ∨ (1 ≤ k ∧ c = snakeCell (k - 1)) := by
  have hin := ((inBounds_iff _ _).mp (isValidMove_inBounds _ _ _ hv).2)
  obtain ⟨cx, cy⟩ := c
  simp only at hin
  obtain ⟨nx, rfl⟩ := Int.eq_ofNat_of_zero_le hin.1.1
  obtain ⟨ny, rfl⟩ := Int.eq_ofNat_of_zero_le hin.2.1
  unfold snakeCell at hv
  rw [snake_valid_nat] at hv
  obtain ⟨_, ⟨hcx, _⟩, hsx, hsy, hne, hw1, hw2, hw3⟩ := hv
  obtain ⟨k2, hk2, hx, hy⟩ := snake_only_nat k nx ny hcx hsx hsy hne hw1 hw2 hw3
  rcases hk2 with h | h
  · left
    subst h
    unfold snakeCell
    rw [hx, hy]
  · right
    have hk1 : k2 = k - 1 := by omega
    subst hk1
    refine ⟨by omega, ?_⟩
    unfold snakeCell
    rw [hx, hy]

/-! ### The search on the serpentine dungeon -/

/-- The first 61400001 cells of the serpentine form a corridor of `dungeonSnake`. -/
theorem snake_corridor : Corridor dungeonSnake snakeCell 61400000 :=
  { uint16 := dungeonSnake_isUInt16
    inb := fun k hk => snake_inBounds k (by omega)
    int16 := fun k hk => snake_isInt16 k (by omega)
    inj := fun i j _ _ h => snakeCell_inj i j h
    fwd := fun k hk => snake_fwd k (by omega)
    bwd := fun k hk => snake_bwd k (by omega)
    axis := fun k _ => snake_axis k
    only := fun k c _ hv => snake_only k c hv }

/-- On the serpentine dungeon the search from the cell 0 to the cell `T`, for `T` below the
point where the g-score wraps, returns the cells 1 to `T` without the first
`T - T mod 65536` of them. -/
theorem snake_run (T : Nat) (hT : T ≤ 61356675) (rnd : Nat → Nat) (hrnd : ∀ k, 1 ≤ rnd k) :
    findPath 983040002 rnd dungeonSnake (snakeCell 0) (snakeCell T)
      = .ok (some ((cellsUpTo snakeCell T).drop (T - T % 65536))) := by
  obtain ⟨pd, h⟩ := corridor_run dungeonSnake snakeCell 61400000 snake_corridor T (by omega)
    (by unfold UINT32_MAX; omega) 983040002 (by decide) (by omega)
  rw [findPath_eq_findPathL _ rnd hrnd, h]
  rfl

/-- On the serpentine dungeon the search from the cell 0 to the cell 61356676, whose g-score
`70 * 61356676` wraps around `2^32`, never returns. -/
theorem snake_never (rnd : Nat → Nat) (hrnd : ∀ k, 1 ≤ rnd k) (fuel : Nat)
    (r : Option (List point_t)) :
    findPath fuel rnd dungeonSnake (snakeCell 0) (snakeCell 61356676) ≠ .ok r :=
  corridor_wrap_never dungeonSnake snakeCell 61400000 snake_corridor 61356675 (by decide)
    (by decide) (by decide) (by decide) (by decide) rnd hrnd fuel r

theorem snakeCell_values :
    snakeCell 0 = { x := 0, y := 0 } ∧ snakeCell 65536 = { x := 14, y := 30 }
    ∧ snakeCell 65537 = { x := 13, y := 30 } ∧ snakeCell 61356676 = { x := 4, y := 29952 } := by
  decide

/-- C2 (as stated) fails: on the 4096 x 30000 serpentine dungeon the only route from `(0,0)`
to `(14,30)` has 65536 steps; `reconstructPath` counts them in a `uint16_t`, which wraps to 0,
and `findPath` returns the empty path although the source differs from the target. -/
theorem C2_counterexample :
    ({ x := 0, y := 0 } : point_t) ≠ { x := 14, y := 30 }
    ∧ inBounds dungeonSnake { x := 0, y := 0 } = true
    ∧ findPath 983040002 (fun _ => 1) dungeonSnake { x := 0, y := 0 } { x := 14, y := 30 }
        = .ok (some []) := by
  refine ⟨by decide, by decide, ?_⟩
  have h := snake_run 65536 (by decide) (fun _ => 1) (fun _ => Nat.le_refl _)
  rw [snakeCell_values.1, snakeCell_values.2.1] at h
  have hd : (cellsUpTo snakeCell 65536).drop (65536 - 65536 % 65536) = [] :=
    List.drop_eq_nil_of_le (by rw [cellsUpTo_length])
  rw [h, hd]

/-- C3 (as stated) fails: on the serpentine dungeon the only route from `(0,0)` to `(13,30)`
has 65537 steps; the `uint16_t` length wraps to 1 and `findPath` returns the path that
consists of the target alone, whose first step, from `(0,0)` to `(13,30)`, is not a move that
`isValidMove` accepts. -/
theorem C3_counterexample :
    inBounds dungeonSnake { x := 0, y := 0 } = true
    ∧ inBounds dungeonSnake { x := 13, y := 30 } = true
    ∧ findPath 983040002 (fun _ => 1) dungeonSnake { x := 0, y := 0 } { x := 13, y := 30 }
        = .ok (some [{ x := 13, y := 30 }])
    ∧ isValidMove dungeonSnake { x := 0, y := 0 } { x := 13, y := 30 } = some false := by
  refine ⟨by decide, by decide, ?_, by decide⟩
  have h := snake_run 65537 (by decide) (fun _ => 1) (fun _ => Nat.le_refl _)
  rw [snakeCell_values.1, snakeCell_values.2.2.1] at h
  rw [h]
  have e : cellsUpTo snakeCell 65537 = cellsUpTo snakeCell 65536 ++ [snakeCell 65537] :=
    cellsUpTo_succ snakeCell 65536
  have e2 : 65537 - 65537 % 65536 = 65536 := by decide
  rw [e, e2, List.drop_left' (cellsUpTo_length snakeCell 65536), snakeCell_values.2.2.1]

/-- C5 (as stated) fails: on the serpentine dungeon a sequence of valid moves leads from
`(0,0)` to `(4,29952)`, the cell 61356676 of the corridor, but `findPath` returns no path,
whatever the fuel: the g-score `70 * 61356676` of the target wraps around `2^32`, the wrapped
score rewrites the predecessor of a closed cell, and `reconstructPath` loops. -/
theorem C5_counterexample :
    inBounds dungeonSnake { x := 0, y := 0 } = true
    ∧ inBounds dungeonSnake { x := 4, y := 29952 } = true
    ∧ (∃ l, (∀ c ∈ l, c.isInt16)
        ∧ isRoute dungeonSnake { x := 0, y := 0 } l { x := 4, y := 29952 } = true)
    ∧ ∀ fuel p, findPath fuel (fun _ => 1) dungeonSnake { x := 0, y := 0 } { x := 4, y := 29952 }
        ≠ .ok (some p) := by
  refine ⟨by decide, by decide, ⟨cellsUpTo snakeCell 61356676, ?_, ?_⟩, ?_⟩
  · intro c hc
    obtain ⟨j, hj, _, rfl⟩ := mem_cellsUpTo snakeCell _ c hc
    exact snake_isInt16 j (by omega)
  · have := corridor_route dungeonSnake snakeCell 61400000 snake_corridor 61356676 (by decide)
    rw [snakeCell_values.1, snakeCell_values.2.2.2] at this
    exact this
  · intro fuel p
    have := snake_never (fun _ => 1) (fun _ => Nat.le_refl _) fuel (some p)
    rw [snakeCell_values.1, snakeCell_values.2.2.2] at this
    exact this

/-- C7 (as stated) fails: on the serpentine dungeon, from `(0,0)` to `(4,29952)`, `findPath`
does not return for any amount of fuel, neither with a path nor with `NULL`: after the g-score
has wrapped around `2^32` the predecessor links contain a cycle and the first loop of
`reconstructPath` does not end. -/
theorem C7_counterexample :
    inBounds dungeonSnake { x := 0, y := 0 } = true
    ∧ inBounds dungeonSnake { x := 4, y := 29952 } = true
    ∧ ∀ fuel r, findPath fuel (fun _ => 1) dungeonSnake { x := 0, y := 0 } { x := 4, y := 29952 }
        ≠ .ok r := by
  refine ⟨by decide, by decide, ?_⟩
  intro fuel r
  have := snake_never (fun _ => 1) (fun _ => Nat.le_refl _) fuel r
  rw [snakeCell_values.1, snakeCell_values.2.2.2] at this
  exact this

/-! ### Further claims about moves and the queue -/

/-- C21: for every dungeon, every in-bounds `from` and every `to` (in particular every
in-bounds `to` a diagonal unit move away), if one of the two cells beside the step,
`(from.x, to.y)` and `(to.x, from.y)`, is a wall (in particular if both are), `isValidMove`
returns false. -/
theorem C21_no_corner_cutting (d : dungeon_t) (from_ to_ : point_t)
    (hf : inBounds d from_ = true)
    (hwall : d.map from_.x.toNat to_.y.toNat = TILE_WALL
      ∨ d.map to_.x.toNat from_.y.toNat = TILE_WALL) :
    isValidMove d from_ to_ = some false := by
  unfold isValidMove
  unfold inBounds at hf
  rw [if_pos hf]
  rcases hwall with h | h
  · simp [h]
  · simp [h]

/-- Witness of C21: in `dungeonCorner` the diagonal step from `(0,0)` to `(1,1)` passes
between two walls and is rejected. -/
theorem C21_no_corner_cutting_witness :
    isValidMove dungeonCorner { x := 0, y := 0 } { x := 1, y := 1 } = some false :=
  C21_no_corner_cutting dungeonCorner { x := 0, y := 0 } { x := 1, y := 1 } (by decide)
    (by decide)

/-- C27: for each of the 8 moves of `MOVES`, `cost` returns `COST_CARDINAL = 70` when exactly
one of `move.x`, `move.y` is non-zero and `COST_DIAGONAL = 99` when both are; in the order of
`MOVES` (north first, clockwise) the costs are 70, 99, 70, 99, 70, 99, 70, 99. -/
theorem C27_move_cost (m : point_t) (hm : m ∈ MOVES) :
    ((m.x = 0 ∧ m.y ≠ 0) ∨ (m.x ≠ 0 ∧ m.y = 0) → cost m = COST_CARDINAL)
    ∧ (m.x ≠ 0 ∧ m.y ≠ 0 → cost m = COST_DIAGONAL)
    ∧ ((m.x = 0 ∧ m.y ≠ 0) ∨ (m.x ≠ 0 ∧ m.y = 0) ∨ (m.x ≠ 0 ∧ m.y ≠ 0))
    ∧ COST_CARDINAL = 70 ∧ COST_DIAGONAL = 99
    ∧ MOVES.map cost = [70, 99, 70, 99, 70, 99, 70, 99] := by
  have hunit := (mem_MOVES_iff m).mp hm
  have hc := cost_of_unit m hunit
  refine ⟨?_, ?_, ?_, rfl, rfl, by decide⟩
  · intro h
    rw [hc, if_pos (by omega)]
    rfl
  · intro h
    rw [hc, if_neg (by omega)]
    rfl
  · omega

/-- Witness of C27: the move north-east `(1,-1)` costs 99. -/
theorem C27_move_cost_witness : cost { x := 1, y := -1 } = COST_DIAGONAL :=
  (C27_move_cost { x := 1, y := -1 } (by decide)).2.1 (by decide)

/-- C23 fails on the code: when `findPath` on the open 5 x 5 dungeon, from `(0,0)` to `(4,4)`,
explores the move `(1,1)` from the source, the neighbour `(1,1)` is queued with the priority
`99 + distancePoints ((0,0), target) = 495`, the heuristic being taken at `current`; the
f-score of the neighbour is `99 + distancePoints ((1,1), target) = 396`. -/
theorem C23_priority_at_current :
    queuedPriority (exploreMove (fun _ => 1) dungeonOpen5 { x := 0, y := 0 } { x := 4, y := 4 }
      stateOpen5 { x := 1, y := 1 }) = .ok 495
    ∧ 99 + distancePoints { x := 0, y := 0 } { x := 4, y := 4 } 70 99 = 495
    ∧ 99 + distancePoints (addPoints { x := 0, y := 0 } { x := 1, y := 1 })
        { x := 4, y := 4 } 70 99 = 396 :=
  ⟨rfl, by decide, by decide⟩

/-- C24 fails on the code: after inserting a node of level 2 and priority 1 and a node of
level 1 and priority 2 and removing the minimum, the only node left has level 1, but the head
keeps the level 2, with `forward[1] = NULL`: the loop of `freeMinSkipNode` sets
`newLevel = i + 1` at the first level `i` without a successor. -/
theorem C24_head_level_too_high :
    runOps levelOps initSkipPQ = .ok levelPQ
    ∧ (levelPQ.mem levelPQ.head).level = 2
    ∧ (levelChain levelPQ 0).map (fun n => (levelPQ.mem n).level) = [1]
    ∧ (levelPQ.mem levelPQ.head).forward 1 = none :=
  ⟨rfl, rfl, rfl, rfl⟩

theorem pendingOp_congr (op1 op2 : pqOp) (h : op1.call = op2.call) (q : List (Nat × point_t)) :
    pendingOp q op1 = pendingOp q op2 := by
  cases op1 <;> cases op2 <;> simp only [pqOp.call, Option.some.injEq, Prod.mk.injEq] at h
  · obtain ⟨rfl, rfl⟩ := h
    rfl
  · cases h
  · cases h
  · rfl

/-- The list of pending entries does not depend on the levels of the insertions. -/
theorem pending_congr :
    ∀ (ops1 ops2 : List pqOp), ops1.map pqOp.call = ops2.map pqOp.call →
      ∀ q, pending ops1 q = pending ops2 q := by
  intro ops1
  induction ops1 with
  | nil =>
    intro ops2 h q
    cases ops2 with
    | nil => rfl
    | cons op ops => simp at h
  | cons op1 ops1 ih =>
    intro ops2 h q
    cases ops2 with
    | nil => simp at h
    | cons op2 ops2 =>
      simp only [List.map_cons, List.cons.injEq] at h
      simp only [pending]
      rw [pendingOp_congr op1 op2 h.1 q]
      cases pendingOp q op2 with
      | none => rfl
      | some q1 => exact ih ops2 h.2 q1

/-- C28: two sequences of the same calls that differ only in the (positive) levels drawn for
the inserted nodes succeed together and leave queues whose level-0 chains hold the same
entries in the same order, namely the plain sorted list `pending` in which an insertion puts
the entry immediately before the first entry whose priority is greater than or equal to its
own and a removal drops the first entry; and the result of `findPath` is the same for any two
generators of positive levels. -/
theorem C28_levels_irrelevant (ops1 ops2 : List pqOp) (pq1 : skipPQ_t)
    (hl1 : ∀ op ∈ ops1, op.levelOK) (hl2 : ∀ op ∈ ops2, op.levelOK)
    (hsame : ops1.map pqOp.call = ops2.map pqOp.call)
    (hrun : runOps ops1 initSkipPQ = .ok pq1) :
    (∃ pq2 q, runOps ops2 initSkipPQ = .ok pq2
      ∧ pending ops1 [] = some q ∧ pending ops2 [] = some q
      ∧ (levelChain pq1 0).map (entryOf pq1) = q
      ∧ (levelChain pq2 0).map (entryOf pq2) = q)
    ∧ (∀ (e : Nat × point_t) (q : List (Nat × point_t)),
        ∃ A B, q = A ++ B ∧ insertEntry e q = A ++ e :: B
          ∧ (∀ f ∈ A, f.1 < e.1) ∧ (∀ f, B.head? = some f → e.1 ≤ f.1))
    ∧ ∀ (fuel : Nat) (rnd1 rnd2 : Nat → Nat) (d : dungeon_t) (source target : point_t),
        (∀ k, 1 ≤ rnd1 k) → (∀ k, 1 ≤ rnd2 k) →
        findPath fuel rnd1 d source target = findPath fuel rnd2 d source target := by
  refine ⟨?_, ?_, ?_⟩
  · obtain ⟨q, hq, hh⟩ := runOps_holds ops1 pq1 hl1 hrun
    have hq2 : pending ops2 [] = some q := by rw [← pending_congr ops1 ops2 hsame]; exact hq
    obtain ⟨pq2, hrun2, hh2⟩ := (runOps_pending ops2 initSkipPQ [] hl2 holds_initSkipPQ).1 q hq2
    exact ⟨pq2, q, hrun2, hq, hq2, holds_levelChain pq1 q hh, holds_levelChain pq2 q hh2⟩
  · intro e q
    refine ⟨q.takeWhile (fun f => decide (f.1 < e.1)), q.dropWhile (fun f => decide (f.1 < e.1)),
      (List.takeWhile_append_dropWhile _ _).symm, rfl, ?_, ?_⟩
    · intro f hf
      simpa using List.mem_takeWhile_imp hf
    · intro f hf
      have := List.head?_dropWhile_not (fun f => decide (f.1 < e.1)) q
      rw [hf] at this
      simpa using this
  · intro fuel rnd1 rnd2 d source target h1 h2
    rw [findPath_eq_findPathL fuel rnd1 h1, findPath_eq_findPathL fuel rnd2 h2]

/-- Witness of C28: the calls of `sampleOps` with all levels 1 instead of 2, 1, 3. -/
theorem C28_levels_irrelevant_witness :
    ∃ pq2 q, runOps [.insert { x := 1, y := 1 } 5 1, .insert { x := 2, y := 2 } 3 1,
        .insert { x := 3, y := 3 } 5 1, .removeMin] initSkipPQ = .ok pq2
      ∧ pending sampleOps [] = some q
      ∧ (levelChain samplePQ 0).map (entryOf samplePQ) = q
      ∧ (levelChain pq2 0).map (entryOf pq2) = q := by
  obtain ⟨pq2, q, h1, h2, _, h4, h5⟩ := (C28_levels_irrelevant sampleOps
    [.insert { x := 1, y := 1 } 5 1, .insert { x := 2, y := 2 } 3 1,
      .insert { x := 3, y := 3 } 5 1, .removeMin] samplePQ (by decide) (by decide) rfl rfl).1
  exact ⟨pq2, q, h1, h2, h4, h5⟩

/-- C29: in every queue reached by insertions (with positive levels) and removals, the chain
of level `i + 1` is the chain of level `i` restricted to the nodes of level above `i + 1`, in
the same order; and the minimum node, the level-0 successor of the head, is the successor of
the head at every level it takes part in. -/
theorem C29_layering (pq : skipPQ_t) (h : Reachable pq) :
    (∀ i, i + 1 < (pq.mem pq.head).level →
      levelChain pq (i + 1)
        = (levelChain pq i).filter (fun n => decide (i + 1 < (pq.mem n).level)))
    ∧ ∀ n, getMinSkipNode pq = some n →
        (pq.mem n).level ≤ (pq.mem pq.head).level
        ∧ ∀ j, j < (pq.mem n).level → (pq.mem pq.head).forward j = some n := by
  obtain ⟨L, inv, _⟩ := Reachable_inv pq h
  constructor
  · intro i hi
    rw [levelChain_eq pq L inv (i + 1) hi, levelChain_eq pq L inv i (by omega)]
    unfold atLevel
    rw [List.filter_filter]
    apply List.filter_congr
    intro n _
    by_cases hn : i + 1 < (pq.mem n).level
    · simp [hn, Nat.lt_of_succ_lt hn]
    · simp [hn]
  · intro n hn
    cases L with
    | nil => rw [getMinSkipNode_nil pq inv] at hn; cases hn
    | cons m L =>
      rw [getMinSkipNode_cons pq m L inv] at hn
      cases hn
      have hle := inv.level_le n (List.mem_cons_self _ _)
      refine ⟨hle, fun j hj => ?_⟩
      have hc := inv.links j (lt_of_lt_of_le hj hle)
      rw [atLevel_cons_pos _ _ _ _ (lt_of_lt_of_le hj hle), atLevel_cons_pos _ _ _ _ hj,
        chainTo_cons, chainTo_cons] at hc
      exact hc.2.1

/-- Witness of C29: the chain of level 1 of `samplePQ` is its level-0 chain restricted to the
nodes of level above 1. -/
theorem C29_layering_witness :
    levelChain samplePQ 1
      = (levelChain samplePQ 0).filter (fun n => decide (1 < (samplePQ.mem n).level)) :=
  (C29_layering samplePQ ⟨sampleOps, by decide, rfl⟩).1 0 (by decide)

/-! ### The iterations of the search -/

/-- The loop of `findPath` is the iteration of `findStep`. -/
theorem findLoop_step (rnd : Nat → Nat) (d : dungeon_t) (source target : point_t)
    (fuel0 fuel : Nat) (st : search_t) :
    findLoop rnd d source target fuel0 (fuel + 1) st
      = match findStep rnd d target st with
        | .empty => .ok none
        | .stale _ st1 => findLoop rnd d source target fuel0 fuel st1
        | .found _ pd =>
          (match reconstructPath fuel0 pd source target with
            | .error e => .error e
            | .ok path => .ok (some path))
        | .expanded _ st1 => findLoop rnd d source target fuel0 fuel st1
        | .fault e => .error e := by
  unfold findStep
  rw [findLoop]
  split
  · rfl
  · cases getSkipNodeData st.opn (getMinSkipNode st.opn) with
    | error e => rfl
    | ok current =>
      simp only
      cases freeMinSkipNode st.opn with
      | error e => rfl
      | ok opn1 =>
        simp only
        cases getPointData st.pointData current with
        | error e => rfl
        | ok c =>
          simp only
          split
          · rfl
          · cases setPointData st.pointData current { c with isClosed := true } with
            | error e => rfl
            | ok pd1 =>
              simp only
              split
              · rfl
              · cases exploreNeighbours rnd d opn1 pd1 current target with
                | error e => rfl
                | ok st1 => rfl

/-- The function `findPath` is its initialisation followed by the loop. -/
theorem findPath_eq_init (fuel : Nat) (rnd : Nat → Nat) (d : dungeon_t)
    (source target : point_t) :
    findPath fuel rnd d source target
      = match initSearch rnd d source with
        | .error e => .error e
        | .ok st => findLoop rnd d source target fuel fuel st := by
  unfold findPath initSearch
  simp only
  cases getPointData (initPointData (getDungeonWidth d) (getDungeonHeight d)) source with
  | error e => rfl
  | ok c =>
    simp only
    cases setPointData (initPointData (getDungeonWidth d) (getDungeonHeight d)) source
        { c with gScore := 0 } with
    | error e => rfl
    | ok pd1 =>
      simp only
      cases initSkipNode initSkipPQ source 0 (rnd initSkipPQ.next) with
      | error e => rfl
      | ok opn1 => rfl

theorem tableLE_refl (pd : pointTable_t) : tableLE pd pd :=
  fun _ _ => ⟨Nat.le_refl _, id⟩

theorem tableLE_trans (pd3 pd2 pd : pointTable_t) (h1 : tableLE pd3 pd2) (h2 : tableLE pd2 pd) :
    tableLE pd3 pd :=
  fun x y => ⟨le_trans (h1 x y).1 (h2 x y).1, fun h => (h1 x y).2 ((h2 x y).2 h)⟩

/-- Reading an entry succeeds exactly on the entries of the table and returns the cell. -/
theorem getPointData_ok (pd : pointTable_t) (p : point_t) (c : pointData_t)
    (h : getPointData pd p = .ok c) : c = pd.cell p.x.toNat p.y.toNat ∧ 0 ≤ p.x ∧ 0 ≤ p.y := by
  unfold getPointData at h
  split at h
  · rename_i hb
    simp only [Except.ok.injEq] at h
    simp only [Bool.and_eq_true, decide_eq_true_eq, ge_iff_le] at hb
    exact ⟨h.symm, hb.1.1, hb.2.1⟩
  · cases h

theorem setPointData_ok (pd pd2 : pointTable_t) (p : point_t) (v : pointData_t)
    (h : setPointData pd p v = .ok pd2) :
    ∀ x y, pd2.cell x y = if x = p.x.toNat ∧ y = p.y.toNat then v else pd.cell x y := by
  unfold setPointData at h
  split at h
  · simp only [Except.ok.injEq] at h
    intro x y
    rw [← h]
  · cases h

/-- Overwriting an entry by one with a g-score not above the old one, and closed if the old
one was, gives a table below the old one. -/
theorem tableLE_set (pd pd2 : pointTable_t) (p : point_t) (c v : pointData_t)
    (hg : getPointData pd p = .ok c) (hs : setPointData pd p v = .ok pd2)
    (h1 : v.gScore ≤ c.gScore) (h2 : c.isClosed = true → v.isClosed = true) :
    tableLE pd2 pd := by
  intro x y
  rw [setPointData_ok pd pd2 p v hs x y]
  have hc := (getPointData_ok pd p c hg).1
  split
  · rename_i hxy
    rw [hxy.1, hxy.2, ← hc]
    exact ⟨h1, h2⟩
  · exact ⟨Nat.le_refl _, id⟩

/-- One move of `exploreNeighbours` either leaves the table as it is or overwrites the entry
of the neighbour, and then its new g-score is strictly smaller than the old one and its
closed flag is unchanged. -/
theorem exploreMove_write (rnd : Nat → Nat) (d : dungeon_t) (current target : point_t)
    (st st2 : search_t) (move : point_t)
    (h : exploreMove rnd d current target st move = .ok st2) :
    st2.pointData = st.pointData
    ∨ ∃ nb g, getPointData st.pointData (addPoints current move) = .ok nb
        ∧ g < nb.gScore
        ∧ setPointData st.pointData (addPoints current move)
            { nb with prev := current, gScore := g } = .ok st2.pointData := by
  unfold exploreMove at h
  simp only at h
  cases hv : isValidMove d current (addPoints current move) with
  | none => rw [hv] at h; cases h
  | some b =>
    rw [hv] at h
    cases b with
    | false =>
      simp only [Except.ok.injEq] at h
      left; rw [← h]
    | true =>
      simp only at h
      cases hc : getPointData st.pointData current with
      | error e => rw [hc] at h; cases h
      | ok cur =>
        rw [hc] at h
        simp only at h
        cases hn : getPointData st.pointData (addPoints current move) with
        | error e => rw [hn] at h; cases h
        | ok nb =>
          rw [hn] at h
          simp only at h
          split at h
          · rename_i hlt
            cases hs : setPointData st.pointData (addPoints current move)
                { nb with prev := current, gScore := (cur.gScore + cost move) % 4294967296 } with
            | error e => rw [hs] at h; cases h
            | ok pd1 =>
              rw [hs] at h
              simp only at h
              right
              refine ⟨nb, _, rfl, hlt, ?_⟩
              split at h
              · cases hi : initSkipNode st.opn (addPoints current move)
                    (((cur.gScore + cost move) % 4294967296
                      + distancePoints current target COST_CARDINAL COST_DIAGONAL)
                        % 4294967296) (rnd st.opn.next) with
                | error e => rw [hi] at h; cases h
                | ok opn1 =>
                  rw [hi] at h
                  simp only [Except.ok.injEq] at h
                  rw [← h]
                  exact hs
              · simp only [Except.ok.injEq] at h
                rw [← h]
                exact hs
          · simp only [Except.ok.injEq] at h
            left; rw [← h]

theorem exploreMove_tableLE (rnd : Nat → Nat) (d : dungeon_t) (current target : point_t)
    (st st2 : search_t) (move : point_t)
    (h : exploreMove rnd d current target st move = .ok st2) :
    tableLE st2.pointData st.pointData := by
  rcases exploreMove_write rnd d current target st st2 move h with h1 | ⟨nb, g, hg, hlt, hs⟩
  · rw [h1]; exact tableLE_refl _
  · exact tableLE_set _ _ _ nb _ hg hs (Nat.le_of_lt hlt) id

theorem exploreLoop_tableLE (rnd : Nat → Nat) (d : dungeon_t) (current target : point_t)
    (moves : List point_t) :
    ∀ (st st2 : search_t), exploreLoop rnd d current target moves st = .ok st2 →
      tableLE st2.pointData st.pointData := by
  induction moves with
  | nil =>
    intro st st2 h
    simp only [exploreLoop, Except.ok.injEq] at h
    rw [← h]; exact tableLE_refl _
  | cons m moves ih =>
    intro st st2 h
    unfold exploreLoop at h
    cases h1 : exploreMove rnd d current target st m with
    | error e => rw [h1] at h; cases h
    | ok st1 =>
      rw [h1] at h
      exact tableLE_trans _ _ _ (ih st1 st2 h) (exploreMove_tableLE rnd d current target st st1 m h1)


/-- What the iteration has read and written when `findStep` reports a stale entry. -/
theorem findStep_stale (rnd : Nat → Nat) (d : dungeon_t) (target : point_t) (st st1 : search_t)
    (c : point_t) (h : findStep rnd d target st = .stale c st1) :
    ∃ cd opn1, getSkipNodeData st.opn (getMinSkipNode st.opn) = .ok c
      ∧ freeMinSkipNode st.opn = .ok opn1
      ∧ getPointData st.pointData c = .ok cd ∧ cd.isClosed = true
      ∧ st1 = { opn := opn1, pointData := st.pointData } := by
  unfold findStep at h
  split at h
  · cases h
  · cases h1 : getSkipNodeData st.opn (getMinSkipNode st.opn) with
    | error e => rw [h1] at h; cases h
    | ok current =>
      rw [h1] at h
      simp only at h
      cases h2 : freeMinSkipNode st.opn with
      | error e => rw [h2] at h; cases h
      | ok opn1 =>
        rw [h2] at h
        simp only at h
        cases h3 : getPointData st.pointData current with
        | error e => rw [h3] at h; cases h
        | ok cd =>
          rw [h3] at h
          simp only at h
          split at h
          · rename_i hcl
            simp only [step_t.stale.injEq] at h
            obtain ⟨rfl, rfl⟩ := h
            exact ⟨cd, opn1, rfl, rfl, h3, hcl, rfl⟩
          · cases h4 : setPointData st.pointData current { cd with isClosed := true } with
            | error e => rw [h4] at h; cases h
            | ok pd1 =>
              rw [h4] at h
              simp only at h
              split at h
              · cases h
              · cases h5 : exploreNeighbours rnd d opn1 pd1 current target with
                | error e => rw [h5] at h; cases h
                | ok st2 => rw [h5] at h; cases h

/-- What the iteration has read and written when `findStep` reports an expanded cell. -/
theorem findStep_expanded (rnd : Nat → Nat) (d : dungeon_t) (target : point_t)
    (st st1 : search_t) (c : point_t) (h : findStep rnd d target st = .expanded c st1) :
    ∃ cd opn1 pd1, getSkipNodeData st.opn (getMinSkipNode st.opn) = .ok c
      ∧ freeMinSkipNode st.opn = .ok opn1
      ∧ getPointData st.pointData c = .ok cd ∧ cd.isClosed = false
      ∧ setPointData st.pointData c { cd with isClosed := true } = .ok pd1
      ∧ c ≠ target
      ∧ exploreNeighbours rnd d opn1 pd1 c target = .ok st1 := by
  unfold findStep at h
  split at h
  · cases h
  · cases h1 : getSkipNodeData st.opn (getMinSkipNode st.opn) with
    | error e => rw [h1] at h; cases h
    | ok current =>
      rw [h1] at h
      simp only at h
      cases h2 : freeMinSkipNode st.opn with
      | error e => rw [h2] at h; cases h
      | ok opn1 =>
        rw [h2] at h
        simp only at h
        cases h3 : getPointData st.pointData current with
        | error e => rw [h3] at h; cases h
        | ok cd =>
          rw [h3] at h
          simp only at h
          split at h
          · cases h
          · rename_i hcl
            cases h4 : setPointData st.pointData current { cd with isClosed := true } with
            | error e => rw [h4] at h; cases h
            | ok pd1 =>
              rw [h4] at h
              simp only at h
              split at h
              · cases h
              · rename_i hne
                cases h5 : exploreNeighbours rnd d opn1 pd1 current target with
                | error e => rw [h5] at h; cases h
                | ok st2 =>
                  rw [h5] at h
                  simp only [step_t.expanded.injEq] at h
                  obtain ⟨rfl, rfl⟩ := h
                  refine ⟨cd, opn1, pd1, rfl, rfl, h3, by simpa using hcl, h4, ?_, h5⟩
                  intro heq
                  exact hne ((isEqualPoints_iff _ _).mpr heq)

/-- What the iteration has read and written when `findStep` reports the target. -/
theorem findStep_found (rnd : Nat → Nat) (d : dungeon_t) (target : point_t)
    (st : search_t) (pd : pointTable_t) (c : point_t)
    (h : findStep rnd d target st = .found c pd) :
    ∃ cd, getSkipNodeData st.opn (getMinSkipNode st.opn) = .ok c
      ∧ getPointData st.pointData c = .ok cd ∧ cd.isClosed = false
      ∧ setPointData st.pointData c { cd with isClosed := true } = .ok pd
      ∧ c = target := by
  unfold findStep at h
  split at h
  · cases h
  · cases h1 : getSkipNodeData st.opn (getMinSkipNode st.opn) with
    | error e => rw [h1] at h; cases h
    | ok current =>
      rw [h1] at h
      simp only at h
      cases h2 : freeMinSkipNode st.opn with
      | error e => rw [h2] at h; cases h
      | ok opn1 =>
        rw [h2] at h
        simp only at h
        cases h3 : getPointData st.pointData current with
        | error e => rw [h3] at h; cases h
        | ok cd =>
          rw [h3] at h
          simp only at h
          split at h
          · cases h
          · rename_i hcl
            cases h4 : setPointData st.pointData current { cd with isClosed := true } with
            | error e => rw [h4] at h; cases h
            | ok pd1 =>
              rw [h4] at h
              simp only at h
              split at h
              · rename_i heq
                simp only [step_t.found.injEq] at h
                obtain ⟨rfl, rfl⟩ := h
                exact ⟨cd, rfl, h3, by simpa using hcl, h4, (isEqualPoints_iff _ _).mp heq⟩
              · cases h5 : exploreNeighbours rnd d opn1 pd1 current target with
                | error e => rw [h5] at h; cases h
                | ok st2 => rw [h5] at h; cases h

/-- An expanded cell lies in the table, was not closed before the iteration and is closed
after it; the table after the iteration is below the table before it. -/
theorem findStep_expanded_closed (rnd : Nat → Nat) (d : dungeon_t) (target : point_t)
    (st st1 : search_t) (c : point_t) (h : findStep rnd d target st = .expanded c st1) :
    (st.pointData.cell c.x.toNat c.y.toNat).isClosed = false
    ∧ (st1.pointData.cell c.x.toNat c.y.toNat).isClosed = true
    ∧ tableLE st1.pointData st.pointData := by
  obtain ⟨cd, opn1, pd1, _, _, h3, hcl, h4, _, h5⟩ := findStep_expanded rnd d target st st1 c h
  have hcd := (getPointData_ok _ _ _ h3).1
  have hle1 : tableLE pd1 st.pointData := tableLE_set _ _ _ cd _ h3 h4 (Nat.le_refl _) (fun _ => rfl)
  have hle2 : tableLE st1.pointData pd1 := exploreLoop_tableLE rnd d c target MOVES _ _ h5
  refine ⟨by rw [← hcd]; exact hcl, ?_, tableLE_trans _ _ _ hle2 hle1⟩
  refine (hle2 _ _).2 ?_
  rw [setPointData_ok _ _ _ _ h4, if_pos ⟨rfl, rfl⟩]

theorem findStep_found_closed (rnd : Nat → Nat) (d : dungeon_t) (target : point_t)
    (st : search_t) (pd : pointTable_t) (c : point_t)
    (h : findStep rnd d target st = .found c pd) :
    (st.pointData.cell c.x.toNat c.y.toNat).isClosed = false ∧ tableLE pd st.pointData := by
  obtain ⟨cd, _, h3, hcl, h4, _⟩ := findStep_found rnd d target st pd c h
  have hcd := (getPointData_ok _ _ _ h3).1
  exact ⟨by rw [← hcd]; exact hcl, tableLE_set _ _ _ cd _ h3 h4 (Nat.le_refl _) (fun _ => rfl)⟩

/-- Every state of the run is below the state the run started in. -/
theorem loopStates_le (rnd : Nat → Nat) (d : dungeon_t) (target : point_t) :
    ∀ (n : Nat) (st b : search_t), b ∈ loopStates rnd d target n st →
      tableLE b.pointData st.pointData := by
  intro n
  induction n with
  | zero => intro st b hb; simp [loopStates] at hb
  | succ n ih =>
    intro st b hb
    simp only [loopStates, List.mem_cons] at hb
    rcases hb with rfl | hb
    · exact tableLE_refl _
    · cases hst : findStep rnd d target st with
      | empty => rw [hst] at hb; simp at hb
      | fault e => rw [hst] at hb; simp at hb
      | found c pd => rw [hst] at hb; simp at hb
      | stale c st1 =>
        rw [hst] at hb
        obtain ⟨_, _, _, _, _, _, hst1⟩ := findStep_stale rnd d target st st1 c hst
        have hpd : st1.pointData = st.pointData := by rw [hst1]
        rw [← hpd]
        exact ih st1 b hb
      | expanded c st1 =>
        rw [hst] at hb
        exact tableLE_trans _ _ _ (ih st1 b hb)
          (findStep_expanded_closed rnd d target st st1 c hst).2.2

theorem loopStates_pairwise (rnd : Nat → Nat) (d : dungeon_t) (target : point_t) :
    ∀ (n : Nat) (st : search_t),
      (loopStates rnd d target n st).Pairwise (fun a b => tableLE b.pointData a.pointData) := by
  intro n
  induction n with
  | zero => intro st; exact List.Pairwise.nil
  | succ n ih =>
    intro st
    simp only [loopStates]
    rw [List.pairwise_cons]
    cases hst : findStep rnd d target st with
    | empty => exact ⟨fun b hb => by simp at hb, List.Pairwise.nil⟩
    | fault e => exact ⟨fun b hb => by simp at hb, List.Pairwise.nil⟩
    | found c pd => exact ⟨fun b hb => by simp at hb, List.Pairwise.nil⟩
    | stale c st1 =>
      obtain ⟨_, _, _, _, _, _, hst1⟩ := findStep_stale rnd d target st st1 c hst
      have hpd : st1.pointData = st.pointData := by rw [hst1]
      refine ⟨fun b hb => ?_, ih st1⟩
      rw [← hpd]
      exact loopStates_le rnd d target n st1 b hb
    | expanded c st1 =>
      refine ⟨fun b hb => ?_, ih st1⟩
      exact tableLE_trans _ _ _ (loopStates_le rnd d target n st1 b hb)
        (findStep_expanded_closed rnd d target st st1 c hst).2.2

/-- The cells closed during a run were not closed when the run started, and no cell is closed
twice. -/
theorem closures_nodup (rnd : Nat → Nat) (d : dungeon_t) (target : point_t) :
    ∀ (n : Nat) (st : search_t),
      (∀ c ∈ closures rnd d target n st,
        (st.pointData.cell c.x.toNat c.y.toNat).isClosed = false)
      ∧ (closures rnd d target n st).Nodup := by
  intro n
  induction n with
  | zero => intro st; exact ⟨fun c hc => by simp [closures] at hc, List.nodup_nil⟩
  | succ n ih =>
    intro st
    simp only [closures]
    cases hst : findStep rnd d target st with
    | empty => exact ⟨fun c hc => by simp at hc, List.nodup_nil⟩
    | fault e => exact ⟨fun c hc => by simp at hc, List.nodup_nil⟩
    | found c pd =>
      refine ⟨fun c2 hc => ?_, List.nodup_singleton _⟩
      simp only [List.mem_singleton] at hc
      rw [hc]
      exact (findStep_found_closed rnd d target st pd c hst).1
    | stale c st1 =>
      obtain ⟨_, _, _, _, _, _, hst1⟩ := findStep_stale rnd d target st st1 c hst
      have hpd : st1.pointData = st.pointData := by rw [hst1]
      rw [← hpd]
      exact ih st1
    | expanded c st1 =>
      obtain ⟨h1, h2, h3⟩ := findStep_expanded_closed rnd d target st st1 c hst
      obtain ⟨ih1, ih2⟩ := ih st1
      simp only
      refine ⟨fun c2 hc => ?_, ?_⟩
      · rcases List.mem_cons.mp hc with rfl | hc
        · exact h1
        · have := ih1 c2 hc
          cases hb : (st.pointData.cell c2.x.toNat c2.y.toNat).isClosed
          · rfl
          · rw [(h3 _ _).2 hb] at this
            cases this
      · rw [List.nodup_cons]
        refine ⟨fun hmem => ?_, ih2⟩
        have := ih1 c hmem
        rw [h2] at this
        cases this

/-! ### Closed cells, closures and relaxation over the run -/

set_option maxRecDepth 100000 in
/-- C22 fails on the code: on the 4 x 3 dungeon with one wall at `(0,1)`, from `(3,0)` to
`(0,2)`, the cell `(1,2)` is closed after 6 iterations of the loop of `findPath` with
predecessor `(1,1)` and g-score 239, although the route `(2,1),(1,2)` of valid moves costs
198; the 7th iteration, which expands `(2,1)`, rewrites the closed cell: predecessor `(2,1)`,
g-score 198. The cells are closed in the order listed, each of them once. -/
theorem C22_closed_cell_rewritten :
    entryAfter (fun _ => 1) dungeonOneWall { x := 3, y := 0 } { x := 0, y := 2 } 6
        { x := 1, y := 2 } = some ({ x := 1, y := 1 }, 239, true)
    ∧ entryAfter (fun _ => 1) dungeonOneWall { x := 3, y := 0 } { x := 0, y := 2 } 7
        { x := 1, y := 2 } = some ({ x := 2, y := 1 }, 198, true)
    ∧ isRoute dungeonOneWall { x := 3, y := 0 } [{ x := 2, y := 1 }, { x := 1, y := 2 }]
        { x := 1, y := 2 } = true
    ∧ routeCost { x := 3, y := 0 } [{ x := 2, y := 1 }, { x := 1, y := 2 }] = 198
    ∧ (initSearch (fun _ => 1) dungeonOneWall { x := 3, y := 0 }).toOption.map
        (closures (fun _ => 1) dungeonOneWall { x := 0, y := 2 } 8)
      = some [{ x := 3, y := 0 }, { x := 2, y := 0 }, { x := 1, y := 0 }, { x := 3, y := 1 },
          { x := 1, y := 1 }, { x := 1, y := 2 }, { x := 2, y := 1 }, { x := 0, y := 2 }] := by
  refine ⟨?_, ?_, ?_, ?_, ?_⟩
  · rfl
  · rfl
  · decide
  · decide
  · rfl

/-- C25: in every run of the loop of `findPath`, from any state and for any number of
iterations, the list of the cells marked closed (the expanded cells and, last, the target) has
no duplicates; an iteration that expands a cell finds it not closed and leaves it closed; and
an iteration that takes a closed cell from the queue only removes that entry: the table
`pointData` is unchanged and the queue is the result of `freeMinSkipNode`, nothing being
inserted. Such an iteration is what happens whenever the cell taken from the queue is closed. -/
theorem C25_no_reexpansion (rnd : Nat → Nat) (d : dungeon_t) (target : point_t) :
    (∀ (n : Nat) (st : search_t), (closures rnd d target n st).Nodup)
    ∧ (∀ (st st1 : search_t) (c : point_t), findStep rnd d target st = .expanded c st1 →
        (st.pointData.cell c.x.toNat c.y.toNat).isClosed = false
        ∧ (st1.pointData.cell c.x.toNat c.y.toNat).isClosed = true)
    ∧ (∀ (st st1 : search_t) (c : point_t), findStep rnd d target st = .stale c st1 →
        st1.pointData = st.pointData ∧ freeMinSkipNode st.opn = .ok st1.opn)
    ∧ (∀ (st : search_t) (c : point_t) (cd : pointData_t) (opn1 : skipPQ_t),
        isSkipPQEmpty st.opn = false →
        getSkipNodeData st.opn (getMinSkipNode st.opn) = .ok c →
        freeMinSkipNode st.opn = .ok opn1 →
        getPointData st.pointData c = .ok cd → cd.isClosed = true →
        findStep rnd d target st = .stale c { opn := opn1, pointData := st.pointData }) := by
  refine ⟨fun n st => (closures_nodup rnd d target n st).2, ?_, ?_, ?_⟩
  · intro st st1 c h
    have := findStep_expanded_closed rnd d target st st1 c h
    exact ⟨this.1, this.2.1⟩
  · intro st st1 c h
    obtain ⟨_, opn1, _, h2, _, _, hst1⟩ := findStep_stale rnd d target st st1 c h
    rw [hst1]
    exact ⟨rfl, h2⟩
  · intro st c cd opn1 h0 h1 h2 h3 h4
    unfold findStep
    rw [h0, h1, h2]
    simp only [Bool.false_eq_true, if_false]
    rw [h3]
    simp only [h4, if_true]

/-- C25 at a concrete state: the queue holds the closed source of the open 5 x 5 dungeon; the
iteration discards the entry and leaves the table unchanged. -/
theorem C25_no_reexpansion_witness :
    ∃ st1, findStep (fun _ => 1) dungeonOpen5 { x := 4, y := 4 } stateStale
        = .stale { x := 0, y := 0 } st1
      ∧ st1.pointData = stateStale.pointData
      ∧ freeMinSkipNode stateStale.opn = .ok st1.opn :=
  ⟨_, rfl, (C25_no_reexpansion (fun _ => 1) dungeonOpen5 { x := 4, y := 4 }).2.2.1
    stateStale _ { x := 0, y := 0 } rfl⟩

/-- C26: every write of `exploreNeighbours` to the table replaces the g-score of the
neighbour by a strictly smaller one (and changes nothing else but its predecessor); hence
over one iteration of the loop of `findPath`, and over any number of iterations from any
state, no g-score of the table increases and no closed cell becomes unclosed: every later
table of the run is `tableLE` every earlier one. -/
theorem C26_monotonic_relaxation (rnd : Nat → Nat) (d : dungeon_t) (target : point_t) :
    (∀ (current move : point_t) (st st2 : search_t),
        exploreMove rnd d current target st move = .ok st2 →
        st2.pointData = st.pointData
        ∨ ∃ nb g, getPointData st.pointData (addPoints current move) = .ok nb
            ∧ g < nb.gScore
            ∧ setPointData st.pointData (addPoints current move)
                { nb with prev := current, gScore := g } = .ok st2.pointData)
    ∧ (∀ (st st1 : search_t) (c : point_t), findStep rnd d target st = .expanded c st1 →
        tableLE st1.pointData st.pointData)
    ∧ (∀ (st st1 : search_t) (c : point_t), findStep rnd d target st = .stale c st1 →
        st1.pointData = st.pointData)
    ∧ (∀ (st : search_t) (pd : pointTable_t) (c : point_t),
        findStep rnd d target st = .found c pd → tableLE pd st.pointData)
    ∧ (∀ (n : Nat) (st : search_t),
        (loopStates rnd d target n st).Pairwise
          (fun a b => tableLE b.pointData a.pointData)) := by
  refine ⟨?_, ?_, ?_, ?_, loopStates_pairwise rnd d target⟩
  · intro current move st st2 h
    exact exploreMove_write rnd d current target st st2 move h
  · intro st st1 c h
    exact (findStep_expanded_closed rnd d target st st1 c h).2.2
  · intro st st1 c h
    obtain ⟨_, _, _, _, _, _, hst1⟩ := findStep_stale rnd d target st st1 c h
    rw [hst1]
  · intro st pd c h
    exact (findStep_found_closed rnd d target st pd c h).2

/-- C26 at a concrete state: the first iteration on the open 5 x 5 dungeon expands the source
and its table is below the initial one. -/
theorem C26_monotonic_relaxation_witness :
    ∃ st1, findStep (fun _ => 1) dungeonOpen5 { x := 4, y := 4 } stateStart
        = .expanded { x := 0, y := 0 } st1
      ∧ tableLE st1.pointData stateStart.pointData :=
  ⟨_, rfl, (C26_monotonic_relaxation (fun _ => 1) dungeonOpen5 { x := 4, y := 4 }).2.1
    stateStart _ { x := 0, y := 0 } rfl⟩

/-! ### The iterations of the search and the list version -/

/-- Taking the first entry from the queue, in the skip list state and in the list state. -/
theorem pop_sim (d : dungeon_t) (source : point_t) (st : search_t) (sl : searchL_t)
    (h : simState st sl) (inv : LightInv d source sl) (e : Nat × point_t)
    (q1 : List (Nat × point_t)) (hsq : sl.q = e :: q1) :
    isSkipPQEmpty st.opn = false
    ∧ getSkipNodeData st.opn (getMinSkipNode st.opn) = .ok e.2
    ∧ (∃ pq2, freeMinSkipNode st.opn = .ok pq2 ∧ holds pq2 q1)
    ∧ getPointData st.pointData e.2 = .ok (cellAt sl.pointData e.2)
    ∧ setPointData st.pointData e.2 { cellAt sl.pointData e.2 with isClosed := true }
        = .ok (closeCell sl.pointData e.2)
    ∧ inBounds d e.2 = true
    ∧ LightInv d source { sl with q := q1 }
    ∧ LightInv d source { q := q1, pointData := closeCell sl.pointData e.2 } := by
  obtain ⟨hq, hpd⟩ := h
  rw [hsq] at hq
  obtain ⟨hemp, hdata, _, pq2, hfree, hq2, _⟩ := holds_cons_pop st.opn e q1 hq
  have he : e ∈ sl.q := by rw [hsq]; exact List.mem_cons_self _ _
  have hinb := inv.q_inb e he
  refine ⟨hemp, hdata, ⟨pq2, hfree, hq2⟩, ?_, ?_, hinb, ?_, ?_⟩
  · rw [hpd]; exact getPointData_of_inBounds d _ _ inv.width_eq inv.height_eq hinb
  · rw [hpd]; exact setPointData_of_inBounds d _ _ _ inv.width_eq inv.height_eq hinb
  · exact
      { width_eq := inv.width_eq
        height_eq := inv.height_eq
        q_inb := fun f hf => inv.q_inb f (by rw [hsq]; exact List.mem_cons_of_mem _ hf)
        q_reach := fun f hf => inv.q_reach f (by rw [hsq]; exact List.mem_cons_of_mem _ hf) }
  · exact
      { width_eq := inv.width_eq
        height_eq := inv.height_eq
        q_inb := fun f hf => inv.q_inb f (by rw [hsq]; exact List.mem_cons_of_mem _ hf)
        q_reach := fun f hf => inv.q_reach f (by rw [hsq]; exact List.mem_cons_of_mem _ hf) }

/-- One iteration of the loop of `findPath` on a skip list state that agrees with a list state:
the queue is empty; or the first entry is closed and is discarded; or it is the target; or it
is expanded, and the new states agree. -/
theorem findStep_sim (rnd : Nat → Nat) (hrnd : ∀ k, 1 ≤ rnd k) (d : dungeon_t)
    (source target : point_t) (st : search_t) (sl : searchL_t)
    (h : simState st sl) (inv : LightInv d source sl) :
    (sl.q = [] ∧ findStep rnd d target st = .empty)
    ∨ (∃ e q1 st1, sl.q = e :: q1 ∧ (cellAt sl.pointData e.2).isClosed = true
        ∧ findStep rnd d target st = .stale e.2 st1
        ∧ simState st1 { sl with q := q1 } ∧ LightInv d source { sl with q := q1 })
    ∨ (∃ e q1, sl.q = e :: q1 ∧ (cellAt sl.pointData e.2).isClosed = false ∧ e.2 = target
        ∧ findStep rnd d target st = .found e.2 (closeCell sl.pointData e.2))
    ∨ (∃ e q1 st1 sl1, sl.q = e :: q1 ∧ (cellAt sl.pointData e.2).isClosed = false
        ∧ e.2 ≠ target
        ∧ exploreLoopL d e.2 target MOVES
            { q := q1, pointData := closeCell sl.pointData e.2 } = .ok sl1
        ∧ findStep rnd d target st = .expanded e.2 st1
        ∧ simState st1 sl1 ∧ LightInv d source sl1
        ∧ sl1.q.length ≤ q1.length + 8
        ∧ unclosed sl1.pointData + 1 = unclosed sl.pointData) := by
  cases hsq : sl.q with
  | nil =>
    refine Or.inl ⟨rfl, ?_⟩
    have hq := h.1
    rw [hsq] at hq
    unfold findStep
    rw [holds_nil_isEmpty st.opn hq]
    rfl
  | cons e q1 =>
    obtain ⟨hemp, hdata, ⟨pq2, hfree, hq2⟩, hget, hset, hinb, inv1, inv2⟩ :=
      pop_sim d source st sl h inv e q1 hsq
    have he : e ∈ sl.q := by rw [hsq]; exact List.mem_cons_self _ _
    by_cases hcl : (cellAt sl.pointData e.2).isClosed = true
    · refine Or.inr (Or.inl ⟨e, q1, { st with opn := pq2 }, rfl, hcl, ?_, ⟨hq2, h.2⟩, inv1⟩)
      unfold findStep
      rw [hemp, hdata, hfree]
      simp only [Bool.false_eq_true, if_false]
      rw [hget]
      simp only [hcl, if_true]
    · have hcl2 : (cellAt sl.pointData e.2).isClosed = false := by simpa using hcl
      have hset2 : setPointData st.pointData e.2
          { prev := (cellAt sl.pointData e.2).prev, gScore := (cellAt sl.pointData e.2).gScore,
            isClosed := true } = .ok (closeCell sl.pointData e.2) := hset
      by_cases ht : isEqualPoints e.2 target = true
      · refine Or.inr (Or.inr (Or.inl ⟨e, q1, rfl, hcl2, (isEqualPoints_iff _ _).mp ht, ?_⟩))
        unfold findStep
        rw [hemp, hdata, hfree]
        simp only [Bool.false_eq_true, if_false]
        rw [hget]
        simp only [hcl2, Bool.false_eq_true, if_false]
        rw [hset2]
        simp only [ht, if_true]
      · have ht2 : e.2 ≠ target := fun hh => ht ((isEqualPoints_iff _ _).mpr hh)
        obtain ⟨sl2, hres, linv2, _, hlen2, hu2⟩ :=
          exploreLoopL_induct d source e.2 target hinb (inv.q_reach e he)
            (fun _ _ => True) (fun _ _ _ _ _ _ _ _ => trivial) MOVES (fun _ hm => hm) [] _
            inv2 trivial
        have hs := exploreLoop_sim rnd hrnd d e.2 target MOVES
          { opn := pq2, pointData := closeCell sl.pointData e.2 }
          { q := q1, pointData := closeCell sl.pointData e.2 } ⟨hq2, rfl⟩
        rw [hres] at hs
        cases hr : exploreLoop rnd d e.2 target MOVES
            { opn := pq2, pointData := closeCell sl.pointData e.2 } with
        | error e1 => rw [hr] at hs; exact hs.elim
        | ok st1 =>
          rw [hr] at hs
          have hu : unclosed (closeCell sl.pointData e.2) + 1 = unclosed sl.pointData :=
            unclosed_setCell_close d _ _ _ inv.width_eq inv.height_eq hinb hcl2 rfl
          refine Or.inr (Or.inr (Or.inr ⟨e, q1, st1, sl2, rfl, hcl2, ht2, hres, ?_, hs, linv2,
            ?_, ?_⟩))
          · unfold findStep
            rw [hemp, hdata, hfree]
            simp only [Bool.false_eq_true, if_false]
            rw [hget]
            simp only [hcl2, Bool.false_eq_true, if_false]
            rw [hset2]
            simp only [ht, Bool.false_eq_true, if_false]
            unfold exploreNeighbours
            rw [hr]
          · have h8 : MOVES.length = 8 := rfl
            simp only at hlen2
            omega
          · rw [hu2]
            exact hu

/-- The state in which `findPath` enters its loop agrees with the initial list state. -/
theorem initSearch_sim (rnd : Nat → Nat) (hrnd : ∀ k, 1 ≤ rnd k) (d : dungeon_t)
    (source : point_t) (hs : inBounds d source = true) :
    ∃ st0, initSearch rnd d source = .ok st0 ∧ simState st0 (initialL d source) := by
  unfold initSearch
  simp only
  rw [getPointData_of_inBounds d _ _ rfl rfl hs]
  simp only
  rw [setPointData_of_inBounds d _ _ _ rfl rfl hs]
  simp only
  obtain ⟨pq2, hres, hq2, _⟩ := holds_initSkipNode initSkipPQ [] source 0
    (rnd initSkipPQ.next) holds_initSkipPQ (hrnd _)
  rw [hres]
  exact ⟨_, rfl, hq2, rfl⟩

/-- The run of the loop of `findPath`, iteration by iteration: every state in which the loop
condition is evaluated agrees with a list state that satisfies `LightInv` and any invariant
`Hv` kept by discarding a closed entry and by expanding an unclosed one; and within
`measureL` iterations the run reaches a state with an empty queue or with the unclosed target
as first entry. -/
theorem loopStates_run (rnd : Nat → Nat) (hrnd : ∀ k, 1 ≤ rnd k) (d : dungeon_t)
    (source target : point_t) (Hv : searchL_t → Prop)
    (hpop : ∀ sl e q1, LightInv d source sl → Hv sl → sl.q = e :: q1 →
      (cellAt sl.pointData e.2).isClosed = true → Hv { sl with q := q1 })
    (hexp : ∀ sl e q1 sl2, LightInv d source sl → Hv sl → sl.q = e :: q1 →
      (cellAt sl.pointData e.2).isClosed = false → e.2 ≠ target →
      exploreLoopL d e.2 target MOVES { q := q1, pointData := closeCell sl.pointData e.2 }
        = .ok sl2 → Hv sl2) :
    ∀ (n : Nat) (st : search_t) (sl : searchL_t), simState st sl → LightInv d source sl →
      Hv sl →
      (∀ b ∈ loopStates rnd d target n st,
        ∃ slb, simState b slb ∧ LightInv d source slb ∧ Hv slb)
      ∧ (measureL sl < n → ∃ b ∈ loopStates rnd d target n st,
          ∃ slb, simState b slb ∧ LightInv d source slb ∧ Hv slb
            ∧ ((slb.q = [] ∧ findStep rnd d target b = .empty)
              ∨ (∃ e q1, slb.q = e :: q1 ∧ e.2 = target
                  ∧ (cellAt slb.pointData target).isClosed = false
                  ∧ findStep rnd d target b
                      = .found target (closeCell slb.pointData target)))) := by
  intro n
  induction n with
  | zero =>
    intro st sl _ _ _
    exact ⟨fun b hb => by simp [loopStates] at hb, fun hm => absurd hm (Nat.not_lt_zero _)⟩
  | succ n ih =>
    intro st sl hsim inv hv
    simp only [loopStates, List.mem_cons]
    rcases findStep_sim rnd hrnd d source target st sl hsim inv with
      ⟨hq, hstep⟩ | ⟨e, q1, st1, hq, hcl, hstep, hsim1, inv1⟩ | ⟨e, q1, hq, hcl, ht, hstep⟩
        | ⟨e, q1, st1, sl1, hq, hcl, ht, hres, hstep, hsim1, inv1, hlen, hu⟩
    · rw [hstep]
      refine ⟨?_, fun _ => ⟨st, Or.inl rfl, sl, hsim, inv, hv, Or.inl ⟨hq, hstep⟩⟩⟩
      rintro b (rfl | hb)
      · exact ⟨sl, hsim, inv, hv⟩
      · simp at hb
    · rw [hstep]
      simp only
      have hv1 := hpop sl e q1 inv hv hq hcl
      obtain ⟨ih1, ih2⟩ := ih st1 _ hsim1 inv1 hv1
      refine ⟨?_, fun hm => ?_⟩
      · rintro b (rfl | hb)
        · exact ⟨sl, hsim, inv, hv⟩
        · exact ih1 b hb
      · have hlen : sl.q.length = q1.length + 1 := by rw [hq]; rfl
        obtain ⟨b, hb, hrest⟩ := ih2 (by unfold measureL at hm ⊢; simp only; omega)
        exact ⟨b, Or.inr hb, hrest⟩
    · rw [hstep]
      refine ⟨?_, fun _ => ⟨st, Or.inl rfl, sl, hsim, inv, hv,
        Or.inr ⟨e, q1, hq, ht, by rw [← ht]; exact hcl, by rw [hstep, ht]⟩⟩⟩
      rintro b (rfl | hb)
      · exact ⟨sl, hsim, inv, hv⟩
      · simp at hb
    · rw [hstep]
      simp only
      have hv1 := hexp sl e q1 sl1 inv hv hq hcl ht hres
      obtain ⟨ih1, ih2⟩ := ih st1 sl1 hsim1 inv1 hv1
      refine ⟨?_, fun hm => ?_⟩
      · rintro b (rfl | hb)
        · exact ⟨sl, hsim, inv, hv⟩
        · exact ih1 b hb
      · have hlen0 : sl.q.length = q1.length + 1 := by rw [hq]; rfl
        obtain ⟨b, hb, hrest⟩ := ih2 (by unfold measureL at hm ⊢; omega)
        exact ⟨b, Or.inr hb, hrest⟩
/-! ### The predecessor chain -/

/-- In the state after the wrap, the first loop of `reconstructPath` from the cell `k1 + 1`
runs into the cycle of the predecessor links of the cells `k1` and `k1 - 1` and never ends. -/
theorem WrapInv_reconstruct (d : dungeon_t) (cellK : Nat → point_t) (N : Nat)
    (hC : Corridor d cellK N) (k1 : Nat) (hk : k1 < N) (hk2 : 2 ≤ k1)
    (slf : searchL_t) (invf : LightInv d (cellK 0) slf) (hW : WrapInv cellK k1 slf) :
    (cellAt (closeCell slf.pointData (cellK (k1 + 1))) (cellK k1)).prev = cellK (k1 - 1)
    ∧ (cellAt (closeCell slf.pointData (cellK (k1 + 1))) (cellK (k1 - 1))).prev = cellK k1
    ∧ ∀ fuel, reconstructPath fuel (closeCell slf.pointData (cellK (k1 + 1))) (cellK 0)
        (cellK (k1 + 1)) = .error .timeout := by
  have hit := hC.inb (k1 + 1) (by omega)
  have hw : (closeCell slf.pointData (cellK (k1 + 1))).width = d.width := invf.width_eq
  have hh : (closeCell slf.pointData (cellK (k1 + 1))).height = d.height := invf.height_eq
  have hp : ∀ j, j ≤ N → (cellAt (closeCell slf.pointData (cellK (k1 + 1))) (cellK j)).prev
      = (cellAt slf.pointData (cellK j)).prev :=
    fun j hj => (cellAt_closeCell d _ _ _ hit (hC.inb j hj)).2.1
  have hcyc := reconstructLength_cycle d (closeCell slf.pointData (cellK (k1 + 1)))
    (cellK 0) (cellK k1) (cellK (k1 - 1)) hw hh (hC.inb _ (by omega)) (hC.inb _ (by omega))
    (fun h => by have := hC.inj _ _ (by omega) (by omega) h; omega)
    (fun h => by have := hC.inj _ _ (by omega) (by omega) h; omega)
    (by rw [hp _ (by omega)]; exact hW.prev2)
    (by rw [hp _ (by omega)]; exact hW.prev3)
  refine ⟨by rw [hp _ (by omega)]; exact hW.prev2, by rw [hp _ (by omega)]; exact hW.prev3, ?_⟩
  intro fuel
  have hlen : reconstructLength (closeCell slf.pointData (cellK (k1 + 1))) (cellK 0) fuel
      (cellK (k1 + 1)) 0 = .error .timeout := by
    cases fuel with
    | zero => rfl
    | succ fuel =>
      unfold reconstructLength
      have hne : isEqualPoints (cellK (k1 + 1)) (cellK 0) = false := by
        cases h : isEqualPoints (cellK (k1 + 1)) (cellK 0)
        · rfl
        · have := hC.inj _ _ (by omega) (by omega) ((isEqualPoints_iff _ _).mp h)
          omega
      rw [hne, getPointData_of_inBounds d _ _ hw hh hit]
      simp only [Bool.not_false, if_true]
      rw [hp _ (by omega), hW.prev1]
      exact (hcyc fuel _).1
  unfold reconstructPath
  rw [hlen]

/-- When the search along a corridor runs into the wrapped g-score, the run of `findPath`
reaches the target with a table whose predecessor links contain a cycle, on which
`reconstructPath` does not end. -/
theorem corridor_wrap_state (d : dungeon_t) (cellK : Nat → point_t) (N : Nat)
    (hC : Corridor d cellK N) (k1 : Nat) (hk : k1 < N) (hk2 : 2 ≤ k1)
    (hg : 70 * k1 < UINT32_MAX) (hT : (70 * k1 + 70) % 4294967296 < UINT32_MAX)
    (hwrap : (70 * k1 + 70) % 4294967296 < 70 * (k1 - 1))
    (rnd : Nat → Nat) (hrnd : ∀ k, 1 ≤ rnd k) (n : Nat)
    (hn : 8 * (d.width * d.height) + 2 ≤ n) :
    ∃ st0 st pd, initSearch rnd d (cellK 0) = .ok st0
      ∧ st ∈ loopStates rnd d (cellK (k1 + 1)) n st0
      ∧ findStep rnd d (cellK (k1 + 1)) st = .found (cellK (k1 + 1)) pd
      ∧ (cellAt pd (cellK k1)).prev = cellK (k1 - 1)
      ∧ (cellAt pd (cellK (k1 - 1))).prev = cellK k1
      ∧ ∀ fuel, reconstructPath fuel pd (cellK 0) (cellK (k1 + 1)) = .error .timeout := by
  have hs := hC.inb 0 (Nat.zero_le _)
  obtain ⟨st0, h0, hsim0⟩ := initSearch_sim rnd hrnd d (cellK 0) hs
  obtain ⟨_, hfin⟩ :=
    loopStates_run rnd hrnd d (cellK 0) (cellK (k1 + 1))
      (fun sl => (∃ k, k ≤ k1 ∧ CorrInv cellK N k sl) ∨ WrapInv cellK k1 sl)
      (by
        rintro sl e q1 _ (⟨k, hk, hI⟩ | hW) hq hcl
        · rw [(CorrInv_head cellK N k sl hI e q1 hq).1] at hcl
          have := (hI.closed k (by omega)).mp hcl
          omega
        · obtain ⟨f, hf⟩ := hW.queue
          rw [hf] at hq
          cases hq
          rw [hW.opn] at hcl
          cases hcl)
      (by
        rintro sl e q1 sl2 inv (⟨k, hkk, hI⟩ | hW) hq _ hne hrun
        · obtain ⟨he, hq1⟩ := CorrInv_head cellK N k sl hI e q1 hq
          rw [he] at hne hrun
          rw [hq1] at hrun
          rcases Nat.lt_or_ge k k1 with h | h
          · exact Or.inl ⟨k + 1, h, CorrInv_step d cellK N hC (cellK 0) (cellK (k1 + 1)) k
              (by omega) (by omega) sl inv hI sl2 hrun⟩
          · have hkk1 : k = k1 := by omega
            subst hkk1
            exact Or.inr (CorrInv_wrap d cellK N hC (cellK 0) (cellK (k + 1)) k hk (by omega)
              hT hwrap sl inv hI sl2 hrun)
        · obtain ⟨f, hf⟩ := hW.queue
          rw [hf] at hq
          cases hq
          exact absurd rfl hne)
      n st0 (initialL d (cellK 0)) hsim0 (LightInv_initialL d _ hs)
      (Or.inl ⟨0, Nat.zero_le _, CorrInv_initialL d cellK N hC⟩)
  obtain ⟨b, hb, slb, _, invb, hv, hcase⟩ :=
    hfin (by have := measureL_initialL d (cellK 0); omega)
  rcases hcase with ⟨hq, _⟩ | ⟨e, q1, hq, he, _, hres⟩
  · rcases hv with ⟨k, _, hI⟩ | hW
    · obtain ⟨f, hf⟩ := hI.queue
      rw [hf] at hq
      cases hq
    · obtain ⟨f, hf⟩ := hW.queue
      rw [hf] at hq
      cases hq
  · rcases hv with ⟨k, hkk, hI⟩ | hW
    · rw [(CorrInv_head cellK N k slb hI e q1 hq).1] at he
      have := hC.inj _ _ (by omega) (by omega) he
      omega
    · obtain ⟨h1, h2, h3⟩ := WrapInv_reconstruct d cellK N hC k1 hk hk2 slb invb hW
      exact ⟨st0, b, _, h0, hb, hres, h1, h2, h3⟩

theorem snakeCell_cycle :
    snakeCell 61356675 = { x := 3, y := 29952 } ∧ snakeCell 61356674 = { x := 2, y := 29952 } := by
  decide

/-- C30 (as stated) fails: on the 4096 x 30000 serpentine dungeon, from `(0,0)` to
`(4,29952)`, the g-score `70 * 61356676` of the target wraps around `2^32`; the run of
`findPath` reaches an iteration that takes the target from the queue with a table in which
the predecessor of `(3,29952)` is `(2,29952)` and the predecessor of `(2,29952)` is
`(3,29952)`, so the links from the target never reach the source and the first loop of
`reconstructPath` does not end for any amount of fuel. -/
theorem C30_counterexample :
    ∃ st0 st pd, initSearch (fun _ => 1) dungeonSnake { x := 0, y := 0 } = .ok st0
      ∧ st ∈ loopStates (fun _ => 1) dungeonSnake { x := 4, y := 29952 } 983040002 st0
      ∧ findStep (fun _ => 1) dungeonSnake { x := 4, y := 29952 } st
          = .found { x := 4, y := 29952 } pd
      ∧ (cellAt pd { x := 3, y := 29952 }).prev = { x := 2, y := 29952 }
      ∧ (cellAt pd { x := 2, y := 29952 }).prev = { x := 3, y := 29952 }
      ∧ ∀ fuel, reconstructPath fuel pd { x := 0, y := 0 } { x := 4, y := 29952 }
          = .error .timeout := by
  have h := corridor_wrap_state dungeonSnake snakeCell 61400000 snake_corridor 61356675
    (by decide) (by decide) (by decide) (by decide) (by decide) (fun _ => 1)
    (fun _ => Nat.le_refl _) 983040002 (by decide)
  rw [snakeCell_values.1, snakeCell_values.2.2.2, snakeCell_cycle.1] at h
  have e : snakeCell (61356675 - 1) = { x := 2, y := 29952 } := snakeCell_cycle.2
  rw [e] at h
  exact h
theorem ChainOK_of_prevOK (d : dungeon_t) (source : point_t) (pd : pointTable_t)
    (h0 : (cellAt pd source).gScore = 0) (hprev : PrevOK d source pd) : ChainOK d source pd := by
  refine ⟨h0, ?_⟩
  intro n hn hdisc hns
  obtain ⟨hv, hle⟩ := hprev n hn hdisc hns
  have := cost_ge { x := n.x - (cellAt pd n).prev.x, y := n.y - (cellAt pd n).prev.y }
  exact ⟨hv, hle, by omega⟩

theorem ChainOK_of_tableInv (d : dungeon_t) (source : point_t) (pd : pointTable_t)
    (h : TableInv d source pd) : ChainOK d source pd :=
  ChainOK_of_prevOK d source pd h.src_g h.prev_ok

/-- Marking a cell closed keeps the predecessor links and the g-scores. -/
theorem prevOK_closeCell (d : dungeon_t) (source c : point_t) (pd : pointTable_t)
    (hs : inBounds d source = true) (hc : inBounds d c = true) (h : TableInv d source pd) :
    (cellAt (closeCell pd c) source).gScore = 0 ∧ PrevOK d source (closeCell pd c) := by
  have hcell := fun n hn => cellAt_closeCell d pd c n hc hn
  refine ⟨by rw [(hcell source hs).1]; exact h.src_g, ?_⟩
  intro n hn hdisc hns
  rw [(hcell n hn).1] at hdisc
  obtain ⟨hv, hle⟩ := h.prev_ok n hn hdisc hns
  rw [(hcell n hn).2.1, (hcell n hn).1, (hcell _ (isValidMove_inBounds d _ _ hv).1).1]
  exact ⟨hv, hle⟩

/-- The predecessor chain of a cell is unique. -/
theorem prevChain_unique (pd : pointTable_t) (source : point_t) :
    ∀ (n : point_t) (l1 : List point_t), PrevChain pd source n l1 →
      ∀ l2, PrevChain pd source n l2 → l1 = l2 := by
  intro n l1 h1
  induction h1 with
  | nil =>
    intro l2 h2
    cases h2 with
    | nil => rfl
    | snoc _ _ hne _ => exact absurd rfl hne
  | snoc n l hne _ ih =>
    intro l2 h2
    cases h2 with
    | nil => exact absurd rfl hne
    | snoc _ l3 _ h3 => rw [ih l3 h3]

/-- On a dungeon with at most 43383508 cells every table written by the loop of
`exploreNeighbours` satisfies the table invariant. -/
theorem exploreTables_inv (rnd : Nat → Nat) (hrnd : ∀ k, 1 ≤ rnd k) (d : dungeon_t)
    (hd : d.isUInt16) (hsize : d.width * d.height ≤ 43383508)
    (source target current : point_t)
    (hs : inBounds d source = true) (hc : inBounds d current = true)
    (hr : ∃ l, isRoute16 d source l current) :
    ∀ (moves : List point_t), (∀ m ∈ moves, m ∈ MOVES) →
      ∀ (done : List point_t) (st : search_t) (sl : searchL_t), simState st sl →
        LightInv d source sl → ExploreInv d source target current done sl →
        ∀ pd ∈ exploreTables rnd d current target moves st, TableInv d source pd := by
  intro moves
  induction moves with
  | nil => intro _ done st sl _ _ _ pd hpd; simp [exploreTables] at hpd
  | cons m moves ih =>
    intro hmoves done st sl hsim linv inv pd hpd
    obtain ⟨sl1, hres, hrel⟩ :=
      exploreMoveL_relaxed d current target sl m linv.width_eq linv.height_eq hc
    obtain ⟨linv1, _, _⟩ := LightInv_relaxed d source current target sl sl1 m linv hr hrel
    have inv1 := ExploreInv_relaxed d hd hsize source target current hs hc done m sl sl1
      (hmoves m (List.mem_cons_self _ _)) linv inv hrel
    have hsm := exploreMove_sim rnd hrnd d current target st sl m hsim
    rw [hres] at hsm
    unfold exploreTables at hpd
    cases hr1 : exploreMove rnd d current target st m with
    | error e1 => rw [hr1] at hsm; exact hsm.elim
    | ok st1 =>
      rw [hr1] at hsm hpd
      simp only [List.mem_cons] at hpd
      rcases hpd with rfl | hpd
      · have : st1.pointData = sl1.pointData := hsm.2
        rw [this]
        exact inv1.table
      · exact ih (fun m2 hm2 => hmoves m2 (List.mem_cons_of_mem _ hm2)) (done ++ [m]) st1 sl1
          hsm linv1 inv1 pd hpd

/-- On a dungeon with at most 43383508 cells every table written during an iteration of the
loop of `findPath` has well-founded predecessor links. -/
theorem stepTables_inv (rnd : Nat → Nat) (hrnd : ∀ k, 1 ≤ rnd k) (d : dungeon_t)
    (hd : d.isUInt16) (hsize : d.width * d.height ≤ 43383508) (source target : point_t)
    (hs : inBounds d source = true) (st : search_t) (sl : searchL_t)
    (hsim : simState st sl) (linv : LightInv d source sl) (inv : HeavyInv d source target sl) :
    ∀ pd ∈ stepTables rnd d target st, ChainOK d source pd := by
  intro pd hpd
  unfold stepTables at hpd
  cases hsq : sl.q with
  | nil =>
    have hq := hsim.1
    rw [hsq] at hq
    rw [holds_nil_isEmpty st.opn hq] at hpd
    simp at hpd
  | cons e q1 =>
    obtain ⟨hemp, hdata, ⟨pq2, hfree, hq2⟩, hget, hset, hinb, _, linv2⟩ :=
      pop_sim d source st sl hsim linv e q1 hsq
    have he : e ∈ sl.q := by rw [hsq]; exact List.mem_cons_self _ _
    have hset2 : setPointData st.pointData e.2
        { prev := (cellAt sl.pointData e.2).prev, gScore := (cellAt sl.pointData e.2).gScore,
          isClosed := true } = .ok (closeCell sl.pointData e.2) := hset
    rw [hemp, hdata, hfree] at hpd
    simp only [Bool.false_eq_true, if_false] at hpd
    rw [hget] at hpd
    simp only at hpd
    by_cases hcl : (cellAt sl.pointData e.2).isClosed = true
    · rw [if_pos hcl] at hpd
      simp at hpd
    · rw [if_neg hcl] at hpd
      have hcl2 : (cellAt sl.pointData e.2).isClosed = false := by simpa using hcl
      rw [hset2] at hpd
      simp only [List.mem_cons] at hpd
      rcases hpd with rfl | hpd
      · obtain ⟨h0, hp⟩ := prevOK_closeCell d source e.2 sl.pointData hs hinb inv.table
        exact ChainOK_of_prevOK d source _ h0 hp
      · by_cases ht : isEqualPoints e.2 target = true
        · rw [if_pos ht] at hpd
          simp at hpd
        · rw [if_neg ht] at hpd
          have ht2 : e.2 ≠ target := fun hh => ht ((isEqualPoints_iff _ _).mpr hh)
          exact ChainOK_of_tableInv d source pd
            (exploreTables_inv rnd hrnd d hd hsize source target e.2 hs hinb
              (linv.q_reach e he) MOVES (fun _ hm => hm) []
              { opn := pq2, pointData := closeCell sl.pointData e.2 }
              { q := q1, pointData := closeCell sl.pointData e.2 } ⟨hq2, rfl⟩ linv2
              (ExploreInv_close d source target sl e q1 hs linv inv hsq hcl2 ht2) pd hpd)

/-- C30 (amended): on a dungeon with at most 43383508 cells (`99 * width * height < 2^32`,
so that no g-score wraps), for an in-bounds source, in every state in which the loop
condition of `findPath` is evaluated, and in every table written during the iteration that
follows (after the cell is closed and after each move of `exploreNeighbours`), the source has
g-score 0 and every other cell of the dungeon with a g-score below `UINT32_MAX` is entered by
a valid move from its predecessor `p` with `g[n] >= g[p] + cost (n - p) > g[p]`. Hence, when
the target is taken from the queue, the predecessor links from the target lead back to the
source along a chain `l` without duplicates, which does not contain the source and along
which the g-scores strictly increase, and both loops of `reconstructPath` end with enough
fuel: the result is made of the last `l.length mod 2^16` cells of `l`, hence `l` itself when
`l` has fewer than 65536 cells. -/
theorem C30_predecessor_chain (rnd : Nat → Nat) (hrnd : ∀ k, 1 ≤ rnd k) (d : dungeon_t)
    (hd : d.isUInt16) (hsize : d.width * d.height ≤ 43383508) (source target : point_t)
    (hs : inBounds d source = true) (st0 : search_t)
    (h0 : initSearch rnd d source = .ok st0) (n : Nat) (st : search_t)
    (hst : st ∈ loopStates rnd d target n st0) :
    ChainOK d source st.pointData
    ∧ (∀ pd ∈ stepTables rnd d target st, ChainOK d source pd)
    ∧ (∀ (c : point_t) (pd : pointTable_t) (fuel : Nat),
        findStep rnd d target st = .found c pd → d.width * d.height ≤ fuel →
        ∃ l, PrevChain pd source target l
          ∧ l.Nodup
          ∧ (∀ a ∈ l, a ≠ source)
          ∧ l.Pairwise (fun a b => (cellAt pd a).gScore < (cellAt pd b).gScore)
          ∧ reconstructPath fuel pd source target
              = .ok (l.drop (l.length - l.length % 65536))
          ∧ (l.length < 65536 → reconstructPath fuel pd source target = .ok l)) := by
  obtain ⟨st00, h00, hsim0⟩ := initSearch_sim rnd hrnd d source hs
  rw [h0] at h00
  injection h00 with h00
  subst h00
  obtain ⟨hall, _⟩ := loopStates_run rnd hrnd d source target (HeavyInv d source target)
    (fun sl e q1 _ hv hq hcl => HeavyInv_pop d source target sl e q1 hv hq hcl)
    (fun sl e q1 sl2 hl hv hq hcl ht hres =>
      HeavyInv_explore d hd hsize source target hs sl e q1 sl2 hl hv hq hcl ht hres)
    n st0 (initialL d source) hsim0 (LightInv_initialL d source hs)
    (HeavyInv_initialL d source target hs)
  obtain ⟨sl, hsim, linv, inv⟩ := hall st hst
  refine ⟨?_, stepTables_inv rnd hrnd d hd hsize source target hs st sl hsim linv inv, ?_⟩
  · rw [hsim.2]
    exact ChainOK_of_tableInv d source _ inv.table
  · intro c pd fuel hstep hfuel
    rcases findStep_sim rnd hrnd d source target st sl hsim linv with
      ⟨_, h1⟩ | ⟨_, _, _, _, _, h1, _⟩ | ⟨e, q1, hq, hcl, ht, h1⟩
        | ⟨_, _, _, _, _, _, _, _, h1, _⟩
    · rw [h1] at hstep; cases hstep
    · rw [h1] at hstep; cases hstep
    · rw [h1] at hstep
      simp only [step_t.found.injEq] at hstep
      obtain ⟨_, rfl⟩ := hstep
      have hemem : e ∈ sl.q := by rw [hq]; exact List.mem_cons_self _ _
      have htb : inBounds d target = true := ht ▸ linv.q_inb e hemem
      have htdisc : (cellAt sl.pointData target).gScore < UINT32_MAX :=
        ht ▸ inv.q_disc e hemem
      rw [ht]
      obtain ⟨_, hprev⟩ := prevOK_closeCell d source target sl.pointData hs htb inv.table
      have hg : (cellAt (closeCell sl.pointData target) target).gScore < UINT32_MAX := by
        rw [(cellAt_closeCell d sl.pointData target target htb htb).1]; exact htdisc
      obtain ⟨l, hch, hrec, hmem, hnd, hpw, _⟩ :=
        reconstructPath_wrap d source hs (closeCell sl.pointData target)
          linv.width_eq linv.height_eq hprev target htb hg fuel hfuel
      refine ⟨l, hch, hnd, fun a ha => (hmem a ha).2, hpw, hrec, fun hlt => ?_⟩
      rw [hrec, Nat.mod_eq_of_lt hlt, Nat.sub_self, List.drop_zero]
    · rw [h1] at hstep; cases hstep

/-- C30 (amended) at a concrete state and cell: after the first iteration of `findPath` on the
open 5 x 5 dungeon, from `(0,0)` to `(4,4)`, the discovered cell `(1,1)` has the g-score 99
and the source as predecessor, which has the g-score 0 and from which the move to `(1,1)` is
valid. -/
theorem C30_predecessor_chain_witness :
    (cellAt stateSecond.pointData { x := 1, y := 1 }).prev = { x := 0, y := 0 }
    ∧ (cellAt stateSecond.pointData { x := 1, y := 1 }).gScore = 99
    ∧ isValidMove dungeonOpen5 (cellAt stateSecond.pointData { x := 1, y := 1 }).prev
        { x := 1, y := 1 } = some true
    ∧ (cellAt stateSecond.pointData
        (cellAt stateSecond.pointData { x := 1, y := 1 }).prev).gScore
      < (cellAt stateSecond.pointData { x := 1, y := 1 }).gScore :=
  have h := (C30_predecessor_chain (fun _ => 1) (fun _ => Nat.le_refl _) dungeonOpen5
    ⟨by decide, by decide⟩ (by decide) { x := 0, y := 0 } { x := 4, y := 4 } (by decide)
    stateStart rfl 2 stateSecond (List.Mem.tail _ (List.Mem.head _))).1.2 { x := 1, y := 1 }
    (by decide)
    (lt_of_eq_of_lt (rfl : (cellAt stateSecond.pointData { x := 1, y := 1 }).gScore = 99)
      (by decide))
    (by decide)
  ⟨rfl, rfl, h.1, h.2.2⟩

/-! ### Preconditions of the collaborators -/

theorem isValidMoveChecked_eq (d : dungeon_t) (from_ to_ : point_t) :
    isValidMoveChecked d from_ to_ = isValidMove d from_ to_ := by
  unfold isValidMoveChecked isValidMove readMap
  by_cases hf : ((decide (from_.x ≥ 0) && decide (from_.x < d.width))
      && (decide (from_.y ≥ 0) && decide (from_.y < d.height))) = true
  · rw [if_pos hf, if_pos hf]
    by_cases h1 : (distancePoints from_ to_ COST COST == 1
        && (decide (to_.x ≥ 0) && decide (to_.x < d.width))
        && (decide (to_.y ≥ 0) && decide (to_.y < d.height))) = true
    · rw [if_pos h1]
      simp only [Bool.and_eq_true, decide_eq_true_eq] at hf h1
      have hto : ((decide (to_.x ≥ 0) && decide (to_.x < d.width))
          && (decide (to_.y ≥ 0) && decide (to_.y < d.height))) = true := by
        simp only [Bool.and_eq_true, decide_eq_true_eq]
        exact ⟨h1.1.2, h1.2⟩
      have hft : ((decide (from_.x ≥ 0) && decide (from_.x < d.width))
          && (decide (to_.y ≥ 0) && decide (to_.y < d.height))) = true := by
        simp only [Bool.and_eq_true, decide_eq_true_eq]
        exact ⟨hf.1, h1.2⟩
      have htf : ((decide (to_.x ≥ 0) && decide (to_.x < d.width))
          && (decide (from_.y ≥ 0) && decide (from_.y < d.height))) = true := by
        simp only [Bool.and_eq_true, decide_eq_true_eq]
        exact ⟨h1.1.2, hf.2⟩
      rw [if_pos hto, if_pos hft, if_pos htf]
      have e1 : (distancePoints from_ to_ COST COST == 1) = true := h1.1.1
      have e2 : (decide (to_.x ≥ 0) && decide (to_.x < d.width)) = true := by
        simp only [Bool.and_eq_true, decide_eq_true_eq]; exact h1.1.2
      have e3 : (decide (to_.y ≥ 0) && decide (to_.y < d.height)) = true := by
        simp only [Bool.and_eq_true, decide_eq_true_eq]; exact h1.2
      rw [e1, e2, e3]
      simp only [Bool.true_and]
      cases d.map to_.x.toNat to_.y.toNat != TILE_WALL
      · simp
      · cases d.map from_.x.toNat to_.y.toNat != TILE_WALL
        · simp
        · simp
    · rw [if_neg h1]
      have h2 : (distancePoints from_ to_ COST COST == 1
          && (decide (to_.x ≥ 0) && decide (to_.x < d.width))
          && (decide (to_.y ≥ 0) && decide (to_.y < d.height))) = false := by
        simpa using h1
      rw [h2]
      simp
  · rw [if_neg hf, if_neg hf]

theorem isValidMove_eq_none_iff (d : dungeon_t) (from_ to_ : point_t) :
    isValidMove d from_ to_ = none ↔ inBounds d from_ = false := by
  unfold isValidMove inBounds
  split
  · rename_i h
    simp [h]
  · rename_i h
    simp only [true_iff]
    simpa using h

/-- Rewriting the entry of a cell with a smaller g-score raises no g-score. -/
theorem gScore_setCell_le (d : dungeon_t) (pd : pointTable_t) (p n : point_t) (v : pointData_t)
    (hp : inBounds d p = true) (hn : inBounds d n = true)
    (hv : v.gScore ≤ (cellAt pd p).gScore) :
    (cellAt (setCell pd p v) n).gScore ≤ (cellAt pd n).gScore := by
  rw [cellAt_setCell d pd p n v hp hn]
  by_cases h : n = p
  · rw [if_pos h, h]; exact hv
  · rw [if_neg h]

theorem SafeInv_initialL (d : dungeon_t) (source : point_t) (hs : inBounds d source = true) :
    SafeInv d source (initialL d source) := by
  have hsrc : (cellAt (initialL d source).pointData source).gScore < UINT32_MAX := by
    rw [(cellAt_initialL d source source hs hs).1, if_pos rfl]
    unfold UINT32_MAX; omega
  refine
    { g_le := ?_
      src := hsrc
      q_disc := ?_
      prev_inb := ?_ }
  · intro n hn
    rw [(cellAt_initialL d source n hs hn).1]
    split
    · exact Nat.zero_le _
    · exact Nat.le_refl _
  · intro e he
    have : e = (0, source) := by simpa [initialL] using he
    rw [this]
    exact hsrc
  · intro n hn hns hdisc
    rw [(cellAt_initialL d source n hs hn).1, if_neg hns] at hdisc
    exact absurd hdisc (Nat.lt_irrefl _)

theorem SafeInv_pop (d : dungeon_t) (source : point_t) (sl : searchL_t)
    (e : Nat × point_t) (q1 : List (Nat × point_t)) (inv : SafeInv d source sl)
    (hq : sl.q = e :: q1) : SafeInv d source { sl with q := q1 } :=
  { g_le := inv.g_le
    src := inv.src
    q_disc := fun f hf => inv.q_disc f (by rw [hq]; exact List.mem_cons_of_mem _ hf)
    prev_inb := inv.prev_inb }

/-- One relaxation step keeps `SafeInv`, when the cell being expanded is a discovered cell of
the dungeon. -/
theorem SafeInv_relaxed (d : dungeon_t) (source current target : point_t)
    (hs : inBounds d source = true) (hc : inBounds d current = true)
    (m : point_t) (sl sl2 : searchL_t) (linv : LightInv d source sl)
    (inv : SafeInv d source sl ∧ (cellAt sl.pointData current).gScore < UINT32_MAX)
    (h : Relaxed d current target sl sl2 m) :
    SafeInv d source sl2 ∧ (cellAt sl2.pointData current).gScore < UINT32_MAX := by
  obtain ⟨inv, hcur⟩ := inv
  rcases h with ⟨rfl, _⟩ | ⟨hv, hlt, hpd, hq⟩
  · exact ⟨inv, hcur⟩
  · have hn := (isValidMove_inBounds d current _ hv).2
    have hT : tentative sl.pointData current m < UINT32_MAX :=
      lt_of_lt_of_le hlt (inv.g_le _ hn)
    have hle : ∀ x, inBounds d x = true →
        (cellAt sl2.pointData x).gScore ≤ (cellAt sl.pointData x).gScore := by
      intro x hx
      rw [hpd]
      exact gScore_setCell_le d _ _ x _ hn hx (le_of_lt hlt)
    have hcell : ∀ x, inBounds d x = true → cellAt sl2.pointData x
        = if x = addPoints current m then
            { prev := current, gScore := tentative sl.pointData current m,
              isClosed := (cellAt sl.pointData (addPoints current m)).isClosed }
          else cellAt sl.pointData x := by
      intro x hx
      rw [hpd]
      exact cellAt_setCell d _ _ x _ hn hx
    refine ⟨?_, lt_of_le_of_lt (hle current hc) hcur⟩
    refine
      { g_le := fun n hnb => le_trans (hle n hnb) (inv.g_le n hnb)
        src := lt_of_le_of_lt (hle source hs) inv.src
        q_disc := ?_
        prev_inb := ?_ }
    · intro e he
      rw [hq] at he
      have hold : ∀ f ∈ sl.q, (cellAt sl2.pointData f.2).gScore < UINT32_MAX :=
        fun f hf => lt_of_le_of_lt (hle f.2 (linv.q_inb f hf)) (inv.q_disc f hf)
      split at he
      · exact hold e he
      · rcases (mem_insertEntry _ _ _).mp he with h1 | h1
        · rw [h1]
          simp only
          rw [hcell _ hn, if_pos rfl]
          exact hT
        · exact hold e h1
    · intro n hnb hns hdisc
      rw [hcell n hnb] at hdisc ⊢
      by_cases hnn : n = addPoints current m
      · rw [if_pos hnn]
        simp only
        exact ⟨hc, lt_of_le_of_lt (hle current hc) hcur⟩
      · rw [if_neg hnn] at hdisc ⊢
        obtain ⟨h1, h2⟩ := inv.prev_inb n hnb hns hdisc
        exact ⟨h1, lt_of_le_of_lt (hle _ h1) h2⟩

theorem SafeInv_explore (d : dungeon_t) (source target : point_t)
    (hs : inBounds d source = true) (sl : searchL_t)
    (e : Nat × point_t) (q1 : List (Nat × point_t)) (sl2 : searchL_t)
    (linv : LightInv d source sl) (inv : SafeInv d source sl)
    (hq : sl.q = e :: q1)
    (hres : exploreLoopL d e.2 target MOVES
      { q := q1, pointData := closeCell sl.pointData e.2 } = .ok sl2) :
    SafeInv d source sl2 := by
  have he : e ∈ sl.q := by rw [hq]; exact List.mem_cons_self _ _
  have hc := linv.q_inb e he
  have linv1 : LightInv d source { q := q1, pointData := closeCell sl.pointData e.2 } :=
    { width_eq := linv.width_eq
      height_eq := linv.height_eq
      q_inb := fun f hf => linv.q_inb f (by rw [hq]; exact List.mem_cons_of_mem _ hf)
      q_reach := fun f hf => linv.q_reach f (by rw [hq]; exact List.mem_cons_of_mem _ hf) }
  have hcell := fun n hn => cellAt_closeCell d sl.pointData e.2 n hc hn
  have inv1 : SafeInv d source { q := q1, pointData := closeCell sl.pointData e.2 } :=
    { g_le := fun n hn => by
        show (cellAt (closeCell sl.pointData e.2) n).gScore ≤ UINT32_MAX
        rw [(hcell n hn).1]; exact inv.g_le n hn
      src := by
        show (cellAt (closeCell sl.pointData e.2) source).gScore < UINT32_MAX
        rw [(hcell source hs).1]; exact inv.src
      q_disc := fun f hf => by
        have hf2 : f ∈ sl.q := by rw [hq]; exact List.mem_cons_of_mem _ hf
        show (cellAt (closeCell sl.pointData e.2) f.2).gScore < UINT32_MAX
        rw [(hcell f.2 (linv.q_inb f hf2)).1]; exact inv.q_disc f hf2
      prev_inb := fun n hn hns hdisc => by
        have hdisc2 : (cellAt (closeCell sl.pointData e.2) n).gScore < UINT32_MAX := hdisc
        rw [(hcell n hn).1] at hdisc2
        obtain ⟨h1, h2⟩ := inv.prev_inb n hn hns hdisc2
        show inBounds d (cellAt (closeCell sl.pointData e.2) n).prev = true
          ∧ (cellAt (closeCell sl.pointData e.2)
              (cellAt (closeCell sl.pointData e.2) n).prev).gScore < UINT32_MAX
        rw [(hcell n hn).2.1, (hcell _ h1).1]
        exact ⟨h1, h2⟩ }
  have hcur : (cellAt (closeCell sl.pointData e.2) e.2).gScore < UINT32_MAX := by
    rw [(hcell e.2 hc).1]; exact inv.q_disc e he
  obtain ⟨sl3, hres3, _, hp3, _, _⟩ :=
    exploreLoopL_induct d source e.2 target hc (linv.q_reach e he)
      (fun _ s => SafeInv d source s ∧ (cellAt s.pointData e.2).gScore < UINT32_MAX)
      (fun _ m s s2 _ hl hp hr => SafeInv_relaxed d source e.2 target hs hc m s s2 hl hp hr)
      MOVES (fun _ h => h) [] _ linv1 ⟨inv1, hcur⟩
  rw [hres] at hres3
  have : sl2 = sl3 := by injection hres3
  rw [this]
  exact hp3.1

/-- The second loop of `reconstructPath` reads only cells that the first loop has read: if
the first loop returns `L` from `current` with the counter at `len`, the second loop runs for
any `n <= L - len` steps from `current` without a fault. -/
theorem reconstructFill_of_length (pd : pointTable_t) (source : point_t) :
    ∀ (fuel : Nat) (current : point_t) (len L : Nat),
      reconstructLength pd source fuel current len = .ok L →
      ∀ (n : Nat) (path : List point_t), n ≤ L - len →
        ∃ l, reconstructFill pd n current path = .ok l := by
  intro fuel
  induction fuel with
  | zero => intro current len L h; simp [reconstructLength] at h
  | succ fuel ih =>
    intro current len L h n path hn
    cases n with
    | zero => exact ⟨path, rfl⟩
    | succ n =>
      unfold reconstructLength at h
      split at h
      · cases hg : getPointData pd current with
        | error e => rw [hg] at h; cases h
        | ok c =>
          rw [hg] at h
          simp only at h
          unfold reconstructFill
          rw [hg]
          simp only
          refine ih c.prev _ L h n (current :: path) ?_
          have := Nat.mod_le (len + 1) 65536
          omega
      · simp only [Except.ok.injEq] at h
        omega

/-- The first loop of `reconstructPath` reads only discovered cells of the dungeon. -/
theorem reconstructLength_safe (d : dungeon_t) (source : point_t) (pd : pointTable_t)
    (hw : pd.width = d.width) (hh : pd.height = d.height)
    (hprev : ∀ n, inBounds d n = true → n ≠ source → (cellAt pd n).gScore < UINT32_MAX →
      inBounds d (cellAt pd n).prev = true
      ∧ (cellAt pd (cellAt pd n).prev).gScore < UINT32_MAX) :
    ∀ (fuel : Nat) (current : point_t) (len : Nat), inBounds d current = true →
      (cellAt pd current).gScore < UINT32_MAX →
      reconstructLength pd source fuel current len ≠ .error .fault := by
  intro fuel
  induction fuel with
  | zero => intro current len _ _ h; simp [reconstructLength] at h
  | succ fuel ih =>
    intro current len hc hdisc
    unfold reconstructLength
    split
    · rename_i hne
      have hns : current ≠ source := by
        intro heq
        rw [heq, (isEqualPoints_iff source source).mpr rfl] at hne
        simp at hne
      rw [getPointData_of_inBounds d pd current hw hh hc]
      simp only
      obtain ⟨h1, h2⟩ := hprev current hc hns hdisc
      exact ih _ _ h1 h2
    · intro h; cases h

theorem reconstructPath_safe (d : dungeon_t) (source target : point_t) (pd : pointTable_t)
    (hw : pd.width = d.width) (hh : pd.height = d.height)
    (hprev : ∀ n, inBounds d n = true → n ≠ source → (cellAt pd n).gScore < UINT32_MAX →
      inBounds d (cellAt pd n).prev = true
      ∧ (cellAt pd (cellAt pd n).prev).gScore < UINT32_MAX)
    (ht : inBounds d target = true) (hdisc : (cellAt pd target).gScore < UINT32_MAX)
    (fuel : Nat) : reconstructPath fuel pd source target ≠ .error .fault := by
  unfold reconstructPath
  cases hl : reconstructLength pd source fuel target 0 with
  | error e =>
    simp only
    intro h
    injection h with h
    rw [h] at hl
    exact reconstructLength_safe d source pd hw hh hprev fuel target 0 ht hdisc hl
  | ok L =>
    simp only
    obtain ⟨l, hfill⟩ := reconstructFill_of_length pd source fuel target 0 L hl L []
      (Nat.le_refl _)
    rw [hfill]
    intro h
    cases h

/-- The table handed to `reconstructPath` when the target is taken from the queue. -/
theorem reconstructPath_found_safe (d : dungeon_t) (source target : point_t)
    (sl : searchL_t) (e : Nat × point_t)
    (q1 : List (Nat × point_t)) (linv : LightInv d source sl) (inv : SafeInv d source sl)
    (hq : sl.q = e :: q1) (ht : e.2 = target) (fuel : Nat) :
    reconstructPath fuel (closeCell sl.pointData target) source target ≠ .error .fault := by
  have he : e ∈ sl.q := by rw [hq]; exact List.mem_cons_self _ _
  have htb : inBounds d target = true := ht ▸ linv.q_inb e he
  have htdisc : (cellAt sl.pointData target).gScore < UINT32_MAX := ht ▸ inv.q_disc e he
  have hcell := fun n hn => cellAt_closeCell d sl.pointData target n htb hn
  refine reconstructPath_safe d source target (closeCell sl.pointData target) linv.width_eq
    linv.height_eq ?_ htb (by rw [(hcell target htb).1]; exact htdisc) fuel
  intro n hn hns hdisc
  rw [(hcell n hn).1] at hdisc
  obtain ⟨h1, h2⟩ := inv.prev_inb n hn hns hdisc
  rw [(hcell n hn).2.1, (hcell _ h1).1]
  exact ⟨h1, h2⟩

/-- The loop of `findPath` never runs into a violated precondition. -/
theorem findLoop_safe (rnd : Nat → Nat) (hrnd : ∀ k, 1 ≤ rnd k) (d : dungeon_t)
    (source target : point_t) (hs : inBounds d source = true) (fuel0 : Nat) :
    ∀ (fuel : Nat) (st : search_t) (sl : searchL_t), simState st sl →
      LightInv d source sl → SafeInv d source sl →
      findLoop rnd d source target fuel0 fuel st ≠ .error .fault := by
  intro fuel
  induction fuel with
  | zero => intro st sl _ _ _ h; simp [findLoop] at h
  | succ fuel ih =>
    intro st sl hsim linv inv
    rw [findLoop_step]
    rcases findStep_sim rnd hrnd d source target st sl hsim linv with
      ⟨_, h1⟩ | ⟨e, q1, st1, hq, _, h1, hsim1, linv1⟩ | ⟨e, q1, hq, _, ht, h1⟩
        | ⟨e, q1, st1, sl1, hq, _, _, hres, h1, hsim1, linv1, _, _⟩
    · rw [h1]
      intro h; cases h
    · rw [h1]
      exact ih st1 _ hsim1 linv1 (SafeInv_pop d source sl e q1 inv hq)
    · rw [h1]
      simp only
      rw [ht]
      have hsafe := reconstructPath_found_safe d source target sl e q1 linv inv hq ht fuel0
      cases hr : reconstructPath fuel0 (closeCell sl.pointData target) source target with
      | error err =>
        simp only
        intro h
        injection h with h
        rw [h] at hr
        exact hsafe hr
      | ok path => simp
    · rw [h1]
      exact ih st1 sl1 hsim1 linv1 (SafeInv_explore d source target hs sl e q1 sl1 linv inv hq hres)

/-- C31: for every dungeon and every in-bounds source (any target, any fuel, any positive
node levels), `findPath` never runs into a violated precondition: the result is never the
fault of the embedding, which is raised by an access to the table outside its bounds, by the
assertions of `isValidMove` on `from`, by `getSkipNodeData` on `NULL` and by
`freeMinSkipNode` on an empty queue. Iteration by iteration: no iteration of the loop ends
in a fault; whenever the queue is not empty, `freeMinSkipNode` succeeds and the cell taken
from the queue lies in the dungeon; and `reconstructPath` runs without a fault on the table
it is called with. The function `isValidMove` reads the map only at cells of the dungeon
whenever its assertion holds (it equals `isValidMoveChecked`), and its assertion fails
exactly when `from` is out of bounds. -/
theorem C31_preconditions (rnd : Nat → Nat) (hrnd : ∀ k, 1 ≤ rnd k) (d : dungeon_t)
    (source target : point_t) (hs : inBounds d source = true) :
    (∀ fuel, findPath fuel rnd d source target ≠ .error .fault)
    ∧ (∃ st0, initSearch rnd d source = .ok st0
        ∧ ∀ (n : Nat) (st : search_t), st ∈ loopStates rnd d target n st0 →
          st.pointData.width = d.width ∧ st.pointData.height = d.height
          ∧ (∀ e, findStep rnd d target st ≠ .fault e)
          ∧ (isSkipPQEmpty st.opn = false →
              ∃ c opn1, getSkipNodeData st.opn (getMinSkipNode st.opn) = .ok c
                ∧ freeMinSkipNode st.opn = .ok opn1 ∧ inBounds d c = true)
          ∧ (∀ (c : point_t) (pd : pointTable_t) (fuel : Nat),
              findStep rnd d target st = .found c pd →
              reconstructPath fuel pd source target ≠ .error .fault))
    ∧ (∀ from_ to_, isValidMoveChecked d from_ to_ = isValidMove d from_ to_)
    ∧ (∀ from_ to_, isValidMove d from_ to_ = none ↔ inBounds d from_ = false) := by
  obtain ⟨st0, h0, hsim0⟩ := initSearch_sim rnd hrnd d source hs
  refine ⟨?_, ⟨st0, h0, ?_⟩, isValidMoveChecked_eq d, isValidMove_eq_none_iff d⟩
  · intro fuel
    rw [findPath_eq_init, h0]
    exact findLoop_safe rnd hrnd d source target hs fuel fuel st0 _ hsim0
      (LightInv_initialL d source hs) (SafeInv_initialL d source hs)
  · intro n st hst
    obtain ⟨hall, _⟩ := loopStates_run rnd hrnd d source target (SafeInv d source)
      (fun sl e q1 _ hv hq _ => SafeInv_pop d source sl e q1 hv hq)
      (fun sl e q1 sl2 hl hv hq _ _ hres =>
        SafeInv_explore d source target hs sl e q1 sl2 hl hv hq hres)
      n st0 (initialL d source) hsim0 (LightInv_initialL d source hs)
      (SafeInv_initialL d source hs)
    obtain ⟨sl, hsim, linv, inv⟩ := hall st hst
    refine ⟨by rw [hsim.2]; exact linv.width_eq, by rw [hsim.2]; exact linv.height_eq, ?_, ?_, ?_⟩
    · intro err
      rcases findStep_sim rnd hrnd d source target st sl hsim linv with
        ⟨_, h1⟩ | ⟨_, _, _, _, _, h1, _⟩ | ⟨_, _, _, _, _, h1⟩
          | ⟨_, _, _, _, _, _, _, _, h1, _⟩
      all_goals (rw [h1]; intro h; cases h)
    · intro hne
      cases hsq : sl.q with
      | nil =>
        have hq := hsim.1
        rw [hsq] at hq
        rw [holds_nil_isEmpty st.opn hq] at hne
        cases hne
      | cons e q1 =>
        obtain ⟨_, hdata, ⟨pq2, hfree, _⟩, _, _, hinb, _, _⟩ :=
          pop_sim d source st sl hsim linv e q1 hsq
        exact ⟨e.2, pq2, hdata, hfree, hinb⟩
    · intro c pd fuel hstep
      rcases findStep_sim rnd hrnd d source target st sl hsim linv with
        ⟨_, h1⟩ | ⟨_, _, _, _, _, h1, _⟩ | ⟨e, q1, hq, _, ht, h1⟩
          | ⟨_, _, _, _, _, _, _, _, h1, _⟩
      · rw [h1] at hstep; cases hstep
      · rw [h1] at hstep; cases hstep
      · rw [h1] at hstep
        simp only [step_t.found.injEq] at hstep
        obtain ⟨_, rfl⟩ := hstep
        rw [ht]
        exact reconstructPath_found_safe d source target sl e q1 linv inv hq ht fuel
      · rw [h1] at hstep; cases hstep

/-- Witness of C31: the open 5 x 5 dungeon, from `(0,0)` to `(4,4)`, with fuel 40. -/
theorem C31_preconditions_witness :
    findPath 40 (fun _ => 1) dungeonOpen5 { x := 0, y := 0 } { x := 4, y := 4 }
      ≠ .error .fault :=
  (C31_preconditions (fun _ => 1) (fun _ => Nat.le_refl _) dungeonOpen5 { x := 0, y := 0 }
    { x := 4, y := 4 } (by decide)).1 40

/-! ### The truncated metric and the degenerate search -/

/-- C33: for all points with `int16_t` coordinates and all costs, `distancePoints` returns
`costCardinal * max(dx,dy) + |costCardinal - costDiagonal| * min(dx,dy)` reduced modulo
`2^16`; it returns that value itself whenever the value is below 65536; for the costs 70 and
99 this is the case for every pair of points with `max(dx,dy) <= 661`; and for the points
`(0,0)` and `(662,662)` the result, 2, differs from the exact value 65538. -/
theorem C33_truncated_metric (a b : point_t) (costCardinal costDiagonal : Nat)
    (ha : a.isInt16) (hb : b.isInt16) :
    distancePoints a b costCardinal costDiagonal
      = (costCardinal * max (a.x - b.x).natAbs (a.y - b.y).natAbs
          + ((costCardinal : Int) - (costDiagonal : Int)).natAbs
            * min (a.x - b.x).natAbs (a.y - b.y).natAbs) % 65536
    ∧ (costCardinal * max (a.x - b.x).natAbs (a.y - b.y).natAbs
          + ((costCardinal : Int) - (costDiagonal : Int)).natAbs
            * min (a.x - b.x).natAbs (a.y - b.y).natAbs < 65536 →
        distancePoints a b costCardinal costDiagonal
          = costCardinal * max (a.x - b.x).natAbs (a.y - b.y).natAbs
            + ((costCardinal : Int) - (costDiagonal : Int)).natAbs
              * min (a.x - b.x).natAbs (a.y - b.y).natAbs)
    ∧ (max (a.x - b.x).natAbs (a.y - b.y).natAbs ≤ 661 →
        distancePoints a b 70 99
          = 70 * max (a.x - b.x).natAbs (a.y - b.y).natAbs
            + 29 * min (a.x - b.x).natAbs (a.y - b.y).natAbs)
    ∧ (distancePoints { x := 0, y := 0 } { x := 662, y := 662 } 70 99 = 2
        ∧ 70 * max ((0 : Int) - 662).natAbs ((0 : Int) - 662).natAbs
            + 29 * min ((0 : Int) - 662).natAbs ((0 : Int) - 662).natAbs = 65538) := by
  refine ⟨distancePoints_eq_mod a b costCardinal costDiagonal ha hb, fun h => ?_, fun h => ?_,
    by decide⟩
  · rw [distancePoints_eq_mod a b costCardinal costDiagonal ha hb, Nat.mod_eq_of_lt h]
  · rw [distancePoints_eq_mod a b 70 99 ha hb]
    have hc : (((70 : Nat) : Int) - ((99 : Nat) : Int)).natAbs = 29 := by decide
    rw [hc]
    have hmin : min (a.x - b.x).natAbs (a.y - b.y).natAbs
        ≤ max (a.x - b.x).natAbs (a.y - b.y).natAbs := le_trans (min_le_left _ _) (le_max_left _ _)
    apply Nat.mod_eq_of_lt
    generalize max (a.x - b.x).natAbs (a.y - b.y).natAbs = M at h hmin
    generalize min (a.x - b.x).natAbs (a.y - b.y).natAbs = m at hmin
    omega

/-- Witness of C33 at `a = (-300,200)`, `b = (361,-100)`, costs 70 and 99: `dx = 661`,
`dy = 300`, and the result is the exact value `70 * 661 + 29 * 300 = 54970`. -/
theorem C33_truncated_metric_witness :
    distancePoints { x := -300, y := 200 } { x := 361, y := -100 } 70 99 = 54970 := by
  have h := (C33_truncated_metric { x := -300, y := 200 } { x := 361, y := -100 } 70 99
    (by decide) (by decide)).2.2.1 (by decide)
  rw [h]
  decide

/-- C32: for every dungeon and every in-bounds cell `s`, `findPath` from `s` to `s` (with at
least one unit of fuel) returns the empty path and not `NULL`: the first iteration takes `s`
from the queue, marks it closed and calls `reconstructPath`, without a call of
`exploreNeighbours`; `s` is the only cell closed, the only write to the table is the closing
of `s`, and in the final table `s` is the only closed cell of the dungeon and the only one
with a g-score other than `UINT32_MAX`. -/
theorem C32_degenerate_search (fuel : Nat) (rnd : Nat → Nat) (d : dungeon_t) (s : point_t)
    (hrnd : ∀ k, 1 ≤ rnd k) (hs : inBounds d s = true) (hfuel : 1 ≤ fuel) :
    findPath fuel rnd d s s = .ok (some [])
    ∧ s ∉ ([] : List point_t)
    ∧ ∃ st0, initSearch rnd d s = .ok st0
        ∧ findStep rnd d s st0 = .found s (closeCell (initialL d s).pointData s)
        ∧ (∀ n, closures rnd d s (n + 1) st0 = [s])
        ∧ stepTables rnd d s st0 = [closeCell (initialL d s).pointData s]
        ∧ ∀ p, inBounds d p = true →
            ((cellAt (closeCell (initialL d s).pointData s) p).isClosed = true ↔ p = s)
            ∧ (cellAt (closeCell (initialL d s).pointData s) p).gScore
                = if p = s then 0 else UINT32_MAX := by
  obtain ⟨st0, h0, hsim⟩ := initSearch_sim rnd hrnd d s hs
  have linv := LightInv_initialL d s hs
  have hq0 : (initialL d s).q = [(0, s)] := rfl
  have hstep : findStep rnd d s st0 = .found s (closeCell (initialL d s).pointData s) := by
    rcases findStep_sim rnd hrnd d s s st0 (initialL d s) hsim linv with
      ⟨hq, _⟩ | ⟨e, q1, _, hq, hcl, _⟩ | ⟨e, q1, hq, _, _, h1⟩
        | ⟨e, q1, _, _, hq, _, ht, _⟩
    · rw [hq0] at hq; cases hq
    · rw [hq0] at hq
      cases hq
      rw [(cellAt_initialL d s s hs hs).2] at hcl
      cases hcl
    · rw [hq0] at hq
      cases hq
      exact h1
    · rw [hq0] at hq
      cases hq
      exact absurd rfl ht
  have hrec : ∀ pd, reconstructPath fuel pd s s = .ok [] := by
    intro pd
    obtain ⟨f, rfl⟩ : ∃ f, fuel = f + 1 := ⟨fuel - 1, by omega⟩
    have hss : isEqualPoints s s = true := (isEqualPoints_iff s s).mpr rfl
    unfold reconstructPath reconstructLength
    simp only [hss, Bool.not_true, Bool.false_eq_true, if_false]
    rfl
  refine ⟨?_, List.not_mem_nil s, st0, h0, hstep, ?_, ?_, ?_⟩
  · rw [findPath_eq_init, h0]
    obtain ⟨f, rfl⟩ : ∃ f, fuel = f + 1 := ⟨fuel - 1, by omega⟩
    simp only
    rw [findLoop_step, hstep]
    simp only
    rw [hrec]
  · intro n
    simp only [closures, hstep]
  · have hsq : (initialL d s).q = (0, s) :: [] := rfl
    obtain ⟨hemp, hdata, ⟨pq2, hfree, _⟩, hget, hset, _, _, _⟩ :=
      pop_sim d s st0 (initialL d s) hsim linv (0, s) [] hsq
    have hset2 : setPointData st0.pointData s
        { prev := (cellAt (initialL d s).pointData s).prev,
          gScore := (cellAt (initialL d s).pointData s).gScore,
          isClosed := true } = .ok (closeCell (initialL d s).pointData s) := hset
    have hss : isEqualPoints s s = true := (isEqualPoints_iff s s).mpr rfl
    unfold stepTables
    rw [hemp, hdata, hfree]
    simp only [Bool.false_eq_true, if_false]
    rw [hget]
    simp only [(cellAt_initialL d s s hs hs).2, Bool.false_eq_true, if_false]
    rw [hset2]
    simp only [hss, if_true]
  · intro p hp
    obtain ⟨hg, _, hc⟩ := cellAt_closeCell d (initialL d s).pointData s p hs hp
    obtain ⟨hg0, hc0⟩ := cellAt_initialL d s p hs hp
    rw [hg, hg0, hc, hc0]
    simp

/-- Witness of C32: the open 3 x 3 dungeon, from `(1,1)` to `(1,1)`. -/
theorem C32_degenerate_search_witness :
    findPath 1 (fun _ => 1) dungeonOpen3 { x := 1, y := 1 } { x := 1, y := 1 } = .ok (some []) :=
  (C32_degenerate_search 1 (fun _ => 1) dungeonOpen3 { x := 1, y := 1 }
    (fun _ => Nat.le_refl _) (by decide) (Nat.le_refl _)).1

end AStar
